import Mathlib

/-!
OpenBLT flash driver, `Target/Source/ARMCM3_EFM32/flash.c`: a shallow embedding and
theorems about it.

* Machine integers are natural numbers; every place where the C code can wrap
  around carries an explicit `% 4294967296` (32 bit) or `% 65536` (16 bit).
  `blt_addr` and `blt_int32u` are 32 bits wide, words are little endian (Cortex-M3).
* The two file-scope accumulators `blockInfo` and `bootBlockInfo`, the memory
  that the driver reads through pointers, and a log of the calls made to
  external collaborators (`CopService`, `MSC_Init`, `MSC_Deinit`, `MSC_WriteWord`,
  `MSC_ErasePage`) and of the stores into the two buffers form the explicit state
  `FlashState`. The log has the newest entry first.
* The vendor routines `MSC_WriteWord` and `MSC_ErasePage` are a parameter
  (`Device`): they see the log and the memory and answer with a status and
  the memory afterwards, so a device may fail or corrupt at will.
* `BOOT_NVM_SIZE_KB` (defined in a configuration header outside the driver) is
  the parameter `kb` of `flashLayout`.
* A `tFlashBlockInfo *` is a `BlockRef`; a `blt_int8u *` into the caller's data is a
  function from the index to the byte.
* Every loop is a structural recursion on the number of rounds that remain, so all
  functions are total: `FlashGetSector` and its siblings run over the table, the loop of
  `FlashWriteBlock` has 128 rounds, the loop of `FlashEraseSectors` has `nr_of_blocks`
  rounds, and the `do ... while (len > 0)` of `FlashAddToBlock` with its 16-bit counter
  has `len` rounds for `len ≥ 1` and 65536 rounds for `len = 0`.
-/

namespace OpenBLT

/-! ## Memory -/

/-- Byte-addressed memory. Only the value modulo 256 of a cell is observable. -/
abbrev Mem := Nat → Nat

/-- Read of a `blt_int8u` through a pointer. -/
def rdByte (m : Mem) (a : Nat) : Nat := m a % 256

/-- Read of a `blt_int32u` through a pointer (little endian, Cortex-M). -/
def rdWord (m : Mem) (a : Nat) : Nat :=
  rdByte m a + 256 * rdByte m (a + 1) + 65536 * rdByte m (a + 2) + 16777216 * rdByte m (a + 3)

/-- Memory after the four bytes of the 32-bit word `w` were stored at `a`. -/
def storeWord (m : Mem) (a w : Nat) : Mem := fun x =>
  if x = a then w % 256
  else if x = a + 1 then w / 256 % 256
  else if x = a + 2 then w / 65536 % 256
  else if x = a + 3 then w / 16777216 % 256
  else m x

/-- Modelled from the spec: the raw memory read `CpuMemCopy(dst, src, len)` of the
bootloader core (its source file is not part of the driver): the first `len` bytes of the
destination buffer become the bytes found at `src`, `src + 1`, ... -/
def CpuMemCopy (dst : Mem) (m : Mem) (src len : Nat) : Mem := fun i =>
  if i < len then rdByte m (src + i) else dst i

/-! ## Constants and types -/

def FLASH_INVALID_SECTOR : Nat := 0xff

def FLASH_INVALID_ADDRESS : Nat := 0xffffffff

/-- Size of a write block; the definitions below write it as the literal 512. -/
def FLASH_WRITE_BLOCK_SIZE : Nat := 512

def FLASH_VECTOR_TABLE_CS_OFFSET : Nat := 0x0B8

/-- Flash sector descriptor. -/
structure tFlashSector where
  sector_start : Nat
  sector_size : Nat
  sector_num : Nat
deriving DecidableEq, Repr

/-- Flash block info: base address and the RAM buffer `data[FLASH_WRITE_BLOCK_SIZE]`
(indices below 512 are the buffer). -/
structure tFlashBlockInfo where
  base_addr : Nat
  data : Mem

/-- First entry of the table, `flashLayout[0]`. -/
def flashLayout0 : tFlashSector := ⟨0x00002000, 0x02000, 1⟩

/-- The sector table for a given `BOOT_NVM_SIZE_KB`. Sector 0 (the bootloader) is
commented out in the source and therefore absent. -/
def flashLayout (kb : Nat) : List tFlashSector :=
  [flashLayout0, ⟨0x00004000, 0x02000, 2⟩, ⟨0x00006000, 0x02000, 3⟩]
  ++ (if kb > 32 then
        [⟨0x00008000, 0x02000, 4⟩, ⟨0x0000A000, 0x02000, 5⟩,
         ⟨0x0000C000, 0x02000, 6⟩, ⟨0x0000E000, 0x02000, 7⟩]
      else [])
  ++ (if kb > 64 then
        [⟨0x00010000, 0x02000, 8⟩, ⟨0x00012000, 0x02000, 9⟩,
         ⟨0x00014000, 0x02000, 10⟩, ⟨0x00016000, 0x02000, 11⟩,
         ⟨0x00018000, 0x02000, 12⟩, ⟨0x0001A000, 0x02000, 13⟩,
         ⟨0x0001C000, 0x02000, 14⟩, ⟨0x0001E000, 0x02000, 15⟩]
      else [])
  ++ (if kb > 128 then
        [⟨0x00020000, 0x08000, 16⟩, ⟨0x00028000, 0x08000, 17⟩,
         ⟨0x00030000, 0x08000, 18⟩, ⟨0x00038000, 0x08000, 19⟩]
      else [])
  ++ (if kb > 256 then
        [⟨0x00040000, 0x08000, 20⟩, ⟨0x00048000, 0x08000, 21⟩,
         ⟨0x00050000, 0x08000, 22⟩, ⟨0x00058000, 0x08000, 23⟩,
         ⟨0x00060000, 0x08000, 24⟩, ⟨0x00068000, 0x08000, 25⟩,
         ⟨0x00070000, 0x08000, 26⟩, ⟨0x00078000, 0x08000, 27⟩]
      else [])

/-- Last entry of the table, `flashLayout[FLASH_TOTAL_SECTORS-1]`. -/
def flashLayoutLast (kb : Nat) : tFlashSector := (flashLayout kb).getLastD flashLayout0

/-! ## State, log and device -/

/-- Calls to external collaborators and buffer stores, as they happen. -/
inductive Event where
  /-- `CopService()` -/
  | cop
  /-- `MSC_Init()` -/
  | mscInit
  /-- `MSC_Deinit()` -/
  | mscDeinit
  /-- `MSC_WriteWord(addr, &word, 4)` -/
  | program (addr word : Nat)
  /-- `MSC_ErasePage(addr)` -/
  | erase (addr : Nat)
  /-- `*dst = *src` into `bootBlockInfo.data[off]` (`boot = true`) or
  `blockInfo.data[off]` -/
  | deposit (boot : Bool) (off byte : Nat)
deriving DecidableEq, Repr

/-- The flash controller. Each routine receives the log so far (newest entry first), the
memory and its arguments, and answers whether it returned `mscReturnOk` together with the
memory afterwards. -/
structure Device where
  writeWord : List Event → Mem → Nat → Nat → Bool × Mem
  erasePage : List Event → Mem → Nat → Bool × Mem

/-- Which of the two accumulators a `tFlashBlockInfo *` points to. -/
inductive BlockRef where
  | blockInfo
  | bootBlockInfo
deriving DecidableEq, Repr

/-- State of the driver and of the memory it works on. `log` has the newest entry first. -/
structure FlashState where
  blockInfo : tFlashBlockInfo
  bootBlockInfo : tFlashBlockInfo
  flash : Mem
  log : List Event

/-- Dereference of a block pointer. -/
def FlashState.block (s : FlashState) : BlockRef → tFlashBlockInfo
  | .blockInfo => s.blockInfo
  | .bootBlockInfo => s.bootBlockInfo

/-- Assignment through a block pointer. -/
def FlashState.setBlock (s : FlashState) (r : BlockRef) (b : tFlashBlockInfo) : FlashState :=
  match r with
  | .blockInfo => { s with blockInfo := b }
  | .bootBlockInfo => { s with bootBlockInfo := b }

/-- Record an event. -/
def FlashState.emit (s : FlashState) (e : Event) : FlashState :=
  { s with log := e :: s.log }

/-! ## Layout resolver -/

/-- Loop of `FlashGetSector` over the remaining table entries. -/
def FlashGetSector.loop (address : Nat) : List tFlashSector → FlashState → Nat × FlashState
  | [], s => (FLASH_INVALID_SECTOR, s)
  | sec :: rest, s =>
    let s := s.emit Event.cop
    if sec.sector_start ≤ address ∧
        address < (sec.sector_start + sec.sector_size) % 4294967296 then
      (sec.sector_num, s)
    else FlashGetSector.loop address rest s

/-- Determines the flash sector the address is in. -/
def FlashGetSector (kb : Nat) (address : Nat) (s : FlashState) : Nat × FlashState :=
  FlashGetSector.loop address (flashLayout kb) s

/-- Loop of `FlashGetSectorBaseAddr`. -/
def FlashGetSectorBaseAddr.loop (sector : Nat) : List tFlashSector → FlashState → Nat × FlashState
  | [], s => (FLASH_INVALID_ADDRESS, s)
  | sec :: rest, s =>
    let s := s.emit Event.cop
    if sec.sector_num = sector then (sec.sector_start, s)
    else FlashGetSectorBaseAddr.loop sector rest s

/-- Determines the flash sector base address. -/
def FlashGetSectorBaseAddr (kb : Nat) (sector : Nat) (s : FlashState) : Nat × FlashState :=
  FlashGetSectorBaseAddr.loop sector (flashLayout kb) s

/-- Loop of `FlashGetSectorSize`. -/
def FlashGetSectorSize.loop (sector : Nat) : List tFlashSector → FlashState → Nat × FlashState
  | [], s => (0, s)
  | sec :: rest, s =>
    let s := s.emit Event.cop
    if sec.sector_num = sector then (sec.sector_size, s)
    else FlashGetSectorSize.loop sector rest s

/-- Determines the flash sector size. -/
def FlashGetSectorSize (kb : Nat) (sector : Nat) (s : FlashState) : Nat × FlashState :=
  FlashGetSectorSize.loop sector (flashLayout kb) s

/-- Determines the flash page size from the family byte at `0x0FE081FE`. -/
def FlashCalcPageSize (m : Mem) : Nat :=
  let family := rdByte m 0x0FE081FE
  if family = 71 ∨ family = 73 then 512
  else if family = 72 then 4096
  else 2048

/-! ## Block manager -/

/-- Body of the `for` loop of `FlashWriteBlock`; `n` iterations remain and
`word_cnt = 128 - n`. The block is not modified while it is programmed. -/
def FlashWriteBlock.loop (dev : Device) (b : tFlashBlockInfo) :
    Nat → Nat → FlashState → Bool × FlashState
  | 0, _, s => (true, s)
  | n + 1, word_cnt, s =>
    let prog_addr := (b.base_addr + word_cnt * 4) % 4294967296
    let prog_data := rdWord b.data (word_cnt * 4)
    let s := s.emit Event.cop
    let r := dev.writeWord s.log s.flash prog_addr prog_data
    let s := { s with flash := r.2, log := Event.program prog_addr prog_data :: s.log }
    if r.1 = false then (false, s)
    else if rdWord s.flash prog_addr ≠ prog_data then (false, s)
    else FlashWriteBlock.loop dev b n (word_cnt + 1) s

/-- Programs `FLASH_WRITE_BLOCK_SIZE` bytes to flash from the block data array. -/
def FlashWriteBlock (kb : Nat) (dev : Device) (block : BlockRef) (s : FlashState) :
    Bool × FlashState :=
  let b := s.block block
  let r := FlashGetSector kb b.base_addr s
  if r.1 = FLASH_INVALID_SECTOR then (false, r.2)
  else FlashWriteBlock.loop dev b 128 0 r.2

/-- Copies data currently in flash to the block data and sets the base address. -/
def FlashInitBlock (block : BlockRef) (address : Nat) (s : FlashState) : Bool × FlashState :=
  if address % 512 ≠ 0 then (false, s)
  else if (s.block block).base_addr = address then (true, s)
  else (true, s.setBlock block ⟨address, CpuMemCopy (s.block block).data s.flash address 512⟩)

/-- Switches blocks by programming the current one and initializing the next. The result
is the block now in use, or `none` for the NULL pointer. -/
def FlashSwitchBlock (kb : Nat) (dev : Device) (block : BlockRef) (base_addr : Nat)
    (s : FlashState) : Option BlockRef × FlashState :=
  if block = BlockRef.bootBlockInfo then
    let r := FlashInitBlock BlockRef.blockInfo base_addr s
    if r.1 = false then (none, r.2) else (some BlockRef.blockInfo, r.2)
  else if base_addr = flashLayout0.sector_start then
    let r := FlashInitBlock BlockRef.bootBlockInfo flashLayout0.sector_start s
    if r.1 = false then (none, r.2) else (some BlockRef.bootBlockInfo, r.2)
  else
    let w := FlashWriteBlock kb dev block s
    if w.1 = false then (none, w.2)
    else
      let r := FlashInitBlock block base_addr w.2
      if r.1 = false then (none, r.2) else (some block, r.2)

/-- The store `*dst = *src` into the buffer of `block`. -/
def depositByte (block : BlockRef) (off byte : Nat) (s : FlashState) : FlashState :=
  let b := s.block block
  (s.setBlock block ⟨b.base_addr, fun i => if i = off then byte % 256 else b.data i⟩).emit
    (Event.deposit (decide (block = BlockRef.bootBlockInfo)) off (byte % 256))

/-- The `do ... while (len > 0)` loop of `FlashAddToBlock` with `n` iterations to go;
`dst` is the offset of the destination pointer in `block->data`, `src` the offset of the
source pointer in the caller's data. -/
def FlashAddToBlock.loop (kb : Nat) (dev : Device) (current_base_addr : Nat) (data : Mem) :
    Nat → BlockRef → Nat → Nat → FlashState → Bool × FlashState
  | 0, _, _, _, s => (true, s)
  | n + 1, block, dst, src, s =>
    let s := s.emit Event.cop
    if dst ≥ 512 then
      let r := FlashSwitchBlock kb dev block ((current_base_addr + 512) % 4294967296) s
      match r.1 with
      | none => (false, r.2)
      | some block =>
        FlashAddToBlock.loop kb dev current_base_addr data n block 1 (src + 1)
          (depositByte block 0 (data src) r.2)
    else
      FlashAddToBlock.loop kb dev current_base_addr data n block (dst + 1) (src + 1)
        (depositByte block dst (data src) s)

/-- Adds data to the block that is currently collecting data to be written to flash.
`len` is the 16-bit parameter: the loop body runs, then `len--`, and the loop continues
while `len > 0`, which is `len` rounds for `len ≥ 1` and 65536 rounds for `len = 0`
(the decrement wraps to 65535). -/
def FlashAddToBlock (kb : Nat) (dev : Device) (block : BlockRef) (address : Nat) (data : Mem)
    (len : Nat) (s : FlashState) : Bool × FlashState :=
  let current_base_addr := address / 512 * 512
  let r0 :=
    if (s.block block).base_addr = FLASH_INVALID_ADDRESS then
      FlashInitBlock block current_base_addr s
    else (true, s)
  if r0.1 = false then (false, r0.2)
  else
    let r1 :=
      if ((r0.2).block block).base_addr ≠ current_base_addr then
        FlashSwitchBlock kb dev block current_base_addr r0.2
      else (some block, r0.2)
    match r1.1 with
    | none => (false, r1.2)
    | some block =>
      let dst := (address + 4294967296 - ((r1.2).block block).base_addr) % 4294967296
      FlashAddToBlock.loop kb dev current_base_addr data (if len = 0 then 65536 else len)
        block dst 0 r1.2

/-! ## Sector erase -/

/-- The `for` loop of `FlashEraseSectors`; `n` iterations remain. -/
def FlashEraseSectors.loop (dev : Device) (start_addr erase_block_size : Nat) :
    Nat → Nat → FlashState → Bool × FlashState
  | 0, _, s => (true, s)
  | n + 1, block_cnt, s =>
    let s := s.emit Event.cop
    let a := (start_addr + block_cnt * erase_block_size % 4294967296) % 4294967296
    let r := dev.erasePage s.log s.flash a
    let s := { s with flash := r.2, log := Event.erase a :: s.log }
    if r.1 = false then (false, s)
    else FlashEraseSectors.loop dev start_addr erase_block_size n (block_cnt + 1) s

/-- Erases the flash sectors from `first_sector` up until `last_sector`. -/
def FlashEraseSectors (kb : Nat) (dev : Device) (first_sector last_sector : Nat)
    (s : FlashState) : Bool × FlashState :=
  if first_sector > last_sector then (false, s)
  else if first_sector < flashLayout0.sector_num ∨
      last_sector > (flashLayoutLast kb).sector_num then (false, s)
  else
    let erase_block_size := FlashCalcPageSize s.flash
    let r1 := FlashGetSectorBaseAddr kb first_sector s
    let start_addr := r1.1
    let r2 := FlashGetSectorBaseAddr kb last_sector r1.2
    let r3 := FlashGetSectorSize kb last_sector r2.2
    let end_addr := (r2.1 + r3.1 + 4294967295) % 4294967296
    let nr_of_blocks :=
      (end_addr + 4294967296 - start_addr + 1) % 4294967296 / erase_block_size % 65536
    FlashEraseSectors.loop dev start_addr erase_block_size nr_of_blocks 0 r3.2

/-! ## Exported functions -/

/-- Initializes the flash driver. -/
def FlashInit (s : FlashState) : FlashState :=
  { blockInfo := ⟨FLASH_INVALID_ADDRESS, s.blockInfo.data⟩,
    bootBlockInfo := ⟨FLASH_INVALID_ADDRESS, s.bootBlockInfo.data⟩,
    flash := s.flash,
    log := Event.mscInit :: s.log }

/-- Writes the data to flash through the flash block manager. `addr` and `len` are 32-bit
values, `data i` is the byte `data[i]`; `len` is converted to the 16-bit parameter of
`FlashAddToBlock`. -/
def FlashWrite (kb : Nat) (dev : Device) (addr len : Nat) (data : Mem) (s : FlashState) :
    Bool × FlashState :=
  let r1 := FlashGetSector kb addr s
  if r1.1 = FLASH_INVALID_SECTOR then (false, r1.2)
  else
    let r2 := FlashGetSector kb ((addr + len + 4294967295) % 4294967296) r1.2
    if r2.1 = FLASH_INVALID_SECTOR then (false, r2.2)
    else
      let base_addr := addr / 512 * 512
      if base_addr = flashLayout0.sector_start then
        FlashAddToBlock kb dev BlockRef.bootBlockInfo addr data (len % 65536) r2.2
      else
        FlashAddToBlock kb dev BlockRef.blockInfo addr data (len % 65536) r2.2

/-- Erases the flash memory. -/
def FlashErase (kb : Nat) (dev : Device) (addr len : Nat) (s : FlashState) :
    Bool × FlashState :=
  let r1 := FlashGetSector kb addr s
  let r2 := FlashGetSector kb ((addr + len + 4294967295) % 4294967296) r1.2
  if r1.1 = FLASH_INVALID_SECTOR ∨ r2.1 = FLASH_INVALID_SECTOR then (false, r2.2)
  else FlashEraseSectors kb dev r1.1 r2.1 r2.2

/-- The bytes of the local variable `signature_checksum` as seen through
`(blt_int8u*)&signature_checksum`. -/
def wordBytes (w : Nat) : Mem := fun i =>
  if i = 0 then w % 256
  else if i = 1 then w / 256 % 256
  else if i = 2 then w / 65536 % 256
  else if i = 3 then w / 16777216 % 256
  else 0

/-- The value of `signature_checksum` computed by `FlashWriteChecksum` from the boot
block buffer: two's complement of the sum of the first seven vector words. -/
def signatureChecksum (d : Mem) : Nat :=
  let sum := (rdWord d 0x00 + rdWord d 0x04 + rdWord d 0x08 + rdWord d 0x0C
    + rdWord d 0x10 + rdWord d 0x14 + rdWord d 0x18) % 4294967296
  ((4294967295 - sum) + 1) % 4294967296

/-- Writes a checksum of the user program to non-volatile memory. -/
def FlashWriteChecksum (kb : Nat) (dev : Device) (s : FlashState) : Bool × FlashState :=
  if s.bootBlockInfo.base_addr = FLASH_INVALID_ADDRESS then (true, s)
  else
    FlashWrite kb dev (flashLayout0.sector_start + FLASH_VECTOR_TABLE_CS_OFFSET) 4
      (wordBytes (signatureChecksum s.bootBlockInfo.data)) s

/-- Verifies the checksum, reading the eight words from flash. -/
def FlashVerifyChecksum (m : Mem) : Bool :=
  let signature_checksum :=
    (rdWord m flashLayout0.sector_start
      + rdWord m (flashLayout0.sector_start + 0x04)
      + rdWord m (flashLayout0.sector_start + 0x08)
      + rdWord m (flashLayout0.sector_start + 0x0C)
      + rdWord m (flashLayout0.sector_start + 0x10)
      + rdWord m (flashLayout0.sector_start + 0x14)
      + rdWord m (flashLayout0.sector_start + 0x18)
      + rdWord m (flashLayout0.sector_start + FLASH_VECTOR_TABLE_CS_OFFSET)) % 4294967296
  if signature_checksum = 0 then true else false

/-- Finalizes the flash driver operations. -/
def FlashDone (kb : Nat) (dev : Device) (s : FlashState) : Bool × FlashState :=
  let r1 :=
    if s.bootBlockInfo.base_addr ≠ FLASH_INVALID_ADDRESS then
      FlashWriteBlock kb dev BlockRef.bootBlockInfo s
    else (true, s)
  if r1.1 = false then (false, r1.2)
  else
    let r2 :=
      if (r1.2).blockInfo.base_addr ≠ FLASH_INVALID_ADDRESS then
        FlashWriteBlock kb dev BlockRef.blockInfo r1.2
      else (true, r1.2)
    if r2.1 = false then (false, r2.2)
    else (true, (r2.2).emit Event.mscDeinit)

/-! ## Vocabulary of the statements -/

/-- The address lies in the sector. -/
def tFlashSector.contains (sec : tFlashSector) (a : Nat) : Prop :=
  sec.sector_start ≤ a ∧ a < sec.sector_start + sec.sector_size

instance (sec : tFlashSector) (a : Nat) : Decidable (sec.contains a) := by
  unfold tFlashSector.contains; infer_instance

/-- The address lies in some sector of the table. -/
def inLayout (kb a : Nat) : Prop := ∃ sec ∈ flashLayout kb, sec.contains a

instance (kb a : Nat) : Decidable (inLayout kb a) := by
  unfold inLayout; infer_instance

/-- First address past the last sector of the table. -/
def layoutEnd (kb : Nat) : Nat :=
  (flashLayoutLast kb).sector_start + (flashLayoutLast kb).sector_size

/-- The value computed by the loop of `FlashGetSector`, without the log. -/
def sectorOf (address : Nat) : List tFlashSector → Nat
  | [] => FLASH_INVALID_SECTOR
  | sec :: rest =>
    if sec.sector_start ≤ address ∧
        address < (sec.sector_start + sec.sector_size) % 4294967296 then sec.sector_num
    else sectorOf address rest

/-- The state after `k` further calls of `CopService` and nothing else. -/
def FlashState.cops (s : FlashState) (k : Nat) : FlashState :=
  { s with log := List.replicate k Event.cop ++ s.log }

/-- Table check: entries follow each other without gap from `st` on, sizes are positive
multiples of 4096, nothing reaches 2^32, sector numbers count up from `num`. -/
def chainOK : Nat → Nat → List tFlashSector → Bool
  | _, _, [] => true
  | st, num, sec :: rest =>
    decide (sec.sector_start = st) && decide (0 < sec.sector_size)
      && decide (sec.sector_size % 4096 = 0)
      && decide (sec.sector_start + sec.sector_size < 4294967296)
      && decide (sec.sector_num = num) && decide (num < 255)
      && chainOK (sec.sector_start + sec.sector_size) (num + 1) rest

/-- End address of a chain of sectors starting at `st`. -/
def chainEnd : Nat → List tFlashSector → Nat
  | st, [] => st
  | _, sec :: rest => chainEnd (sec.sector_start + sec.sector_size) rest

/-- The device calls `MSC_WriteWord(addr, word)` of a log, newest first. -/
def programCalls : List Event → List (Nat × Nat)
  | [] => []
  | Event.program a w :: rest => (a, w) :: programCalls rest
  | _ :: rest => programCalls rest

/-- The device calls `MSC_ErasePage(addr)` of a log, newest first. -/
def eraseCalls : List Event → List Nat
  | [] => []
  | Event.erase a :: rest => a :: eraseCalls rest
  | _ :: rest => eraseCalls rest

/-- A flash controller on which every operation succeeds: programming stores the word,
erasing sets the page (of the size reported by the family byte) to `0xFF`. -/
def idealDevice : Device where
  writeWord := fun _ m a w => (true, storeWord m a w)
  erasePage := fun _ m a =>
    (true, fun x => if a ≤ x ∧ x < a + FlashCalcPageSize m then 0xFF else m x)

/-- Every program operation of the device succeeds and stores the word. -/
def Device.ProgramSucceeds (dev : Device) : Prop :=
  ∀ log m a w, dev.writeWord log m a w = (true, storeWord m a w)

/-- State at power-on with an erased memory and cleared RAM, before `FlashInit`. -/
def erasedState : FlashState :=
  ⟨⟨0, fun _ => 0⟩, ⟨0, fun _ => 0⟩, fun _ => 0xFF, []⟩

/-- Invariant of the two accumulators: the boot block accumulator is unset or holds the
first block of the first sector; the general accumulator is unset or holds a block aligned
to `FLASH_WRITE_BLOCK_SIZE` other than that first block. -/
def Inv (s : FlashState) : Prop :=
  (s.bootBlockInfo.base_addr = FLASH_INVALID_ADDRESS ∨
    s.bootBlockInfo.base_addr = flashLayout0.sector_start) ∧
  (s.blockInfo.base_addr = FLASH_INVALID_ADDRESS ∨
    (s.blockInfo.base_addr % 512 = 0 ∧ s.blockInfo.base_addr ≠ flashLayout0.sector_start))

/-- The log of the second state is the log of the first one followed by further events,
each of which satisfies `P`. -/
def logExt (P : Event → Prop) (s t : FlashState) : Prop :=
  ∃ evs, t.log = evs ++ s.log ∧ ∀ e ∈ evs, P e

/-- A program call, if the event is one, targets an address inside the table. -/
def Event.progInLayout (kb : Nat) : Event → Prop
  | Event.program a _ => inLayout kb a
  | _ => True

/-- What a write may log: watchdog services, buffer stores, and program calls inside the
table but outside the first block of the first sector. -/
def Event.writeStep (kb : Nat) : Event → Prop
  | Event.program a _ =>
    inLayout kb a ∧ (a < flashLayout0.sector_start ∨ flashLayout0.sector_start + 512 ≤ a)
  | Event.cop => True
  | Event.deposit _ _ _ => True
  | _ => False

/-- One call of an exported function of the driver. -/
inductive Op where
  | init
  | write (addr len : Nat) (data : Mem)
  | erase (addr len : Nat)
  | writeChecksum
  | done

/-- Result and state after one call. -/
def stepOp (kb : Nat) (dev : Device) (s : FlashState) : Op → Bool × FlashState
  | Op.init => (true, FlashInit s)
  | Op.write addr len data => FlashWrite kb dev addr len data s
  | Op.erase addr len => FlashErase kb dev addr len s
  | Op.writeChecksum => FlashWriteChecksum kb dev s
  | Op.done => FlashDone kb dev s

/-- State after a sequence of calls, whatever they returned. -/
def runOps (kb : Nat) (dev : Device) : List Op → FlashState → FlashState
  | [], s => s
  | op :: ops, s => runOps kb dev ops (stepOp kb dev s op).2

/-- The value computed by the loop of `FlashGetSectorBaseAddr`, without the log. -/
def sectorBaseOf (sector : Nat) : List tFlashSector → Nat
  | [] => FLASH_INVALID_ADDRESS
  | sec :: rest => if sec.sector_num = sector then sec.sector_start else sectorBaseOf sector rest

/-- The value computed by the loop of `FlashGetSectorSize`, without the log. -/
def sectorSizeOf (sector : Nat) : List tFlashSector → Nat
  | [] => 0
  | sec :: rest => if sec.sector_num = sector then sec.sector_size else sectorSizeOf sector rest

/-- Check of the facts used about an erase range, for sector numbers `f ≤ l`. -/
def eraseRangeCheck (kb f l : Nat) : Bool :=
  !(decide (flashLayout0.sector_num ≤ f) && decide (f ≤ l)
      && decide (l ≤ (flashLayoutLast kb).sector_num))
  || (decide (8192 ≤ sectorBaseOf f (flashLayout kb))
    && decide (sectorBaseOf f (flashLayout kb) % 4096 = 0)
    && decide (sectorBaseOf f (flashLayout kb) <
      sectorBaseOf l (flashLayout kb) + sectorSizeOf l (flashLayout kb))
    && decide ((sectorBaseOf l (flashLayout kb) + sectorSizeOf l (flashLayout kb)) % 4096 = 0)
    && decide (sectorBaseOf l (flashLayout kb) + sectorSizeOf l (flashLayout kb) ≤ layoutEnd kb))

/-- A page erased by `FlashEraseSectors`: it starts on a page boundary and lies between
the start of the table and its end. -/
def pageInside (kb P a : Nat) : Prop :=
  a % P = 0 ∧ flashLayout0.sector_start ≤ a ∧ a + P ≤ layoutEnd kb

/-- Memory after words `word_cnt`, ..., `word_cnt + n - 1` of the block were stored. -/
def storeWords (b : tFlashBlockInfo) : Nat → Nat → Mem → Mem
  | 0, _, m => m
  | n + 1, word_cnt, m =>
    storeWords b n (word_cnt + 1)
      (storeWord m ((b.base_addr + word_cnt * 4) % 4294967296) (rdWord b.data (word_cnt * 4)))

/-- Log after words `word_cnt`, ..., `word_cnt + n - 1` of the block were programmed. -/
def wordEvents (b : tFlashBlockInfo) : Nat → Nat → List Event → List Event
  | 0, _, l => l
  | n + 1, word_cnt, l =>
    wordEvents b n (word_cnt + 1)
      (Event.program ((b.base_addr + word_cnt * 4) % 4294967296) (rdWord b.data (word_cnt * 4))
        :: Event.cop :: l)

/-- The program calls for words `word_cnt`, ..., `word_cnt + n - 1` of a block, in the
order in which they are made. -/
def blockWordsFrom (b : tFlashBlockInfo) : Nat → Nat → List (Nat × Nat)
  | 0, _ => []
  | n + 1, word_cnt =>
    ((b.base_addr + word_cnt * 4) % 4294967296, rdWord b.data (word_cnt * 4))
      :: blockWordsFrom b n (word_cnt + 1)

/-- The device programs the words of the block at `base` successfully. -/
def Device.ProgramSucceedsAt (dev : Device) (base : Nat) : Prop :=
  ∀ k, k < 128 → ∀ log m w,
    dev.writeWord log m ((base + k * 4) % 4294967296) w
      = (true, storeWord m ((base + k * 4) % 4294967296) w)

/-- State after `n` rounds of the copy loop of `FlashAddToBlock` that stay inside the
buffer of `block`: each round services the watchdog and stores one byte. -/
def depositRun (block : BlockRef) (data : Mem) : Nat → Nat → Nat → FlashState → FlashState
  | 0, _, _, s => s
  | n + 1, dst, src, s =>
    depositRun block data n (dst + 1) (src + 1)
      (depositByte block dst (data src) (s.emit Event.cop))

/-- Buffer `d` after the `n` bytes `src[o]`, `src[o+1]`, ... were stored from index `dst`
on. -/
def patch (d : Mem) (dst n : Nat) (src : Mem) (o : Nat) : Mem := fun i =>
  if dst ≤ i ∧ i < dst + n then src (o + (i - dst)) % 256 else d i

/-- Log after `n` rounds of the copy loop that stay inside the buffer. -/
def depositEvents (boot : Bool) (data : Mem) : Nat → Nat → Nat → List Event → List Event
  | 0, _, _, l => l
  | n + 1, dst, src, l =>
    depositEvents boot data n (dst + 1) (src + 1)
      (Event.deposit boot dst (data src % 256) :: Event.cop :: l)

/-- The caller's buffer holding 32-bit words in memory order (little endian). -/
def wordsBytes (ws : List Nat) : Mem := fun i => ws.getD (i / 4) 0 / 256 ^ (i % 4) % 256

/-- State after the boot block accumulator was initialised for the first block of the
first sector (no change when it already holds that block). -/
def bootReady (s : FlashState) : FlashState :=
  (FlashInitBlock BlockRef.bootBlockInfo flashLayout0.sector_start s).2

/-- Memory in which bit `j` of the 32-bit word at address `wa` is flipped. -/
def flipWordBit (m : Mem) (wa j : Nat) : Mem := storeWord m wa (rdWord m wa ^^^ 2 ^ j)

/-- The addresses of the eight words read by `FlashVerifyChecksum`: the seven vector
words and the checksum word. -/
def signatureWordAddrs : List Nat :=
  [flashLayout0.sector_start, flashLayout0.sector_start + 0x04,
   flashLayout0.sector_start + 0x08, flashLayout0.sector_start + 0x0C,
   flashLayout0.sector_start + 0x10, flashLayout0.sector_start + 0x14,
   flashLayout0.sector_start + 0x18,
   flashLayout0.sector_start + FLASH_VECTOR_TABLE_CS_OFFSET]

/-- In the list of program calls (in the order made), every call into the block at `A`
comes before every call into the block at `B`. -/
def progOrder (calls : List (Nat × Nat)) (A B : Nat) : Prop :=
  ∀ (i j : Nat) (p q : Nat × Nat), calls[i]? = some p → calls[j]? = some q →
    (A ≤ p.1 ∧ p.1 < A + 512) → (B ≤ q.1 ∧ q.1 < B + 512) → i < j

/-- The program calls made by `FlashDone` in state `s`, in the order made, put every call
into the block at `A` before every call into the block at `B`. -/
def FlashDoneOrder (kb : Nat) (dev : Device) (s : FlashState) (A B : Nat) : Prop :=
  ∃ new, (FlashDone kb dev s).2.log = new ++ s.log ∧
    progOrder (programCalls new).reverse A B

/-- A state in which both accumulators hold a pending block: the boot block at `0x2000`
and a general block at `0x4000`, over erased flash. -/
def bothPending : FlashState :=
  ⟨⟨0x4000, fun _ => 0x11⟩, ⟨0x2000, fun _ => 0x22⟩, fun _ => 0xFF, []⟩

/-- A flash controller that works, except that programming the word at `0x4000` is
rejected (the memory is left as it is). -/
def rejectAt4000 : Device where
  writeWord := fun _ m a w => if a = 0x4000 then (false, m) else (true, storeWord m a w)
  erasePage := idealDevice.erasePage

/-- The vector table used in the examples: initial stack pointer and six handlers. -/
def sampleVectors : Mem :=
  wordsBytes [0x20001000, 0x2101, 0x2201, 0x2301, 0x2401, 0x2501, 0x2601]

/-- An update session on `rejectAt4000` with the 32 KB layout, up to and including
`FlashWriteChecksum`: `FlashInit`; `FlashErase` of the whole layout; `FlashWrite` of the
vector table at `0x2000`; `FlashWrite` of four bytes at `0x4000`; `FlashWriteChecksum`. -/
def interruptedSession : FlashState :=
  runOps 32 rejectAt4000
    [Op.init, Op.erase 0x2000 0x6000, Op.write 0x2000 28 sampleVectors,
     Op.write 0x4000 4 (fun _ => 0xAB), Op.writeChecksum]
    erasedState

/-- The 514 bytes written in the chunking example: `0x22` everywhere, `0x11` as the
last byte. -/
def chunkData : Mem := fun i => if i = 513 then 0x11 else 0x22

/-- Number of program calls to the address `a` in a list of program calls. -/
def callsTo (a : Nat) (calls : List (Nat × Nat)) : Nat :=
  calls.countP (fun p => decide (p.1 = a))

/-- The `FlashWrite` calls of a session, given as (address, length, data). -/
def writeOps (ws : List (Nat × Nat × Mem)) : List Op :=
  ws.map (fun w => Op.write w.1 w.2.1 w.2.2)

/-- State of a session after `FlashInit` (from a power-on state with arbitrary RAM and
memory and an empty log) and the `FlashWrite` calls `ws`. -/
def sessionWrites (kb : Nat) (dev : Device) (ram1 ram2 : tFlashBlockInfo) (mem : Mem)
    (ws : List (Nat × Nat × Mem)) : FlashState :=
  runOps kb dev (writeOps ws) (FlashInit ⟨ram1, ram2, mem, []⟩)

/-- State of that session after the following `FlashWriteChecksum`. -/
def sessionChecksum (kb : Nat) (dev : Device) (ram1 ram2 : tFlashBlockInfo) (mem : Mem)
    (ws : List (Nat × Nat × Mem)) : FlashState :=
  (FlashWriteChecksum kb dev (sessionWrites kb dev ram1 ram2 mem ws)).2

/-- State of that session after the final `FlashDone`. -/
def sessionDone (kb : Nat) (dev : Device) (ram1 ram2 : tFlashBlockInfo) (mem : Mem)
    (ws : List (Nat × Nat × Mem)) : FlashState :=
  (FlashDone kb dev (sessionChecksum kb dev ram1 ram2 mem ws)).2

/-- Every erase operation of the device reports success. -/
def Device.EraseSucceeds (dev : Device) : Prop :=
  ∀ log m a, (dev.erasePage log m a).1 = true

/-- The log entries added on the way from state `s` to state `t`, newest first. -/
def newEvents (s t : FlashState) : List Event :=
  t.log.take (t.log.length - s.log.length)

/-- The sector number that `FlashErase(addr, len)` obtains for `addr`. -/
def eraseFirst (kb addr : Nat) : Nat := sectorOf addr (flashLayout kb)

/-- The sector number that `FlashErase(addr, len)` obtains for `addr + len - 1`. -/
def eraseLast (kb addr len : Nat) : Nat :=
  sectorOf ((addr + len + 4294967295) % 4294967296) (flashLayout kb)

/-- Start address of the first sector of the erase range. -/
def eraseStart (kb addr : Nat) : Nat := sectorBaseOf (eraseFirst kb addr) (flashLayout kb)

/-- First address past the sector that holds the address `la`. -/
def sectorEndOf (kb la : Nat) : Nat :=
  sectorBaseOf (sectorOf la (flashLayout kb)) (flashLayout kb)
    + sectorSizeOf (sectorOf la (flashLayout kb)) (flashLayout kb)

/-- First address past the last sector of the erase range. -/
def eraseEnd (kb addr len : Nat) : Nat :=
  sectorEndOf kb ((addr + len + 4294967295) % 4294967296)

/-- The page addresses that `FlashErase(addr, len)` passes to `MSC_ErasePage`, in the
order of the calls. -/
def erasedPages (kb : Nat) (dev : Device) (addr len : Nat) (s : FlashState) : List Nat :=
  (eraseCalls (newEvents s (FlashErase kb dev addr len s).2)).reverse

/-- The state in which the erase loop starts when the first address is `addr` and the last
address is `la`: the state after the two sector look-ups of `FlashErase` and the three
look-ups of `FlashEraseSectors`. -/
def eraseEntryAt (kb addr la : Nat) (s : FlashState) : FlashState :=
  let r1 := FlashGetSector kb addr s
  let r2 := FlashGetSector kb la r1.2
  let r3 := FlashGetSectorBaseAddr kb r1.1 r2.2
  let r4 := FlashGetSectorBaseAddr kb r2.1 r3.2
  (FlashGetSectorSize kb r2.1 r4.2).2

/-- The state in which the erase loop of `FlashErase(addr, len)` starts. -/
def eraseEntry (kb addr len : Nat) (s : FlashState) : FlashState :=
  eraseEntryAt kb addr ((addr + len + 4294967295) % 4294967296) s

/-- State of `FlashErase(addr, len)` after `j` rounds of its erase loop. -/
def eraseAfter (kb : Nat) (dev : Device) (addr len : Nat) (s : FlashState) (j : Nat) :
    FlashState :=
  (FlashEraseSectors.loop dev (eraseStart kb addr) (FlashCalcPageSize s.flash) j 0
    (eraseEntry kb addr len s)).2

/-- The answer of the device to the erase call for unit `j` of `FlashErase(addr, len)`, made
in the state after `j` rounds of the loop (after the watchdog was serviced): `true` for
`mscReturnOk`. -/
def eraseAnswer (kb : Nat) (dev : Device) (addr len : Nat) (s : FlashState) (j : Nat) : Bool :=
  (dev.erasePage ((eraseAfter kb dev addr len s j).emit Event.cop).log
    ((eraseAfter kb dev addr len s j).emit Event.cop).flash
    (eraseStart kb addr + j * FlashCalcPageSize s.flash)).1

/-- Every byte of the requested range `[addr, addr + len)` that lies in a sector of the
table lies in a page that `FlashErase(addr, len)` passed to the device. -/
def eraseCoversRequest (kb : Nat) (dev : Device) (addr len : Nat) (s : FlashState) : Prop :=
  ∀ x, addr ≤ x → x < addr + len → inLayout kb x →
    ∃ a ∈ erasedPages kb dev addr len s, a ≤ x ∧ x < a + FlashCalcPageSize s.flash

/-- Every page that `FlashErase(addr, len)` passed to the device overlaps the requested
range `[addr, addr + len)`. -/
def eraseInsideRequest (kb : Nat) (dev : Device) (addr len : Nat) (s : FlashState) : Prop :=
  ∀ a ∈ erasedPages kb dev addr len s,
    ∃ x, a ≤ x ∧ x < a + FlashCalcPageSize s.flash ∧ addr ≤ x ∧ x < addr + len

/-- The page addresses of the rounds `bc`, ..., `bc + n - 1` of the erase loop. -/
def pagesFrom (start P : Nat) : Nat → Nat → List Nat
  | 0, _ => []
  | n + 1, bc => (start + bc * P % 4294967296) % 4294967296 :: pagesFrom start P n (bc + 1)

/-- State after one round of the erase loop, for unit `bc`. -/
def eraseRound (dev : Device) (start P bc : Nat) (s : FlashState) : FlashState :=
  { s.emit Event.cop with
    flash := (dev.erasePage (s.emit Event.cop).log (s.emit Event.cop).flash
      ((start + bc * P % 4294967296) % 4294967296)).2,
    log := Event.erase ((start + bc * P % 4294967296) % 4294967296)
      :: (s.emit Event.cop).log }

/-- A memory that reports the Gecko family (`'G'`, page size 512) and is erased
elsewhere. -/
def geckoMem : Mem := fun a => if a = 0x0FE081FE then 71 else 0xFF

/-- A flash controller that works, except that erasing the page at `0x2800` reports an
error (the memory is left as it is). -/
def rejectPage2800 : Device where
  writeWord := idealDevice.writeWord
  erasePage := fun log m a => if a = 0x2800 then (false, m) else idealDevice.erasePage log m a

/-- Every program operation of the device reports success, and the programmed word reads
back from the memory afterwards. -/
def Device.ProgramVerifies (dev : Device) : Prop :=
  ∀ log m a w, w < 4294967296 →
    (dev.writeWord log m a w).1 = true ∧ rdWord (dev.writeWord log m a w).2 a = w

/-- State after one round of the loop of `FlashWriteBlock` for word `wc` of the block `b`:
the watchdog was serviced and the device was called. -/
def programRound (dev : Device) (b : tFlashBlockInfo) (wc : Nat) (s : FlashState) : FlashState :=
  { s.emit Event.cop with
    flash := (dev.writeWord (s.emit Event.cop).log (s.emit Event.cop).flash
      ((b.base_addr + wc * 4) % 4294967296) (rdWord b.data (wc * 4))).2,
    log := Event.program ((b.base_addr + wc * 4) % 4294967296) (rdWord b.data (wc * 4))
      :: (s.emit Event.cop).log }

/-- Whether word `wc` of the block `b` passes when programmed in state `s`: the device
reports `mscReturnOk` and the word reads back from the memory afterwards. -/
def wordPasses (dev : Device) (b : tFlashBlockInfo) (wc : Nat) (s : FlashState) : Bool :=
  (dev.writeWord (s.emit Event.cop).log (s.emit Event.cop).flash
      ((b.base_addr + wc * 4) % 4294967296) (rdWord b.data (wc * 4))).1
  && decide (rdWord (programRound dev b wc s).flash ((b.base_addr + wc * 4) % 4294967296)
      = rdWord b.data (wc * 4))

/-- The state in which the loop of `FlashWriteBlock(block)` starts: after the sector
look-up for the base address. -/
def programEntry (kb : Nat) (block : BlockRef) (s : FlashState) : FlashState :=
  (FlashGetSector kb (s.block block).base_addr s).2

/-- State of `FlashWriteBlock(block)` after `j` rounds of its loop. -/
def programAfter (kb : Nat) (dev : Device) (block : BlockRef) (s : FlashState) (j : Nat) :
    FlashState :=
  (FlashWriteBlock.loop dev (s.block block) j 0 (programEntry kb block s)).2

/-- Whether word `j` passes in `FlashWriteBlock(block)`: the answer of the device to the
call that the loop makes after `j` rounds, and the read-back. -/
def programAnswer (kb : Nat) (dev : Device) (block : BlockRef) (s : FlashState) (j : Nat) :
    Bool :=
  wordPasses dev (s.block block) j (programAfter kb dev block s j)

/-- The program calls (address, word) that `FlashWriteBlock(block)` makes, in the order
of the calls. -/
def programmedWords (kb : Nat) (dev : Device) (block : BlockRef) (s : FlashState) :
    List (Nat × Nat) :=
  (programCalls (newEvents s (FlashWriteBlock kb dev block s).2)).reverse

/-- A flash controller that reports success for every program call but leaves the word
at `0x4008` as it is, so that the read-back fails there. -/
def stuckAt4008 : Device where
  writeWord := fun _ m a w => if a = 0x4008 then (true, m) else (true, storeWord m a w)
  erasePage := idealDevice.erasePage

/-- During `FlashWrite(addr, len, data)` in state `s`, each of the 128 words of the block
held by the general accumulator is passed to the device. -/
def generalFlushedDuring (kb : Nat) (dev : Device) (addr len : Nat) (data : Mem)
    (s : FlashState) : Prop :=
  ∀ k, k < 128 →
    (s.blockInfo.base_addr + 4 * k, rdWord s.blockInfo.data (4 * k))
      ∈ programCalls (newEvents s (FlashWrite kb dev addr len data s).2)

/-- The state of a session after `FlashInit` and a write of four bytes to `0x4000`: the
general accumulator holds the pending block at `0x4000`. -/
def generalPending : FlashState :=
  (FlashWrite 32 idealDevice 0x4000 4 (fun _ => 0xAB) (FlashInit erasedState)).2

/-- A session on the ideal device with the 32 KB layout over erased flash, after `FlashInit`
and `FlashWrite` of 10 bytes `0xAB` at `0x4000`: the general accumulator holds the block at
`0x4000`. -/
def dropAfterFirst : FlashState :=
  (FlashWrite 32 idealDevice 0x4000 10 (fun _ => 0xAB) (FlashInit erasedState)).2

/-- That session after the following `FlashWrite` of 32 bytes `0xCD` at `0x21F0`, which
starts in the first block of the first sector and runs over into the block at `0x2200`. -/
def dropAfterSecond : FlashState :=
  (FlashWrite 32 idealDevice 0x21F0 32 (fun _ => 0xCD) dropAfterFirst).2

/-- That session after the final `FlashDone`. -/
def dropAfterDone : FlashState := (FlashDone 32 idealDevice dropAfterSecond).2

/-- Number of byte copies `*dst = *src` into a buffer in a list of events. -/
def copies : List Event → Nat
  | [] => 0
  | Event.deposit _ _ _ :: rest => copies rest + 1
  | _ :: rest => copies rest

/-- Number of calls of `CopService` in a list of events. -/
def services : List Event → Nat
  | [] => 0
  | Event.cop :: rest => services rest + 1
  | _ :: rest => services rest

/-- Between any two byte copies of the list there is a call of `CopService`. -/
def servicedBetween (l : List Event) : Prop :=
  ∀ (pre mid post : List Event) (b1 : Bool) (o1 v1 : Nat) (b2 : Bool) (o2 v2 : Nat),
    l = pre ++ Event.deposit b1 o1 v1 :: (mid ++ Event.deposit b2 o2 v2 :: post) →
    Event.cop ∈ mid

/-- Going back in time from the newest entry of a log, a call of `CopService` is met
before any byte copy. -/
def copFirst : List Event → Bool
  | [] => false
  | Event.cop :: _ => true
  | Event.deposit _ _ _ :: _ => false
  | _ :: rest => copFirst rest

/-- Every byte copy of a log (newest entry first) has a call of `CopService` before it that
is later than the byte copy before. -/
def guarded : List Event → Bool
  | [] => true
  | Event.deposit _ _ _ :: rest => copFirst rest && guarded rest
  | _ :: rest => guarded rest

/-- An event that is neither a byte copy nor an erase call: a watchdog service or a
program call. -/
def Event.quiet (e : Event) : Prop := e = Event.cop ∨ ∃ a w, e = Event.program a w

/-- The pending image at address `a`: the byte in the buffer of the accumulator that holds
the block containing `a` if there is one, otherwise the byte in memory. -/
def pendingByte (s : FlashState) (a : Nat) : Nat :=
  if s.bootBlockInfo.base_addr = a / 512 * 512 then rdByte s.bootBlockInfo.data (a % 512)
  else if s.blockInfo.base_addr = a / 512 * 512 then rdByte s.blockInfo.data (a % 512)
  else rdByte s.flash a

/-! # Theorems -/

/-! ## The sector table -/

theorem flashLayout_cases (kb : Nat) :
    flashLayout kb = flashLayout 32 ∨ flashLayout kb = flashLayout 64 ∨
    flashLayout kb = flashLayout 128 ∨ flashLayout kb = flashLayout 256 ∨
    flashLayout kb = flashLayout 512 := by
  by_cases h1 : kb > 32 <;> by_cases h2 : kb > 64 <;> by_cases h3 : kb > 128 <;>
    by_cases h4 : kb > 256 <;> simp [flashLayout, h1, h2, h3, h4] <;> omega

theorem flashLayout_chainOK (kb : Nat) : chainOK 0x2000 1 (flashLayout kb) = true := by
  rcases flashLayout_cases kb with h | h | h | h | h <;> rw [h] <;> decide

theorem layoutEnd_eq (kb : Nat) : layoutEnd kb = chainEnd 0x2000 (flashLayout kb) := by
  rcases flashLayout_cases kb with h | h | h | h | h <;>
    simp only [layoutEnd, flashLayoutLast, h] <;> decide

theorem layoutEnd_cases (kb : Nat) :
    layoutEnd kb = 0x8000 ∨ layoutEnd kb = 0x10000 ∨ layoutEnd kb = 0x20000 ∨
    layoutEnd kb = 0x40000 ∨ layoutEnd kb = 0x80000 := by
  rcases flashLayout_cases kb with h | h | h | h | h <;>
    simp only [layoutEnd, flashLayoutLast, h] <;> decide

theorem sectorOf_chain (a : Nat) : ∀ (L : List tFlashSector) (st num : Nat),
    chainOK st num L = true →
    (sectorOf a L ≠ FLASH_INVALID_SECTOR ↔ ∃ sec ∈ L, sec.contains a) ∧
    ((∃ sec ∈ L, sec.contains a) ↔ st ≤ a ∧ a < chainEnd st L) ∧ st ≤ chainEnd st L
  | [], st, num, _ => by simp [sectorOf, chainEnd]
  | sec :: rest, st, num, h => by
    simp only [chainOK, Bool.and_eq_true, decide_eq_true_eq] at h
    obtain ⟨⟨⟨⟨⟨⟨h1, h2⟩, h3⟩, h4⟩, h5⟩, h6⟩, h7⟩ := h
    obtain ⟨ih1, ih2, ih3⟩ := sectorOf_chain a rest _ _ h7
    have hm : (sec.sector_start + sec.sector_size) % 4294967296
        = sec.sector_start + sec.sector_size := Nat.mod_eq_of_lt h4
    simp only [sectorOf, hm, chainEnd, List.mem_cons, exists_eq_or_imp, tFlashSector.contains]
    simp only [tFlashSector.contains] at ih1 ih2
    refine ⟨?_, ?_, by omega⟩
    · by_cases hc : sec.sector_start ≤ a ∧ a < sec.sector_start + sec.sector_size
      · simp [hc, h5, FLASH_INVALID_SECTOR]; omega
      · simp only [hc, if_false, false_or]; exact ih1
    · rw [ih2]; omega

theorem inLayout_iff (kb a : Nat) : inLayout kb a ↔ 0x2000 ≤ a ∧ a < layoutEnd kb := by
  rw [layoutEnd_eq]
  exact (sectorOf_chain a _ _ _ (flashLayout_chainOK kb)).2.1

theorem sectorOf_ne_invalid_iff (kb a : Nat) :
    sectorOf a (flashLayout kb) ≠ FLASH_INVALID_SECTOR ↔ inLayout kb a :=
  (sectorOf_chain a _ _ _ (flashLayout_chainOK kb)).1

theorem sectorOf_eq_invalid_iff (kb a : Nat) :
    sectorOf a (flashLayout kb) = FLASH_INVALID_SECTOR ↔ ¬ inLayout kb a := by
  rw [← sectorOf_ne_invalid_iff, not_not]

/-! ## Frame of the table scans -/

@[simp] theorem cops_blockInfo (s : FlashState) (k : Nat) :
    (s.cops k).blockInfo = s.blockInfo := rfl

@[simp] theorem cops_bootBlockInfo (s : FlashState) (k : Nat) :
    (s.cops k).bootBlockInfo = s.bootBlockInfo := rfl

@[simp] theorem cops_flash (s : FlashState) (k : Nat) : (s.cops k).flash = s.flash := rfl

@[simp] theorem cops_log (s : FlashState) (k : Nat) :
    (s.cops k).log = List.replicate k Event.cop ++ s.log := rfl

@[simp] theorem cops_block (s : FlashState) (k : Nat) (r : BlockRef) :
    (s.cops k).block r = s.block r := by cases r <;> rfl

theorem cops_cops (s : FlashState) (j k : Nat) : (s.cops j).cops k = s.cops (k + j) := by
  simp only [FlashState.cops, List.replicate_add, List.append_assoc]

theorem emit_cop (s : FlashState) : s.emit Event.cop = s.cops 1 := rfl

theorem FlashGetSector_loop_eq (a : Nat) : ∀ (L : List tFlashSector) (s : FlashState),
    ∃ k, FlashGetSector.loop a L s = (sectorOf a L, s.cops k)
  | [], s => ⟨0, rfl⟩
  | sec :: rest, s => by
    simp only [FlashGetSector.loop, sectorOf, emit_cop]
    split
    · exact ⟨1, rfl⟩
    · obtain ⟨k, hk⟩ := FlashGetSector_loop_eq a rest (s.cops 1)
      exact ⟨k + 1, by rw [hk, cops_cops]⟩

theorem FlashGetSector_eq (kb a : Nat) (s : FlashState) :
    ∃ k, FlashGetSector kb a s = (sectorOf a (flashLayout kb), s.cops k) :=
  FlashGetSector_loop_eq a _ s

theorem FlashGetSector_fst (kb a : Nat) (s : FlashState) :
    (FlashGetSector kb a s).1 = sectorOf a (flashLayout kb) := by
  obtain ⟨k, hk⟩ := FlashGetSector_eq kb a s
  rw [hk]

theorem programCalls_cops (k : Nat) (l : List Event) :
    programCalls (List.replicate k Event.cop ++ l) = programCalls l := by
  induction k with
  | zero => rfl
  | succ k ih => rw [List.replicate_succ, List.cons_append]; exact ih

theorem eraseCalls_cops (k : Nat) (l : List Event) :
    eraseCalls (List.replicate k Event.cop ++ l) = eraseCalls l := by
  induction k with
  | zero => rfl
  | succ k ih => rw [List.replicate_succ, List.cons_append]; exact ih

theorem FlashWrite_reject (kb : Nat) (dev : Device) (addr len : Nat) (data : Mem)
    (s : FlashState)
    (h : ¬ inLayout kb addr ∨ ¬ inLayout kb ((addr + len + 4294967295) % 4294967296)) :
    ∃ k, FlashWrite kb dev addr len data s = (false, s.cops k) := by
  obtain ⟨k1, h1⟩ := FlashGetSector_eq kb addr s
  obtain ⟨k2, h2⟩ := FlashGetSector_eq kb ((addr + len + 4294967295) % 4294967296) (s.cops k1)
  unfold FlashWrite
  rw [h1]
  dsimp only
  by_cases ha : inLayout kb addr
  · have hb : ¬ inLayout kb ((addr + len + 4294967295) % 4294967296) := by
      rcases h with h | h
      · exact absurd ha h
      · exact h
    rw [if_neg ((sectorOf_ne_invalid_iff kb addr).2 ha), h2]
    dsimp only
    rw [if_pos ((sectorOf_eq_invalid_iff kb _).2 hb), cops_cops]
    exact ⟨_, rfl⟩
  · rw [if_pos ((sectorOf_eq_invalid_iff kb addr).2 ha)]
    exact ⟨_, rfl⟩

/-- C1: a write whose first address lies in no sector of the table (in particular below
`0x2000`, the bootloader, or at or past the end of the last sector), or whose last address
`addr + len - 1` (modulo 2^32) lies in no sector, returns `BLT_FALSE`; it makes no device
call (its only log entries are watchdog services) and changes neither accumulator nor the
memory. -/
theorem FlashWrite_out_of_range (kb : Nat) (dev : Device) (addr len : Nat) (data : Mem)
    (s : FlashState)
    (h : addr < 0x2000 ∨ layoutEnd kb ≤ addr ∨ ¬ inLayout kb addr ∨
      ¬ inLayout kb ((addr + len + 4294967295) % 4294967296)) :
    (FlashWrite kb dev addr len data s).1 = false ∧
    programCalls (FlashWrite kb dev addr len data s).2.log = programCalls s.log ∧
    (∃ k, (FlashWrite kb dev addr len data s).2.log = List.replicate k Event.cop ++ s.log) ∧
    (FlashWrite kb dev addr len data s).2.blockInfo = s.blockInfo ∧
    (FlashWrite kb dev addr len data s).2.bootBlockInfo = s.bootBlockInfo ∧
    (FlashWrite kb dev addr len data s).2.flash = s.flash := by
  have h' : ¬ inLayout kb addr ∨ ¬ inLayout kb ((addr + len + 4294967295) % 4294967296) := by
    rcases h with h | h | h | h
    · exact Or.inl (fun ha => absurd ((inLayout_iff kb addr).1 ha) (by omega))
    · exact Or.inl (fun ha => absurd ((inLayout_iff kb addr).1 ha) (by omega))
    · exact Or.inl h
    · exact Or.inr h
  obtain ⟨k, hk⟩ := FlashWrite_reject kb dev addr len data s h'
  rw [hk]
  exact ⟨rfl, programCalls_cops k s.log, ⟨k, rfl⟩, rfl, rfl, rfl⟩

/-- Two rejected writes: one into the bootloader at `0x1000`, one that runs past the end of
the 32 KB layout. -/
theorem FlashWrite_out_of_range_witness :
    (FlashWrite 32 idealDevice 0x1000 16 (fun _ => 0xAA) erasedState).1 = false ∧
    (FlashWrite 32 idealDevice 0x7FF0 32 (fun _ => 0xAA) erasedState).1 = false :=
  ⟨(FlashWrite_out_of_range 32 idealDevice 0x1000 16 (fun _ => 0xAA) erasedState
      (Or.inl (by decide))).1,
   (FlashWrite_out_of_range 32 idealDevice 0x7FF0 32 (fun _ => 0xAA) erasedState
      (Or.inr (Or.inr (Or.inr (by decide))))).1⟩

/-- C2: if the sector of `addr` is invalid, or the sector of `addr + len - 1` is invalid,
or the first sector number exceeds the last one, `FlashErase` returns `BLT_FALSE` and makes
no device erase call: its only log entries are watchdog services, and accumulators and
memory are unchanged. -/
theorem FlashErase_invalid (kb : Nat) (dev : Device) (addr len : Nat) (s s1 s2 : FlashState)
    (h : (FlashGetSector kb addr s1).1 = FLASH_INVALID_SECTOR ∨
      (FlashGetSector kb ((addr + len + 4294967295) % 4294967296) s2).1
        = FLASH_INVALID_SECTOR ∨
      (FlashGetSector kb addr s1).1 >
        (FlashGetSector kb ((addr + len + 4294967295) % 4294967296) s2).1) :
    (FlashErase kb dev addr len s).1 = false ∧
    eraseCalls (FlashErase kb dev addr len s).2.log = eraseCalls s.log ∧
    (∃ k, (FlashErase kb dev addr len s).2.log = List.replicate k Event.cop ++ s.log) ∧
    (FlashErase kb dev addr len s).2.blockInfo = s.blockInfo ∧
    (FlashErase kb dev addr len s).2.bootBlockInfo = s.bootBlockInfo ∧
    (FlashErase kb dev addr len s).2.flash = s.flash := by
  have key : ∃ k, FlashErase kb dev addr len s = (false, s.cops k) := by
    obtain ⟨k1, h1⟩ := FlashGetSector_eq kb addr s
    obtain ⟨k2, h2⟩ := FlashGetSector_eq kb ((addr + len + 4294967295) % 4294967296) (s.cops k1)
    rw [FlashGetSector_fst, FlashGetSector_fst] at h
    unfold FlashErase
    rw [h1]
    dsimp only
    rw [h2]
    dsimp only
    rw [cops_cops]
    split
    · exact ⟨_, rfl⟩
    · rename_i hn
      have hgt : sectorOf addr (flashLayout kb) >
          sectorOf ((addr + len + 4294967295) % 4294967296) (flashLayout kb) := by
        rcases h with h | h | h
        · exact absurd (Or.inl h) hn
        · exact absurd (Or.inr h) hn
        · exact h
      unfold FlashEraseSectors
      rw [if_pos hgt]
      exact ⟨_, rfl⟩
  obtain ⟨k, hk⟩ := key
  rw [hk]
  exact ⟨rfl, eraseCalls_cops k s.log, ⟨k, rfl⟩, rfl, rfl, rfl⟩

/-- Two rejected erase requests: `len = 0` at `0x4000` (first sector 2, last sector 1) and
an erase of the bootloader. -/
theorem FlashErase_invalid_witness :
    (FlashErase 32 idealDevice 0x4000 0 erasedState).1 = false ∧
    (FlashErase 32 idealDevice 0x0 16 erasedState).1 = false :=
  ⟨(FlashErase_invalid 32 idealDevice 0x4000 0 erasedState erasedState erasedState
      (Or.inr (Or.inr (by decide)))).1,
   (FlashErase_invalid 32 idealDevice 0x0 16 erasedState erasedState erasedState
      (Or.inl (by decide))).1⟩

theorem logExt_refl (P : Event → Prop) (s : FlashState) : logExt P s s :=
  ⟨[], rfl, by simp⟩

theorem logExt_trans {P : Event → Prop} {s t u : FlashState}
    (h1 : logExt P s t) (h2 : logExt P t u) : logExt P s u := by
  obtain ⟨e1, h1, p1⟩ := h1
  obtain ⟨e2, h2, p2⟩ := h2
  refine ⟨e2 ++ e1, by rw [h2, h1, List.append_assoc], ?_⟩
  intro e he
  rcases List.mem_append.1 he with h | h
  · exact p2 e h
  · exact p1 e h

theorem logExt_mono {P Q : Event → Prop} {s t : FlashState} (hPQ : ∀ e, P e → Q e)
    (h : logExt P s t) : logExt Q s t := by
  obtain ⟨e1, h1, p1⟩ := h
  exact ⟨e1, h1, fun e he => hPQ e (p1 e he)⟩

theorem logExt_cops {P : Event → Prop} (hP : P Event.cop) (s : FlashState) (k : Nat) :
    logExt P s (s.cops k) :=
  ⟨List.replicate k Event.cop, rfl, fun e he => by rw [List.eq_of_mem_replicate he]; exact hP⟩

theorem logExt_of_log_eq {P : Event → Prop} {s t u : FlashState} (h : logExt P s t)
    (hl : u.log = t.log) : logExt P s u := by
  obtain ⟨e1, h1, p1⟩ := h
  exact ⟨e1, by rw [hl, h1], p1⟩

theorem logExt_cons {P : Event → Prop} {s t u : FlashState} {e : Event} (h : logExt P s t)
    (he : P e) (hl : u.log = e :: t.log) : logExt P s u := by
  obtain ⟨e1, h1, p1⟩ := h
  refine ⟨e :: e1, by rw [hl, h1]; rfl, ?_⟩
  intro x hx
  rcases List.mem_cons.1 hx with h | h
  · rw [h]; exact he
  · exact p1 x h

/-- What `FlashWriteBlock` may log for the block `b`. -/
theorem FlashWriteBlock_loop_general (dev : Device) (b : tFlashBlockInfo) :
    ∀ (n wc : Nat) (s : FlashState),
    (FlashWriteBlock.loop dev b n wc s).2.blockInfo = s.blockInfo ∧
    (FlashWriteBlock.loop dev b n wc s).2.bootBlockInfo = s.bootBlockInfo ∧
    logExt (fun e => e = Event.cop ∨ ∃ k, k < wc + n ∧
      e = Event.program ((b.base_addr + k * 4) % 4294967296) (rdWord b.data (k * 4)))
      s (FlashWriteBlock.loop dev b n wc s).2
  | 0, wc, s => ⟨rfl, rfl, logExt_refl _ s⟩
  | n + 1, wc, s => by
    have hstep : logExt (fun e => e = Event.cop ∨ ∃ k, k < wc + (n + 1) ∧
        e = Event.program ((b.base_addr + k * 4) % 4294967296) (rdWord b.data (k * 4))) s
        { s.emit Event.cop with
          flash := (dev.writeWord (s.emit Event.cop).log (s.emit Event.cop).flash
            ((b.base_addr + wc * 4) % 4294967296) (rdWord b.data (wc * 4))).2,
          log := Event.program ((b.base_addr + wc * 4) % 4294967296) (rdWord b.data (wc * 4))
            :: (s.emit Event.cop).log } :=
      ⟨[Event.program ((b.base_addr + wc * 4) % 4294967296) (rdWord b.data (wc * 4)),
          Event.cop], rfl, by
        intro e he
        simp only [List.mem_cons, List.mem_singleton, List.not_mem_nil, or_false] at he
        rcases he with h | h
        · exact Or.inr ⟨wc, by omega, h⟩
        · exact Or.inl h⟩
    unfold FlashWriteBlock.loop
    dsimp only
    split
    · exact ⟨rfl, rfl, hstep⟩
    · split
      · exact ⟨rfl, rfl, hstep⟩
      · obtain ⟨i1, i2, i3⟩ := FlashWriteBlock_loop_general dev b n (wc + 1) _
        refine ⟨i1, i2, logExt_trans hstep (logExt_mono ?_ i3)⟩
        rintro e (h | ⟨k, hk, h⟩)
        · exact Or.inl h
        · exact Or.inr ⟨k, by omega, h⟩

theorem sector_start0 : flashLayout0.sector_start = 8192 := rfl

theorem word_addr_inLayout (kb base k : Nat) (h : inLayout kb base) (ha : base % 512 = 0)
    (hk : k < 128) :
    inLayout kb ((base + k * 4) % 4294967296) ∧
    (base ≠ 8192 → (base + k * 4) % 4294967296 < 8192 ∨
      8192 + 512 ≤ (base + k * 4) % 4294967296) := by
  rw [inLayout_iff] at h ⊢
  have := layoutEnd_cases kb
  omega

theorem not_inLayout_invalid (kb : Nat) : ¬ inLayout kb FLASH_INVALID_ADDRESS := by
  rw [inLayout_iff]
  have := layoutEnd_cases kb
  unfold FLASH_INVALID_ADDRESS
  omega

theorem FlashWriteBlock_general (kb : Nat) (dev : Device) (block : BlockRef) (s : FlashState) :
    (FlashWriteBlock kb dev block s).2.blockInfo = s.blockInfo ∧
    (FlashWriteBlock kb dev block s).2.bootBlockInfo = s.bootBlockInfo ∧
    logExt (fun e => e = Event.cop ∨ (inLayout kb (s.block block).base_addr ∧ ∃ k, k < 128 ∧
      e = Event.program (((s.block block).base_addr + k * 4) % 4294967296)
        (rdWord (s.block block).data (k * 4))))
      s (FlashWriteBlock kb dev block s).2 := by
  obtain ⟨k, hk⟩ := FlashGetSector_eq kb (s.block block).base_addr s
  unfold FlashWriteBlock
  dsimp only
  rw [hk]
  dsimp only
  split
  · exact ⟨rfl, rfl, logExt_cops (Or.inl rfl) s k⟩
  · rename_i hn
    have hin := (sectorOf_ne_invalid_iff kb _).1 hn
    obtain ⟨i1, i2, i3⟩ := FlashWriteBlock_loop_general dev (s.block block) 128 0 (s.cops k)
    refine ⟨i1, i2, logExt_trans (logExt_cops (Or.inl rfl) s k) (logExt_mono ?_ i3)⟩
    rintro e (h | ⟨j, hj, h⟩)
    · exact Or.inl h
    · exact Or.inr ⟨hin, j, by omega, h⟩

theorem Inv_of_bases {s t : FlashState} (h : Inv s) (h1 : t.blockInfo = s.blockInfo)
    (h2 : t.bootBlockInfo = s.bootBlockInfo) : Inv t := by
  unfold Inv at *
  rw [h1, h2]
  exact h

theorem FlashWriteBlock_Inv (kb : Nat) (dev : Device) (block : BlockRef) (s : FlashState)
    (h : Inv s) : Inv (FlashWriteBlock kb dev block s).2 :=
  Inv_of_bases h (FlashWriteBlock_general kb dev block s).1
    (FlashWriteBlock_general kb dev block s).2.1

theorem FlashWriteBlock_progInLayout (kb : Nat) (dev : Device) (block : BlockRef)
    (s : FlashState) (h : Inv s) :
    logExt (Event.progInLayout kb) s (FlashWriteBlock kb dev block s).2 := by
  refine logExt_mono ?_ (FlashWriteBlock_general kb dev block s).2.2
  rintro e (h1 | ⟨hin, k, hk, h1⟩)
  · rw [h1]; trivial
  · rw [h1]
    have hal : (s.block block).base_addr % 512 = 0 := by
      cases block
      · rcases h.2 with h2 | h2
        · exact absurd (h2 ▸ hin) (not_inLayout_invalid kb)
        · exact h2.1
      · rcases h.1 with h2 | h2
        · exact absurd (h2 ▸ hin) (not_inLayout_invalid kb)
        · show s.bootBlockInfo.base_addr % 512 = 0
          rw [h2]; rfl
    exact (word_addr_inLayout kb _ k hin hal hk).1

theorem FlashWriteBlock_writeStep (kb : Nat) (dev : Device) (s : FlashState) (h : Inv s) :
    logExt (Event.writeStep kb) s (FlashWriteBlock kb dev BlockRef.blockInfo s).2 := by
  refine logExt_mono ?_ (FlashWriteBlock_general kb dev BlockRef.blockInfo s).2.2
  rintro e (h1 | ⟨hin, k, hk, h1⟩)
  · rw [h1]; trivial
  · rw [h1]
    rcases h.2 with h2 | h2
    · exact absurd (h2 ▸ hin) (not_inLayout_invalid kb)
    · have := word_addr_inLayout kb _ k hin h2.1 hk
      exact ⟨this.1, this.2 h2.2⟩

theorem writeStep_progInLayout (kb : Nat) (e : Event) (h : Event.writeStep kb e) :
    Event.progInLayout kb e := by
  cases e <;> first | trivial | exact h.1

theorem FlashInitBlock_log (block : BlockRef) (a : Nat) (s : FlashState) :
    (FlashInitBlock block a s).2.log = s.log ∧ (FlashInitBlock block a s).2.flash = s.flash := by
  unfold FlashInitBlock
  split
  · exact ⟨rfl, rfl⟩
  · split
    · exact ⟨rfl, rfl⟩
    · cases block <;> exact ⟨rfl, rfl⟩

theorem FlashInitBlock_Inv (block : BlockRef) (a : Nat) (s : FlashState) (h : Inv s)
    (hb : block = BlockRef.bootBlockInfo → a = 8192)
    (hg : block = BlockRef.blockInfo → a ≠ 8192) : Inv (FlashInitBlock block a s).2 := by
  unfold FlashInitBlock
  split
  · exact h
  · split
    · exact h
    · rename_i hal _
      cases block
      · exact ⟨h.1, Or.inr ⟨by simpa using hal, by rw [sector_start0]; exact hg rfl⟩⟩
      · exact ⟨Or.inr (by rw [sector_start0]; exact hb rfl), h.2⟩

theorem FlashSwitchBlock_Inv (kb : Nat) (dev : Device) (block : BlockRef) (T : Nat)
    (s : FlashState) (h : Inv s) (hT : block = BlockRef.bootBlockInfo → T ≠ 8192) :
    Inv (FlashSwitchBlock kb dev block T s).2 ∧
    logExt (Event.writeStep kb) s (FlashSwitchBlock kb dev block T s).2 := by
  unfold FlashSwitchBlock
  split
  · rename_i hbl
    have hI := FlashInitBlock_Inv BlockRef.blockInfo T s h (by simp) (fun _ => hT hbl)
    have hL := logExt_of_log_eq (logExt_refl (Event.writeStep kb) s)
      (FlashInitBlock_log BlockRef.blockInfo T s).1
    dsimp only
    split <;> exact ⟨hI, hL⟩
  · rename_i hbl
    have hblk : block = BlockRef.blockInfo := by cases block <;> simp_all
    subst hblk
    split
    · have hI := FlashInitBlock_Inv BlockRef.bootBlockInfo flashLayout0.sector_start s h
        (fun _ => rfl) (by simp)
      have hL := logExt_of_log_eq (logExt_refl (Event.writeStep kb) s)
        (FlashInitBlock_log BlockRef.bootBlockInfo flashLayout0.sector_start s).1
      dsimp only
      split <;> exact ⟨hI, hL⟩
    · rename_i hne
      have hneT : T ≠ 8192 := by rw [sector_start0] at hne; exact hne
      have hI1 := FlashWriteBlock_Inv kb dev BlockRef.blockInfo s h
      have hL1 := FlashWriteBlock_writeStep kb dev s h
      dsimp only
      split
      · exact ⟨hI1, hL1⟩
      · have hI := FlashInitBlock_Inv BlockRef.blockInfo T _ hI1 (by simp) (fun _ => hneT)
        have hL := logExt_of_log_eq hL1 (FlashInitBlock_log BlockRef.blockInfo T _).1
        split <;> exact ⟨hI, hL⟩

theorem depositByte_Inv (block : BlockRef) (off byte : Nat) (s : FlashState) (h : Inv s) :
    Inv (depositByte block off byte s) := by
  cases block <;> exact h

theorem depositByte_log (block : BlockRef) (off byte : Nat) (s : FlashState) :
    (depositByte block off byte s).log =
      Event.deposit (decide (block = BlockRef.bootBlockInfo)) off (byte % 256) :: s.log := by
  cases block <;> rfl

theorem FlashAddToBlock_loop_Inv (kb : Nat) (dev : Device) (cb : Nat) (data : Mem)
    (hT : (cb + 512) % 4294967296 ≠ 8192) :
    ∀ (n : Nat) (block : BlockRef) (dst src : Nat) (s : FlashState), Inv s →
    Inv (FlashAddToBlock.loop kb dev cb data n block dst src s).2 ∧
    logExt (Event.writeStep kb) s (FlashAddToBlock.loop kb dev cb data n block dst src s).2
  | 0, _, _, _, s, h => ⟨h, logExt_refl _ s⟩
  | n + 1, block, dst, src, s, h => by
    have hc : logExt (Event.writeStep kb) s (s.emit Event.cop) :=
      logExt_cops (P := Event.writeStep kb) trivial s 1
    have hIc : Inv (s.emit Event.cop) := h
    unfold FlashAddToBlock.loop
    dsimp only
    split
    · obtain ⟨hI, hL⟩ := FlashSwitchBlock_Inv kb dev block ((cb + 512) % 4294967296)
        (s.emit Event.cop) hIc (fun _ => hT)
      split
      · exact ⟨hI, logExt_trans hc hL⟩
      · rename_i blk _
        obtain ⟨i1, i2⟩ := FlashAddToBlock_loop_Inv kb dev cb data hT n blk 1 (src + 1) _
          (depositByte_Inv blk 0 (data src) _ hI)
        exact ⟨i1, logExt_trans (logExt_trans hc
          (logExt_cons hL (e := Event.deposit _ _ _) trivial (depositByte_log _ _ _ _))) i2⟩
    · obtain ⟨i1, i2⟩ := FlashAddToBlock_loop_Inv kb dev cb data hT n block (dst + 1) (src + 1) _
        (depositByte_Inv block dst (data src) _ hIc)
      exact ⟨i1, logExt_trans
        (logExt_cons hc (e := Event.deposit _ _ _) trivial (depositByte_log _ _ _ _)) i2⟩

theorem FlashAddToBlock_Inv (kb : Nat) (dev : Device) (block : BlockRef) (address : Nat)
    (data : Mem) (len : Nat) (s : FlashState) (h : Inv s)
    (hb : block = BlockRef.bootBlockInfo → address / 512 * 512 = 8192)
    (hg : block = BlockRef.blockInfo → address / 512 * 512 ≠ 8192)
    (hT : (address / 512 * 512 + 512) % 4294967296 ≠ 8192) :
    Inv (FlashAddToBlock kb dev block address data len s).2 ∧
    logExt (Event.writeStep kb) s (FlashAddToBlock kb dev block address data len s).2 := by
  unfold FlashAddToBlock
  dsimp only
  -- the optional initialisation
  have h0 : Inv (if (s.block block).base_addr = FLASH_INVALID_ADDRESS then
        FlashInitBlock block (address / 512 * 512) s else (true, s)).2 ∧
      (if (s.block block).base_addr = FLASH_INVALID_ADDRESS then
        FlashInitBlock block (address / 512 * 512) s else (true, s)).2.log = s.log ∧
      (block = BlockRef.bootBlockInfo →
        ((if (s.block block).base_addr = FLASH_INVALID_ADDRESS then
        FlashInitBlock block (address / 512 * 512) s else (true, s)).2.block block).base_addr
          = address / 512 * 512) := by
    split
    · rename_i hinv
      refine ⟨FlashInitBlock_Inv block _ s h hb hg, (FlashInitBlock_log block _ s).1, ?_⟩
      intro hblk
      subst hblk
      unfold FlashInitBlock
      have hal : ¬ (address / 512 * 512 % 512 ≠ 0) := by omega
      rw [if_neg hal]
      split
      · rename_i heq; exact heq
      · rfl
    · rename_i hinv
      refine ⟨h, rfl, ?_⟩
      intro hblk
      subst hblk
      rcases h.1 with h1 | h1
      · exact absurd h1 hinv
      · show s.bootBlockInfo.base_addr = _
        rw [h1, hb rfl]; rfl
  generalize (if (s.block block).base_addr = FLASH_INVALID_ADDRESS then
        FlashInitBlock block (address / 512 * 512) s else (true, s)) = r0 at h0 ⊢
  obtain ⟨hI0, hl0, hbase0⟩ := h0
  have hL0 : logExt (Event.writeStep kb) s r0.2 :=
    logExt_of_log_eq (logExt_refl _ s) hl0
  split
  · exact ⟨hI0, hL0⟩
  · -- the optional switch
    have h1 : Inv (if (r0.2.block block).base_addr ≠ address / 512 * 512 then
          FlashSwitchBlock kb dev block (address / 512 * 512) r0.2 else (some block, r0.2)).2 ∧
        logExt (Event.writeStep kb) r0.2
          (if (r0.2.block block).base_addr ≠ address / 512 * 512 then
          FlashSwitchBlock kb dev block (address / 512 * 512) r0.2
            else (some block, r0.2)).2 := by
      split
      · rename_i hne
        refine FlashSwitchBlock_Inv kb dev block _ r0.2 hI0 ?_
        intro hblk
        exact absurd (hbase0 hblk) hne
      · exact ⟨hI0, logExt_refl _ _⟩
    generalize (if (r0.2.block block).base_addr ≠ address / 512 * 512 then
          FlashSwitchBlock kb dev block (address / 512 * 512) r0.2
            else (some block, r0.2)) = r1 at h1 ⊢
    obtain ⟨hI1, hL1⟩ := h1
    split
    · exact ⟨hI1, logExt_trans hL0 hL1⟩
    · obtain ⟨i1, i2⟩ := FlashAddToBlock_loop_Inv kb dev (address / 512 * 512) data hT
        (if len = 0 then 65536 else len) _ _ 0 r1.2 hI1
      exact ⟨i1, logExt_trans (logExt_trans hL0 hL1) i2⟩

theorem FlashWrite_Inv (kb : Nat) (dev : Device) (addr len : Nat) (data : Mem)
    (s : FlashState) (h : Inv s) :
    Inv (FlashWrite kb dev addr len data s).2 ∧
    logExt (Event.writeStep kb) s (FlashWrite kb dev addr len data s).2 := by
  by_cases hin : inLayout kb addr ∧ inLayout kb ((addr + len + 4294967295) % 4294967296)
  · obtain ⟨k1, h1⟩ := FlashGetSector_eq kb addr s
    obtain ⟨k2, h2⟩ := FlashGetSector_eq kb ((addr + len + 4294967295) % 4294967296) (s.cops k1)
    have hT : (addr / 512 * 512 + 512) % 4294967296 ≠ 8192 := by
      have := (inLayout_iff kb addr).1 hin.1
      have := layoutEnd_cases kb
      omega
    have hc : logExt (Event.writeStep kb) s (s.cops (k2 + k1)) :=
      logExt_cops (P := Event.writeStep kb) trivial s _
    unfold FlashWrite
    rw [h1]
    dsimp only
    rw [if_neg ((sectorOf_ne_invalid_iff kb addr).2 hin.1), h2]
    dsimp only
    rw [if_neg ((sectorOf_ne_invalid_iff kb _).2 hin.2), cops_cops, sector_start0]
    split
    · rename_i hcb
      obtain ⟨i1, i2⟩ := FlashAddToBlock_Inv kb dev BlockRef.bootBlockInfo addr data
        (len % 65536) (s.cops (k2 + k1)) h (fun _ => hcb) (fun hx => by cases hx) hT
      exact ⟨i1, logExt_trans hc i2⟩
    · rename_i hcb
      obtain ⟨i1, i2⟩ := FlashAddToBlock_Inv kb dev BlockRef.blockInfo addr data
        (len % 65536) (s.cops (k2 + k1)) h (fun hx => by cases hx) (fun _ => hcb) hT
      exact ⟨i1, logExt_trans hc i2⟩
  · have hor : ¬ inLayout kb addr ∨
        ¬ inLayout kb ((addr + len + 4294967295) % 4294967296) := by
      by_cases ha : inLayout kb addr
      · exact Or.inr (fun hb => hin ⟨ha, hb⟩)
      · exact Or.inl ha
    obtain ⟨k, hk⟩ := FlashWrite_reject kb dev addr len data s hor
    rw [hk]
    exact ⟨h, logExt_cops (P := Event.writeStep kb) trivial s k⟩

theorem FlashWriteChecksum_Inv (kb : Nat) (dev : Device) (s : FlashState) (h : Inv s) :
    Inv (FlashWriteChecksum kb dev s).2 ∧
    logExt (Event.writeStep kb) s (FlashWriteChecksum kb dev s).2 := by
  unfold FlashWriteChecksum
  split
  · exact ⟨h, logExt_refl _ s⟩
  · exact FlashWrite_Inv kb dev _ _ _ s h

theorem FlashGetSectorBaseAddr_loop_eq (n : Nat) : ∀ (L : List tFlashSector) (s : FlashState),
    ∃ k, FlashGetSectorBaseAddr.loop n L s = (sectorBaseOf n L, s.cops k)
  | [], s => ⟨0, rfl⟩
  | sec :: rest, s => by
    simp only [FlashGetSectorBaseAddr.loop, sectorBaseOf, emit_cop]
    split
    · exact ⟨1, rfl⟩
    · obtain ⟨k, hk⟩ := FlashGetSectorBaseAddr_loop_eq n rest (s.cops 1)
      exact ⟨k + 1, by rw [hk, cops_cops]⟩

theorem FlashGetSectorSize_loop_eq (n : Nat) : ∀ (L : List tFlashSector) (s : FlashState),
    ∃ k, FlashGetSectorSize.loop n L s = (sectorSizeOf n L, s.cops k)
  | [], s => ⟨0, rfl⟩
  | sec :: rest, s => by
    simp only [FlashGetSectorSize.loop, sectorSizeOf, emit_cop]
    split
    · exact ⟨1, rfl⟩
    · obtain ⟨k, hk⟩ := FlashGetSectorSize_loop_eq n rest (s.cops 1)
      exact ⟨k + 1, by rw [hk, cops_cops]⟩

theorem layoutEnd_congr {kb kb2 : Nat} (h : flashLayout kb = flashLayout kb2) :
    layoutEnd kb = layoutEnd kb2 := by
  simp only [layoutEnd, flashLayoutLast, h]

theorem eraseRangeCheck_congr {kb kb2 : Nat} (h : flashLayout kb = flashLayout kb2)
    (f l : Nat) : eraseRangeCheck kb f l = eraseRangeCheck kb2 f l := by
  simp only [eraseRangeCheck, layoutEnd_congr h, flashLayoutLast, h]

set_option maxRecDepth 8000 in
theorem eraseRangeCheck_all (kb : Nat) :
    ∀ l < 28, ∀ f < 28, eraseRangeCheck kb f l = true := by
  rcases flashLayout_cases kb with h | h | h | h | h <;>
    simp only [eraseRangeCheck_congr h] <;> decide

theorem lastNum_le (kb : Nat) : (flashLayoutLast kb).sector_num ≤ 27 := by
  rcases flashLayout_cases kb with h | h | h | h | h <;>
    simp only [flashLayoutLast, h] <;> decide

theorem erase_range_facts (kb f l : Nat) (h1 : flashLayout0.sector_num ≤ f) (h2 : f ≤ l)
    (h3 : l ≤ (flashLayoutLast kb).sector_num) :
    8192 ≤ sectorBaseOf f (flashLayout kb) ∧
    sectorBaseOf f (flashLayout kb) % 4096 = 0 ∧
    sectorBaseOf f (flashLayout kb) <
      sectorBaseOf l (flashLayout kb) + sectorSizeOf l (flashLayout kb) ∧
    (sectorBaseOf l (flashLayout kb) + sectorSizeOf l (flashLayout kb)) % 4096 = 0 ∧
    sectorBaseOf l (flashLayout kb) + sectorSizeOf l (flashLayout kb) ≤ layoutEnd kb := by
  have hl : l < 28 := by have := lastNum_le kb; omega
  have hf : f < 28 := by omega
  have := eraseRangeCheck_all kb l hl f hf
  simp only [eraseRangeCheck, h1, h2, h3, decide_True, Bool.and_self, Bool.not_true,
    Bool.false_or, Bool.and_eq_true, decide_eq_true_eq] at this
  obtain ⟨⟨⟨⟨a, b⟩, c⟩, d⟩, e⟩ := this
  exact ⟨a, b, c, d, e⟩

theorem FlashEraseSectors_loop_general (dev : Device) (start P : Nat) :
    ∀ (n bc : Nat) (s : FlashState),
    (FlashEraseSectors.loop dev start P n bc s).2.blockInfo = s.blockInfo ∧
    (FlashEraseSectors.loop dev start P n bc s).2.bootBlockInfo = s.bootBlockInfo ∧
    logExt (fun e => e = Event.cop ∨ ∃ k, k < bc + n ∧
      e = Event.erase ((start + k * P % 4294967296) % 4294967296))
      s (FlashEraseSectors.loop dev start P n bc s).2
  | 0, bc, s => ⟨rfl, rfl, logExt_refl _ s⟩
  | n + 1, bc, s => by
    have hstep : logExt (fun e => e = Event.cop ∨ ∃ k, k < bc + (n + 1) ∧
        e = Event.erase ((start + k * P % 4294967296) % 4294967296)) s
        { s.emit Event.cop with
          flash := (dev.erasePage (s.emit Event.cop).log (s.emit Event.cop).flash
            ((start + bc * P % 4294967296) % 4294967296)).2,
          log := Event.erase ((start + bc * P % 4294967296) % 4294967296)
            :: (s.emit Event.cop).log } :=
      ⟨[Event.erase ((start + bc * P % 4294967296) % 4294967296), Event.cop], rfl, by
        intro e he
        simp only [List.mem_cons, List.mem_singleton, List.not_mem_nil, or_false] at he
        rcases he with h | h
        · exact Or.inr ⟨bc, by omega, h⟩
        · exact Or.inl h⟩
    unfold FlashEraseSectors.loop
    dsimp only
    split
    · exact ⟨rfl, rfl, hstep⟩
    · obtain ⟨i1, i2, i3⟩ := FlashEraseSectors_loop_general dev start P n (bc + 1) _
      refine ⟨i1, i2, logExt_trans hstep (logExt_mono ?_ i3)⟩
      rintro e (h | ⟨k, hk, h⟩)
      · exact Or.inl h
      · exact Or.inr ⟨k, by omega, h⟩

theorem FlashCalcPageSize_cases (m : Mem) :
    FlashCalcPageSize m = 512 ∨ FlashCalcPageSize m = 2048 ∨ FlashCalcPageSize m = 4096 := by
  unfold FlashCalcPageSize
  dsimp only
  split
  · exact Or.inl rfl
  · split
    · exact Or.inr (Or.inr rfl)
    · exact Or.inr (Or.inl rfl)

theorem FlashEraseSectors_general (kb : Nat) (dev : Device) (f l : Nat) (s : FlashState) :
    (FlashEraseSectors kb dev f l s).2.blockInfo = s.blockInfo ∧
    (FlashEraseSectors kb dev f l s).2.bootBlockInfo = s.bootBlockInfo ∧
    logExt (fun e => e = Event.cop ∨
      ∃ a, e = Event.erase a ∧ pageInside kb (FlashCalcPageSize s.flash) a)
      s (FlashEraseSectors kb dev f l s).2 := by
  unfold FlashEraseSectors
  split
  · exact ⟨rfl, rfl, logExt_refl _ s⟩
  · rename_i hfl
    split
    · exact ⟨rfl, rfl, logExt_refl _ s⟩
    · rename_i hrange
      obtain ⟨k1, h1⟩ := FlashGetSectorBaseAddr_loop_eq f (flashLayout kb) s
      obtain ⟨k2, h2⟩ := FlashGetSectorBaseAddr_loop_eq l (flashLayout kb) (s.cops k1)
      obtain ⟨k3, h3⟩ := FlashGetSectorSize_loop_eq l (flashLayout kb) ((s.cops k1).cops k2)
      dsimp only
      unfold FlashGetSectorBaseAddr FlashGetSectorSize
      rw [h1]
      dsimp only
      rw [h2]
      dsimp only
      rw [h3]
      dsimp only
      rw [cops_cops, cops_cops]
      obtain ⟨f1, f2, f3, f4, f5⟩ := erase_range_facts kb f l (by omega) (by omega) (by omega)
      have hE := layoutEnd_cases kb
      generalize sectorBaseOf f (flashLayout kb) = st at *
      generalize sectorBaseOf l (flashLayout kb) + sectorSizeOf l (flashLayout kb) = en at *
      obtain ⟨i1, i2, i3⟩ := FlashEraseSectors_loop_general dev st (FlashCalcPageSize s.flash)
        ((((en + 4294967295) % 4294967296 + 4294967296 - st + 1) % 4294967296
          / FlashCalcPageSize s.flash) % 65536) 0 (s.cops (k3 + k2 + k1))
      refine ⟨i1, i2, logExt_trans (logExt_cops (Or.inl rfl) s _) (logExt_mono ?_ i3)⟩
      rintro e (h | ⟨k, hk, h⟩)
      · exact Or.inl h
      · refine Or.inr ⟨_, h, ?_⟩
        unfold pageInside
        rw [sector_start0]
        have hlen : ((en + 4294967295) % 4294967296 + 4294967296 - st + 1) % 4294967296
            = en - st := by omega
        rw [hlen] at hk
        have hk2 : k < (en - st) / FlashCalcPageSize s.flash := by
          have := Nat.mod_le ((en - st) / FlashCalcPageSize s.flash) 65536
          omega
        have hkP := Nat.mul_le_of_le_div _ _ _ (Nat.succ_le_of_lt hk2)
        have hen : en ≤ layoutEnd kb := f5
        have hE2 : layoutEnd kb ≤ 524288 := by omega
        clear hk2 hk hlen hE f5 hrange hfl h1 h2 h3 i1 i2 i3 h
        generalize layoutEnd kb = E at *
        rcases FlashCalcPageSize_cases s.flash with hP | hP | hP <;> rw [hP] at hkP ⊢ <;>
          clear hP <;> omega

theorem FlashErase_general (kb : Nat) (dev : Device) (addr len : Nat) (s : FlashState) :
    (FlashErase kb dev addr len s).2.blockInfo = s.blockInfo ∧
    (FlashErase kb dev addr len s).2.bootBlockInfo = s.bootBlockInfo ∧
    logExt (fun e => e = Event.cop ∨
      ∃ a, e = Event.erase a ∧ pageInside kb (FlashCalcPageSize s.flash) a)
      s (FlashErase kb dev addr len s).2 := by
  obtain ⟨k1, h1⟩ := FlashGetSector_eq kb addr s
  obtain ⟨k2, h2⟩ := FlashGetSector_eq kb ((addr + len + 4294967295) % 4294967296) (s.cops k1)
  unfold FlashErase
  rw [h1]
  dsimp only
  rw [h2]
  dsimp only
  rw [cops_cops]
  split
  · exact ⟨rfl, rfl, logExt_cops (Or.inl rfl) s _⟩
  · obtain ⟨i1, i2, i3⟩ := FlashEraseSectors_general kb dev (sectorOf addr (flashLayout kb))
      (sectorOf ((addr + len + 4294967295) % 4294967296) (flashLayout kb)) (s.cops (k2 + k1))
    exact ⟨i1, i2, logExt_trans (logExt_cops (Or.inl rfl) s _) i3⟩

/-- C4: whatever the arguments, the device and the page size `P` reported by
`FlashCalcPageSize` (512, 2048 or 4096), every page address that `FlashErase` passes to
`MSC_ErasePage` is a multiple of `P`, and every byte of the page `[a, a + P)` lies in a
sector of the table: none lies below `flashLayout[0].sector_start` (the bootloader) and
none at or past the end of the last sector. -/
theorem FlashErase_pages_inside (kb : Nat) (dev : Device) (addr len : Nat) (s : FlashState) :
    (FlashCalcPageSize s.flash = 512 ∨ FlashCalcPageSize s.flash = 2048 ∨
      FlashCalcPageSize s.flash = 4096) ∧
    ∃ evs, (FlashErase kb dev addr len s).2.log = evs ++ s.log ∧
      ∀ a, Event.erase a ∈ evs →
        a % FlashCalcPageSize s.flash = 0 ∧
        ∀ x, a ≤ x → x < a + FlashCalcPageSize s.flash →
          inLayout kb x ∧ flashLayout0.sector_start ≤ x ∧ x < layoutEnd kb := by
  refine ⟨FlashCalcPageSize_cases s.flash, ?_⟩
  obtain ⟨evs, hlog, hev⟩ := (FlashErase_general kb dev addr len s).2.2
  refine ⟨evs, hlog, ?_⟩
  intro a ha
  rcases hev _ ha with h | ⟨a2, h, hp⟩
  · cases h
  · cases h
    unfold pageInside at hp
    refine ⟨hp.1, ?_⟩
    intro x hx1 hx2
    rw [inLayout_iff]
    rw [sector_start0] at hp ⊢
    omega

theorem FlashDone_Inv (kb : Nat) (dev : Device) (s : FlashState) (h : Inv s) :
    Inv (FlashDone kb dev s).2 ∧
    logExt (Event.progInLayout kb) s (FlashDone kb dev s).2 := by
  unfold FlashDone
  have h1 : Inv (if s.bootBlockInfo.base_addr ≠ FLASH_INVALID_ADDRESS then
        FlashWriteBlock kb dev BlockRef.bootBlockInfo s else (true, s)).2 ∧
      logExt (Event.progInLayout kb) s (if s.bootBlockInfo.base_addr ≠ FLASH_INVALID_ADDRESS
        then FlashWriteBlock kb dev BlockRef.bootBlockInfo s else (true, s)).2 := by
    split
    · exact ⟨FlashWriteBlock_Inv kb dev _ s h, FlashWriteBlock_progInLayout kb dev _ s h⟩
    · exact ⟨h, logExt_refl _ s⟩
  dsimp only
  generalize (if s.bootBlockInfo.base_addr ≠ FLASH_INVALID_ADDRESS then
        FlashWriteBlock kb dev BlockRef.bootBlockInfo s else (true, s)) = r1 at h1 ⊢
  obtain ⟨hI1, hL1⟩ := h1
  split
  · exact ⟨hI1, hL1⟩
  · have h2 : Inv (if r1.2.blockInfo.base_addr ≠ FLASH_INVALID_ADDRESS then
          FlashWriteBlock kb dev BlockRef.blockInfo r1.2 else (true, r1.2)).2 ∧
        logExt (Event.progInLayout kb) r1.2 (if r1.2.blockInfo.base_addr ≠ FLASH_INVALID_ADDRESS
          then FlashWriteBlock kb dev BlockRef.blockInfo r1.2 else (true, r1.2)).2 := by
      split
      · exact ⟨FlashWriteBlock_Inv kb dev _ _ hI1, FlashWriteBlock_progInLayout kb dev _ _ hI1⟩
      · exact ⟨hI1, logExt_refl _ _⟩
    generalize (if r1.2.blockInfo.base_addr ≠ FLASH_INVALID_ADDRESS then
          FlashWriteBlock kb dev BlockRef.blockInfo r1.2 else (true, r1.2)) = r2 at h2 ⊢
    obtain ⟨hI2, hL2⟩ := h2
    split
    · exact ⟨hI2, logExt_trans hL1 hL2⟩
    · exact ⟨hI2, logExt_cons (logExt_trans hL1 hL2) (e := Event.mscDeinit) trivial rfl⟩

theorem FlashInit_Inv (s : FlashState) : Inv (FlashInit s) :=
  ⟨Or.inl rfl, Or.inl rfl⟩

theorem stepOp_Inv (kb : Nat) (dev : Device) (s : FlashState) (op : Op)
    (h : Inv s ∨ op = Op.init) :
    Inv (stepOp kb dev s op).2 ∧ logExt (Event.progInLayout kb) s (stepOp kb dev s op).2 := by
  cases op with
  | init => exact ⟨FlashInit_Inv s, ⟨[Event.mscInit], rfl, by simp [Event.progInLayout]⟩⟩
  | write addr len data =>
    have hI : Inv s := by rcases h with h | h; exact h; cases h
    exact ⟨(FlashWrite_Inv kb dev addr len data s hI).1,
      logExt_mono (writeStep_progInLayout kb) (FlashWrite_Inv kb dev addr len data s hI).2⟩
  | erase addr len =>
    have hI : Inv s := by rcases h with h | h; exact h; cases h
    obtain ⟨i1, i2, i3⟩ := FlashErase_general kb dev addr len s
    refine ⟨Inv_of_bases hI i1 i2, logExt_mono ?_ i3⟩
    rintro e (h | ⟨a, h, _⟩) <;> rw [h] <;> trivial
  | writeChecksum =>
    have hI : Inv s := by rcases h with h | h; exact h; cases h
    exact ⟨(FlashWriteChecksum_Inv kb dev s hI).1,
      logExt_mono (writeStep_progInLayout kb) (FlashWriteChecksum_Inv kb dev s hI).2⟩
  | done =>
    have hI : Inv s := by rcases h with h | h; exact h; cases h
    exact FlashDone_Inv kb dev s hI

theorem runOps_Inv (kb : Nat) (dev : Device) : ∀ (ops : List Op) (s : FlashState), Inv s →
    Inv (runOps kb dev ops s) ∧ logExt (Event.progInLayout kb) s (runOps kb dev ops s)
  | [], s, h => ⟨h, logExt_refl _ s⟩
  | op :: ops, s, h => by
    obtain ⟨i1, i2⟩ := stepOp_Inv kb dev s op (Or.inl h)
    obtain ⟨j1, j2⟩ := runOps_Inv kb dev ops _ i1
    exact ⟨j1, logExt_trans i2 j2⟩

theorem mem_programCalls {a w : Nat} : ∀ {l : List Event},
    (a, w) ∈ programCalls l ↔ Event.program a w ∈ l
  | [] => by simp [programCalls]
  | e :: l => by
    have ih := @mem_programCalls a w l
    cases e <;> simp [programCalls, ih]

/-- C3: start from any power-on state (memory and RAM arbitrary, nothing logged), call
`FlashInit` and then any finite sequence of driver calls (`FlashWrite`, `FlashWriteChecksum`,
`FlashDone`, also `FlashErase` and further `FlashInit`) with arbitrary arguments on an
arbitrary device. Every `MSC_WriteWord` call in the log targets an address inside a sector
of the table: never below `flashLayout[0].sector_start`, never at or past the end of the
last sector. -/
theorem program_calls_inside_layout (kb : Nat) (dev : Device) (ram1 ram2 : tFlashBlockInfo)
    (mem : Mem) (ops : List Op) (a w : Nat) :
    (a, w) ∈ programCalls (runOps kb dev ops (FlashInit ⟨ram1, ram2, mem, []⟩)).log →
    inLayout kb a ∧ flashLayout0.sector_start ≤ a ∧ a < layoutEnd kb := by
  intro hmem
  obtain ⟨evs, hlog, hev⟩ := (runOps_Inv kb dev ops _ (FlashInit_Inv ⟨ram1, ram2, mem, []⟩)).2
  rw [hlog, mem_programCalls] at hmem
  have hin : inLayout kb a := by
    rcases List.mem_append.1 hmem with h | h
    · exact hev _ h
    · simp [FlashInit] at h
  exact ⟨hin, (inLayout_iff kb a).1 hin⟩

set_option maxRecDepth 100000 in
/-- A session with a program call: four bytes written at `0x2000`, then `FlashDone`. -/
theorem program_calls_inside_layout_witness :
    (0x2004, 0xFFFFFFFF) ∈ programCalls (runOps 32 idealDevice
      [Op.write 0x2000 4 (fun _ => 0xAA), Op.done]
      (FlashInit ⟨⟨0, fun _ => 0⟩, ⟨0, fun _ => 0⟩, fun _ => 0xFF, []⟩)).log ∧
    inLayout 32 0x2004 ∧ flashLayout0.sector_start ≤ 0x2004 ∧ 0x2004 < layoutEnd 32 :=
  ⟨by decide, program_calls_inside_layout 32 idealDevice ⟨0, fun _ => 0⟩ ⟨0, fun _ => 0⟩
    (fun _ => 0xFF) [Op.write 0x2000 4 (fun _ => 0xAA), Op.done] 0x2004 0xFFFFFFFF (by decide)⟩

theorem rdByte_lt (m : Mem) (a : Nat) : rdByte m a < 256 := Nat.mod_lt _ (by decide)

theorem rdWord_lt (m : Mem) (a : Nat) : rdWord m a < 4294967296 := by
  unfold rdWord
  have := rdByte_lt m a
  have := rdByte_lt m (a + 1)
  have := rdByte_lt m (a + 2)
  have := rdByte_lt m (a + 3)
  omega

theorem rdWord_storeWord (m : Mem) (a w : Nat) :
    rdWord (storeWord m a w) a = w % 4294967296 := by
  unfold rdWord rdByte storeWord
  have h1 : ¬ (a + 1 = a) := by omega
  have h2 : ¬ (a + 2 = a) := by omega
  have h3 : ¬ (a + 3 = a) := by omega
  have h4 : ¬ (a + 2 = a + 1) := by omega
  have h5 : ¬ (a + 3 = a + 1) := by omega
  have h6 : ¬ (a + 3 = a + 2) := by omega
  simp only [if_true, if_neg h1, if_neg h2, if_neg h3, if_neg h4, if_neg h5, if_neg h6]
  omega

theorem FlashWriteBlock_loop_ok (dev : Device) (b : tFlashBlockInfo) :
    ∀ (n wc : Nat) (s : FlashState),
    (∀ k, wc ≤ k → k < wc + n → ∀ log m w,
      dev.writeWord log m ((b.base_addr + k * 4) % 4294967296) w
        = (true, storeWord m ((b.base_addr + k * 4) % 4294967296) w)) →
    FlashWriteBlock.loop dev b n wc s =
      (true, { s with flash := storeWords b n wc s.flash, log := wordEvents b n wc s.log })
  | 0, wc, s, _ => rfl
  | n + 1, wc, s, hdev => by
    unfold FlashWriteBlock.loop
    dsimp only
    rw [hdev wc (Nat.le_refl _) (by omega)]
    dsimp only
    rw [if_neg (by simp), rdWord_storeWord, Nat.mod_eq_of_lt (rdWord_lt _ _), if_neg (by simp)]
    rw [FlashWriteBlock_loop_ok dev b n (wc + 1) _ (fun k h1 h2 => hdev k (by omega) (by omega))]
    rfl

theorem programCalls_wordEvents (b : tFlashBlockInfo) : ∀ (n wc : Nat) (l : List Event),
    programCalls (wordEvents b n wc l) = (blockWordsFrom b n wc).reverse ++ programCalls l
  | 0, wc, l => rfl
  | n + 1, wc, l => by
    rw [wordEvents, programCalls_wordEvents b n (wc + 1), blockWordsFrom, List.reverse_cons,
      List.append_assoc]
    rfl

theorem wordEvents_append (b : tFlashBlockInfo) : ∀ (n wc : Nat) (l : List Event),
    wordEvents b n wc l = wordEvents b n wc [] ++ l
  | 0, wc, l => rfl
  | n + 1, wc, l => by
    rw [wordEvents, wordEvents_append b n (wc + 1), wordEvents,
      wordEvents_append b n (wc + 1) [_, _], List.append_assoc]
    rfl

theorem storeWords_apply (b : tFlashBlockInfo) : ∀ (n wc : Nat) (m : Mem) (x : Nat),
    b.base_addr + (wc + n) * 4 ≤ 4294967296 →
    storeWords b n wc m x =
      if b.base_addr + wc * 4 ≤ x ∧ x < b.base_addr + (wc + n) * 4
      then rdByte b.data (x - b.base_addr) else m x
  | 0, wc, m, x, _ => by
    rw [storeWords, if_neg (by omega)]
  | n + 1, wc, m, x, h => by
    rw [storeWords, storeWords_apply b n (wc + 1) _ x (by omega)]
    have hmod : (b.base_addr + wc * 4) % 4294967296 = b.base_addr + wc * 4 :=
      Nat.mod_eq_of_lt (by omega)
    rw [hmod]
    by_cases h1 : b.base_addr + (wc + 1) * 4 ≤ x ∧ x < b.base_addr + (wc + 1 + n) * 4
    · rw [if_pos h1, if_pos (by omega)]
    · rw [if_neg h1]
      unfold storeWord
      by_cases h2 : b.base_addr + wc * 4 ≤ x ∧ x < b.base_addr + (wc + 1) * 4
      · rw [if_pos (show b.base_addr + wc * 4 ≤ x ∧ x < b.base_addr + (wc + (n + 1)) * 4 by
          omega)]
        have hx : x = b.base_addr + wc * 4 ∨ x = b.base_addr + wc * 4 + 1 ∨
            x = b.base_addr + wc * 4 + 2 ∨ x = b.base_addr + wc * 4 + 3 := by omega
        have hb0 := rdByte_lt b.data (wc * 4)
        have hb1 := rdByte_lt b.data (wc * 4 + 1)
        have hb2 := rdByte_lt b.data (wc * 4 + 2)
        have hb3 := rdByte_lt b.data (wc * 4 + 3)
        have e0 : b.base_addr + wc * 4 - b.base_addr = wc * 4 := by omega
        have e1 : b.base_addr + wc * 4 + 1 - b.base_addr = wc * 4 + 1 := by omega
        have e2 : b.base_addr + wc * 4 + 2 - b.base_addr = wc * 4 + 2 := by omega
        have e3 : b.base_addr + wc * 4 + 3 - b.base_addr = wc * 4 + 3 := by omega
        rcases hx with hx | hx | hx | hx
        · rw [if_pos hx, hx, e0]; unfold rdWord; omega
        · rw [if_neg (by omega), if_pos hx, hx, e1]; unfold rdWord; omega
        · rw [if_neg (by omega), if_neg (by omega), if_pos hx, hx, e2]; unfold rdWord; omega
        · rw [if_neg (by omega), if_neg (by omega), if_neg (by omega), if_pos hx, hx, e3]
          unfold rdWord; omega
      · have n0 : ¬ (x = b.base_addr + wc * 4) := by omega
        have n1 : ¬ (x = b.base_addr + wc * 4 + 1) := by omega
        have n2 : ¬ (x = b.base_addr + wc * 4 + 2) := by omega
        have n3 : ¬ (x = b.base_addr + wc * 4 + 3) := by omega
        rw [if_neg n0, if_neg n1, if_neg n2, if_neg n3,
          if_neg (show ¬ (b.base_addr + wc * 4 ≤ x ∧ x < b.base_addr + (wc + (n + 1)) * 4) by
            omega)]

theorem FlashWriteBlock_ok (kb : Nat) (dev : Device) (block : BlockRef) (s : FlashState)
    (hin : inLayout kb (s.block block).base_addr)
    (hdev : dev.ProgramSucceedsAt (s.block block).base_addr) :
    ∃ k, FlashWriteBlock kb dev block s =
      (true, { s with flash := storeWords (s.block block) 128 0 s.flash,
                      log := wordEvents (s.block block) 128 0
                        (List.replicate k Event.cop ++ s.log) }) := by
  obtain ⟨k, hk⟩ := FlashGetSector_eq kb (s.block block).base_addr s
  refine ⟨k, ?_⟩
  unfold FlashWriteBlock
  dsimp only
  rw [hk]
  dsimp only
  rw [if_neg ((sectorOf_ne_invalid_iff kb _).2 hin),
    FlashWriteBlock_loop_ok dev _ 128 0 _ (fun j _ h2 => hdev j (by omega))]
  rfl

theorem depositRun_frame (block : BlockRef) (data : Mem) :
    ∀ (n dst src : Nat) (s : FlashState),
    (depositRun block data n dst src s).flash = s.flash ∧
    (depositRun block data n dst src s).log =
      depositEvents (decide (block = BlockRef.bootBlockInfo)) data n dst src s.log ∧
    ((depositRun block data n dst src s).block block).base_addr = (s.block block).base_addr ∧
    ((depositRun block data n dst src s).block block).data
      = patch (s.block block).data dst n data src ∧
    ∀ other, other ≠ block → (depositRun block data n dst src s).block other = s.block other
  | 0, dst, src, s => by
    refine ⟨rfl, rfl, rfl, ?_, fun _ _ => rfl⟩
    funext i
    unfold patch
    rw [if_neg (by omega)]
    rfl
  | n + 1, dst, src, s => by
    obtain ⟨i1, i2, i3, i4, i5⟩ := depositRun_frame block data n (dst + 1) (src + 1)
      (depositByte block dst (data src) (s.emit Event.cop))
    rw [depositRun]
    refine ⟨?_, ?_, ?_, ?_, ?_⟩
    · rw [i1]; cases block <;> rfl
    · rw [i2, depositByte_log]; rfl
    · rw [i3]; cases block <;> rfl
    · rw [i4]
      funext i
      unfold patch
      have hd : ((depositByte block dst (data src) (s.emit Event.cop)).block block).data
          = fun i => if i = dst then data src % 256 else (s.block block).data i := by
        cases block <;> rfl
      rw [hd]
      by_cases h1 : dst + 1 ≤ i ∧ i < dst + 1 + n
      · rw [if_pos h1, if_pos (by omega)]
        have : src + 1 + (i - (dst + 1)) = src + (i - dst) := by omega
        rw [this]
      · rw [if_neg h1]
        by_cases h2 : i = dst
        · rw [if_pos (by omega)]
          dsimp only
          rw [if_pos h2, h2, Nat.sub_self, Nat.add_zero]
        · rw [if_neg (by omega)]
          dsimp only
          rw [if_neg h2]
    · intro other ho
      rw [i5 other ho]
      cases block <;> cases other <;> first | rfl | exact absurd rfl ho

theorem FlashAddToBlock_loop_within (kb : Nat) (dev : Device) (cb : Nat) (data : Mem)
    (block : BlockRef) : ∀ (n dst src : Nat) (s : FlashState), dst + n ≤ 512 →
    FlashAddToBlock.loop kb dev cb data n block dst src s
      = (true, depositRun block data n dst src s)
  | 0, _, _, _, _ => rfl
  | n + 1, dst, src, s, h => by
    unfold FlashAddToBlock.loop
    dsimp only
    rw [if_neg (by omega), FlashAddToBlock_loop_within kb dev cb data block n (dst + 1) (src + 1)
      _ (by omega)]
    rfl

theorem rdByte_patch (d : Mem) (dst n : Nat) (src : Mem) (o i : Nat) :
    rdByte (patch d dst n src o) i =
      if dst ≤ i ∧ i < dst + n then rdByte src (o + (i - dst)) else rdByte d i := by
  unfold rdByte patch
  split
  · exact Nat.mod_mod _ _
  · rfl

theorem rdWord_patch_outside (d : Mem) (dst n : Nat) (src : Mem) (o a : Nat)
    (h : a + 4 ≤ dst ∨ dst + n ≤ a) : rdWord (patch d dst n src o) a = rdWord d a := by
  unfold rdWord
  rw [rdByte_patch, rdByte_patch, rdByte_patch, rdByte_patch, if_neg (by omega),
    if_neg (by omega), if_neg (by omega), if_neg (by omega)]

theorem rdWord_patch_inside (d : Mem) (dst n : Nat) (src : Mem) (o a : Nat)
    (h1 : dst ≤ a) (h2 : a + 4 ≤ dst + n) :
    rdWord (patch d dst n src o) a = rdWord src (o + (a - dst)) := by
  unfold rdWord
  rw [rdByte_patch, rdByte_patch, rdByte_patch, rdByte_patch, if_pos (by omega),
    if_pos (by omega), if_pos (by omega), if_pos (by omega)]
  have e1 : o + (a + 1 - dst) = o + (a - dst) + 1 := by omega
  have e2 : o + (a + 2 - dst) = o + (a - dst) + 2 := by omega
  have e3 : o + (a + 3 - dst) = o + (a - dst) + 3 := by omega
  rw [e1, e2, e3]

theorem rdWord_wordBytes (w : Nat) : rdWord (wordBytes w) 0 = w % 4294967296 := by
  unfold rdWord rdByte wordBytes
  simp only [Nat.zero_add, if_true, if_false, Nat.one_ne_zero, OfNat.ofNat_ne_zero,
    OfNat.ofNat_ne_one, Nat.reduceEqDiff]
  omega

theorem rdWord_wordsBytes (ws : List Nat) (j : Nat) :
    rdWord (wordsBytes ws) (j * 4) = ws.getD j 0 % 4294967296 := by
  unfold rdWord rdByte wordsBytes
  have d0 : j * 4 / 4 = j := by omega
  have d1 : (j * 4 + 1) / 4 = j := by omega
  have d2 : (j * 4 + 2) / 4 = j := by omega
  have d3 : (j * 4 + 3) / 4 = j := by omega
  have m0 : j * 4 % 4 = 0 := by omega
  have m1 : (j * 4 + 1) % 4 = 1 := by omega
  have m2 : (j * 4 + 2) % 4 = 2 := by omega
  have m3 : (j * 4 + 3) % 4 = 3 := by omega
  rw [d0, d1, d2, d3, m0, m1, m2, m3]
  have p0 : 256 ^ 0 = 1 := rfl
  have p1 : 256 ^ 1 = 256 := rfl
  have p2 : 256 ^ 2 = 65536 := rfl
  have p3 : 256 ^ 3 = 16777216 := rfl
  rw [p0, p1, p2, p3, Nat.div_one]
  omega

theorem rdWord_storeWords (b : tFlashBlockInfo) (m : Mem) (off : Nat)
    (h : b.base_addr + 512 ≤ 4294967296) (hoff : off + 4 ≤ 512) :
    rdWord (storeWords b 128 0 m) (b.base_addr + off) = rdWord b.data off := by
  have key : ∀ j, j < 4 → rdByte (storeWords b 128 0 m) (b.base_addr + off + j)
      = rdByte b.data (off + j) := by
    intro j hj
    unfold rdByte
    rw [storeWords_apply b 128 0 m _ (by omega), if_pos (by omega)]
    have : b.base_addr + off + j - b.base_addr = off + j := by omega
    rw [this]
    unfold rdByte
    exact Nat.mod_mod _ _
  unfold rdWord
  rw [← key 1 (by omega), ← key 2 (by omega), ← key 3 (by omega)]
  have := key 0 (by omega)
  rw [Nat.add_zero, Nat.add_zero] at this
  rw [this]

theorem storeWords_outside (b : tFlashBlockInfo) (m : Mem) (x : Nat)
    (h : b.base_addr + 512 ≤ 4294967296) (hx : x < b.base_addr ∨ b.base_addr + 512 ≤ x) :
    storeWords b 128 0 m x = m x := by
  rw [storeWords_apply b 128 0 m _ (by omega), if_neg (by omega)]

theorem bootReady_frame (s : FlashState)
    (hb : s.bootBlockInfo.base_addr = FLASH_INVALID_ADDRESS ∨
      s.bootBlockInfo.base_addr = flashLayout0.sector_start) :
    FlashInitBlock BlockRef.bootBlockInfo flashLayout0.sector_start s = (true, bootReady s) ∧
    (bootReady s).bootBlockInfo.base_addr = flashLayout0.sector_start ∧
    (bootReady s).blockInfo = s.blockInfo ∧
    (bootReady s).flash = s.flash ∧
    (bootReady s).log = s.log ∧
    (bootReady s).bootBlockInfo.data =
      (if s.bootBlockInfo.base_addr = FLASH_INVALID_ADDRESS then
        CpuMemCopy s.bootBlockInfo.data s.flash flashLayout0.sector_start 512
      else s.bootBlockInfo.data) := by
  unfold bootReady FlashInitBlock
  rw [if_neg (by decide)]
  rcases hb with hb | hb
  · have hne : ¬ ((s.block BlockRef.bootBlockInfo).base_addr = flashLayout0.sector_start) := by
      show ¬ (s.bootBlockInfo.base_addr = _)
      rw [hb]; decide
    rw [if_neg hne, if_pos hb]
    exact ⟨rfl, rfl, rfl, rfl, rfl, rfl⟩
  · have he : (s.block BlockRef.bootBlockInfo).base_addr = flashLayout0.sector_start := hb
    have hne : ¬ (s.bootBlockInfo.base_addr = FLASH_INVALID_ADDRESS) := by
      rw [hb]; decide
    rw [if_pos he, if_neg hne]
    exact ⟨rfl, hb, rfl, rfl, rfl, rfl⟩

theorem bootReady_Inv (s : FlashState) (h : Inv s) : Inv (bootReady s) :=
  ⟨Or.inr (bootReady_frame s h.1).2.1, by rw [(bootReady_frame s h.1).2.2.1]; exact h.2⟩

/-- A write of `len ≥ 1` bytes that lies inside the first block of the first sector only
fills the boot block buffer. -/
theorem FlashWrite_boot_within (kb : Nat) (dev : Device) (addr len : Nat) (data : Mem)
    (s : FlashState) (h1 : 8192 ≤ addr) (h2 : addr + len ≤ 8704) (hlen : 1 ≤ len)
    (hb : s.bootBlockInfo.base_addr = FLASH_INVALID_ADDRESS ∨
      s.bootBlockInfo.base_addr = flashLayout0.sector_start) :
    ∃ k, FlashWrite kb dev addr len data s =
      (true, depositRun BlockRef.bootBlockInfo data len (addr - 8192) 0
        (bootReady (s.cops k))) := by
  obtain ⟨k1, e1⟩ := FlashGetSector_eq kb addr s
  obtain ⟨k2, e2⟩ := FlashGetSector_eq kb ((addr + len + 4294967295) % 4294967296) (s.cops k1)
  have hE := layoutEnd_cases kb
  have hin1 : inLayout kb addr := (inLayout_iff kb addr).2 (by omega)
  have hin2 : inLayout kb ((addr + len + 4294967295) % 4294967296) :=
    (inLayout_iff kb _).2 (by omega)
  have hcb : addr / 512 * 512 = 8192 := by omega
  refine ⟨k2 + k1, ?_⟩
  unfold FlashWrite
  rw [e1]
  dsimp only
  rw [if_neg ((sectorOf_ne_invalid_iff kb addr).2 hin1), e2]
  dsimp only
  rw [if_neg ((sectorOf_ne_invalid_iff kb _).2 hin2), cops_cops, hcb,
    if_pos (show 8192 = flashLayout0.sector_start from rfl)]
  obtain ⟨f1, f2, f3, f4, f5, f6⟩ := bootReady_frame (s.cops (k2 + k1)) hb
  unfold FlashAddToBlock
  dsimp only
  rw [hcb]
  have hr0 : (if ((s.cops (k2 + k1)).block BlockRef.bootBlockInfo).base_addr
        = FLASH_INVALID_ADDRESS then
        FlashInitBlock BlockRef.bootBlockInfo 8192 (s.cops (k2 + k1))
      else (true, s.cops (k2 + k1))) = (true, bootReady (s.cops (k2 + k1))) := by
    split
    · exact f1
    · rename_i hne
      rcases hb with hb | hb
      · exact absurd hb hne
      · have : bootReady (s.cops (k2 + k1)) = s.cops (k2 + k1) := by
          unfold bootReady FlashInitBlock
          rw [if_neg (by decide), if_pos (show ((s.cops (k2 + k1)).block
            BlockRef.bootBlockInfo).base_addr = flashLayout0.sector_start from hb)]
        rw [this]
  rw [hr0]
  dsimp only
  rw [if_neg (by decide)]
  have hbase : ((bootReady (s.cops (k2 + k1))).block BlockRef.bootBlockInfo).base_addr = 8192 :=
    f2
  rw [if_neg (by rw [hbase]; simp)]
  dsimp only
  rw [hbase]
  have hn : (if len % 65536 = 0 then 65536 else len % 65536) = len := by
    have : len % 65536 = len := Nat.mod_eq_of_lt (by omega)
    rw [this, if_neg (by omega)]
  have hd : (addr + 4294967296 - 8192) % 4294967296 = addr - 8192 := by omega
  rw [hn, hd]
  exact FlashAddToBlock_loop_within kb dev 8192 data _ len (addr - 8192) 0 _ (by omega)

theorem ProgramSucceeds_at {dev : Device} (h : dev.ProgramSucceeds) (base : Nat) :
    dev.ProgramSucceedsAt base := fun _ _ log m w => h log m _ w

theorem idealDevice_succeeds : idealDevice.ProgramSucceeds := fun _ _ _ _ => rfl

theorem inLayout_sector_start (kb : Nat) : inLayout kb 8192 := by
  rw [inLayout_iff]
  have := layoutEnd_cases kb
  omega

/-- `FlashDone` when only the boot block is pending and the device programs it. -/
theorem FlashDone_boot_only (kb : Nat) (dev : Device) (s : FlashState)
    (hdev : dev.ProgramSucceedsAt 8192)
    (hboot : s.bootBlockInfo.base_addr = 8192)
    (hgen : s.blockInfo.base_addr = FLASH_INVALID_ADDRESS) :
    ∃ k, FlashDone kb dev s =
      (true, { s with flash := storeWords s.bootBlockInfo 128 0 s.flash,
                      log := Event.mscDeinit :: wordEvents s.bootBlockInfo 128 0
                        (List.replicate k Event.cop ++ s.log) }) := by
  obtain ⟨k, hk⟩ := FlashWriteBlock_ok kb dev BlockRef.bootBlockInfo s
    (by show inLayout kb s.bootBlockInfo.base_addr; rw [hboot]; exact inLayout_sector_start kb)
    (by show dev.ProgramSucceedsAt s.bootBlockInfo.base_addr; rw [hboot]; exact hdev)
  refine ⟨k, ?_⟩
  have hblk : s.block BlockRef.bootBlockInfo = s.bootBlockInfo := rfl
  rw [hblk] at hk
  unfold FlashDone
  rw [if_pos (show s.bootBlockInfo.base_addr ≠ FLASH_INVALID_ADDRESS by rw [hboot]; decide), hk]
  dsimp only
  rw [if_neg (show ¬ (true = false) by decide),
    if_neg (show ¬ (s.blockInfo.base_addr ≠ FLASH_INVALID_ADDRESS) by rw [hgen]; simp)]
  dsimp only
  rw [if_neg (show ¬ (true = false) by decide)]
  rfl

theorem checksum_sum_zero (a b c d e f g : Nat) :
    (a % 4294967296 + b % 4294967296 + c % 4294967296 + d % 4294967296 + e % 4294967296
      + f % 4294967296 + g % 4294967296
      + (4294967295 - (a % 4294967296 + b % 4294967296 + c % 4294967296 + d % 4294967296
          + e % 4294967296 + f % 4294967296 + g % 4294967296) % 4294967296 + 1) % 4294967296)
      % 4294967296 = 0 := by
  omega

/-- C6: on a device whose program operations succeed, for every seven vector words the
session `FlashInit`; `FlashWrite` of the words at `flashLayout[0].sector_start`;
`FlashWriteChecksum`; `FlashDone` returns `BLT_TRUE` at every step, and
`FlashVerifyChecksum` on the resulting flash returns `BLT_TRUE`. -/
theorem checksum_round_trip (kb : Nat) (dev : Device) (hdev : dev.ProgramSucceeds)
    (ram1 ram2 : tFlashBlockInfo) (mem : Mem) (v0 v1 v2 v3 v4 v5 v6 : Nat) :
    (FlashWrite kb dev flashLayout0.sector_start 28 (wordsBytes [v0, v1, v2, v3, v4, v5, v6])
      (FlashInit ⟨ram1, ram2, mem, []⟩)).1 = true ∧
    (FlashWriteChecksum kb dev
      (FlashWrite kb dev flashLayout0.sector_start 28 (wordsBytes [v0, v1, v2, v3, v4, v5, v6])
        (FlashInit ⟨ram1, ram2, mem, []⟩)).2).1 = true ∧
    (FlashDone kb dev (FlashWriteChecksum kb dev
      (FlashWrite kb dev flashLayout0.sector_start 28 (wordsBytes [v0, v1, v2, v3, v4, v5, v6])
        (FlashInit ⟨ram1, ram2, mem, []⟩)).2).2).1 = true ∧
    FlashVerifyChecksum (FlashDone kb dev (FlashWriteChecksum kb dev
      (FlashWrite kb dev flashLayout0.sector_start 28 (wordsBytes [v0, v1, v2, v3, v4, v5, v6])
        (FlashInit ⟨ram1, ram2, mem, []⟩)).2).2).2.flash = true := by
  rw [sector_start0]
  generalize hws : wordsBytes [v0, v1, v2, v3, v4, v5, v6] = data
  -- the write of the vector words
  obtain ⟨k1, e1⟩ := FlashWrite_boot_within kb dev 8192 28 data
    (FlashInit ⟨ram1, ram2, mem, []⟩) (by omega) (by omega) (by omega) (Or.inl rfl)
  obtain ⟨_, b2, b3, _, _, _⟩ := bootReady_frame ((FlashInit ⟨ram1, ram2, mem, []⟩).cops k1)
    (Or.inl rfl)
  rw [Nat.sub_self] at e1
  obtain ⟨_, _, d3, d4, d5⟩ := depositRun_frame BlockRef.bootBlockInfo data 28 0 0
    (bootReady ((FlashInit ⟨ram1, ram2, mem, []⟩).cops k1))
  rw [e1]
  generalize depositRun BlockRef.bootBlockInfo data 28 0 0
    (bootReady ((FlashInit ⟨ram1, ram2, mem, []⟩).cops k1)) = s1 at *
  have hbase1 : s1.bootBlockInfo.base_addr = 8192 := d3.trans b2
  have hgen1 : s1.blockInfo.base_addr = FLASH_INVALID_ADDRESS := by
    have := d5 BlockRef.blockInfo (by decide)
    have h2 : s1.blockInfo = (bootReady ((FlashInit ⟨ram1, ram2, mem, []⟩).cops k1)).blockInfo :=
      this
    rw [h2, b3]; rfl
  have hw1 : ∀ j, j < 7 → rdWord s1.bootBlockInfo.data (j * 4)
      = [v0, v1, v2, v3, v4, v5, v6].getD j 0 % 4294967296 := by
    intro j hj
    have hd : s1.bootBlockInfo.data = _ := d4
    rw [hd, rdWord_patch_inside _ _ _ _ _ _ (by omega) (by omega), ← hws,
      ← rdWord_wordsBytes, Nat.zero_add, Nat.sub_zero]
  -- the checksum
  have hcs : FlashWriteChecksum kb dev s1 = FlashWrite kb dev (8192 + 184) 4
      (wordBytes (signatureChecksum s1.bootBlockInfo.data)) s1 := by
    unfold FlashWriteChecksum
    rw [if_neg (by rw [hbase1]; decide)]
    rfl
  obtain ⟨k2, e2⟩ := FlashWrite_boot_within kb dev (8192 + 184) 4
    (wordBytes (signatureChecksum s1.bootBlockInfo.data)) s1 (by omega) (by omega) (by omega)
    (Or.inr hbase1)
  obtain ⟨_, c2, c3, _, _, c6⟩ := bootReady_frame (s1.cops k2) (Or.inr hbase1)
  rw [Nat.add_sub_cancel_left] at e2
  obtain ⟨g1, _, g3, g4, g5⟩ := depositRun_frame BlockRef.bootBlockInfo
    (wordBytes (signatureChecksum s1.bootBlockInfo.data)) 4 184 0
    (bootReady (s1.cops k2))
  rw [hcs, e2]
  generalize depositRun BlockRef.bootBlockInfo
    (wordBytes (signatureChecksum s1.bootBlockInfo.data)) 4 184 0
    (bootReady (s1.cops k2)) = s2 at *
  have hbase2 : s2.bootBlockInfo.base_addr = 8192 := g3.trans c2
  have hgen2 : s2.blockInfo.base_addr = FLASH_INVALID_ADDRESS := by
    have h2 : s2.blockInfo = (bootReady (s1.cops k2)).blockInfo :=
      g5 BlockRef.blockInfo (by decide)
    rw [h2, c3]; exact hgen1
  have hdata2 : s2.bootBlockInfo.data = patch s1.bootBlockInfo.data 184 4
      (wordBytes (signatureChecksum s1.bootBlockInfo.data)) 0 := by
    have hd : s2.bootBlockInfo.data = _ := g4
    rw [hd]
    have hd2 : (bootReady (s1.cops k2)).bootBlockInfo.data = s1.bootBlockInfo.data := by
      rw [c6, if_neg (by rw [cops_bootBlockInfo, hbase1]; decide)]; rfl
    show patch (bootReady (s1.cops k2)).bootBlockInfo.data _ _ _ _ = _
    rw [hd2]
  -- finalisation
  obtain ⟨k3, e3⟩ := FlashDone_boot_only kb dev s2 (ProgramSucceeds_at hdev 8192) hbase2 hgen2
  rw [e3]
  refine ⟨rfl, rfl, rfl, ?_⟩
  dsimp only
  have hrd : ∀ off, off + 4 ≤ 512 →
      rdWord (storeWords s2.bootBlockInfo 128 0 s2.flash) (8192 + off)
        = rdWord s2.bootBlockInfo.data off := by
    intro off ho
    have := rdWord_storeWords s2.bootBlockInfo s2.flash off (by rw [hbase2]; omega) ho
    rw [hbase2] at this
    exact this
  have hv : ∀ j, j < 7 → rdWord s2.bootBlockInfo.data (j * 4)
      = [v0, v1, v2, v3, v4, v5, v6].getD j 0 % 4294967296 := by
    intro j hj
    rw [hdata2, rdWord_patch_outside _ _ _ _ _ _ (by omega), hw1 j hj]
  have hc : rdWord s2.bootBlockInfo.data 184
      = signatureChecksum s1.bootBlockInfo.data := by
    rw [hdata2, rdWord_patch_inside _ _ _ _ _ _ (by omega) (by omega)]
    show rdWord (wordBytes _) 0 = _
    rw [rdWord_wordBytes]
    exact Nat.mod_eq_of_lt (Nat.mod_lt _ (by decide))
  unfold FlashVerifyChecksum
  rw [sector_start0]
  have q0 := hrd 0 (by omega)
  rw [Nat.add_zero] at q0
  rw [q0, hrd 4 (by omega), hrd 8 (by omega), hrd 12 (by omega), hrd 16 (by omega),
    hrd 20 (by omega), hrd 24 (by omega)]
  show (if (_ + rdWord _ (8192 + 184)) % 4294967296 = 0 then true else false) = true
  rw [hrd 184 (by omega), hc]
  unfold signatureChecksum
  have w0 := hw1 0 (by omega)
  have w1 := hw1 1 (by omega)
  have w2 := hw1 2 (by omega)
  have w3 := hw1 3 (by omega)
  have w4 := hw1 4 (by omega)
  have w5 := hw1 5 (by omega)
  have w6 := hw1 6 (by omega)
  have x0 := hv 0 (by omega)
  have x1 := hv 1 (by omega)
  have x2 := hv 2 (by omega)
  have x3 := hv 3 (by omega)
  have x4 := hv 4 (by omega)
  have x5 := hv 5 (by omega)
  have x6 := hv 6 (by omega)
  simp only [Nat.zero_mul, Nat.one_mul, Nat.reduceMul] at w0 w1 w2 w3 w4 w5 w6 x0 x1 x2 x3 x4 x5 x6
  dsimp only
  rw [x0, x1, x2, x3, x4, x5, x6, w0, w1, w2, w3, w4, w5, w6]
  simp only [List.getD_cons_zero, List.getD_cons_succ]
  exact if_pos (checksum_sum_zero v0 v1 v2 v3 v4 v5 v6)

theorem rdWord_storeWord_disjoint (m : Mem) (a w x : Nat) (h : x + 4 ≤ a ∨ a + 4 ≤ x) :
    rdWord (storeWord m a w) x = rdWord m x := by
  have hb : ∀ i, i < 4 → rdByte (storeWord m a w) (x + i) = rdByte m (x + i) := by
    intro i hi
    unfold rdByte storeWord
    have n0 : ¬ (x + i = a) := by omega
    have n1 : ¬ (x + i = a + 1) := by omega
    have n2 : ¬ (x + i = a + 2) := by omega
    have n3 : ¬ (x + i = a + 3) := by omega
    rw [if_neg n0, if_neg n1, if_neg n2, if_neg n3]
  have h0 := hb 0 (by omega)
  rw [Nat.add_zero] at h0
  unfold rdWord
  rw [h0, hb 1 (by omega), hb 2 (by omega), hb 3 (by omega)]

theorem xor_two_pow_ne (w j : Nat) : w ^^^ 2 ^ j ≠ w := by
  intro h
  have h1 := Nat.testBit_xor w (2 ^ j) j
  rw [h, Nat.testBit_two_pow_self] at h1
  cases hb : w.testBit j <;> rw [hb] at h1 <;> simp at h1

theorem rdWord_flipWordBit_same (m : Mem) (wa j : Nat) (hj : j < 32) :
    rdWord (flipWordBit m wa j) wa < 4294967296 ∧
    rdWord (flipWordBit m wa j) wa ≠ rdWord m wa := by
  unfold flipWordBit
  have hlt : rdWord m wa ^^^ 2 ^ j < 4294967296 :=
    @Nat.xor_lt_two_pow (rdWord m wa) (2 ^ j) 32 (rdWord_lt m wa)
      (Nat.pow_lt_pow_right (by decide) hj)
  rw [rdWord_storeWord, Nat.mod_eq_of_lt hlt]
  exact ⟨hlt, xor_two_pow_ne _ _⟩

/-- C7: if `FlashVerifyChecksum` accepts a flash content, then after flipping any one bit
(`j < 32`) of any of the seven vector words at `sector_start + 0x00 .. 0x18` or of the
checksum word at `sector_start + 0xB8`, `FlashVerifyChecksum` returns `BLT_FALSE`. -/
theorem single_bit_flip_detected (m : Mem) (wa j : Nat)
    (hv : FlashVerifyChecksum m = true) (hwa : wa ∈ signatureWordAddrs) (hj : j < 32) :
    FlashVerifyChecksum (flipWordBit m wa j) = false := by
  obtain ⟨hlt, hne⟩ := rdWord_flipWordBit_same m wa j hj
  have hold := rdWord_lt m wa
  have hother : ∀ x, x + 4 ≤ wa ∨ wa + 4 ≤ x →
      rdWord (flipWordBit m wa j) x = rdWord m x :=
    fun x hx => rdWord_storeWord_disjoint m wa _ x hx
  have hwa2 : wa = 8192 ∨ wa = 8196 ∨ wa = 8200 ∨ wa = 8204 ∨ wa = 8208 ∨ wa = 8212 ∨
      wa = 8216 ∨ wa = 8376 := by
    simpa [signatureWordAddrs, sector_start0, FLASH_VECTOR_TABLE_CS_OFFSET] using hwa
  have hv2 : (rdWord m 8192 + rdWord m 8196 + rdWord m 8200 + rdWord m 8204 + rdWord m 8208
      + rdWord m 8212 + rdWord m 8216 + rdWord m 8376) % 4294967296 = 0 := by
    by_contra hc
    have hv3 : (if (rdWord m 8192 + rdWord m 8196 + rdWord m 8200 + rdWord m 8204
        + rdWord m 8208 + rdWord m 8212 + rdWord m 8216 + rdWord m 8376) % 4294967296 = 0
        then true else false) = true := hv
    rw [if_neg hc] at hv3
    cases hv3
  have goal2 : (rdWord (flipWordBit m wa j) 8192 + rdWord (flipWordBit m wa j) 8196
      + rdWord (flipWordBit m wa j) 8200 + rdWord (flipWordBit m wa j) 8204
      + rdWord (flipWordBit m wa j) 8208 + rdWord (flipWordBit m wa j) 8212
      + rdWord (flipWordBit m wa j) 8216 + rdWord (flipWordBit m wa j) 8376) % 4294967296
      ≠ 0 := by
    rcases hwa2 with h | h | h | h | h | h | h | h <;> subst h
    · rw [hother 8196 (by omega), hother 8200 (by omega), hother 8204 (by omega),
        hother 8208 (by omega), hother 8212 (by omega), hother 8216 (by omega),
        hother 8376 (by omega)]
      omega
    · rw [hother 8192 (by omega), hother 8200 (by omega), hother 8204 (by omega),
        hother 8208 (by omega), hother 8212 (by omega), hother 8216 (by omega),
        hother 8376 (by omega)]
      omega
    · rw [hother 8192 (by omega), hother 8196 (by omega), hother 8204 (by omega),
        hother 8208 (by omega), hother 8212 (by omega), hother 8216 (by omega),
        hother 8376 (by omega)]
      omega
    · rw [hother 8192 (by omega), hother 8196 (by omega), hother 8200 (by omega),
        hother 8208 (by omega), hother 8212 (by omega), hother 8216 (by omega),
        hother 8376 (by omega)]
      omega
    · rw [hother 8192 (by omega), hother 8196 (by omega), hother 8200 (by omega),
        hother 8204 (by omega), hother 8212 (by omega), hother 8216 (by omega),
        hother 8376 (by omega)]
      omega
    · rw [hother 8192 (by omega), hother 8196 (by omega), hother 8200 (by omega),
        hother 8204 (by omega), hother 8208 (by omega), hother 8216 (by omega),
        hother 8376 (by omega)]
      omega
    · rw [hother 8192 (by omega), hother 8196 (by omega), hother 8200 (by omega),
        hother 8204 (by omega), hother 8208 (by omega), hother 8212 (by omega),
        hother 8376 (by omega)]
      omega
    · rw [hother 8192 (by omega), hother 8196 (by omega), hother 8200 (by omega),
        hother 8204 (by omega), hother 8208 (by omega), hother 8212 (by omega),
        hother 8216 (by omega)]
      omega
  exact if_neg goal2

/-- The round trip for a sample vector table on the device that always succeeds. -/
theorem checksum_round_trip_witness :
    idealDevice.ProgramSucceeds ∧
    FlashVerifyChecksum (FlashDone 32 idealDevice (FlashWriteChecksum 32 idealDevice
      (FlashWrite 32 idealDevice flashLayout0.sector_start 28
        (wordsBytes [0x20001000, 0x2101, 0x2201, 0x2301, 0x2401, 0x2501, 0x2601])
        (FlashInit ⟨⟨0, fun _ => 0⟩, ⟨0, fun _ => 0⟩, fun _ => 0xFF, []⟩)).2).2).2.flash = true :=
  ⟨idealDevice_succeeds,
   (checksum_round_trip 32 idealDevice idealDevice_succeeds ⟨0, fun _ => 0⟩ ⟨0, fun _ => 0⟩
      (fun _ => 0xFF) 0x20001000 0x2101 0x2201 0x2301 0x2401 0x2501 0x2601).2.2.2⟩

/-- An all-zero memory is accepted; with bit 9 of the reset vector flipped it is rejected. -/
theorem single_bit_flip_detected_witness :
    FlashVerifyChecksum (fun _ => 0) = true ∧
    FlashVerifyChecksum (flipWordBit (fun _ => 0) (flashLayout0.sector_start + 0x04) 9) = false :=
  ⟨by decide, single_bit_flip_detected (fun _ => 0) (flashLayout0.sector_start + 0x04) 9
    (by decide) (by decide) (by decide)⟩

theorem programCalls_append : ∀ (a b : List Event),
    programCalls (a ++ b) = programCalls a ++ programCalls b
  | [], b => rfl
  | e :: a, b => by
    have ih := programCalls_append a b
    cases e <;> simp [programCalls, ih]

/-- Shape of the log written by `FlashDone`: the calls for the boot block, then the calls
for the general block. -/
theorem FlashDone_calls (kb : Nat) (dev : Device) (s : FlashState) :
    ∃ new, (FlashDone kb dev s).2.log = new ++ s.log ∧ ∃ c1 c2,
      (programCalls new).reverse = c1 ++ c2 ∧
      (∀ p ∈ c1, inLayout kb s.bootBlockInfo.base_addr ∧ ∃ k, k < 128 ∧
        p.1 = (s.bootBlockInfo.base_addr + k * 4) % 4294967296) ∧
      (∀ p ∈ c2, inLayout kb s.blockInfo.base_addr ∧ ∃ k, k < 128 ∧
        p.1 = (s.blockInfo.base_addr + k * 4) % 4294967296) := by
  -- first the boot block
  have h1 : ∃ e1, (if s.bootBlockInfo.base_addr ≠ FLASH_INVALID_ADDRESS then
        FlashWriteBlock kb dev BlockRef.bootBlockInfo s else (true, s)).2.log = e1 ++ s.log ∧
      (if s.bootBlockInfo.base_addr ≠ FLASH_INVALID_ADDRESS then
        FlashWriteBlock kb dev BlockRef.bootBlockInfo s else (true, s)).2.blockInfo
          = s.blockInfo ∧
      ∀ p ∈ programCalls e1, inLayout kb s.bootBlockInfo.base_addr ∧ ∃ k, k < 128 ∧
        p.1 = (s.bootBlockInfo.base_addr + k * 4) % 4294967296 := by
    split
    · obtain ⟨i1, _, e1, hl, hp⟩ := FlashWriteBlock_general kb dev BlockRef.bootBlockInfo s
      refine ⟨e1, hl, i1, ?_⟩
      intro p hp2
      rcases hp _ (mem_programCalls.1 hp2) with h | ⟨hin, k, hk, h⟩
      · injection h
      · injection h with h1 h2
        exact ⟨hin, k, hk, h1⟩
    · exact ⟨[], rfl, rfl, by simp [programCalls]⟩
  unfold FlashDone
  dsimp only
  generalize (if s.bootBlockInfo.base_addr ≠ FLASH_INVALID_ADDRESS then
        FlashWriteBlock kb dev BlockRef.bootBlockInfo s else (true, s)) = r1 at h1 ⊢
  obtain ⟨e1, hl1, hb1, hp1⟩ := h1
  split
  · exact ⟨e1, hl1, (programCalls e1).reverse, [], by simp,
      fun p hp => hp1 p (List.mem_reverse.1 hp), by simp⟩
  · -- then the general block
    have h2 : ∃ e2, (if r1.2.blockInfo.base_addr ≠ FLASH_INVALID_ADDRESS then
          FlashWriteBlock kb dev BlockRef.blockInfo r1.2 else (true, r1.2)).2.log
            = e2 ++ r1.2.log ∧
        ∀ p ∈ programCalls e2, inLayout kb s.blockInfo.base_addr ∧ ∃ k, k < 128 ∧
          p.1 = (s.blockInfo.base_addr + k * 4) % 4294967296 := by
      split
      · obtain ⟨_, _, e2, hl, hp⟩ := FlashWriteBlock_general kb dev BlockRef.blockInfo r1.2
        refine ⟨e2, hl, ?_⟩
        intro p hp2
        rcases hp _ (mem_programCalls.1 hp2) with h | ⟨hin, k, hk, h⟩
        · injection h
        · injection h with h1 h2
          have hb : (r1.2.block BlockRef.blockInfo) = s.blockInfo := hb1
          rw [hb] at hin h1
          exact ⟨hin, k, hk, h1⟩
      · exact ⟨[], rfl, by simp [programCalls]⟩
    generalize (if r1.2.blockInfo.base_addr ≠ FLASH_INVALID_ADDRESS then
          FlashWriteBlock kb dev BlockRef.blockInfo r1.2 else (true, r1.2)) = r2 at h2 ⊢
    obtain ⟨e2, hl2, hp2⟩ := h2
    split
    · refine ⟨e2 ++ e1, by rw [hl2, hl1, List.append_assoc], (programCalls e1).reverse,
        (programCalls e2).reverse, by rw [programCalls_append, List.reverse_append],
        fun p hp => hp1 p (List.mem_reverse.1 hp), fun p hp => hp2 p (List.mem_reverse.1 hp)⟩
    · refine ⟨Event.mscDeinit :: (e2 ++ e1), ?_, (programCalls e1).reverse,
        (programCalls e2).reverse, ?_,
        fun p hp => hp1 p (List.mem_reverse.1 hp), fun p hp => hp2 p (List.mem_reverse.1 hp)⟩
      · show Event.mscDeinit :: r2.2.log = _
        rw [hl2, hl1, List.cons_append, List.append_assoc]
      · show (programCalls (e2 ++ e1)).reverse = _
        rw [programCalls_append, List.reverse_append]

/-- C8, as amended: in every state that satisfies the accumulator invariant (as every
state reached from `FlashInit` does) and in which both accumulators are active, `FlashDone`
programs the boot block first and the general block last: every program call into the
boot block comes before every program call into the general block. -/
theorem FlashDone_boot_block_first (kb : Nat) (dev : Device) (s : FlashState) (hI : Inv s)
    (hboot : s.bootBlockInfo.base_addr ≠ FLASH_INVALID_ADDRESS)
    (hgen : s.blockInfo.base_addr ≠ FLASH_INVALID_ADDRESS) :
    FlashDoneOrder kb dev s s.bootBlockInfo.base_addr s.blockInfo.base_addr := by
  obtain ⟨new, hlog, c1, c2, hc, h1, h2⟩ := FlashDone_calls kb dev s
  refine ⟨new, hlog, ?_⟩
  have hb : s.bootBlockInfo.base_addr = 8192 := by
    rcases hI.1 with h | h
    · exact absurd h hboot
    · exact h
  have hg : s.blockInfo.base_addr % 512 = 0 ∧ s.blockInfo.base_addr ≠ 8192 := by
    rcases hI.2 with h | h
    · exact absurd h hgen
    · exact h
  rw [hc, hb]
  intro i j p q hp hq hpr hqr
  -- a call into the boot block is one of the first group
  have hi : i < c1.length := by
    by_contra hge
    rw [List.getElem?_append_right (Nat.le_of_not_lt hge)] at hp
    obtain ⟨hin, k, hk, he⟩ := h2 p (List.getElem?_mem hp)
    have := (word_addr_inLayout kb _ k hin hg.1 hk).2 hg.2
    omega
  -- a call into the general block is one of the second group
  have hj : c1.length ≤ j := by
    by_contra hlt
    rw [List.getElem?_append_left (Nat.lt_of_not_le hlt)] at hq
    obtain ⟨hin, k, hk, he⟩ := h1 q (List.getElem?_mem hq)
    rw [hb] at he
    omega
  omega

/-- The order of the program calls for the state `bothPending`. -/
theorem FlashDone_boot_block_first_witness :
    FlashDoneOrder 32 idealDevice bothPending 0x2000 0x4000 :=
  FlashDone_boot_block_first 32 idealDevice bothPending
    ⟨Or.inr rfl, Or.inr ⟨by decide, by decide⟩⟩ (by decide) (by decide)

set_option maxRecDepth 100000 in
/-- C8, as stated, fails: with both accumulators active (boot block `0x2000`, general
block `0x4000`) the first program call of `FlashDone` goes to the boot block and the 129th
to the general block, so the boot block is not programmed last. -/
theorem FlashDone_general_first_counterexample :
    ¬ FlashDoneOrder 32 idealDevice bothPending
      bothPending.blockInfo.base_addr bothPending.bootBlockInfo.base_addr := by
  rintro ⟨new, hlog, hord⟩
  have hnew : new = (FlashDone 32 idealDevice bothPending).2.log := by
    rw [hlog]; exact (List.append_nil new).symm
  subst hnew
  have h0 : (programCalls (FlashDone 32 idealDevice bothPending).2.log).reverse[0]?
      = some (0x2000, 0x22222222) := by decide
  have h128 : (programCalls (FlashDone 32 idealDevice bothPending).2.log).reverse[128]?
      = some (0x4000, 0x11111111) := by decide
  have := hord 128 0 _ _ h128 h0 (by decide) (by decide)
  omega

set_option maxRecDepth 100000 in
/-- C9, evaluated: after `FlashInit`, `FlashErase` of the whole layout, the write of a
vector table, a write to `0x4000` and `FlashWriteChecksum` (each returning `BLT_TRUE`),
`FlashDone` on a device that rejects the word at `0x4000` returns `BLT_FALSE`, and yet
`FlashVerifyChecksum` on the resulting flash returns `BLT_TRUE`: the boot block with the
checksum was programmed before the general block failed. -/
theorem failed_FlashDone_leaves_valid_checksum :
    (FlashErase 32 rejectAt4000 0x2000 0x6000 (FlashInit erasedState)).1 = true ∧
    (FlashWrite 32 rejectAt4000 0x2000 28 sampleVectors
      (runOps 32 rejectAt4000 [Op.init, Op.erase 0x2000 0x6000] erasedState)).1 = true ∧
    (FlashWrite 32 rejectAt4000 0x4000 4 (fun _ => 0xAB)
      (runOps 32 rejectAt4000 [Op.init, Op.erase 0x2000 0x6000,
        Op.write 0x2000 28 sampleVectors] erasedState)).1 = true ∧
    (FlashWriteChecksum 32 rejectAt4000
      (runOps 32 rejectAt4000 [Op.init, Op.erase 0x2000 0x6000,
        Op.write 0x2000 28 sampleVectors, Op.write 0x4000 4 (fun _ => 0xAB)]
        erasedState)).1 = true ∧
    (FlashDone 32 rejectAt4000 interruptedSession).1 = false ∧
    FlashVerifyChecksum (FlashDone 32 rejectAt4000 interruptedSession).2.flash = true := by
  refine ⟨by decide, by decide, by decide, by decide, by decide, by decide⟩

theorem FlashAddToBlock_loop_split (kb : Nat) (dev : Device) (cb : Nat) (data : Mem)
    (block : BlockRef) (m : Nat) : ∀ (n dst src : Nat) (s : FlashState), dst + n ≤ 512 →
    FlashAddToBlock.loop kb dev cb data (n + m) block dst src s
      = FlashAddToBlock.loop kb dev cb data m block (dst + n) (src + n)
          (depositRun block data n dst src s)
  | 0, dst, src, s, _ => by
    rw [Nat.zero_add]; rfl
  | n + 1, dst, src, s, h => by
    have e1 : n + 1 + m = (n + m) + 1 := by omega
    have e2 : dst + (n + 1) = dst + 1 + n := by omega
    have e3 : src + (n + 1) = src + 1 + n := by omega
    rw [e1, e2, e3, FlashAddToBlock.loop]
    dsimp only
    rw [if_neg (by omega), FlashAddToBlock_loop_split kb dev cb data block m n (dst + 1) (src + 1)
      _ (by omega)]
    rfl

theorem FlashAddToBlock_loop_overflow (kb : Nat) (dev : Device) (cb : Nat) (data : Mem)
    (block : BlockRef) (n src : Nat) (s : FlashState) (nb : BlockRef) (t : FlashState)
    (hsw : FlashSwitchBlock kb dev block ((cb + 512) % 4294967296) (s.emit Event.cop)
      = (some nb, t)) :
    FlashAddToBlock.loop kb dev cb data (n + 1) block 512 src s
      = FlashAddToBlock.loop kb dev cb data n nb 1 (src + 1) (depositByte nb 0 (data src) t) := by
  rw [FlashAddToBlock.loop]
  dsimp only
  rw [if_pos (by omega), hsw]

/-- The state after the general block was programmed on a device that accepts it. -/
theorem FlashSwitchBlock_general_ok (kb : Nat) (dev : Device) (T : Nat) (s : FlashState)
    (hT : T ≠ 8192) (hal : T % 512 = 0)
    (hin : inLayout kb s.blockInfo.base_addr)
    (hdev : dev.ProgramSucceedsAt s.blockInfo.base_addr) :
    ∃ k, FlashSwitchBlock kb dev BlockRef.blockInfo T s =
      (some BlockRef.blockInfo,
        (FlashInitBlock BlockRef.blockInfo T
          { s with flash := storeWords s.blockInfo 128 0 s.flash,
                   log := wordEvents s.blockInfo 128 0
                     (List.replicate k Event.cop ++ s.log) }).2) := by
  obtain ⟨k, hk⟩ := FlashWriteBlock_ok kb dev BlockRef.blockInfo s hin hdev
  have hblk : s.block BlockRef.blockInfo = s.blockInfo := rfl
  rw [hblk] at hk
  refine ⟨k, ?_⟩
  unfold FlashSwitchBlock
  rw [if_neg (by decide), if_neg (by rw [sector_start0]; exact hT), hk]
  dsimp only
  rw [if_neg (show ¬ (true = false) by decide)]
  have h1 : (FlashInitBlock BlockRef.blockInfo T
      { s with flash := storeWords s.blockInfo 128 0 s.flash,
               log := wordEvents s.blockInfo 128 0
                 (List.replicate k Event.cop ++ s.log) }).1 = true := by
    unfold FlashInitBlock
    rw [if_neg (by omega)]
    split <;> rfl
  rw [h1, if_neg (show ¬ (true = false) by decide)]

theorem FlashInitBlock_general_frame (T : Nat) (s : FlashState) (hal : T % 512 = 0) :
    (FlashInitBlock BlockRef.blockInfo T s).1 = true ∧
    (FlashInitBlock BlockRef.blockInfo T s).2.blockInfo.base_addr = T ∧
    (FlashInitBlock BlockRef.blockInfo T s).2.bootBlockInfo = s.bootBlockInfo ∧
    (FlashInitBlock BlockRef.blockInfo T s).2.flash = s.flash ∧
    (FlashInitBlock BlockRef.blockInfo T s).2.log = s.log ∧
    (FlashInitBlock BlockRef.blockInfo T s).2.blockInfo.data =
      (if s.blockInfo.base_addr = T then s.blockInfo.data
       else CpuMemCopy s.blockInfo.data s.flash T 512) := by
  unfold FlashInitBlock
  rw [if_neg (by omega)]
  by_cases h : s.blockInfo.base_addr = T
  · rw [if_pos (show (s.block BlockRef.blockInfo).base_addr = T from h), if_pos h]
    exact ⟨rfl, h, rfl, rfl, rfl, rfl⟩
  · rw [if_neg (show ¬ (s.block BlockRef.blockInfo).base_addr = T from h), if_neg h]
    exact ⟨rfl, rfl, rfl, rfl, rfl, rfl⟩

/-- A write routed to the general accumulator, up to the entry of the copy loop, when the
block pending in the general accumulator (if there is one, and if it is another block)
is programmed without error. -/
theorem FlashWrite_general_entry (kb : Nat) (dev : Device) (addr len : Nat) (data : Mem)
    (s : FlashState) (hin1 : inLayout kb addr)
    (hin2 : inLayout kb ((addr + len + 4294967295) % 4294967296))
    (hcb : addr / 512 * 512 ≠ 8192) (hlen1 : 1 ≤ len) (hlen2 : len < 65536)
    (hpend : s.blockInfo.base_addr = FLASH_INVALID_ADDRESS ∨
      s.blockInfo.base_addr = addr / 512 * 512 ∨
      (inLayout kb s.blockInfo.base_addr ∧ dev.ProgramSucceedsAt s.blockInfo.base_addr)) :
    ∃ t, FlashWrite kb dev addr len data s =
        FlashAddToBlock.loop kb dev (addr / 512 * 512) data len BlockRef.blockInfo
          (addr % 512) 0 t ∧
      t.blockInfo.base_addr = addr / 512 * 512 ∧
      t.bootBlockInfo = s.bootBlockInfo ∧
      (s.blockInfo.base_addr = FLASH_INVALID_ADDRESS ∨
          s.blockInfo.base_addr = addr / 512 * 512 → t.flash = s.flash) ∧
      (s.blockInfo.base_addr ≠ FLASH_INVALID_ADDRESS →
          s.blockInfo.base_addr ≠ addr / 512 * 512 →
          t.flash = storeWords s.blockInfo 128 0 s.flash) ∧
      (s.blockInfo.base_addr = addr / 512 * 512 → t.blockInfo.data = s.blockInfo.data) := by
  obtain ⟨k1, e1⟩ := FlashGetSector_eq kb addr s
  obtain ⟨k2, e2⟩ := FlashGetSector_eq kb ((addr + len + 4294967295) % 4294967296) (s.cops k1)
  have hE := layoutEnd_cases kb
  have ha := (inLayout_iff kb addr).1 hin1
  have hal : addr / 512 * 512 % 512 = 0 := by omega
  have hn : (if len % 65536 = 0 then 65536 else len % 65536) = len := by
    have : len % 65536 = len := Nat.mod_eq_of_lt hlen2
    rw [this, if_neg (by omega)]
  have hd : (addr + 4294967296 - addr / 512 * 512) % 4294967296 = addr % 512 := by omega
  unfold FlashWrite
  rw [e1]
  dsimp only
  rw [if_neg ((sectorOf_ne_invalid_iff kb addr).2 hin1), e2]
  dsimp only
  rw [if_neg ((sectorOf_ne_invalid_iff kb _).2 hin2), cops_cops,
    if_neg (show ¬ (addr / 512 * 512 = flashLayout0.sector_start) from hcb)]
  unfold FlashAddToBlock
  dsimp only
  rw [hn]
  generalize hs' : s.cops (k2 + k1) = s'
  have hb' : s'.blockInfo = s.blockInfo := by rw [← hs']; rfl
  have hbt' : s'.bootBlockInfo = s.bootBlockInfo := by rw [← hs']; rfl
  have hf' : s'.flash = s.flash := by rw [← hs']; rfl
  obtain ⟨g1, g2, g3, g4, g5, g6⟩ := FlashInitBlock_general_frame (addr / 512 * 512) s' hal
  by_cases hinv : s.blockInfo.base_addr = FLASH_INVALID_ADDRESS
  · -- unset: initialise
    rw [if_pos (show (s'.block BlockRef.blockInfo).base_addr = FLASH_INVALID_ADDRESS by
      show s'.blockInfo.base_addr = _; rw [hb']; exact hinv), g1,
      if_neg (show ¬ (true = false) by decide),
      if_neg (show ¬ (((FlashInitBlock BlockRef.blockInfo (addr / 512 * 512) s').2.block
        BlockRef.blockInfo).base_addr ≠ addr / 512 * 512) by
          show ¬ ((FlashInitBlock BlockRef.blockInfo (addr / 512 * 512) s').2.blockInfo.base_addr
            ≠ _)
          rw [g2]; simp)]
    dsimp only
    refine ⟨_, ?_, g2, g3.trans hbt', fun _ => g4.trans hf', fun hc => absurd hinv hc, ?_⟩
    · show FlashAddToBlock.loop kb dev _ data len BlockRef.blockInfo
        ((addr + 4294967296 - (FlashInitBlock BlockRef.blockInfo (addr / 512 * 512)
          s').2.blockInfo.base_addr) % 4294967296) 0 _ = _
      rw [g2, hd]
    · intro hc
      rw [hc] at hinv
      unfold FLASH_INVALID_ADDRESS at hinv
      omega
  · rw [if_neg (show ¬ (s'.block BlockRef.blockInfo).base_addr = FLASH_INVALID_ADDRESS by
      show ¬ s'.blockInfo.base_addr = _; rw [hb']; exact hinv)]
    dsimp only
    rw [if_neg (show ¬ (true = false) by decide)]
    by_cases hsame : s.blockInfo.base_addr = addr / 512 * 512
    · -- the same block: nothing to do
      rw [if_neg (show ¬ ((s'.block BlockRef.blockInfo).base_addr ≠ addr / 512 * 512) by
        show ¬ (s'.blockInfo.base_addr ≠ _); rw [hb']; simp [hsame])]
      dsimp only
      refine ⟨s', ?_, by rw [hb']; exact hsame, hbt', fun _ => hf',
        fun _ hc => absurd hsame hc, fun _ => by rw [hb']⟩
      show FlashAddToBlock.loop kb dev _ data len BlockRef.blockInfo
        ((addr + 4294967296 - s'.blockInfo.base_addr) % 4294967296) 0 _ = _
      rw [hb', hsame, hd]
    · -- another block: program the pending one, then initialise
      have hp : inLayout kb s.blockInfo.base_addr ∧
          dev.ProgramSucceedsAt s.blockInfo.base_addr := by
        rcases hpend with h | h | h
        · exact absurd h hinv
        · exact absurd h hsame
        · exact h
      obtain ⟨k3, e3⟩ := FlashSwitchBlock_general_ok kb dev (addr / 512 * 512) s' hcb hal
        (by rw [hb']; exact hp.1) (by rw [hb']; exact hp.2)
      rw [if_pos (show (s'.block BlockRef.blockInfo).base_addr ≠ addr / 512 * 512 by
        show s'.blockInfo.base_addr ≠ _; rw [hb']; exact hsame), e3]
      dsimp only
      obtain ⟨q1, q2, q3, q4, q5, q6⟩ := FlashInitBlock_general_frame (addr / 512 * 512)
        { s' with flash := storeWords s'.blockInfo 128 0 s'.flash,
                  log := wordEvents s'.blockInfo 128 0
                    (List.replicate k3 Event.cop ++ s'.log) } hal
      refine ⟨_, ?_, q2, q3.trans hbt', ?_, fun _ _ => by rw [q4, hb', hf'],
        fun hc => absurd hc hsame⟩
      · show FlashAddToBlock.loop kb dev _ data len BlockRef.blockInfo
          ((addr + 4294967296 - (FlashInitBlock BlockRef.blockInfo (addr / 512 * 512)
            _).2.blockInfo.base_addr) % 4294967296) 0 _ = _
        rw [q2, hd]
      · rintro (hc | hc)
        · exact absurd hc hinv
        · exact absurd hc hsame

/-- One round of the copy loop at the end of the buffer of the general accumulator, on a
device that programs the pending block: the block is programmed, the accumulator moves to
the block after the one the write started in, and the byte is stored at its start. -/
theorem FlashAddToBlock_loop_overflow_general (kb : Nat) (dev : Device) (cb : Nat)
    (data : Mem) (n src : Nat) (s : FlashState)
    (hT : (cb + 512) % 4294967296 ≠ 8192) (hal : (cb + 512) % 4294967296 % 512 = 0)
    (hin : inLayout kb s.blockInfo.base_addr)
    (hdev : dev.ProgramSucceedsAt s.blockInfo.base_addr) :
    ∃ t, FlashAddToBlock.loop kb dev cb data (n + 1) BlockRef.blockInfo 512 src s
        = FlashAddToBlock.loop kb dev cb data n BlockRef.blockInfo 1 (src + 1) t ∧
      t.blockInfo.base_addr = (cb + 512) % 4294967296 ∧
      t.bootBlockInfo = s.bootBlockInfo ∧
      t.flash = storeWords s.blockInfo 128 0 s.flash ∧
      rdByte t.blockInfo.data 0 = rdByte data src := by
  obtain ⟨k, hk⟩ := FlashSwitchBlock_general_ok kb dev ((cb + 512) % 4294967296)
    (s.emit Event.cop) hT hal hin hdev
  obtain ⟨q1, q2, q3, q4, q5, q6⟩ := FlashInitBlock_general_frame ((cb + 512) % 4294967296)
    { s.emit Event.cop with
        flash := storeWords (s.emit Event.cop).blockInfo 128 0 (s.emit Event.cop).flash,
        log := wordEvents (s.emit Event.cop).blockInfo 128 0
          (List.replicate k Event.cop ++ (s.emit Event.cop).log) } hal
  generalize hu : (FlashInitBlock BlockRef.blockInfo ((cb + 512) % 4294967296)
    { s.emit Event.cop with
        flash := storeWords (s.emit Event.cop).blockInfo 128 0 (s.emit Event.cop).flash,
        log := wordEvents (s.emit Event.cop).blockInfo 128 0
          (List.replicate k Event.cop ++ (s.emit Event.cop).log) }).2 = u at hk q2 q3 q4
  refine ⟨depositByte BlockRef.blockInfo 0 (data src) u,
    FlashAddToBlock_loop_overflow kb dev cb data BlockRef.blockInfo n src s _ _ hk,
    ?_, ?_, ?_, ?_⟩
  · exact q2
  · exact q3
  · exact q4
  · show ((if (0 : Nat) = 0 then data src % 256 else u.blockInfo.data 0)) % 256 = _
    rw [if_pos rfl]
    exact Nat.mod_mod _ _

/-- Rounds of the copy loop that stay inside the buffer of the general accumulator. -/
theorem FlashAddToBlock_loop_run_general (kb : Nat) (dev : Device) (cb : Nat) (data : Mem)
    (n m dst src : Nat) (s : FlashState) (h : dst + n ≤ 512) :
    ∃ t, FlashAddToBlock.loop kb dev cb data (n + m) BlockRef.blockInfo dst src s
        = FlashAddToBlock.loop kb dev cb data m BlockRef.blockInfo (dst + n) (src + n) t ∧
      t.blockInfo.base_addr = s.blockInfo.base_addr ∧
      t.bootBlockInfo = s.bootBlockInfo ∧
      t.flash = s.flash ∧
      t.blockInfo.data = patch s.blockInfo.data dst n data src := by
  obtain ⟨d1, _, d3, d4, d5⟩ := depositRun_frame BlockRef.blockInfo data n dst src s
  exact ⟨_, FlashAddToBlock_loop_split kb dev cb data BlockRef.blockInfo m n dst src s h,
    d3, d5 BlockRef.bootBlockInfo (by decide), d1, d4⟩

/-- `FlashDone` when only the general block is pending and the device programs it. -/
theorem FlashDone_general_only (kb : Nat) (dev : Device) (s : FlashState)
    (hboot : s.bootBlockInfo.base_addr = FLASH_INVALID_ADDRESS)
    (hin : inLayout kb s.blockInfo.base_addr)
    (hdev : dev.ProgramSucceedsAt s.blockInfo.base_addr) :
    (FlashDone kb dev s).1 = true ∧
    (FlashDone kb dev s).2.flash = storeWords s.blockInfo 128 0 s.flash := by
  obtain ⟨k, hk⟩ := FlashWriteBlock_ok kb dev BlockRef.blockInfo s hin hdev
  have hblk : s.block BlockRef.blockInfo = s.blockInfo := rfl
  rw [hblk] at hk
  have hne : s.blockInfo.base_addr ≠ FLASH_INVALID_ADDRESS := by
    intro hc
    rw [hc] at hin
    exact not_inLayout_invalid kb hin
  unfold FlashDone
  rw [if_neg (show ¬ (s.bootBlockInfo.base_addr ≠ FLASH_INVALID_ADDRESS) by rw [hboot]; simp)]
  dsimp only
  rw [if_neg (show ¬ (true = false) by decide), if_pos hne, hk]
  dsimp only
  rw [if_neg (show ¬ (true = false) by decide)]
  exact ⟨rfl, rfl⟩

theorem idealDevice_succeeds_at (base : Nat) : idealDevice.ProgramSucceedsAt base :=
  ProgramSucceeds_at idealDevice_succeeds base

/-- One write of 514 bytes at `0x41FF` followed by `FlashDone`: both return `BLT_TRUE`,
and the byte at `0x4400`, the last one of the range, is not written. -/
theorem single_write_result (data : Mem) (s0 : FlashState)
    (hg : s0.blockInfo.base_addr = FLASH_INVALID_ADDRESS)
    (hb : s0.bootBlockInfo.base_addr = FLASH_INVALID_ADDRESS) :
    (FlashWrite 32 idealDevice 0x41FF 514 data s0).1 = true ∧
    (FlashDone 32 idealDevice (FlashWrite 32 idealDevice 0x41FF 514 data s0).2).1 = true ∧
    (FlashDone 32 idealDevice (FlashWrite 32 idealDevice 0x41FF 514 data s0).2).2.flash
      0x4400 = s0.flash 0x4400 := by
  obtain ⟨t, hW, tb, tboot, tf, _, _⟩ := FlashWrite_general_entry 32 idealDevice 0x41FF 514
    data s0 (by decide) (by decide) (by decide) (by decide) (by decide) (Or.inl hg)
  obtain ⟨t1, h1, b1, bt1, f1, _⟩ := FlashAddToBlock_loop_run_general 32 idealDevice
    (0x41FF / 512 * 512) data 1 513 (0x41FF % 512) 0 t (by decide)
  obtain ⟨t2, h2, b2, bt2, f2, _⟩ := FlashAddToBlock_loop_overflow_general 32 idealDevice
    (0x41FF / 512 * 512) data 512 (0 + 1) t1 (by decide) (by decide)
    (by rw [b1, tb]; decide) (idealDevice_succeeds_at _)
  obtain ⟨t3, h3, b3, bt3, f3, _⟩ := FlashAddToBlock_loop_run_general 32 idealDevice
    (0x41FF / 512 * 512) data 511 1 1 (0 + 1 + 1) t2 (by decide)
  obtain ⟨t4, h4, b4, bt4, f4, _⟩ := FlashAddToBlock_loop_overflow_general 32 idealDevice
    (0x41FF / 512 * 512) data 0 (0 + 1 + 1 + 511) t3 (by decide) (by decide)
    (by rw [b3, b2]; decide) (idealDevice_succeeds_at _)
  have hall : FlashWrite 32 idealDevice 0x41FF 514 data s0 = (true, t4) :=
    hW.trans (h1.trans (h2.trans (h3.trans h4)))
  rw [hall]
  have hboot4 : t4.bootBlockInfo.base_addr = FLASH_INVALID_ADDRESS := by
    rw [bt4, bt3, bt2, bt1, tboot]; exact hb
  obtain ⟨d1, d2⟩ := FlashDone_general_only 32 idealDevice t4 hboot4 (by rw [b4]; decide)
    (idealDevice_succeeds_at _)
  refine ⟨rfl, d1, ?_⟩
  rw [d2, storeWords_outside _ _ _ (by rw [b4]; decide) (by rw [b4]; decide), f4,
    storeWords_outside _ _ _ (by rw [b3, b2]; decide) (by rw [b3, b2]; decide), f3, f2,
    storeWords_outside _ _ _ (by rw [b1, tb]; decide) (by rw [b1, tb]; decide), f1,
    tf (Or.inl hg)]

/-- The same 514 bytes written as chunks of 1, 512 and 1 bytes, followed by `FlashDone`:
all calls return `BLT_TRUE`, and the byte at `0x4400` is the last byte of the data. -/
theorem chunked_write_result (data : Mem) (s0 : FlashState)
    (hg : s0.blockInfo.base_addr = FLASH_INVALID_ADDRESS)
    (hb : s0.bootBlockInfo.base_addr = FLASH_INVALID_ADDRESS) :
    (FlashWrite 32 idealDevice 0x41FF 1 data s0).1 = true ∧
    (FlashWrite 32 idealDevice 0x4200 512 (fun i => data (i + 1))
      (FlashWrite 32 idealDevice 0x41FF 1 data s0).2).1 = true ∧
    (FlashWrite 32 idealDevice 0x4400 1 (fun i => data (i + 513))
      (FlashWrite 32 idealDevice 0x4200 512 (fun i => data (i + 1))
        (FlashWrite 32 idealDevice 0x41FF 1 data s0).2).2).1 = true ∧
    (FlashDone 32 idealDevice
      (FlashWrite 32 idealDevice 0x4400 1 (fun i => data (i + 513))
        (FlashWrite 32 idealDevice 0x4200 512 (fun i => data (i + 1))
          (FlashWrite 32 idealDevice 0x41FF 1 data s0).2).2).2).1 = true ∧
    (FlashDone 32 idealDevice
      (FlashWrite 32 idealDevice 0x4400 1 (fun i => data (i + 513))
        (FlashWrite 32 idealDevice 0x4200 512 (fun i => data (i + 1))
          (FlashWrite 32 idealDevice 0x41FF 1 data s0).2).2).2).2.flash 0x4400
      = data 513 % 256 := by
  -- first chunk
  obtain ⟨t, hW, tb, tboot, _, _, _⟩ := FlashWrite_general_entry 32 idealDevice 0x41FF 1
    data s0 (by decide) (by decide) (by decide) (by decide) (by decide) (Or.inl hg)
  obtain ⟨t1, h1, b1, bt1, _, _⟩ := FlashAddToBlock_loop_run_general 32 idealDevice
    (0x41FF / 512 * 512) data 1 0 (0x41FF % 512) 0 t (by decide)
  have e1 : FlashWrite 32 idealDevice 0x41FF 1 data s0 = (true, t1) := hW.trans h1
  rw [e1]
  -- second chunk: block 0x4000 is programmed first
  obtain ⟨u, hU, ub, uboot, _, _, _⟩ := FlashWrite_general_entry 32 idealDevice 0x4200 512
    (fun i => data (i + 1)) t1 (by decide) (by decide) (by decide) (by decide) (by decide)
    (Or.inr (Or.inr ⟨by rw [b1, tb]; decide, idealDevice_succeeds_at _⟩))
  obtain ⟨u1, g1, c1, ct1, _, _⟩ := FlashAddToBlock_loop_run_general 32 idealDevice
    (0x4200 / 512 * 512) (fun i => data (i + 1)) 512 0 (0x4200 % 512) 0 u (by decide)
  have e2 : FlashWrite 32 idealDevice 0x4200 512 (fun i => data (i + 1)) t1 = (true, u1) :=
    hU.trans g1
  dsimp only
  rw [e2]
  -- third chunk: block 0x4200 is programmed first
  obtain ⟨v, hV, vb, vboot, _, _, _⟩ := FlashWrite_general_entry 32 idealDevice 0x4400 1
    (fun i => data (i + 513)) u1 (by decide) (by decide) (by decide) (by decide) (by decide)
    (Or.inr (Or.inr ⟨by rw [c1, ub]; decide, idealDevice_succeeds_at _⟩))
  obtain ⟨v1, k1, a1, at1, _, ad1⟩ := FlashAddToBlock_loop_run_general 32 idealDevice
    (0x4400 / 512 * 512) (fun i => data (i + 513)) 1 0 (0x4400 % 512) 0 v (by decide)
  have e3 : FlashWrite 32 idealDevice 0x4400 1 (fun i => data (i + 513)) u1 = (true, v1) :=
    hV.trans k1
  dsimp only
  rw [e3]
  have hboot : v1.bootBlockInfo.base_addr = FLASH_INVALID_ADDRESS := by
    rw [at1, vboot, ct1, uboot, bt1, tboot]; exact hb
  have hbase : v1.blockInfo.base_addr = 0x4400 := by rw [a1, vb]
  obtain ⟨d1, d2⟩ := FlashDone_general_only 32 idealDevice v1 hboot (by rw [hbase]; decide)
    (idealDevice_succeeds_at _)
  refine ⟨rfl, rfl, rfl, d1, ?_⟩
  dsimp only
  rw [d2, storeWords_apply _ 128 0 _ _ (by rw [hbase]; decide),
    if_pos (by rw [hbase]; decide), hbase, ad1]
  unfold rdByte patch
  rw [if_pos (by decide)]
  show data (0 + (0x4400 - 0x4400 - 0x4400 % 512) + 513) % 256 % 256 = _
  rw [Nat.mod_mod]

/-- C5, evaluated on a device that always succeeds, erased flash, 32 KB layout. The
range of 514 bytes at `0x41FF` (it spans three 512-byte blocks) written by one
`FlashWrite` and finalised leaves the erased value `0xFF` at `0x4400`, its last byte;
the same bytes written as chunks of 1, 512 and 1 bytes leave the data byte `0x11`
there. Every call of both sessions returns `BLT_TRUE`. -/
theorem chunking_changes_flash :
    ((FlashWrite 32 idealDevice 0x41FF 514 chunkData (FlashInit erasedState)).1 = true ∧
     (FlashDone 32 idealDevice
        (FlashWrite 32 idealDevice 0x41FF 514 chunkData (FlashInit erasedState)).2).1 = true ∧
     (FlashDone 32 idealDevice
        (FlashWrite 32 idealDevice 0x41FF 514 chunkData (FlashInit erasedState)).2).2.flash
          0x4400 = 0xFF) ∧
    ((FlashWrite 32 idealDevice 0x41FF 1 chunkData (FlashInit erasedState)).1 = true ∧
     (FlashWrite 32 idealDevice 0x4200 512 (fun i => chunkData (i + 1))
        (FlashWrite 32 idealDevice 0x41FF 1 chunkData (FlashInit erasedState)).2).1 = true ∧
     (FlashWrite 32 idealDevice 0x4400 1 (fun i => chunkData (i + 513))
        (FlashWrite 32 idealDevice 0x4200 512 (fun i => chunkData (i + 1))
          (FlashWrite 32 idealDevice 0x41FF 1 chunkData (FlashInit erasedState)).2).2).1
        = true ∧
     (FlashDone 32 idealDevice
        (FlashWrite 32 idealDevice 0x4400 1 (fun i => chunkData (i + 513))
          (FlashWrite 32 idealDevice 0x4200 512 (fun i => chunkData (i + 1))
            (FlashWrite 32 idealDevice 0x41FF 1 chunkData (FlashInit erasedState)).2).2).2).1
        = true ∧
     (FlashDone 32 idealDevice
        (FlashWrite 32 idealDevice 0x4400 1 (fun i => chunkData (i + 513))
          (FlashWrite 32 idealDevice 0x4200 512 (fun i => chunkData (i + 1))
            (FlashWrite 32 idealDevice 0x41FF 1 chunkData
              (FlashInit erasedState)).2).2).2).2.flash 0x4400 = 0x11) := by
  obtain ⟨a1, a2, a3⟩ := single_write_result chunkData (FlashInit erasedState) rfl rfl
  obtain ⟨b1, b2, b3, b4, b5⟩ := chunked_write_result chunkData (FlashInit erasedState) rfl rfl
  exact ⟨⟨a1, a2, a3.trans rfl⟩, b1, b2, b3, b4, b5.trans rfl⟩

theorem FlashInitBlock_bootKept (block : BlockRef) (a : Nat) (s : FlashState)
    (hb : block = BlockRef.bootBlockInfo → a = 8192)
    (h : s.bootBlockInfo.base_addr = 8192) :
    (FlashInitBlock block a s).2.bootBlockInfo.base_addr = 8192 := by
  unfold FlashInitBlock
  split
  · exact h
  · split
    · exact h
    · cases block
      · exact h
      · exact hb rfl

theorem FlashSwitchBlock_bootKept (kb : Nat) (dev : Device) (block : BlockRef) (T : Nat)
    (s : FlashState) (h : s.bootBlockInfo.base_addr = 8192) :
    (FlashSwitchBlock kb dev block T s).2.bootBlockInfo.base_addr = 8192 := by
  unfold FlashSwitchBlock
  split
  · have := FlashInitBlock_bootKept BlockRef.blockInfo T s (fun hx => by cases hx) h
    dsimp only
    split <;> exact this
  · split
    · have := FlashInitBlock_bootKept BlockRef.bootBlockInfo flashLayout0.sector_start s
        (fun _ => rfl) h
      dsimp only
      split <;> exact this
    · have hw : (FlashWriteBlock kb dev block s).2.bootBlockInfo.base_addr = 8192 := by
        rw [(FlashWriteBlock_general kb dev block s).2.1]; exact h
      dsimp only
      split
      · exact hw
      · rename_i hbl _ _
        have hblk : block = BlockRef.blockInfo := by
          cases block
          · rfl
          · exact absurd rfl hbl
        have := FlashInitBlock_bootKept block T _ (fun hx => by rw [hblk] at hx; cases hx) hw
        split <;> exact this

theorem depositByte_bootKept (block : BlockRef) (off byte : Nat) (s : FlashState)
    (h : s.bootBlockInfo.base_addr = 8192) :
    (depositByte block off byte s).bootBlockInfo.base_addr = 8192 := by
  cases block <;> exact h

theorem FlashAddToBlock_loop_bootKept (kb : Nat) (dev : Device) (cb : Nat) (data : Mem) :
    ∀ (n : Nat) (block : BlockRef) (dst src : Nat) (s : FlashState),
    s.bootBlockInfo.base_addr = 8192 →
    (FlashAddToBlock.loop kb dev cb data n block dst src s).2.bootBlockInfo.base_addr = 8192
  | 0, _, _, _, _, h => h
  | n + 1, block, dst, src, s, h => by
    have hc : (s.emit Event.cop).bootBlockInfo.base_addr = 8192 := h
    rw [FlashAddToBlock.loop]
    dsimp only
    split
    · have hs := FlashSwitchBlock_bootKept kb dev block ((cb + 512) % 4294967296) _ hc
      split
      · exact hs
      · exact FlashAddToBlock_loop_bootKept kb dev cb data n _ 1 (src + 1) _
          (depositByte_bootKept _ 0 (data src) _ hs)
    · exact FlashAddToBlock_loop_bootKept kb dev cb data n block (dst + 1) (src + 1) _
        (depositByte_bootKept block dst (data src) _ hc)

theorem FlashAddToBlock_bootKept (kb : Nat) (dev : Device) (block : BlockRef) (address : Nat)
    (data : Mem) (len : Nat) (s : FlashState) (hI : Inv s)
    (hb : block = BlockRef.bootBlockInfo → address / 512 * 512 = 8192)
    (h : s.bootBlockInfo.base_addr = 8192 ∨ block = BlockRef.bootBlockInfo) :
    (FlashAddToBlock kb dev block address data len s).2.bootBlockInfo.base_addr = 8192 := by
  unfold FlashAddToBlock
  dsimp only
  have h0 : (if (s.block block).base_addr = FLASH_INVALID_ADDRESS then
        FlashInitBlock block (address / 512 * 512) s else (true, s)).2.bootBlockInfo.base_addr
          = 8192 := by
    split
    · rename_i hinv
      rcases h with h | h
      · exact FlashInitBlock_bootKept block _ s hb h
      · subst h
        unfold FlashInitBlock
        rw [if_neg (by omega)]
        split
        · rename_i heq
          rw [hb rfl] at heq
          exact heq
        · exact hb rfl
    · rename_i hinv
      rcases h with h | h
      · exact h
      · subst h
        rcases hI.1 with h1 | h1
        · exact absurd h1 hinv
        · exact h1
  generalize (if (s.block block).base_addr = FLASH_INVALID_ADDRESS then
        FlashInitBlock block (address / 512 * 512) s else (true, s)) = r0 at h0 ⊢
  split
  · exact h0
  · have h1 : (if (r0.2.block block).base_addr ≠ address / 512 * 512 then
          FlashSwitchBlock kb dev block (address / 512 * 512) r0.2
            else (some block, r0.2)).2.bootBlockInfo.base_addr = 8192 := by
      split
      · exact FlashSwitchBlock_bootKept kb dev block _ r0.2 h0
      · exact h0
    generalize (if (r0.2.block block).base_addr ≠ address / 512 * 512 then
          FlashSwitchBlock kb dev block (address / 512 * 512) r0.2
            else (some block, r0.2)) = r1 at h1 ⊢
    split
    · exact h1
    · exact FlashAddToBlock_loop_bootKept kb dev _ data _ _ _ 0 r1.2 h1

/-- Once the boot block accumulator holds the first block it keeps it, and a write that
passes the range check and starts in the first block makes it hold that block. -/
theorem FlashWrite_bootKept (kb : Nat) (dev : Device) (addr len : Nat) (data : Mem)
    (s : FlashState) (hI : Inv s)
    (h : s.bootBlockInfo.base_addr = 8192 ∨
      (8192 ≤ addr ∧ addr < 8192 + 512 ∧
        inLayout kb ((addr + len + 4294967295) % 4294967296))) :
    (FlashWrite kb dev addr len data s).2.bootBlockInfo.base_addr = 8192 := by
  by_cases hin : inLayout kb addr ∧ inLayout kb ((addr + len + 4294967295) % 4294967296)
  · obtain ⟨k1, h1⟩ := FlashGetSector_eq kb addr s
    obtain ⟨k2, h2⟩ := FlashGetSector_eq kb ((addr + len + 4294967295) % 4294967296) (s.cops k1)
    unfold FlashWrite
    rw [h1]
    dsimp only
    rw [if_neg ((sectorOf_ne_invalid_iff kb addr).2 hin.1), h2]
    dsimp only
    rw [if_neg ((sectorOf_ne_invalid_iff kb _).2 hin.2), cops_cops, sector_start0]
    split
    · rename_i hcb
      exact FlashAddToBlock_bootKept kb dev BlockRef.bootBlockInfo addr data _ _ hI
        (fun _ => hcb) (Or.inr rfl)
    · rename_i hcb
      have hb : s.bootBlockInfo.base_addr = 8192 := by
        rcases h with h | h
        · exact h
        · exact absurd (show addr / 512 * 512 = 8192 by omega) hcb
      exact FlashAddToBlock_bootKept kb dev BlockRef.blockInfo addr data _ _ hI
        (fun hx => by cases hx) (Or.inl hb)
  · have hor : ¬ inLayout kb addr ∨
        ¬ inLayout kb ((addr + len + 4294967295) % 4294967296) := by
      by_cases ha : inLayout kb addr
      · exact Or.inr (fun hb => hin ⟨ha, hb⟩)
      · exact Or.inl ha
    obtain ⟨k, hk⟩ := FlashWrite_reject kb dev addr len data s hor
    rw [hk]
    rcases h with h | h
    · exact h
    · exfalso
      rcases hor with h3 | h3
      · apply h3
        rw [inLayout_iff]
        have := layoutEnd_cases kb
        omega
      · exact h3 h.2.2

theorem runOps_writes (kb : Nat) (dev : Device) : ∀ (ws : List (Nat × Nat × Mem))
    (s : FlashState), Inv s →
    Inv (runOps kb dev (writeOps ws) s) ∧
    logExt (Event.writeStep kb) s (runOps kb dev (writeOps ws) s) ∧
    ((s.bootBlockInfo.base_addr = 8192 ∨
      ∃ w ∈ ws, 8192 ≤ w.1 ∧ w.1 < 8192 + 512 ∧
        inLayout kb ((w.1 + w.2.1 + 4294967295) % 4294967296)) →
      (runOps kb dev (writeOps ws) s).bootBlockInfo.base_addr = 8192)
  | [], s, h => ⟨h, logExt_refl _ s, fun hb => by
      rcases hb with hb | ⟨w, hw, _⟩
      · exact hb
      · cases hw⟩
  | w :: ws, s, h => by
    obtain ⟨i1, i2⟩ := FlashWrite_Inv kb dev w.1 w.2.1 w.2.2 s h
    obtain ⟨j1, j2, j3⟩ := runOps_writes kb dev ws _ i1
    refine ⟨j1, logExt_trans i2 j2, ?_⟩
    intro hb
    apply j3
    rcases hb with hb | ⟨x, hx, hx2⟩
    · exact Or.inl (FlashWrite_bootKept kb dev w.1 w.2.1 w.2.2 s h (Or.inl hb))
    · rcases List.mem_cons.1 hx with hx | hx
      · subst hx
        exact Or.inl (FlashWrite_bootKept kb dev x.1 x.2.1 x.2.2 s h (Or.inr hx2))
      · exact Or.inr ⟨x, hx, hx2⟩

theorem mem_depositEvents (boot : Bool) (data : Mem) : ∀ (n dst src : Nat) (l : List Event)
    (i : Nat), i < n →
    Event.deposit boot (dst + i) (data (src + i) % 256) ∈ depositEvents boot data n dst src l
  | 0, _, _, _, _, h => by omega
  | n + 1, dst, src, l, i, h => by
    rw [depositEvents]
    have hpre : ∀ (n2 dst2 src2 : Nat) (l2 : List Event) (e : Event), e ∈ l2 →
        e ∈ depositEvents boot data n2 dst2 src2 l2 := by
      intro n2
      induction n2 with
      | zero => intro _ _ l2 e he; exact he
      | succ n2 ih =>
        intro dst2 src2 l2 e he
        rw [depositEvents]
        exact ih _ _ _ e (List.mem_cons_of_mem _ (List.mem_cons_of_mem _ he))
    cases i with
    | zero => exact hpre _ _ _ _ _ (List.mem_cons_self _ _)
    | succ i =>
      have := mem_depositEvents boot data n (dst + 1) (src + 1)
        (Event.deposit boot dst (data src % 256) :: Event.cop :: l) i (by omega)
      have e1 : dst + 1 + i = dst + (i + 1) := by omega
      have e2 : src + 1 + i = src + (i + 1) := by omega
      rw [e1, e2] at this
      exact this

theorem callsTo_append (a : Nat) (l1 l2 : List (Nat × Nat)) :
    callsTo a (l1 ++ l2) = callsTo a l1 + callsTo a l2 := by
  unfold callsTo
  exact List.countP_append _ _ _

theorem callsTo_reverse (a : Nat) (l : List (Nat × Nat)) :
    callsTo a l.reverse = callsTo a l := by
  unfold callsTo
  exact List.countP_reverse _ _

theorem callsTo_eq_zero (a : Nat) (l : List (Nat × Nat)) (h : ∀ p ∈ l, p.1 ≠ a) :
    callsTo a l = 0 := by
  unfold callsTo
  rw [List.countP_eq_zero]
  intro p hp
  simpa using h p hp

theorem callsTo_blockWordsFrom_miss (b : tFlashBlockInfo) (a : Nat) : ∀ (n wc : Nat),
    b.base_addr + (wc + n) * 4 ≤ 4294967296 →
    (∀ j, wc ≤ j → j < wc + n → a ≠ b.base_addr + j * 4) →
    callsTo a (blockWordsFrom b n wc) = 0
  | 0, wc, _, _ => rfl
  | n + 1, wc, h, hj => by
    have ih := callsTo_blockWordsFrom_miss b a n (wc + 1) (by omega)
      (fun j h1 h2 => hj j (by omega) (by omega))
    have hmod : (b.base_addr + wc * 4) % 4294967296 = b.base_addr + wc * 4 :=
      Nat.mod_eq_of_lt (by omega)
    have h0 := hj wc (Nat.le_refl _) (by omega)
    unfold callsTo at ih ⊢
    rw [blockWordsFrom, List.countP_cons, ih, hmod,
      if_neg (by simp only [decide_eq_true_eq]; exact fun hc => h0 hc.symm)]

theorem callsTo_blockWordsFrom_hit (b : tFlashBlockInfo) : ∀ (n wc j : Nat),
    b.base_addr + (wc + n) * 4 ≤ 4294967296 → wc ≤ j → j < wc + n →
    callsTo (b.base_addr + j * 4) (blockWordsFrom b n wc) = 1
  | 0, wc, j, _, h1, h2 => by omega
  | n + 1, wc, j, h, h1, h2 => by
    have hmod : (b.base_addr + wc * 4) % 4294967296 = b.base_addr + wc * 4 :=
      Nat.mod_eq_of_lt (by omega)
    by_cases hj : j = wc
    · subst hj
      have hz := callsTo_blockWordsFrom_miss b (b.base_addr + j * 4) n (j + 1) (by omega)
        (fun i i1 i2 => by omega)
      unfold callsTo at hz ⊢
      rw [blockWordsFrom, List.countP_cons, hz, hmod,
        if_pos (by simp only [decide_eq_true_eq])]
    · have ih := callsTo_blockWordsFrom_hit b n (wc + 1) j (by omega) (by omega) (by omega)
      unfold callsTo at ih ⊢
      rw [blockWordsFrom, List.countP_cons, ih, hmod,
        if_neg (by simp only [decide_eq_true_eq]; omega)]

theorem mem_blockWordsFrom (b : tFlashBlockInfo) : ∀ (n wc j : Nat), wc ≤ j → j < wc + n →
    ((b.base_addr + j * 4) % 4294967296, rdWord b.data (j * 4)) ∈ blockWordsFrom b n wc
  | 0, wc, j, h1, h2 => by omega
  | n + 1, wc, j, h1, h2 => by
    rw [blockWordsFrom]
    by_cases hj : j = wc
    · subst hj; exact List.mem_cons_self _ _
    · exact List.mem_cons_of_mem _ (mem_blockWordsFrom b n (wc + 1) j (by omega) (by omega))

/-- `FlashDone` when the boot block is pending and the device programs it: the 128 words
of the boot block are programmed first; whatever follows stays outside the boot block. -/
theorem FlashDone_boot_ok (kb : Nat) (dev : Device) (s : FlashState) (hI : Inv s)
    (hboot : s.bootBlockInfo.base_addr = 8192) (hdev : dev.ProgramSucceedsAt 8192) :
    ∃ k tail, (FlashDone kb dev s).2.log =
        tail ++ wordEvents s.bootBlockInfo 128 0 (List.replicate k Event.cop ++ s.log) ∧
      ∀ p ∈ programCalls tail, p.1 < 8192 ∨ 8192 + 512 ≤ p.1 := by
  obtain ⟨k, hk⟩ := FlashWriteBlock_ok kb dev BlockRef.bootBlockInfo s
    (by show inLayout kb s.bootBlockInfo.base_addr; rw [hboot]; exact inLayout_sector_start kb)
    (by show dev.ProgramSucceedsAt s.bootBlockInfo.base_addr; rw [hboot]; exact hdev)
  have hblk : s.block BlockRef.bootBlockInfo = s.bootBlockInfo := rfl
  rw [hblk] at hk
  refine ⟨k, ?_⟩
  obtain ⟨sW, hsW⟩ : ∃ sW : FlashState, sW =
      { s with flash := storeWords s.bootBlockInfo 128 0 s.flash,
               log := wordEvents s.bootBlockInfo 128 0
                 (List.replicate k Event.cop ++ s.log) } := ⟨_, rfl⟩
  rw [← hsW] at hk
  unfold FlashDone
  rw [if_pos (show s.bootBlockInfo.base_addr ≠ FLASH_INVALID_ADDRESS by rw [hboot]; decide), hk]
  dsimp only
  rw [if_neg (show ¬ (true = false) by decide)]
  have hIW : Inv sW := by
    rw [hsW]; exact hI
  have hlW : sW.log = wordEvents s.bootBlockInfo 128 0 (List.replicate k Event.cop ++ s.log) := by
    rw [hsW]
  have h2 : logExt (Event.writeStep kb) sW
      (if sW.blockInfo.base_addr ≠ FLASH_INVALID_ADDRESS then
        FlashWriteBlock kb dev BlockRef.blockInfo sW else (true, sW)).2 := by
    split
    · exact FlashWriteBlock_writeStep kb dev sW hIW
    · exact logExt_refl _ _
  generalize (if sW.blockInfo.base_addr ≠ FLASH_INVALID_ADDRESS then
        FlashWriteBlock kb dev BlockRef.blockInfo sW else (true, sW)) = r2 at h2 ⊢
  obtain ⟨evs, hl, hp⟩ := h2
  have hcalls : ∀ p ∈ programCalls evs, p.1 < 8192 ∨ 8192 + 512 ≤ p.1 := by
    intro p hpm
    have := hp _ (mem_programCalls.1 hpm)
    exact this.2
  split
  · exact ⟨evs, by rw [hl, hlW], hcalls⟩
  · refine ⟨Event.mscDeinit :: evs, ?_, hcalls⟩
    show Event.mscDeinit :: r2.2.log = _
    rw [hl, hlW, List.cons_append]

theorem wordBytes_mod (w i : Nat) : wordBytes w i % 256 = wordBytes w i := by
  unfold wordBytes
  split
  · exact Nat.mod_mod _ _
  · split
    · exact Nat.mod_mod _ _
    · split
      · exact Nat.mod_mod _ _
      · split
        · exact Nat.mod_mod _ _
        · rfl

theorem signatureChecksum_lt (d : Mem) : signatureChecksum d < 4294967296 :=
  Nat.mod_lt _ (by decide)

/-- C10: on a device whose program operations succeed, in every session `FlashInit`;
`FlashWrite` calls of which at least one passes the range check and starts in the first
512-byte block of `flashLayout[0]`; `FlashWriteChecksum`; `FlashDone`:
(1) no program call made before `FlashDone` targets `[sector_start, sector_start + 512)`;
(2) `FlashWriteChecksum` deposits the four checksum bytes in the boot block buffer, so
    that the buffer word at `0xB8` is the checksum of the buffered vector words;
(3) `FlashDone` makes exactly one program call for each of the 128 words of that block,
    carrying the buffer content as it is after the checksum was deposited. -/
theorem boot_block_programmed_once (kb : Nat) (dev : Device) (hdev : dev.ProgramSucceeds)
    (ram1 ram2 : tFlashBlockInfo) (mem : Mem) (ws : List (Nat × Nat × Mem))
    (htouch : ∃ w ∈ ws, flashLayout0.sector_start ≤ w.1 ∧
      w.1 < flashLayout0.sector_start + 512 ∧
      inLayout kb ((w.1 + w.2.1 + 4294967295) % 4294967296)) :
    (∀ a w, (a, w) ∈ programCalls (sessionChecksum kb dev ram1 ram2 mem ws).log →
      a < flashLayout0.sector_start ∨ flashLayout0.sector_start + 512 ≤ a) ∧
    (∀ i, i < 4 →
      Event.deposit true (FLASH_VECTOR_TABLE_CS_OFFSET + i)
        (wordBytes (signatureChecksum (sessionWrites kb dev ram1 ram2 mem ws).bootBlockInfo.data)
          i) ∈ (sessionChecksum kb dev ram1 ram2 mem ws).log) ∧
    rdWord (sessionChecksum kb dev ram1 ram2 mem ws).bootBlockInfo.data
        FLASH_VECTOR_TABLE_CS_OFFSET
      = signatureChecksum (sessionWrites kb dev ram1 ram2 mem ws).bootBlockInfo.data ∧
    ∃ new, (sessionDone kb dev ram1 ram2 mem ws).log
        = new ++ (sessionChecksum kb dev ram1 ram2 mem ws).log ∧
      ∀ k, k < 128 →
        callsTo (flashLayout0.sector_start + k * 4) (programCalls new).reverse = 1 ∧
        (flashLayout0.sector_start + k * 4,
          rdWord (sessionChecksum kb dev ram1 ram2 mem ws).bootBlockInfo.data (k * 4))
            ∈ programCalls new := by
  rw [sector_start0] at htouch ⊢
  unfold sessionDone sessionChecksum
  generalize hs1 : sessionWrites kb dev ram1 ram2 mem ws = s1
  obtain ⟨I1, L1, B1⟩ := runOps_writes kb dev ws (FlashInit ⟨ram1, ram2, mem, []⟩)
    (FlashInit_Inv _)
  have hs1' : runOps kb dev (writeOps ws) (FlashInit ⟨ram1, ram2, mem, []⟩) = s1 := hs1
  rw [hs1'] at I1 L1 B1
  have hb1 : s1.bootBlockInfo.base_addr = 8192 := B1 (Or.inr htouch)
  -- the checksum write
  obtain ⟨I2, L2⟩ := FlashWriteChecksum_Inv kb dev s1 I1
  have hcs : FlashWriteChecksum kb dev s1 = FlashWrite kb dev (8192 + 184) 4
      (wordBytes (signatureChecksum s1.bootBlockInfo.data)) s1 := by
    unfold FlashWriteChecksum
    rw [if_neg (by rw [hb1]; decide)]
    rfl
  obtain ⟨k2, e2⟩ := FlashWrite_boot_within kb dev (8192 + 184) 4
    (wordBytes (signatureChecksum s1.bootBlockInfo.data)) s1 (by omega) (by omega) (by omega)
    (Or.inr hb1)
  rw [Nat.add_sub_cancel_left] at e2
  obtain ⟨_, c2, _, _, c5, c6⟩ := bootReady_frame (s1.cops k2) (Or.inr hb1)
  obtain ⟨_, g2, g3, g4, _⟩ := depositRun_frame BlockRef.bootBlockInfo
    (wordBytes (signatureChecksum s1.bootBlockInfo.data)) 4 184 0 (bootReady (s1.cops k2))
  rw [hcs, e2] at I2 L2
  rw [hcs, e2]
  generalize depositRun BlockRef.bootBlockInfo
    (wordBytes (signatureChecksum s1.bootBlockInfo.data)) 4 184 0
    (bootReady (s1.cops k2)) = s2 at *
  have hb2 : s2.bootBlockInfo.base_addr = 8192 := g3.trans c2
  refine ⟨?_, ?_, ?_, ?_⟩
  · -- no program call into the boot block so far
    intro a w hmem
    obtain ⟨evs, hlog, hev⟩ := logExt_trans L1 L2
    rw [hlog, mem_programCalls] at hmem
    rcases List.mem_append.1 hmem with h | h
    · exact (hev _ h).2
    · simp [FlashInit] at h
  · -- the checksum bytes are in the log
    intro i hi
    have hm := mem_depositEvents true (wordBytes (signatureChecksum s1.bootBlockInfo.data)) 4
      184 0 (bootReady (s1.cops k2)).log i hi
    rw [Nat.zero_add, wordBytes_mod] at hm
    have hl : s2.log = _ := g2
    rw [hl]
    exact hm
  · -- the buffer holds the checksum
    have hd : s2.bootBlockInfo.data = _ := g4
    rw [hd]
    show rdWord _ 184 = _
    rw [rdWord_patch_inside _ _ _ _ _ _ (by omega) (by omega)]
    show rdWord (wordBytes _) 0 = _
    rw [rdWord_wordBytes]
    exact Nat.mod_eq_of_lt (signatureChecksum_lt _)
  · -- the finalisation
    obtain ⟨k3, tail, hlog, htail⟩ := FlashDone_boot_ok kb dev s2 I2 hb2
      (ProgramSucceeds_at hdev 8192)
    rw [wordEvents_append, ← List.append_assoc, ← List.append_assoc] at hlog
    refine ⟨_, hlog, ?_⟩
    intro k hk
    have hpc : programCalls (tail ++ wordEvents s2.bootBlockInfo 128 0 []
        ++ List.replicate k3 Event.cop)
        = programCalls tail ++ (blockWordsFrom s2.bootBlockInfo 128 0).reverse := by
      rw [programCalls_append, programCalls_append, programCalls_wordEvents]
      have : programCalls (List.replicate k3 Event.cop) = [] := by
        have := programCalls_cops k3 []
        rw [List.append_nil] at this
        exact this
      rw [this, List.append_nil]
      rfl
    rw [hpc]
    refine ⟨?_, ?_⟩
    · rw [callsTo_reverse, callsTo_append, callsTo_reverse,
        callsTo_eq_zero _ _ (fun p hp => by have := htail p hp; omega)]
      have := callsTo_blockWordsFrom_hit s2.bootBlockInfo 128 0 k (by rw [hb2]; omega)
        (Nat.zero_le _) (by omega)
      rw [hb2] at this
      rw [this]
    · apply List.mem_append_right
      rw [List.mem_reverse]
      have := mem_blockWordsFrom s2.bootBlockInfo 128 0 k (Nat.zero_le _) (by omega)
      rw [hb2, Nat.mod_eq_of_lt (by omega)] at this
      exact this

/-- A session with a write of the vector table and a write to `0x4000`. -/
theorem boot_block_programmed_once_witness :
    idealDevice.ProgramSucceeds ∧
    rdWord (sessionChecksum 32 idealDevice ⟨0, fun _ => 0⟩ ⟨0, fun _ => 0⟩ (fun _ => 0xFF)
        [(0x2000, 28, sampleVectors), (0x4000, 4, fun _ => 0xAB)]).bootBlockInfo.data
        FLASH_VECTOR_TABLE_CS_OFFSET
      = signatureChecksum (sessionWrites 32 idealDevice ⟨0, fun _ => 0⟩ ⟨0, fun _ => 0⟩
          (fun _ => 0xFF)
          [(0x2000, 28, sampleVectors), (0x4000, 4, fun _ => 0xAB)]).bootBlockInfo.data :=
  ⟨idealDevice_succeeds,
   (boot_block_programmed_once 32 idealDevice idealDevice_succeeds ⟨0, fun _ => 0⟩
      ⟨0, fun _ => 0⟩ (fun _ => 0xFF)
      [(0x2000, 28, sampleVectors), (0x4000, 4, fun _ => 0xAB)]
      ⟨(0x2000, 28, sampleVectors), List.mem_cons_self _ _, by decide, by decide,
        by decide⟩).2.2.1⟩

/-! ## The checksum in the buffer -/

/-- C11: when the boot block accumulator is unset, `FlashWriteChecksum` returns `BLT_TRUE`
and the state afterwards is the state before: nothing is logged (no device call, not even a
watchdog service), both accumulators keep base address and buffer, and the memory is
untouched, for any general accumulator, memory and device. -/
theorem FlashWriteChecksum_unset_boot_block (kb : Nat) (dev : Device) (s : FlashState)
    (h : s.bootBlockInfo.base_addr = FLASH_INVALID_ADDRESS) :
    (FlashWriteChecksum kb dev s).1 = true ∧
    (FlashWriteChecksum kb dev s).2.log = s.log ∧
    (FlashWriteChecksum kb dev s).2.blockInfo = s.blockInfo ∧
    (FlashWriteChecksum kb dev s).2.bootBlockInfo = s.bootBlockInfo ∧
    (FlashWriteChecksum kb dev s).2.flash = s.flash := by
  unfold FlashWriteChecksum
  rw [if_pos h]
  exact ⟨rfl, rfl, rfl, rfl, rfl⟩

/-- C11 at a concrete state: boot block accumulator unset, general accumulator active at
`0x4000`, on the device that rejects the word at `0x4000`. -/
theorem FlashWriteChecksum_unset_boot_block_witness :
    (FlashWriteChecksum 32 rejectAt4000
      ⟨⟨0x4000, fun _ => 0x11⟩, ⟨0xffffffff, fun _ => 0x22⟩, fun _ => 0xFF, []⟩).1 = true ∧
    (FlashWriteChecksum 32 rejectAt4000
      ⟨⟨0x4000, fun _ => 0x11⟩, ⟨0xffffffff, fun _ => 0x22⟩, fun _ => 0xFF, []⟩).2.log = [] :=
  ⟨(FlashWriteChecksum_unset_boot_block 32 rejectAt4000
      ⟨⟨0x4000, fun _ => 0x11⟩, ⟨0xffffffff, fun _ => 0x22⟩, fun _ => 0xFF, []⟩ rfl).1,
   (FlashWriteChecksum_unset_boot_block 32 rejectAt4000
      ⟨⟨0x4000, fun _ => 0x11⟩, ⟨0xffffffff, fun _ => 0x22⟩, fun _ => 0xFF, []⟩ rfl).2.1⟩

theorem signatureChecksum_int (d : Mem) :
    ((signatureChecksum d : Nat) : Int) =
      (4294967296 - ((rdWord d 0x00 : Nat) + (rdWord d 0x04 : Nat) + (rdWord d 0x08 : Nat)
        + (rdWord d 0x0C : Nat) + (rdWord d 0x10 : Nat) + (rdWord d 0x14 : Nat)
        + (rdWord d 0x18 : Nat) : Int)) % 4294967296 := by
  unfold signatureChecksum
  dsimp only
  generalize rdWord d 0x00 = a0
  generalize rdWord d 0x04 = a1
  generalize rdWord d 0x08 = a2
  generalize rdWord d 0x0C = a3
  generalize rdWord d 0x10 = a4
  generalize rdWord d 0x14 = a5
  generalize rdWord d 0x18 = a6
  omega

theorem programCalls_depositEvents (boot : Bool) (data : Mem) :
    ∀ (n dst src : Nat) (l : List Event),
    programCalls (depositEvents boot data n dst src l) = programCalls l
  | 0, _, _, _ => rfl
  | n + 1, dst, src, l => by
    rw [depositEvents, programCalls_depositEvents boot data n]
    rfl

theorem wordBytes_eq (w i : Nat) (hi : i < 4) : wordBytes w i = w / 256 ^ i % 256 := by
  have h : i = 0 ∨ i = 1 ∨ i = 2 ∨ i = 3 := by omega
  rcases h with h | h | h | h <;> subst h
  · show w % 256 = w / 256 ^ 0 % 256
    rw [Nat.pow_zero, Nat.div_one]
  · rfl
  · rfl
  · rfl

/-- C12: in a state that satisfies the accumulator invariant (as every state reached from
`FlashInit` does) and whose boot block accumulator is active, `FlashWriteChecksum` returns
`BLT_TRUE`. Afterwards the buffer bytes `0xB8 .. 0xBB` of the boot block hold, least
significant byte first, the value `c = (2^32 - (v0 + ... + v6)) mod 2^32`, where `v0 .. v6`
are the little-endian words at offsets `0x00 .. 0x18` of the buffer as it was before the
call. Every other buffer byte, the base address, the general accumulator and the memory
are unchanged, and no program call is made. -/
theorem FlashWriteChecksum_deposits_checksum (kb : Nat) (dev : Device) (s : FlashState)
    (hI : Inv s) (hact : s.bootBlockInfo.base_addr ≠ FLASH_INVALID_ADDRESS) :
    (FlashWriteChecksum kb dev s).1 = true ∧
    (∃ c : Nat, c < 4294967296 ∧
      (c : Int) = (4294967296 - ((rdWord s.bootBlockInfo.data 0x00 : Nat)
        + (rdWord s.bootBlockInfo.data 0x04 : Nat) + (rdWord s.bootBlockInfo.data 0x08 : Nat)
        + (rdWord s.bootBlockInfo.data 0x0C : Nat) + (rdWord s.bootBlockInfo.data 0x10 : Nat)
        + (rdWord s.bootBlockInfo.data 0x14 : Nat)
        + (rdWord s.bootBlockInfo.data 0x18 : Nat) : Int)) % 4294967296 ∧
      ∀ i, i < 4 →
        (FlashWriteChecksum kb dev s).2.bootBlockInfo.data (FLASH_VECTOR_TABLE_CS_OFFSET + i)
          = c / 256 ^ i % 256) ∧
    (∀ i, i < FLASH_VECTOR_TABLE_CS_OFFSET ∨ FLASH_VECTOR_TABLE_CS_OFFSET + 4 ≤ i →
      (FlashWriteChecksum kb dev s).2.bootBlockInfo.data i = s.bootBlockInfo.data i) ∧
    (FlashWriteChecksum kb dev s).2.bootBlockInfo.base_addr = s.bootBlockInfo.base_addr ∧
    (FlashWriteChecksum kb dev s).2.blockInfo = s.blockInfo ∧
    (FlashWriteChecksum kb dev s).2.flash = s.flash ∧
    programCalls (FlashWriteChecksum kb dev s).2.log = programCalls s.log := by
  have hb1 : s.bootBlockInfo.base_addr = 8192 := by
    rcases hI.1 with h | h
    · exact absurd h hact
    · exact h
  have hcs : FlashWriteChecksum kb dev s = FlashWrite kb dev (8192 + 184) 4
      (wordBytes (signatureChecksum s.bootBlockInfo.data)) s := by
    unfold FlashWriteChecksum
    rw [if_neg hact]
    rfl
  obtain ⟨k2, e2⟩ := FlashWrite_boot_within kb dev (8192 + 184) 4
    (wordBytes (signatureChecksum s.bootBlockInfo.data)) s (by omega) (by omega) (by omega)
    (Or.inr hb1)
  rw [Nat.add_sub_cancel_left] at e2
  obtain ⟨_, c2, c3, c4, c5, c6⟩ := bootReady_frame (s.cops k2) (Or.inr hb1)
  obtain ⟨g1, g2, g3, g4, g5⟩ := depositRun_frame BlockRef.bootBlockInfo
    (wordBytes (signatureChecksum s.bootBlockInfo.data)) 4 184 0 (bootReady (s.cops k2))
  have c6' : (bootReady (s.cops k2)).bootBlockInfo.data = s.bootBlockInfo.data := by
    rw [c6]
    exact if_neg hact
  rw [hcs, e2]
  generalize depositRun BlockRef.bootBlockInfo
    (wordBytes (signatureChecksum s.bootBlockInfo.data)) 4 184 0
    (bootReady (s.cops k2)) = s2 at *
  have hd : s2.bootBlockInfo.data
      = patch (bootReady (s.cops k2)).bootBlockInfo.data 184 4
          (wordBytes (signatureChecksum s.bootBlockInfo.data)) 0 := g4
  rw [c6'] at hd
  refine ⟨rfl, ?_, ?_, ?_, ?_, ?_, ?_⟩
  · refine ⟨signatureChecksum s.bootBlockInfo.data, signatureChecksum_lt _,
      signatureChecksum_int _, ?_⟩
    intro i hi
    show s2.bootBlockInfo.data (184 + i) = _
    rw [hd]
    unfold patch
    rw [if_pos (by omega), Nat.zero_add, Nat.add_sub_cancel_left, wordBytes_mod,
      wordBytes_eq _ _ hi]
  · intro i hi
    have hi2 : i < 184 ∨ 184 + 4 ≤ i := hi
    show s2.bootBlockInfo.data i = _
    rw [hd]
    unfold patch
    rw [if_neg (by omega)]
  · exact g3.trans (c2.trans hb1.symm)
  · have h1 : s2.blockInfo = (bootReady (s.cops k2)).blockInfo :=
      g5 BlockRef.blockInfo (by decide)
    rw [h1, c3]
    rfl
  · show s2.flash = _
    rw [g1, c4]
    rfl
  · have hl : s2.log = _ := g2
    show programCalls s2.log = _
    rw [hl, programCalls_depositEvents, c5]
    exact programCalls_cops k2 s.log

/-- C12 at the state of a session after the vector table was written. -/
theorem FlashWriteChecksum_deposits_checksum_witness :
    Inv (FlashWrite 32 idealDevice 0x2000 28 sampleVectors (FlashInit erasedState)).2 ∧
    (FlashWriteChecksum 32 idealDevice
      (FlashWrite 32 idealDevice 0x2000 28 sampleVectors (FlashInit erasedState)).2).1 = true :=
  ⟨(FlashWrite_Inv 32 idealDevice 0x2000 28 sampleVectors _ (FlashInit_Inv erasedState)).1,
   (FlashWriteChecksum_deposits_checksum 32 idealDevice
      (FlashWrite 32 idealDevice 0x2000 28 sampleVectors (FlashInit erasedState)).2
      (FlashWrite_Inv 32 idealDevice 0x2000 28 sampleVectors _ (FlashInit_Inv erasedState)).1
      (by
        have h := FlashWrite_bootKept 32 idealDevice 0x2000 28 sampleVectors
          (FlashInit erasedState) (FlashInit_Inv erasedState)
          (Or.inr ⟨by omega, by omega, by decide⟩)
        rw [h]
        decide)).1⟩

/-! ## Checksum verification, resolver and table -/

/-- C13: `FlashVerifyChecksum` returns `BLT_TRUE` exactly when the seven words read from
memory at `flashLayout[0].sector_start + 0x00, 0x04, ..., 0x18` and the word at
`sector_start + 0xB8` add up to 0 modulo 2^32. The result is the same in any two states
whose memories agree on these eight words, whatever the two accumulators hold. The
function reads memory only: it stores nothing and calls nothing, which is why its
embedding is a function from the memory to the result. -/
theorem FlashVerifyChecksum_iff_sum_zero (s : FlashState) :
    (FlashVerifyChecksum s.flash = true ↔
      (rdWord s.flash flashLayout0.sector_start
        + rdWord s.flash (flashLayout0.sector_start + 0x04)
        + rdWord s.flash (flashLayout0.sector_start + 0x08)
        + rdWord s.flash (flashLayout0.sector_start + 0x0C)
        + rdWord s.flash (flashLayout0.sector_start + 0x10)
        + rdWord s.flash (flashLayout0.sector_start + 0x14)
        + rdWord s.flash (flashLayout0.sector_start + 0x18)
        + rdWord s.flash (flashLayout0.sector_start + 0xB8)) % 4294967296 = 0) ∧
    ∀ t : FlashState, (∀ a ∈ signatureWordAddrs, rdWord t.flash a = rdWord s.flash a) →
      FlashVerifyChecksum t.flash = FlashVerifyChecksum s.flash := by
  refine ⟨?_, ?_⟩
  · constructor
    · intro h
      by_contra hne
      have e : FlashVerifyChecksum s.flash = false := if_neg hne
      rw [e] at h
      cases h
    · intro h
      exact if_pos h
  · intro t h
    have h0 := h flashLayout0.sector_start (by simp [signatureWordAddrs])
    have h1 := h (flashLayout0.sector_start + 0x04) (by simp [signatureWordAddrs])
    have h2 := h (flashLayout0.sector_start + 0x08) (by simp [signatureWordAddrs])
    have h3 := h (flashLayout0.sector_start + 0x0C) (by simp [signatureWordAddrs])
    have h4 := h (flashLayout0.sector_start + 0x10) (by simp [signatureWordAddrs])
    have h5 := h (flashLayout0.sector_start + 0x14) (by simp [signatureWordAddrs])
    have h6 := h (flashLayout0.sector_start + 0x18) (by simp [signatureWordAddrs])
    have h7 := h (flashLayout0.sector_start + FLASH_VECTOR_TABLE_CS_OFFSET)
      (by simp [signatureWordAddrs])
    unfold FlashVerifyChecksum
    dsimp only
    rw [h0, h1, h2, h3, h4, h5, h6, h7]

theorem sectorOf_chain_iff (a : Nat) : ∀ (L : List tFlashSector) (st num : Nat),
    chainOK st num L = true → ∀ n,
    (sectorOf a L = n ↔
      (∃ sec ∈ L, sec.sector_num = n ∧ sec.contains a) ∨
      (n = FLASH_INVALID_SECTOR ∧ ¬ ∃ sec ∈ L, sec.contains a))
  | [], st, num, _, n => by
    simp [sectorOf, eq_comm]
  | sec :: rest, st, num, h, n => by
    have hch := sectorOf_chain a rest (sec.sector_start + sec.sector_size) (num + 1)
    simp only [chainOK, Bool.and_eq_true, decide_eq_true_eq] at h
    obtain ⟨⟨⟨⟨⟨⟨h1, h2⟩, h3⟩, h4⟩, h5⟩, h6⟩, h7⟩ := h
    obtain ⟨_, ih2, _⟩ := hch h7
    have ih := sectorOf_chain_iff a rest _ _ h7 n
    have hm : (sec.sector_start + sec.sector_size) % 4294967296
        = sec.sector_start + sec.sector_size := Nat.mod_eq_of_lt h4
    by_cases hc : sec.sector_start ≤ a ∧ a < sec.sector_start + sec.sector_size
    · have hs : sectorOf a (sec :: rest) = sec.sector_num := by
        rw [sectorOf, hm, if_pos hc]
      have hnot : ¬ ∃ x ∈ rest, x.contains a := by
        rw [ih2]
        omega
      rw [hs]
      constructor
      · intro e
        exact Or.inl ⟨sec, List.mem_cons_self _ _, e, hc⟩
      · rintro (⟨x, hx, hn, hxa⟩ | ⟨_, hno⟩)
        · rcases List.mem_cons.1 hx with e | e
          · rw [← e]
            exact hn
          · exact absurd ⟨x, e, hxa⟩ hnot
        · exact absurd ⟨sec, List.mem_cons_self _ _, hc⟩ hno
    · have hs : sectorOf a (sec :: rest) = sectorOf a rest := by
        rw [sectorOf, hm, if_neg hc]
      rw [hs, ih]
      constructor
      · rintro (⟨x, hx, hn, hxa⟩ | ⟨hn, hno⟩)
        · exact Or.inl ⟨x, List.mem_cons_of_mem _ hx, hn, hxa⟩
        · refine Or.inr ⟨hn, ?_⟩
          rintro ⟨x, hx, hxa⟩
          rcases List.mem_cons.1 hx with e | e
          · rw [e] at hxa
            exact hc hxa
          · exact hno ⟨x, e, hxa⟩
      · rintro (⟨x, hx, hn, hxa⟩ | ⟨hn, hno⟩)
        · rcases List.mem_cons.1 hx with e | e
          · rw [e] at hxa
            exact absurd hxa hc
          · exact Or.inl ⟨x, e, hn, hxa⟩
        · exact Or.inr ⟨hn, fun ⟨x, hx, hxa⟩ => hno ⟨x, List.mem_cons_of_mem _ hx, hxa⟩⟩

/-- C18: for every address `A` and every table variant, `FlashGetSector(A)` returns `n`
exactly when the table has an entry with number `n` and
`sector_start ≤ A < sector_start + sector_size`, or when no entry holds `A` and `n` is
`FLASH_INVALID_SECTOR`. It returns `FLASH_INVALID_SECTOR` for every `A` below `0x2000`
and for every `A` at or past the end of the last sector. It only services the watchdog. -/
theorem FlashGetSector_correct (kb : Nat) (A : Nat) (s : FlashState) :
    (∀ n, (FlashGetSector kb A s).1 = n ↔
      ((∃ sec ∈ flashLayout kb, sec.sector_num = n ∧
          sec.sector_start ≤ A ∧ A < sec.sector_start + sec.sector_size) ∨
       (n = FLASH_INVALID_SECTOR ∧
          ¬ ∃ sec ∈ flashLayout kb,
            sec.sector_start ≤ A ∧ A < sec.sector_start + sec.sector_size))) ∧
    (A < 0x2000 → (FlashGetSector kb A s).1 = FLASH_INVALID_SECTOR) ∧
    (layoutEnd kb ≤ A → (FlashGetSector kb A s).1 = FLASH_INVALID_SECTOR) ∧
    ∃ k, (FlashGetSector kb A s).2 = s.cops k := by
  rw [FlashGetSector_fst]
  refine ⟨fun n => sectorOf_chain_iff A _ _ _ (flashLayout_chainOK kb) n, ?_, ?_, ?_⟩
  · intro h
    rw [sectorOf_eq_invalid_iff, inLayout_iff]
    omega
  · intro h
    rw [sectorOf_eq_invalid_iff, inLayout_iff]
    omega
  · obtain ⟨k, hk⟩ := FlashGetSector_eq kb A s
    exact ⟨k, by rw [hk]⟩

/-- C18 at concrete addresses of the 32 KB table. -/
theorem FlashGetSector_correct_witness :
    (FlashGetSector 32 0x1FFF erasedState).1 = FLASH_INVALID_SECTOR ∧
    (FlashGetSector 32 0x8000 erasedState).1 = FLASH_INVALID_SECTOR :=
  ⟨(FlashGetSector_correct 32 0x1FFF erasedState).2.1 (by omega),
   (FlashGetSector_correct 32 0x8000 erasedState).2.2.1 (by decide)⟩

theorem chainOK_contiguous : ∀ (L : List tFlashSector) (st num : Nat),
    chainOK st num L = true →
    L.Chain' (fun a b => b.sector_start = a.sector_start + a.sector_size) ∧
    ∀ sec, L.head? = some sec → sec.sector_start = st
  | [], _, _, _ => ⟨List.chain'_nil, fun _ h => by cases h⟩
  | [sec], st, num, h => by
    simp only [chainOK, Bool.and_eq_true, decide_eq_true_eq] at h
    refine ⟨List.chain'_singleton _, fun x hx => ?_⟩
    cases hx
    exact h.1.1.1.1.1.1
  | sec :: sec2 :: rest, st, num, h => by
    have h0 := h
    rw [chainOK] at h0
    simp only [Bool.and_eq_true, decide_eq_true_eq] at h0
    obtain ⟨ih1, ih2⟩ := chainOK_contiguous (sec2 :: rest) _ _ h0.2
    refine ⟨List.chain'_cons.2 ⟨ih2 sec2 rfl, ih1⟩, fun x hx => ?_⟩
    cases hx
    exact h0.1.1.1.1.1.1

set_option maxRecDepth 100000 in
/-- C19: for every `BOOT_NVM_SIZE_KB`, the entries of `flashLayout` have strictly
increasing start addresses, do not overlap (an earlier entry ends at or before the start of
every later one), follow each other without gap, have positive sizes and distinct sector
numbers other than 0 and `0xFF`; the first entry starts at `0x2000`, so no address below
`0x2000` lies in an entry; and every start address and size is a multiple of 4096, hence
of 512, 2048 and 4096. -/
theorem flashLayout_well_formed (kb : Nat) :
    (flashLayout kb).Pairwise (fun a b => a.sector_start < b.sector_start) ∧
    (flashLayout kb).Pairwise (fun a b => a.sector_start + a.sector_size ≤ b.sector_start) ∧
    (flashLayout kb).Chain' (fun a b => b.sector_start = a.sector_start + a.sector_size) ∧
    ((flashLayout kb).map tFlashSector.sector_num).Nodup ∧
    (∀ sec ∈ flashLayout kb, 0 < sec.sector_size ∧ sec.sector_num ≠ 0 ∧
      sec.sector_num ≠ FLASH_INVALID_SECTOR) ∧
    ((flashLayout kb).head? = some flashLayout0 ∧ flashLayout0.sector_start = 0x2000) ∧
    (∀ x, x < 0x2000 → ¬ inLayout kb x) ∧
    (∀ sec ∈ flashLayout kb, sec.sector_start % 4096 = 0 ∧ sec.sector_size % 4096 = 0 ∧
      ∀ P ∈ [512, 2048, 4096], sec.sector_start % P = 0 ∧ sec.sector_size % P = 0) := by
  have hx : ∀ x, x < 0x2000 → ¬ inLayout kb x := by
    intro x hx
    rw [inLayout_iff]
    omega
  rcases flashLayout_cases kb with h | h | h | h | h <;> rw [h] <;>
    exact ⟨by decide, by decide, (chainOK_contiguous _ _ _ (flashLayout_chainOK _)).1,
      by decide, by decide, by decide, hx, by decide⟩

/-! ## Sessions that write one block -/

theorem blockWordsFrom_eq_map (b : tFlashBlockInfo) : ∀ (n wc : Nat),
    blockWordsFrom b n wc = (List.range n).map
      (fun k => ((b.base_addr + (wc + k) * 4) % 4294967296, rdWord b.data ((wc + k) * 4)))
  | 0, _ => rfl
  | n + 1, wc => by
    rw [blockWordsFrom, blockWordsFrom_eq_map b n (wc + 1), List.range_succ_eq_map,
      List.map_cons, List.map_map]
    refine congrArg₂ _ rfl (List.map_congr_left (fun k _ => ?_))
    show ((b.base_addr + (wc + 1 + k) * 4) % 4294967296, rdWord b.data ((wc + 1 + k) * 4))
      = ((b.base_addr + (wc + (k + 1)) * 4) % 4294967296, rdWord b.data ((wc + (k + 1)) * 4))
    rw [show wc + 1 + k = wc + (k + 1) by omega]

theorem programCalls_init_cops (k : Nat) (l : List Event) :
    programCalls (List.replicate k Event.cop ++ Event.mscInit :: l) = programCalls l := by
  rw [programCalls_cops]
  rfl

/-- C14: for every 512-byte payload, every `BOOT_NVM_SIZE_KB`, and every initial memory
and RAM, on a device whose program operations succeed, the session `FlashInit`;
`FlashWrite(flashLayout[0].sector_start, 512, data)`; `FlashDone` returns `BLT_TRUE` from
both calls, and the program calls of the whole session, in the order made, are exactly the
128 calls for `k = 0 .. 127` to address `sector_start + 4k` with the little-endian word
formed by `data[4k .. 4k+3]`. -/
theorem single_block_session (kb : Nat) (dev : Device) (hdev : dev.ProgramSucceeds)
    (ram1 ram2 : tFlashBlockInfo) (mem data : Mem) :
    (FlashWrite kb dev flashLayout0.sector_start 512 data
      (FlashInit ⟨ram1, ram2, mem, []⟩)).1 = true ∧
    (FlashDone kb dev (FlashWrite kb dev flashLayout0.sector_start 512 data
      (FlashInit ⟨ram1, ram2, mem, []⟩)).2).1 = true ∧
    (programCalls (FlashDone kb dev (FlashWrite kb dev flashLayout0.sector_start 512 data
      (FlashInit ⟨ram1, ram2, mem, []⟩)).2).2.log).reverse
      = (List.range 128).map
          (fun k => (flashLayout0.sector_start + 4 * k, rdWord data (4 * k))) := by
  rw [sector_start0]
  generalize hs0 : FlashInit ⟨ram1, ram2, mem, []⟩ = s0
  have b0 : s0.bootBlockInfo.base_addr = FLASH_INVALID_ADDRESS := by rw [← hs0]; rfl
  have a0 : s0.blockInfo.base_addr = FLASH_INVALID_ADDRESS := by rw [← hs0]; rfl
  have l0 : s0.log = [Event.mscInit] := by rw [← hs0]; rfl
  obtain ⟨k, e⟩ := FlashWrite_boot_within kb dev 8192 512 data s0 (by omega) (by omega)
    (by omega) (Or.inl b0)
  rw [Nat.sub_self] at e
  obtain ⟨_, c2, c3, c4, c5, c6⟩ := bootReady_frame (s0.cops k) (Or.inl b0)
  obtain ⟨g1, g2, g3, g4, g5⟩ := depositRun_frame BlockRef.bootBlockInfo data 512 0 0
    (bootReady (s0.cops k))
  rw [e]
  generalize depositRun BlockRef.bootBlockInfo data 512 0 0 (bootReady (s0.cops k)) = s1 at *
  have hb1 : s1.bootBlockInfo.base_addr = 8192 := g3.trans c2
  have ha1 : s1.blockInfo.base_addr = FLASH_INVALID_ADDRESS := by
    have h1 : s1.blockInfo = (bootReady (s0.cops k)).blockInfo :=
      g5 BlockRef.blockInfo (by decide)
    rw [h1, c3]
    exact a0
  have hd1 : s1.bootBlockInfo.data = patch (bootReady (s0.cops k)).bootBlockInfo.data 0 512
      data 0 := g4
  have hl1 : programCalls s1.log = [] := by
    have hl : s1.log = _ := g2
    rw [hl, programCalls_depositEvents, c5]
    show programCalls (List.replicate k Event.cop ++ s0.log) = []
    rw [l0, programCalls_init_cops]
    rfl
  obtain ⟨k2, e2⟩ := FlashDone_boot_only kb dev s1 (ProgramSucceeds_at hdev 8192) hb1 ha1
  rw [e2]
  refine ⟨rfl, rfl, ?_⟩
  show (programCalls (wordEvents s1.bootBlockInfo 128 0
    (List.replicate k2 Event.cop ++ s1.log))).reverse = _
  rw [programCalls_wordEvents, programCalls_cops, hl1, List.append_nil, List.reverse_reverse,
    blockWordsFrom_eq_map]
  refine List.map_congr_left (fun j hj => ?_)
  have hj2 : j < 128 := List.mem_range.1 hj
  rw [hb1, hd1, Nat.zero_add, Nat.mod_eq_of_lt (by omega),
    rdWord_patch_inside _ _ _ _ _ _ (by omega) (by omega), Nat.zero_add, Nat.sub_zero,
    Nat.mul_comm j 4]

theorem rdWord_const_AA (a : Nat) : rdWord (fun _ => 0xAA) a = 0xAAAAAAAA := by
  unfold rdWord rdByte
  norm_num

/-- C14 for the payload of 512 bytes `0xAA` on the 32 KB layout: 128 words `0xAAAAAAAA`
at `0x2000`, `0x2004`, ..., `0x21FC`. -/
theorem single_block_session_witness :
    idealDevice.ProgramSucceeds ∧
    (programCalls (FlashDone 32 idealDevice (FlashWrite 32 idealDevice
      flashLayout0.sector_start 512 (fun _ => 0xAA)
      (FlashInit ⟨⟨0, fun _ => 0⟩, ⟨0, fun _ => 0⟩, fun _ => 0xFF, []⟩)).2).2.log).reverse
      = (List.range 128).map (fun k => (flashLayout0.sector_start + 4 * k, 0xAAAAAAAA)) :=
  ⟨idealDevice_succeeds,
   (single_block_session 32 idealDevice idealDevice_succeeds ⟨0, fun _ => 0⟩ ⟨0, fun _ => 0⟩
      (fun _ => 0xFF) (fun _ => 0xAA)).2.2.trans
     (List.map_congr_left (fun k _ => congrArg₂ Prod.mk rfl (rdWord_const_AA (4 * k))))⟩

theorem FlashWrite_general_fresh (kb : Nat) (dev : Device) (addr len : Nat) (data : Mem)
    (s : FlashState) (hin1 : inLayout kb addr)
    (hin2 : inLayout kb ((addr + len + 4294967295) % 4294967296))
    (hcb : addr / 512 * 512 ≠ 8192) (hlen1 : 1 ≤ len) (hlen2 : len < 65536)
    (hinv : s.blockInfo.base_addr = FLASH_INVALID_ADDRESS) :
    ∃ k, FlashWrite kb dev addr len data s =
        FlashAddToBlock.loop kb dev (addr / 512 * 512) data len BlockRef.blockInfo
          (addr % 512) 0 (FlashInitBlock BlockRef.blockInfo (addr / 512 * 512) (s.cops k)).2 := by
  obtain ⟨k1, e1⟩ := FlashGetSector_eq kb addr s
  obtain ⟨k2, e2⟩ := FlashGetSector_eq kb ((addr + len + 4294967295) % 4294967296) (s.cops k1)
  have hal : addr / 512 * 512 % 512 = 0 := by omega
  have hn : (if len % 65536 = 0 then 65536 else len % 65536) = len := by
    have : len % 65536 = len := Nat.mod_eq_of_lt hlen2
    rw [this, if_neg (by omega)]
  have hd : (addr + 4294967296 - addr / 512 * 512) % 4294967296 = addr % 512 := by
    have ha := (inLayout_iff kb addr).1 hin1
    have hE := layoutEnd_cases kb
    omega
  refine ⟨k2 + k1, ?_⟩
  unfold FlashWrite
  rw [e1]
  dsimp only
  rw [if_neg ((sectorOf_ne_invalid_iff kb addr).2 hin1), e2]
  dsimp only
  rw [if_neg ((sectorOf_ne_invalid_iff kb _).2 hin2), cops_cops,
    if_neg (show ¬ (addr / 512 * 512 = flashLayout0.sector_start) from hcb)]
  unfold FlashAddToBlock
  dsimp only
  rw [hn]
  generalize hs' : s.cops (k2 + k1) = s'
  have hb' : s'.blockInfo = s.blockInfo := by rw [← hs']; rfl
  obtain ⟨g1, g2, g3, g4, g5, g6⟩ := FlashInitBlock_general_frame (addr / 512 * 512) s' hal
  rw [if_pos (show (s'.block BlockRef.blockInfo).base_addr = FLASH_INVALID_ADDRESS by
    show s'.blockInfo.base_addr = _; rw [hb']; exact hinv), g1,
    if_neg (show ¬ (true = false) by decide),
    if_neg (show ¬ (((FlashInitBlock BlockRef.blockInfo (addr / 512 * 512) s').2.block
      BlockRef.blockInfo).base_addr ≠ addr / 512 * 512) by
        show ¬ ((FlashInitBlock BlockRef.blockInfo (addr / 512 * 512) s').2.blockInfo.base_addr
          ≠ _)
        rw [g2]; simp)]
  dsimp only
  show FlashAddToBlock.loop kb dev _ data len BlockRef.blockInfo
    ((addr + 4294967296 - (FlashInitBlock BlockRef.blockInfo (addr / 512 * 512)
      s').2.blockInfo.base_addr) % 4294967296) 0 _ = _
  rw [g2, hd]

theorem rdByte_CpuMemCopy (dst m : Mem) (src len i : Nat) (h : i < len) :
    rdByte (CpuMemCopy dst m src len) i = rdByte m (src + i) := by
  unfold CpuMemCopy rdByte
  dsimp only
  rw [if_pos h]
  exact Nat.mod_mod _ _

/-- The memory after the block that was loaded from memory at `cb`, patched with `len`
bytes of `data` at offset `off`, was programmed at `cb`. -/
theorem rdByte_block_written (ram mem data : Mem) (cb off len x : Nat) (b : tFlashBlockInfo)
    (hb : b.base_addr = cb)
    (hd : b.data = patch (CpuMemCopy ram mem cb 512) off len data 0)
    (hcb : cb + 512 ≤ 4294967296) (hoff : off + len ≤ 512) :
    rdByte (storeWords b 128 0 mem) x =
      (if cb + off ≤ x ∧ x < cb + off + len then rdByte data (x - (cb + off))
       else rdByte mem x) ∧
    ((x < cb ∨ cb + 512 ≤ x) → storeWords b 128 0 mem x = mem x) := by
  have hs := storeWords_apply b 128 0 mem x (by rw [hb]; omega)
  rw [hb] at hs
  refine ⟨?_, ?_⟩
  · by_cases hx : cb ≤ x ∧ x < cb + 512
    · have e : storeWords b 128 0 mem x = rdByte b.data (x - cb) := by
        rw [hs, if_pos (by omega)]
      have e2 : rdByte (storeWords b 128 0 mem) x = rdByte b.data (x - cb) := by
        unfold rdByte at e ⊢
        rw [e]
        exact Nat.mod_mod _ _
      rw [e2, hd, rdByte_patch]
      by_cases hr : cb + off ≤ x ∧ x < cb + off + len
      · rw [if_pos (by omega), if_pos hr, Nat.zero_add]
        congr 1
        omega
      · rw [if_neg (by omega), if_neg hr, rdByte_CpuMemCopy _ _ _ _ _ (by omega)]
        congr 1
        omega
    · have e : storeWords b 128 0 mem x = mem x := by
        rw [hs, if_neg (by omega)]
      unfold rdByte
      rw [e, if_neg (by omega)]
  · intro hx
    rw [hs, if_neg (by omega)]

/-- C20: for every initial memory and RAM, every `BOOT_NVM_SIZE_KB`, and every write of
`len ≥ 1` bytes at `addr` that stays inside one 512-byte block of the table (the block
at `addr / 512 * 512`), on a device whose program operations succeed the session
`FlashInit`; `FlashWrite(addr, len, data)`; `FlashDone` returns `BLT_TRUE` from both calls
and leaves `data[0 .. len-1]` at `addr .. addr + len - 1`, the former content in every other
byte of the block, and every memory cell outside the block as it was. -/
theorem write_within_block_frame (kb : Nat) (dev : Device) (hdev : dev.ProgramSucceeds)
    (ram1 ram2 : tFlashBlockInfo) (mem data : Mem) (addr len : Nat)
    (hlen : 1 ≤ len) (hin : inLayout kb addr)
    (hblk : addr + len ≤ addr / 512 * 512 + 512) :
    (FlashWrite kb dev addr len data (FlashInit ⟨ram1, ram2, mem, []⟩)).1 = true ∧
    (FlashDone kb dev
      (FlashWrite kb dev addr len data (FlashInit ⟨ram1, ram2, mem, []⟩)).2).1 = true ∧
    (∀ x, addr ≤ x → x < addr + len →
      rdByte (FlashDone kb dev
        (FlashWrite kb dev addr len data (FlashInit ⟨ram1, ram2, mem, []⟩)).2).2.flash x
        = rdByte data (x - addr)) ∧
    (∀ x, addr / 512 * 512 ≤ x → x < addr / 512 * 512 + 512 → x < addr ∨ addr + len ≤ x →
      rdByte (FlashDone kb dev
        (FlashWrite kb dev addr len data (FlashInit ⟨ram1, ram2, mem, []⟩)).2).2.flash x
        = rdByte mem x) ∧
    (∀ x, x < addr / 512 * 512 ∨ addr / 512 * 512 + 512 ≤ x →
      (FlashDone kb dev
        (FlashWrite kb dev addr len data (FlashInit ⟨ram1, ram2, mem, []⟩)).2).2.flash x
        = mem x) := by
  have ha := (inLayout_iff kb addr).1 hin
  have hE := layoutEnd_cases kb
  generalize hs0 : FlashInit ⟨ram1, ram2, mem, []⟩ = s0
  have b0 : s0.bootBlockInfo.base_addr = FLASH_INVALID_ADDRESS := by rw [← hs0]; rfl
  have a0 : s0.blockInfo.base_addr = FLASH_INVALID_ADDRESS := by rw [← hs0]; rfl
  have f0 : s0.flash = mem := by rw [← hs0]; rfl
  have d0 : s0.blockInfo.data = ram1.data := by rw [← hs0]; rfl
  have e0 : s0.bootBlockInfo.data = ram2.data := by rw [← hs0]; rfl
  -- both cases end with the same description of the memory
  suffices h : ∃ (b : tFlashBlockInfo) (ram : Mem),
      (FlashWrite kb dev addr len data s0).1 = true ∧
      (FlashDone kb dev (FlashWrite kb dev addr len data s0).2).1 = true ∧
      (FlashDone kb dev (FlashWrite kb dev addr len data s0).2).2.flash
        = storeWords b 128 0 mem ∧
      b.base_addr = addr / 512 * 512 ∧
      b.data = patch (CpuMemCopy ram mem (addr / 512 * 512) 512) (addr % 512) len data 0 by
    obtain ⟨b, ram, h1, h2, h3, h4, h5⟩ := h
    have hoff : addr / 512 * 512 + addr % 512 = addr := by omega
    refine ⟨h1, h2, ?_, ?_, ?_⟩
    · intro x hx1 hx2
      rw [h3, (rdByte_block_written ram mem data _ _ len x b h4 h5 (by omega) (by omega)).1,
        hoff, if_pos ⟨hx1, hx2⟩]
    · intro x hx1 hx2 hx3
      rw [h3, (rdByte_block_written ram mem data _ _ len x b h4 h5 (by omega) (by omega)).1,
        hoff, if_neg (by omega)]
    · intro x hx
      rw [h3]
      exact (rdByte_block_written ram mem data _ _ len x b h4 h5 (by omega) (by omega)).2 hx
  by_cases hcb : addr / 512 * 512 = 8192
  · -- the first block of the first sector: boot block accumulator
    obtain ⟨k, e⟩ := FlashWrite_boot_within kb dev addr len data s0 (by omega) (by omega)
      hlen (Or.inl b0)
    obtain ⟨_, c2, c3, c4, c5, c6⟩ := bootReady_frame (s0.cops k) (Or.inl b0)
    obtain ⟨g1, g2, g3, g4, g5⟩ := depositRun_frame BlockRef.bootBlockInfo data len
      (addr - 8192) 0 (bootReady (s0.cops k))
    have c6' : (bootReady (s0.cops k)).bootBlockInfo.data
        = CpuMemCopy ram2.data mem 8192 512 := by
      rw [c6]
      show (if s0.bootBlockInfo.base_addr = FLASH_INVALID_ADDRESS then
        CpuMemCopy s0.bootBlockInfo.data s0.flash flashLayout0.sector_start 512
        else s0.bootBlockInfo.data) = _
      rw [if_pos b0, e0, f0]
      rfl
    rw [e]
    generalize depositRun BlockRef.bootBlockInfo data len (addr - 8192) 0
      (bootReady (s0.cops k)) = s1 at *
    have hb1 : s1.bootBlockInfo.base_addr = 8192 := g3.trans c2
    have ha1 : s1.blockInfo.base_addr = FLASH_INVALID_ADDRESS := by
      have h1 : s1.blockInfo = (bootReady (s0.cops k)).blockInfo :=
        g5 BlockRef.blockInfo (by decide)
      rw [h1, c3]
      exact a0
    have hd1 : s1.bootBlockInfo.data = patch (bootReady (s0.cops k)).bootBlockInfo.data
        (addr - 8192) len data 0 := g4
    have hf1 : s1.flash = mem := by
      rw [g1, c4]
      exact f0
    obtain ⟨k2, e2⟩ := FlashDone_boot_only kb dev s1 (ProgramSucceeds_at hdev 8192) hb1 ha1
    rw [e2]
    refine ⟨s1.bootBlockInfo, ram2.data, rfl, rfl, ?_, by rw [hb1, hcb], ?_⟩
    · show storeWords s1.bootBlockInfo 128 0 s1.flash = _
      rw [hf1]
    · rw [hd1, c6', hcb, show addr - 8192 = addr % 512 by omega]
  · -- any other block: general accumulator
    obtain ⟨k, e⟩ := FlashWrite_general_fresh kb dev addr len data s0 hin
      ((inLayout_iff kb _).2 (by omega)) hcb hlen (by omega) a0
    obtain ⟨q1, q2, q3, q4, q5, q6⟩ := FlashInitBlock_general_frame (addr / 512 * 512)
      (s0.cops k) (by omega)
    have q6' : (FlashInitBlock BlockRef.blockInfo (addr / 512 * 512) (s0.cops k)).2.blockInfo.data
        = CpuMemCopy ram1.data mem (addr / 512 * 512) 512 := by
      rw [q6]
      show (if s0.blockInfo.base_addr = addr / 512 * 512 then s0.blockInfo.data
        else CpuMemCopy s0.blockInfo.data s0.flash (addr / 512 * 512) 512) = _
      rw [if_neg (by rw [a0]; unfold FLASH_INVALID_ADDRESS; omega), d0, f0]
    rw [e, FlashAddToBlock_loop_within kb dev _ data BlockRef.blockInfo len (addr % 512) 0 _
      (by omega)]
    obtain ⟨g1, g2, g3, g4, g5⟩ := depositRun_frame BlockRef.blockInfo data len
      (addr % 512) 0 (FlashInitBlock BlockRef.blockInfo (addr / 512 * 512) (s0.cops k)).2
    generalize (FlashInitBlock BlockRef.blockInfo (addr / 512 * 512) (s0.cops k)).2 = t at *
    generalize depositRun BlockRef.blockInfo data len (addr % 512) 0 t = s1 at *
    have ha1 : s1.blockInfo.base_addr = addr / 512 * 512 := g3.trans q2
    have hb1 : s1.bootBlockInfo.base_addr = FLASH_INVALID_ADDRESS := by
      have h1 : s1.bootBlockInfo = t.bootBlockInfo := g5 BlockRef.bootBlockInfo (by decide)
      rw [h1, q3]
      exact b0
    have hd1 : s1.blockInfo.data = patch t.blockInfo.data (addr % 512) len data 0 := g4
    have hf1 : s1.flash = mem := by
      rw [g1, q4]
      exact f0
    obtain ⟨r1, r2⟩ := FlashDone_general_only kb dev s1 hb1
      (by rw [ha1]; exact (inLayout_iff kb _).2 (by omega))
      (ProgramSucceeds_at hdev _)
    refine ⟨s1.blockInfo, ram1.data, rfl, r1, ?_, ha1, ?_⟩
    · rw [r2, hf1]
    · rw [hd1, q6']

/-- C20 for eight bytes written in the middle of the block at `0x4000`. -/
theorem write_within_block_frame_witness :
    idealDevice.ProgramSucceeds ∧ inLayout 32 0x4010 ∧
    (FlashDone 32 idealDevice
      (FlashWrite 32 idealDevice 0x4010 8 (fun _ => 0xAB)
        (FlashInit ⟨⟨0, fun _ => 0⟩, ⟨0, fun _ => 0⟩, fun _ => 0x5A, []⟩)).2).1 = true :=
  ⟨idealDevice_succeeds, by decide,
   (write_within_block_frame 32 idealDevice idealDevice_succeeds ⟨0, fun _ => 0⟩
      ⟨0, fun _ => 0⟩ (fun _ => 0x5A) (fun _ => 0xAB) 0x4010 8 (by omega) (by decide)
      (by omega)).2.1⟩

/-! ## The erase loop -/

theorem eraseCalls_append : ∀ (a b : List Event),
    eraseCalls (a ++ b) = eraseCalls a ++ eraseCalls b
  | [], b => rfl
  | e :: a, b => by
    cases e <;> simp [eraseCalls, eraseCalls_append a b]

theorem newEvents_eq {s t : FlashState} {new : List Event} (h : t.log = new ++ s.log) :
    newEvents s t = new := by
  unfold newEvents
  rw [h, List.length_append, Nat.add_sub_cancel, List.take_left]

theorem sector_num_range (kb : Nat) : ∀ sec ∈ flashLayout kb,
    flashLayout0.sector_num ≤ sec.sector_num ∧
    sec.sector_num ≤ (flashLayoutLast kb).sector_num := by
  rcases flashLayout_cases kb with h | h | h | h | h <;>
    simp only [flashLayoutLast, h] <;> decide

theorem sectorOf_base_chain (a : Nat) : ∀ (L : List tFlashSector) (st num : Nat),
    chainOK st num L = true → (∃ sec ∈ L, sec.contains a) →
    num ≤ sectorOf a L ∧ sectorBaseOf (sectorOf a L) L ≤ a ∧
    a < sectorBaseOf (sectorOf a L) L + sectorSizeOf (sectorOf a L) L
  | [], _, _, _, h => by
    obtain ⟨sec, hs, _⟩ := h
    cases hs
  | sec :: rest, st, num, h, hex => by
    simp only [chainOK, Bool.and_eq_true, decide_eq_true_eq] at h
    obtain ⟨⟨⟨⟨⟨⟨h1, h2⟩, h3⟩, h4⟩, h5⟩, h6⟩, h7⟩ := h
    have hm : (sec.sector_start + sec.sector_size) % 4294967296
        = sec.sector_start + sec.sector_size := Nat.mod_eq_of_lt h4
    by_cases hc : sec.sector_start ≤ a ∧ a < sec.sector_start + sec.sector_size
    · have hs : sectorOf a (sec :: rest) = sec.sector_num := by
        rw [sectorOf, hm, if_pos hc]
      rw [hs]
      have hb : sectorBaseOf sec.sector_num (sec :: rest) = sec.sector_start := by
        rw [sectorBaseOf, if_pos rfl]
      have hz : sectorSizeOf sec.sector_num (sec :: rest) = sec.sector_size := by
        rw [sectorSizeOf, if_pos rfl]
      rw [hb, hz]
      exact ⟨by omega, hc.1, hc.2⟩
    · have hs : sectorOf a (sec :: rest) = sectorOf a rest := by
        rw [sectorOf, hm, if_neg hc]
      have hex2 : ∃ x ∈ rest, x.contains a := by
        obtain ⟨x, hx, hxa⟩ := hex
        rcases List.mem_cons.1 hx with e | e
        · rw [e] at hxa
          exact absurd hxa hc
        · exact ⟨x, e, hxa⟩
      obtain ⟨i1, i2, i3⟩ := sectorOf_base_chain a rest _ _ h7 hex2
      rw [hs]
      have hne : ¬ (sec.sector_num = sectorOf a rest) := by omega
      have hb : sectorBaseOf (sectorOf a rest) (sec :: rest)
          = sectorBaseOf (sectorOf a rest) rest := by
        rw [sectorBaseOf, if_neg hne]
      have hz : sectorSizeOf (sectorOf a rest) (sec :: rest)
          = sectorSizeOf (sectorOf a rest) rest := by
        rw [sectorSizeOf, if_neg hne]
      rw [hb, hz]
      exact ⟨by omega, i2, i3⟩

theorem sectorOf_bounds (kb a : Nat) (h : inLayout kb a) :
    flashLayout0.sector_num ≤ sectorOf a (flashLayout kb) ∧
    sectorOf a (flashLayout kb) ≤ (flashLayoutLast kb).sector_num ∧
    sectorBaseOf (sectorOf a (flashLayout kb)) (flashLayout kb) ≤ a ∧
    a < sectorBaseOf (sectorOf a (flashLayout kb)) (flashLayout kb)
      + sectorSizeOf (sectorOf a (flashLayout kb)) (flashLayout kb) := by
  obtain ⟨_, i2, i3⟩ := sectorOf_base_chain a _ _ _ (flashLayout_chainOK kb) h
  have hn := (sectorOf_chain_iff a _ _ _ (flashLayout_chainOK kb)
    (sectorOf a (flashLayout kb))).1 rfl
  rcases hn with ⟨sec, hs, hnum, _⟩ | ⟨_, hno⟩
  · obtain ⟨r1, r2⟩ := sector_num_range kb sec hs
    rw [hnum] at r1 r2
    exact ⟨r1, r2, i2, i3⟩
  · exact absurd h hno

theorem erase_loop_step (dev : Device) (start P n bc : Nat) (s : FlashState) :
    FlashEraseSectors.loop dev start P (n + 1) bc s =
      if (dev.erasePage (s.emit Event.cop).log (s.emit Event.cop).flash
          ((start + bc * P % 4294967296) % 4294967296)).1 = false
      then (false, eraseRound dev start P bc s)
      else FlashEraseSectors.loop dev start P n (bc + 1) (eraseRound dev start P bc s) := by
  rw [FlashEraseSectors.loop]
  rfl

theorem eraseRound_log (dev : Device) (start P bc : Nat) (s : FlashState) :
    (eraseRound dev start P bc s).log =
      [Event.erase ((start + bc * P % 4294967296) % 4294967296), Event.cop] ++ s.log := rfl

/-- The erase loop when every round up to the last one succeeds. -/
theorem erase_loop_all_ok (dev : Device) (start P : Nat) : ∀ (n bc : Nat) (s : FlashState),
    (∀ j, j < n →
      (dev.erasePage ((FlashEraseSectors.loop dev start P j bc s).2.emit Event.cop).log
        ((FlashEraseSectors.loop dev start P j bc s).2.emit Event.cop).flash
        ((start + (bc + j) * P % 4294967296) % 4294967296)).1 = true) →
    (FlashEraseSectors.loop dev start P n bc s).1 = true ∧
    ∃ new, (FlashEraseSectors.loop dev start P n bc s).2.log = new ++ s.log ∧
      (eraseCalls new).reverse = pagesFrom start P n bc
  | 0, bc, s, _ => ⟨rfl, [], rfl, rfl⟩
  | n + 1, bc, s, hok => by
    have h0 : (dev.erasePage (s.emit Event.cop).log (s.emit Event.cop).flash
        ((start + bc * P % 4294967296) % 4294967296)).1 = true := hok 0 (by omega)
    have hstep : ∀ m, FlashEraseSectors.loop dev start P (m + 1) bc s
        = FlashEraseSectors.loop dev start P m (bc + 1) (eraseRound dev start P bc s) := by
      intro m
      rw [erase_loop_step, if_neg (by rw [h0]; decide)]
    obtain ⟨i1, new, i2, i3⟩ := erase_loop_all_ok dev start P n (bc + 1)
      (eraseRound dev start P bc s) (fun j hj => by
        have := hok (j + 1) (by omega)
        rw [hstep j, show bc + (j + 1) = bc + 1 + j by omega] at this
        exact this)
    rw [hstep n]
    refine ⟨i1, new ++ [Event.erase ((start + bc * P % 4294967296) % 4294967296), Event.cop],
      ?_, ?_⟩
    · rw [i2, eraseRound_log, List.append_assoc]
    · rw [eraseCalls_append, List.reverse_append, i3]
      rfl

/-- The erase loop when round `k` is the first one in which the device reports an
error. -/
theorem erase_loop_first_failure (dev : Device) (start P : Nat) :
    ∀ (n bc : Nat) (s : FlashState) (k : Nat), k < n →
    (∀ j, j < k →
      (dev.erasePage ((FlashEraseSectors.loop dev start P j bc s).2.emit Event.cop).log
        ((FlashEraseSectors.loop dev start P j bc s).2.emit Event.cop).flash
        ((start + (bc + j) * P % 4294967296) % 4294967296)).1 = true) →
    (dev.erasePage ((FlashEraseSectors.loop dev start P k bc s).2.emit Event.cop).log
        ((FlashEraseSectors.loop dev start P k bc s).2.emit Event.cop).flash
        ((start + (bc + k) * P % 4294967296) % 4294967296)).1 = false →
    (FlashEraseSectors.loop dev start P n bc s).1 = false ∧
    ∃ new, (FlashEraseSectors.loop dev start P n bc s).2.log = new ++ s.log ∧
      (eraseCalls new).reverse = pagesFrom start P (k + 1) bc
  | 0, _, _, _, hk, _, _ => by omega
  | n + 1, bc, s, 0, _, _, hfail => by
    have h0 : (dev.erasePage (s.emit Event.cop).log (s.emit Event.cop).flash
        ((start + bc * P % 4294967296) % 4294967296)).1 = false := hfail
    rw [erase_loop_step, if_pos h0]
    exact ⟨rfl, [Event.erase ((start + bc * P % 4294967296) % 4294967296), Event.cop],
      eraseRound_log dev start P bc s, rfl⟩
  | n + 1, bc, s, k + 1, hk, hok, hfail => by
    have h0 : (dev.erasePage (s.emit Event.cop).log (s.emit Event.cop).flash
        ((start + bc * P % 4294967296) % 4294967296)).1 = true := hok 0 (by omega)
    have hstep : ∀ m, FlashEraseSectors.loop dev start P (m + 1) bc s
        = FlashEraseSectors.loop dev start P m (bc + 1) (eraseRound dev start P bc s) := by
      intro m
      rw [erase_loop_step, if_neg (by rw [h0]; decide)]
    obtain ⟨i1, new, i2, i3⟩ := erase_loop_first_failure dev start P n (bc + 1)
      (eraseRound dev start P bc s) k (by omega)
      (fun j hj => by
        have := hok (j + 1) (by omega)
        rw [hstep j, show bc + (j + 1) = bc + 1 + j by omega] at this
        exact this)
      (by
        rw [hstep k, show bc + (k + 1) = bc + 1 + k by omega] at hfail
        exact hfail)
    rw [hstep n]
    refine ⟨i1, new ++ [Event.erase ((start + bc * P % 4294967296) % 4294967296), Event.cop],
      ?_, ?_⟩
    · rw [i2, eraseRound_log, List.append_assoc]
    · rw [eraseCalls_append, List.reverse_append, i3]
      rfl

theorem pagesFrom_eq_map (start P : Nat) : ∀ (n bc : Nat),
    start + (bc + n) * P ≤ 4294967296 → 0 < P →
    pagesFrom start P n bc = (List.range n).map (fun k => start + (bc + k) * P)
  | 0, _, _, _ => rfl
  | n + 1, bc, h, hP => by
    have e : (start + bc * P % 4294967296) % 4294967296 = start + bc * P := by
      have h1 : start + bc * P + (n + 1) * P ≤ 4294967296 := by
        rw [Nat.add_mul] at h
        omega
      have h2 : 0 < (n + 1) * P := Nat.mul_pos (by omega) hP
      rw [Nat.mod_eq_of_lt (by omega), Nat.mod_eq_of_lt (by omega)]
    rw [pagesFrom, pagesFrom_eq_map start P n (bc + 1) (by
      rw [show bc + 1 + n = bc + (n + 1) by omega]; exact h) hP, List.range_succ_eq_map,
      List.map_cons, List.map_map, e]
    refine congrArg₂ _ rfl (List.map_congr_left (fun k _ => ?_))
    show start + (bc + 1 + k) * P = start + (bc + (k + 1)) * P
    rw [show bc + 1 + k = bc + (k + 1) by omega]

/-- Facts about the erase range of a valid `FlashErase` with first address `addr` and last
address `la`. -/
theorem erase_valid_facts (kb addr la : Nat) (m : Mem) (h1 : inLayout kb addr)
    (h2 : inLayout kb la)
    (hle : sectorOf addr (flashLayout kb) ≤ sectorOf la (flashLayout kb)) :
    flashLayout0.sector_num ≤ sectorOf addr (flashLayout kb) ∧
    sectorOf la (flashLayout kb) ≤ (flashLayoutLast kb).sector_num ∧
    8192 ≤ eraseStart kb addr ∧ eraseStart kb addr < sectorEndOf kb la ∧
    sectorEndOf kb la ≤ layoutEnd kb ∧
    eraseStart kb addr % FlashCalcPageSize m = 0 ∧
    (sectorEndOf kb la - eraseStart kb addr) % FlashCalcPageSize m = 0 ∧
    (sectorEndOf kb la - eraseStart kb addr) / FlashCalcPageSize m ≤ 1008 ∧
    eraseStart kb addr ≤ addr ∧ la < sectorEndOf kb la := by
  obtain ⟨a1, _, a3, _⟩ := sectorOf_bounds kb addr h1
  obtain ⟨_, b2, _, b4⟩ := sectorOf_bounds kb la h2
  have F : 8192 ≤ eraseStart kb addr ∧ eraseStart kb addr % 4096 = 0 ∧
      eraseStart kb addr < sectorEndOf kb la ∧ sectorEndOf kb la % 4096 = 0 ∧
      sectorEndOf kb la ≤ layoutEnd kb :=
    erase_range_facts kb (sectorOf addr (flashLayout kb)) (sectorOf la (flashLayout kb))
      a1 hle b2
  obtain ⟨f1, f2, f3, f4, f5⟩ := F
  have hE := layoutEnd_cases kb
  have a3' : eraseStart kb addr ≤ addr := a3
  have b4' : la < sectorEndOf kb la := b4
  refine ⟨a1, b2, f1, f3, f5, ?_, ?_, ?_, a3', b4'⟩
  · rcases FlashCalcPageSize_cases m with hP | hP | hP <;> rw [hP] <;> omega
  · rcases FlashCalcPageSize_cases m with hP | hP | hP <;> rw [hP] <;> omega
  · rcases FlashCalcPageSize_cases m with hP | hP | hP <;> rw [hP] <;> omega

theorem eraseEntryAt_eq (kb addr la : Nat) (s : FlashState) :
    ∃ k1 k2 k3 k4 k5,
      FlashGetSector kb addr s = (sectorOf addr (flashLayout kb), s.cops k1) ∧
      FlashGetSector kb la (s.cops k1) = (sectorOf la (flashLayout kb), s.cops (k2 + k1)) ∧
      FlashGetSectorBaseAddr kb (sectorOf addr (flashLayout kb)) (s.cops (k2 + k1))
        = (eraseStart kb addr, (s.cops (k2 + k1)).cops k3) ∧
      FlashGetSectorBaseAddr kb (sectorOf la (flashLayout kb)) ((s.cops (k2 + k1)).cops k3)
        = (sectorBaseOf (sectorOf la (flashLayout kb)) (flashLayout kb),
            ((s.cops (k2 + k1)).cops k3).cops k4) ∧
      FlashGetSectorSize kb (sectorOf la (flashLayout kb))
          (((s.cops (k2 + k1)).cops k3).cops k4)
        = (sectorSizeOf (sectorOf la (flashLayout kb)) (flashLayout kb),
            (((s.cops (k2 + k1)).cops k3).cops k4).cops k5) ∧
      eraseEntryAt kb addr la s = (((s.cops (k2 + k1)).cops k3).cops k4).cops k5 := by
  obtain ⟨k1, e1⟩ := FlashGetSector_eq kb addr s
  obtain ⟨k2, e2⟩ := FlashGetSector_eq kb la (s.cops k1)
  rw [cops_cops] at e2
  obtain ⟨k3, e3⟩ := FlashGetSectorBaseAddr_loop_eq (sectorOf addr (flashLayout kb))
    (flashLayout kb) (s.cops (k2 + k1))
  obtain ⟨k4, e4⟩ := FlashGetSectorBaseAddr_loop_eq (sectorOf la (flashLayout kb))
    (flashLayout kb) ((s.cops (k2 + k1)).cops k3)
  obtain ⟨k5, e5⟩ := FlashGetSectorSize_loop_eq (sectorOf la (flashLayout kb))
    (flashLayout kb) (((s.cops (k2 + k1)).cops k3).cops k4)
  refine ⟨k1, k2, k3, k4, k5, e1, e2, e3, e4, e5, ?_⟩
  have e3' : FlashGetSectorBaseAddr kb (sectorOf addr (flashLayout kb)) (s.cops (k2 + k1))
      = _ := e3
  have e4' : FlashGetSectorBaseAddr kb (sectorOf la (flashLayout kb))
      ((s.cops (k2 + k1)).cops k3) = _ := e4
  have e5' : FlashGetSectorSize kb (sectorOf la (flashLayout kb))
      (((s.cops (k2 + k1)).cops k3).cops k4) = _ := e5
  unfold eraseEntryAt
  rw [e1]
  dsimp only
  rw [e2]
  dsimp only
  rw [e3']
  dsimp only
  rw [e4']
  dsimp only
  rw [e5']

theorem FlashErase_valid_eq (kb : Nat) (dev : Device) (addr len : Nat) (s : FlashState)
    (la : Nat) (hla : (addr + len + 4294967295) % 4294967296 = la)
    (h1 : inLayout kb addr) (h2 : inLayout kb la)
    (hle : sectorOf addr (flashLayout kb) ≤ sectorOf la (flashLayout kb)) :
    FlashErase kb dev addr len s =
      FlashEraseSectors.loop dev (eraseStart kb addr) (FlashCalcPageSize s.flash)
        ((sectorEndOf kb la - eraseStart kb addr) / FlashCalcPageSize s.flash) 0
        (eraseEntryAt kb addr la s) ∧
    ∃ K, eraseEntryAt kb addr la s = s.cops K := by
  obtain ⟨c1, c2, c3, c4, c5, c6, c7, c8, c9, c10⟩ :=
    erase_valid_facts kb addr la s.flash h1 h2 hle
  have hE := layoutEnd_cases kb
  obtain ⟨k1, k2, k3, k4, k5, e1, e2, e3, e4, e5, e6⟩ := eraseEntryAt_eq kb addr la s
  refine ⟨?_, ⟨_, by rw [e6, cops_cops, cops_cops, cops_cops]⟩⟩
  rw [e6]
  unfold FlashErase
  rw [hla, e1]
  dsimp only
  rw [e2]
  dsimp only
  rw [if_neg (by
    intro h
    rcases h with h | h
    · exact (sectorOf_ne_invalid_iff kb addr).2 h1 h
    · exact (sectorOf_ne_invalid_iff kb _).2 h2 h)]
  unfold FlashEraseSectors
  rw [if_neg (by omega), if_neg (by omega)]
  dsimp only
  rw [e3]
  dsimp only
  rw [e4]
  dsimp only
  rw [e5]
  dsimp only
  have hP : FlashCalcPageSize (s.cops (k2 + k1)).flash = FlashCalcPageSize s.flash := rfl
  rw [hP]
  have hen : sectorBaseOf (sectorOf la (flashLayout kb)) (flashLayout kb)
      + sectorSizeOf (sectorOf la (flashLayout kb)) (flashLayout kb) = sectorEndOf kb la := rfl
  rw [hen]
  have hlen : ((sectorEndOf kb la + 4294967295) % 4294967296 + 4294967296
      - eraseStart kb addr + 1) % 4294967296 = sectorEndOf kb la - eraseStart kb addr := by
    omega
  rw [hlen, Nat.mod_eq_of_lt (by omega)]

/-! ## What `FlashErase` erases -/

theorem FlashErase_reject (kb : Nat) (dev : Device) (addr len : Nat) (s : FlashState)
    (la : Nat) (hla : (addr + len + 4294967295) % 4294967296 = la)
    (h : ¬ inLayout kb addr ∨ ¬ inLayout kb la ∨
      sectorOf addr (flashLayout kb) > sectorOf la (flashLayout kb)) :
    ∃ k, FlashErase kb dev addr len s = (false, s.cops k) := by
  obtain ⟨k1, h1⟩ := FlashGetSector_eq kb addr s
  obtain ⟨k2, h2⟩ := FlashGetSector_eq kb la (s.cops k1)
  unfold FlashErase
  rw [hla, h1]
  dsimp only
  rw [h2]
  dsimp only
  rw [cops_cops]
  split
  · exact ⟨_, rfl⟩
  · rename_i hn
    have hgt : sectorOf addr (flashLayout kb) > sectorOf la (flashLayout kb) := by
      rcases h with h | h | h
      · exact absurd (Or.inl ((sectorOf_eq_invalid_iff kb addr).2 h)) hn
      · exact absurd (Or.inr ((sectorOf_eq_invalid_iff kb la).2 h)) hn
      · exact h
    unfold FlashEraseSectors
    rw [if_pos hgt]
    exact ⟨_, rfl⟩

theorem erasedPages_eq (kb : Nat) (dev : Device) (addr len : Nat) (s : FlashState)
    (new : List Event) (K : Nat)
    (h : (FlashErase kb dev addr len s).2.log = new ++ (s.cops K).log) :
    erasedPages kb dev addr len s = (eraseCalls new).reverse := by
  have h2 : (FlashErase kb dev addr len s).2.log
      = (new ++ List.replicate K Event.cop) ++ s.log := by
    rw [h, List.append_assoc]
    rfl
  unfold erasedPages
  rw [newEvents_eq h2, eraseCalls_append]
  have : eraseCalls (List.replicate K Event.cop) = [] := by
    have := eraseCalls_cops K []
    rw [List.append_nil] at this
    exact this
  rw [this, List.append_nil]

theorem page_addr_eq (start P N j : Nat) (h : start + N * P < 4294967296) (hj : j ≤ N) :
    (start + (0 + j) * P % 4294967296) % 4294967296 = start + j * P := by
  have h1 : j * P ≤ N * P := Nat.mul_le_mul_right P hj
  rw [Nat.zero_add]
  generalize j * P = x at *
  generalize N * P = y at *
  omega

theorem FlashErase_valid_setup (kb : Nat) (dev : Device) (addr len : Nat) (s : FlashState)
    (hfirst : eraseFirst kb addr ≠ FLASH_INVALID_SECTOR)
    (hlast : eraseLast kb addr len ≠ FLASH_INVALID_SECTOR)
    (hle : eraseFirst kb addr ≤ eraseLast kb addr len) :
    ∃ K,
      FlashErase kb dev addr len s =
        FlashEraseSectors.loop dev (eraseStart kb addr) (FlashCalcPageSize s.flash)
          ((eraseEnd kb addr len - eraseStart kb addr) / FlashCalcPageSize s.flash) 0
          (s.cops K) ∧
      eraseEntry kb addr len s = s.cops K ∧
      8192 ≤ eraseStart kb addr ∧ eraseStart kb addr < eraseEnd kb addr len ∧
      eraseEnd kb addr len ≤ layoutEnd kb ∧
      eraseStart kb addr % FlashCalcPageSize s.flash = 0 ∧
      (eraseEnd kb addr len - eraseStart kb addr) % FlashCalcPageSize s.flash = 0 ∧
      (eraseEnd kb addr len - eraseStart kb addr) / FlashCalcPageSize s.flash ≤ 1008 ∧
      eraseStart kb addr ≤ addr ∧
      (addr + len + 4294967295) % 4294967296 < eraseEnd kb addr len := by
  obtain ⟨la, hla⟩ : ∃ la, (addr + len + 4294967295) % 4294967296 = la := ⟨_, rfl⟩
  have hLast : eraseLast kb addr len = sectorOf la (flashLayout kb) := by
    rw [← hla]
    rfl
  have hEnd : eraseEnd kb addr len = sectorEndOf kb la := by
    rw [← hla]
    rfl
  have hEntry : eraseEntry kb addr len s = eraseEntryAt kb addr la s := by
    rw [← hla]
    rfl
  have hFirst : eraseFirst kb addr = sectorOf addr (flashLayout kb) := rfl
  rw [hLast] at hlast hle
  rw [hFirst] at hfirst hle
  have h1 : inLayout kb addr := (sectorOf_ne_invalid_iff kb addr).1 hfirst
  have h2 : inLayout kb la := (sectorOf_ne_invalid_iff kb la).1 hlast
  obtain ⟨_, _, c3, c4, c5, c6, c7, c8, c9, c10⟩ :=
    erase_valid_facts kb addr la s.flash h1 h2 hle
  obtain ⟨e1, K, e2⟩ := FlashErase_valid_eq kb dev addr len s la hla h1 h2 hle
  rw [hEnd, hEntry, hla]
  rw [e2] at e1
  exact ⟨K, e1, e2, c3, c4, c5, c6, c7, c8, c9, c10⟩

theorem eraseAnswer_eq (kb : Nat) (dev : Device) (addr len : Nat) (s : FlashState) (K j : Nat)
    (h : eraseEntry kb addr len s = s.cops K) :
    eraseAnswer kb dev addr len s j =
      (dev.erasePage
        ((FlashEraseSectors.loop dev (eraseStart kb addr) (FlashCalcPageSize s.flash) j 0
          (s.cops K)).2.emit Event.cop).log
        ((FlashEraseSectors.loop dev (eraseStart kb addr) (FlashCalcPageSize s.flash) j 0
          (s.cops K)).2.emit Event.cop).flash
        (eraseStart kb addr + j * FlashCalcPageSize s.flash)).1 := by
  unfold eraseAnswer eraseAfter
  rw [h]

theorem pages_cover (st en P x : Nat) (hP : P = 512 ∨ P = 2048 ∨ P = 4096)
    (hdiv : (en - st) % P = 0) (h1 : st ≤ x) (h2 : x < en) :
    (x - st) / P < (en - st) / P ∧ st + (x - st) / P * P ≤ x ∧
    x < st + (x - st) / P * P + P := by
  rcases hP with h | h | h <;> subst h <;> omega

/-- C15, as amended: for every table variant, every page size `P` reported by
`FlashCalcPageSize` (512, 2048 or 4096) and every `addr`, `len` whose first and last
sectors are valid with first ≤ last, on a device whose erase operations succeed
`FlashErase(addr, len)` returns `BLT_TRUE` after passing to the device exactly the pages
`sectorStart(first) + k * P` for `k = 0 .. N - 1`, in ascending order, where
`N = (sectorEnd(last) + 1 - sectorStart(first)) / P` is an exact division and fits in
16 bits; every byte from `sectorStart(first)` to `sectorEnd(last)` lies in one of these
pages; and when the request does not wrap around (`addr + len ≤ 2^32`) every byte of
`[addr, addr + len)` lies in that range, hence in an erased page. -/
theorem FlashErase_covers_sectors (kb : Nat) (dev : Device) (hdev : dev.EraseSucceeds)
    (addr len : Nat) (s : FlashState)
    (hfirst : eraseFirst kb addr ≠ FLASH_INVALID_SECTOR)
    (hlast : eraseLast kb addr len ≠ FLASH_INVALID_SECTOR)
    (hle : eraseFirst kb addr ≤ eraseLast kb addr len) :
    (FlashCalcPageSize s.flash = 512 ∨ FlashCalcPageSize s.flash = 2048 ∨
      FlashCalcPageSize s.flash = 4096) ∧
    eraseStart kb addr < eraseEnd kb addr len ∧
    (eraseEnd kb addr len - eraseStart kb addr) % FlashCalcPageSize s.flash = 0 ∧
    (eraseEnd kb addr len - eraseStart kb addr) / FlashCalcPageSize s.flash < 65536 ∧
    (FlashErase kb dev addr len s).1 = true ∧
    erasedPages kb dev addr len s =
      (List.range ((eraseEnd kb addr len - eraseStart kb addr) / FlashCalcPageSize s.flash)).map
        (fun k => eraseStart kb addr + k * FlashCalcPageSize s.flash) ∧
    (∀ x, eraseStart kb addr ≤ x → x < eraseEnd kb addr len →
      ∃ a ∈ erasedPages kb dev addr len s, a ≤ x ∧ x < a + FlashCalcPageSize s.flash) ∧
    (addr + len ≤ 4294967296 →
      (∀ x, addr ≤ x → x < addr + len →
        eraseStart kb addr ≤ x ∧ x < eraseEnd kb addr len) ∧
      eraseCoversRequest kb dev addr len s) := by
  obtain ⟨K, e1, _, c3, c4, c5, c6, c7, c8, c9, c10⟩ :=
    FlashErase_valid_setup kb dev addr len s hfirst hlast hle
  have hPc := FlashCalcPageSize_cases s.flash
  have hE := layoutEnd_cases kb
  generalize hP : FlashCalcPageSize s.flash = P at *
  generalize hst : eraseStart kb addr = st at *
  generalize hen : eraseEnd kb addr len = en at *
  have hP0 : 0 < P := by omega
  have hNP : (en - st) / P * P = en - st := Nat.div_mul_cancel (Nat.dvd_of_mod_eq_zero c7)
  obtain ⟨r1, new, r2, r3⟩ := erase_loop_all_ok dev st P ((en - st) / P) 0 (s.cops K)
    (fun j _ => hdev _ _ _)
  rw [← e1] at r1 r2
  have hpages : erasedPages kb dev addr len s
      = (List.range ((en - st) / P)).map (fun k => st + k * P) := by
    rw [erasedPages_eq kb dev addr len s new K r2, r3,
      pagesFrom_eq_map st P _ 0 (by rw [Nat.zero_add, hNP]; omega) hP0]
    exact List.map_congr_left (fun k _ => by rw [Nat.zero_add])
  have hcover : ∀ x, st ≤ x → x < en →
      ∃ a ∈ erasedPages kb dev addr len s, a ≤ x ∧ x < a + P := by
    intro x hx1 hx2
    obtain ⟨p1, p2, p3⟩ := pages_cover st en P x hPc c7 hx1 hx2
    rw [hpages]
    exact ⟨st + (x - st) / P * P, List.mem_map.2 ⟨_, List.mem_range.2 p1, rfl⟩, p2, p3⟩
  refine ⟨hPc, c4, c7, by omega, r1, hpages, hcover, ?_⟩
  intro hnw
  have hin : ∀ x, addr ≤ x → x < addr + len → st ≤ x ∧ x < en := by
    intro x hx1 hx2
    omega
  refine ⟨hin, ?_⟩
  intro x hx1 hx2 _
  rw [hP]
  exact hcover x (hin x hx1 hx2).1 (hin x hx1 hx2).2

/-- C15 for the erase of the first sector of the 32 KB table on a device that always
succeeds. -/
theorem FlashErase_covers_sectors_witness :
    idealDevice.EraseSucceeds ∧
    (FlashErase 32 idealDevice 0x2000 0x2000 (FlashInit erasedState)).1 = true :=
  ⟨fun _ _ _ => rfl,
   (FlashErase_covers_sectors 32 idealDevice (fun _ _ _ => rfl) 0x2000 0x2000
      (FlashInit erasedState) (by decide) (by decide) (by decide)).2.2.2.2.1⟩

/-- C15, as stated, fails for a request that wraps around the 32-bit address space:
`FlashErase(0x2100, 0xFFFFFF01)` has the last address `0x2000`, so first and last sector
are both sector 1; the call erases the four 2 KB pages of sector 1 and returns `BLT_TRUE`,
although the byte at `0x4000` (sector 2) lies in the requested range
`[0x2100, 0x2100 + 0xFFFFFF01)` and in no erased page. -/
theorem FlashErase_wrapped_request_counterexample :
    eraseFirst 32 0x2100 = 1 ∧ eraseLast 32 0x2100 0xFFFFFF01 = 1 ∧
    (FlashErase 32 idealDevice 0x2100 0xFFFFFF01 (FlashInit erasedState)).1 = true ∧
    erasedPages 32 idealDevice 0x2100 0xFFFFFF01 (FlashInit erasedState)
      = [0x2000, 0x2800, 0x3000, 0x3800] ∧
    ¬ eraseCoversRequest 32 idealDevice 0x2100 0xFFFFFF01 (FlashInit erasedState) := by
  have hp : erasedPages 32 idealDevice 0x2100 0xFFFFFF01 (FlashInit erasedState)
      = [0x2000, 0x2800, 0x3000, 0x3800] := by decide
  refine ⟨by decide, by decide, by decide, hp, ?_⟩
  intro h
  obtain ⟨a, ha, h1, h2⟩ := h 0x4000 (by omega) (by omega) (by decide)
  rw [hp] at ha
  have hP : FlashCalcPageSize (FlashInit erasedState).flash = 2048 := by decide
  rw [hP] at h2
  simp only [List.mem_cons, List.mem_singleton, List.not_mem_nil, or_false] at ha
  omega

theorem mem_eraseCalls {a : Nat} : ∀ {l : List Event},
    a ∈ eraseCalls l ↔ Event.erase a ∈ l
  | [] => by simp [eraseCalls]
  | e :: l => by
    cases e <;> simp [eraseCalls, mem_eraseCalls (l := l)]

theorem page_addr_plain (start P N j : Nat) (h : start + N * P < 4294967296) (hj : j ≤ N) :
    (start + j * P % 4294967296) % 4294967296 = start + j * P := by
  have := page_addr_eq start P N j h hj
  rw [Nat.zero_add] at this
  exact this

/-- C16, as amended: whatever the arguments, the device and the page size `P`, every page
that `FlashErase(addr, len)` passes to the device is erased on behalf of a valid request
(first and last sector valid, first ≤ last), starts on a multiple of `P`, and lies between
the start of the sector that holds `addr` and the end of the sector that holds
`addr + len - 1` (modulo 2^32); these two sectors contain `addr` and `addr + len - 1`.
No page outside the sectors first .. last is ever erased. -/
theorem FlashErase_within_sector_range (kb : Nat) (dev : Device) (addr len : Nat)
    (s : FlashState) :
    ∀ a ∈ erasedPages kb dev addr len s,
      (eraseFirst kb addr ≠ FLASH_INVALID_SECTOR ∧
        eraseLast kb addr len ≠ FLASH_INVALID_SECTOR ∧
        eraseFirst kb addr ≤ eraseLast kb addr len) ∧
      a % FlashCalcPageSize s.flash = 0 ∧
      eraseStart kb addr ≤ a ∧ a + FlashCalcPageSize s.flash ≤ eraseEnd kb addr len ∧
      eraseStart kb addr ≤ addr ∧
      (addr + len + 4294967295) % 4294967296 < eraseEnd kb addr len := by
  intro a ha
  by_cases hv : eraseFirst kb addr ≠ FLASH_INVALID_SECTOR ∧
      eraseLast kb addr len ≠ FLASH_INVALID_SECTOR ∧
      eraseFirst kb addr ≤ eraseLast kb addr len
  · obtain ⟨hfirst, hlast, hle⟩ := hv
    obtain ⟨K, e1, _, c3, c4, c5, c6, c7, c8, c9, c10⟩ :=
      FlashErase_valid_setup kb dev addr len s hfirst hlast hle
    have hPc := FlashCalcPageSize_cases s.flash
    have hE := layoutEnd_cases kb
    obtain ⟨_, _, evs, l1, l2⟩ := FlashEraseSectors_loop_general dev (eraseStart kb addr)
      (FlashCalcPageSize s.flash)
      ((eraseEnd kb addr len - eraseStart kb addr) / FlashCalcPageSize s.flash) 0 (s.cops K)
    rw [← e1] at l1
    rw [erasedPages_eq kb dev addr len s evs K l1, List.mem_reverse, mem_eraseCalls] at ha
    generalize hP : FlashCalcPageSize s.flash = P at *
    generalize hst : eraseStart kb addr = st at *
    generalize hen : eraseEnd kb addr len = en at *
    have hNP : (en - st) / P * P = en - st := Nat.div_mul_cancel (Nat.dvd_of_mod_eq_zero c7)
    rcases l2 _ ha with h | ⟨k, hk, h⟩
    · cases h
    · injection h with h
      rw [Nat.zero_add] at hk
      rw [page_addr_plain st P ((en - st) / P) k (by rw [hNP]; omega) (by omega)] at h
      have hk2 : (k + 1) * P ≤ (en - st) / P * P := Nat.mul_le_mul_right P hk
      rw [hNP, Nat.add_mul] at hk2
      have hmod : (st + k * P) % P = 0 := by
        rw [Nat.add_mul_mod_self_right]
        exact c6
      rw [h]
      exact ⟨⟨hfirst, hlast, hle⟩, hmod, by omega, by omega, c9, c10⟩
  · exfalso
    obtain ⟨la, hla⟩ : ∃ la, (addr + len + 4294967295) % 4294967296 = la := ⟨_, rfl⟩
    have hLast : eraseLast kb addr len = sectorOf la (flashLayout kb) := by
      rw [← hla]
      rfl
    have hFirst : eraseFirst kb addr = sectorOf addr (flashLayout kb) := rfl
    rw [hLast, hFirst] at hv
    obtain ⟨k, hk⟩ := FlashErase_reject kb dev addr len s la hla (by
      by_cases h1 : inLayout kb addr
      · by_cases h2 : inLayout kb la
        · refine Or.inr (Or.inr ?_)
          by_contra hc
          exact hv ⟨(sectorOf_ne_invalid_iff kb addr).2 h1,
            (sectorOf_ne_invalid_iff kb la).2 h2, by omega⟩
        · exact Or.inr (Or.inl h2)
      · exact Or.inl h1)
    have hl : (FlashErase kb dev addr len s).2.log = [] ++ (s.cops k).log := by
      rw [hk]
      rfl
    rw [erasedPages_eq kb dev addr len s [] k hl] at ha
    cases ha

/-- C16, as stated, fails: with page size 512 (Gecko family) the request
`FlashErase(0x2000, 1)` erases the whole 8 KB sector 1, among others the page at `0x2200`,
which does not overlap the requested byte `[0x2000, 0x2001)`; and the request
`FlashErase(0x2001, 0)`, whose range is empty, erases the same sixteen pages. -/
theorem FlashErase_whole_sector_counterexample :
    erasedPages 32 idealDevice 0x2000 1
        (FlashInit ⟨⟨0, fun _ => 0⟩, ⟨0, fun _ => 0⟩, geckoMem, []⟩)
      = (List.range 16).map (fun k => 0x2000 + k * 512) ∧
    ¬ eraseInsideRequest 32 idealDevice 0x2000 1
        (FlashInit ⟨⟨0, fun _ => 0⟩, ⟨0, fun _ => 0⟩, geckoMem, []⟩) ∧
    erasedPages 32 idealDevice 0x2001 0
        (FlashInit ⟨⟨0, fun _ => 0⟩, ⟨0, fun _ => 0⟩, geckoMem, []⟩)
      = (List.range 16).map (fun k => 0x2000 + k * 512) ∧
    ¬ eraseInsideRequest 32 idealDevice 0x2001 0
        (FlashInit ⟨⟨0, fun _ => 0⟩, ⟨0, fun _ => 0⟩, geckoMem, []⟩) := by
  have hp1 : erasedPages 32 idealDevice 0x2000 1
      (FlashInit ⟨⟨0, fun _ => 0⟩, ⟨0, fun _ => 0⟩, geckoMem, []⟩)
      = (List.range 16).map (fun k => 0x2000 + k * 512) := by decide
  have hp2 : erasedPages 32 idealDevice 0x2001 0
      (FlashInit ⟨⟨0, fun _ => 0⟩, ⟨0, fun _ => 0⟩, geckoMem, []⟩)
      = (List.range 16).map (fun k => 0x2000 + k * 512) := by decide
  refine ⟨hp1, ?_, hp2, ?_⟩
  · intro h
    obtain ⟨x, h1, _, h3, h4⟩ := h 0x2200 (by rw [hp1]; decide)
    omega
  · intro h
    obtain ⟨x, _, _, h3, h4⟩ := h 0x2200 (by rw [hp2]; decide)
    omega

/-- C16, as amended, at the page `0x2200` erased by `FlashErase(0x2000, 1)` with page size
512: it lies in sector 1, `[0x2000, 0x4000)`. -/
theorem FlashErase_within_sector_range_witness :
    0x2200 ∈ erasedPages 32 idealDevice 0x2000 1
      (FlashInit ⟨⟨0, fun _ => 0⟩, ⟨0, fun _ => 0⟩, geckoMem, []⟩) ∧
    eraseStart 32 0x2000 ≤ 0x2200 ∧
    0x2200 + FlashCalcPageSize
      (FlashInit ⟨⟨0, fun _ => 0⟩, ⟨0, fun _ => 0⟩, geckoMem, []⟩).flash
        ≤ eraseEnd 32 0x2000 1 :=
  ⟨by decide,
   (FlashErase_within_sector_range 32 idealDevice 0x2000 1
      (FlashInit ⟨⟨0, fun _ => 0⟩, ⟨0, fun _ => 0⟩, geckoMem, []⟩) 0x2200 (by decide)).2.2.1,
   (FlashErase_within_sector_range 32 idealDevice 0x2000 1
      (FlashInit ⟨⟨0, fun _ => 0⟩, ⟨0, fun _ => 0⟩, geckoMem, []⟩) 0x2200 (by decide)).2.2.2.1⟩

/-- C17: let `FlashErase(addr, len)` have a valid sector range, and let unit `k` (of the
`N` pages of the range) be the first one for which the device reports an error, the
answers being those the device gives to the calls as the loop makes them. Then
`FlashErase` returns `BLT_FALSE` and the pages passed to the device are exactly units
`0, 1, ..., k` in this order: each of them once (no retry), and no unit after `k`. -/
theorem FlashErase_stops_at_first_failure (kb : Nat) (dev : Device) (addr len : Nat)
    (s : FlashState) (k : Nat)
    (hfirst : eraseFirst kb addr ≠ FLASH_INVALID_SECTOR)
    (hlast : eraseLast kb addr len ≠ FLASH_INVALID_SECTOR)
    (hle : eraseFirst kb addr ≤ eraseLast kb addr len)
    (hk : k < (eraseEnd kb addr len - eraseStart kb addr) / FlashCalcPageSize s.flash)
    (hok : ∀ j, j < k → eraseAnswer kb dev addr len s j = true)
    (hfail : eraseAnswer kb dev addr len s k = false) :
    (FlashErase kb dev addr len s).1 = false ∧
    erasedPages kb dev addr len s =
      (List.range (k + 1)).map (fun j => eraseStart kb addr + j * FlashCalcPageSize s.flash) ∧
    (∀ j, j ≤ k →
      (erasedPages kb dev addr len s).count
        (eraseStart kb addr + j * FlashCalcPageSize s.flash) = 1) ∧
    (∀ j, k < j →
      eraseStart kb addr + j * FlashCalcPageSize s.flash ∉ erasedPages kb dev addr len s) := by
  obtain ⟨K, e1, e2, c3, c4, c5, c6, c7, c8, c9, c10⟩ :=
    FlashErase_valid_setup kb dev addr len s hfirst hlast hle
  have hPc := FlashCalcPageSize_cases s.flash
  have hE := layoutEnd_cases kb
  have hans := fun j => eraseAnswer_eq kb dev addr len s K j e2
  generalize hP : FlashCalcPageSize s.flash = P at *
  generalize hst : eraseStart kb addr = st at *
  generalize hen : eraseEnd kb addr len = en at *
  have hP0 : 0 < P := by omega
  have hNP : (en - st) / P * P = en - st := Nat.div_mul_cancel (Nat.dvd_of_mod_eq_zero c7)
  have hbound : st + (en - st) / P * P < 4294967296 := by rw [hNP]; omega
  obtain ⟨r1, new, r2, r3⟩ := erase_loop_first_failure dev st P ((en - st) / P) 0 (s.cops K)
    k hk
    (fun j hj => by
      rw [page_addr_eq st P _ j hbound (by omega), ← hans j]
      exact hok j hj)
    (by
      rw [page_addr_eq st P _ k hbound (by omega), ← hans k]
      exact hfail)
  rw [← e1] at r1 r2
  have hk1 : (k + 1) * P ≤ (en - st) / P * P := Nat.mul_le_mul_right P hk
  have hpages : erasedPages kb dev addr len s
      = (List.range (k + 1)).map (fun j => st + j * P) := by
    rw [erasedPages_eq kb dev addr len s new K r2, r3,
      pagesFrom_eq_map st P _ 0 (by rw [Nat.zero_add]; omega) hP0]
    exact List.map_congr_left (fun j _ => by rw [Nat.zero_add])
  have hinj : Function.Injective (fun j => st + j * P) := by
    intro i j hij
    have h : i * P = j * P := Nat.add_left_cancel hij
    exact Nat.eq_of_mul_eq_mul_right hP0 h
  refine ⟨r1, hpages, ?_, ?_⟩
  · intro j hj
    rw [hpages]
    exact List.count_eq_one_of_mem (List.Nodup.map hinj (List.nodup_range _))
      (List.mem_map.2 ⟨j, List.mem_range.2 (by omega), rfl⟩)
  · intro j hj hmem
    rw [hpages] at hmem
    obtain ⟨i, hi, hij⟩ := List.mem_map.1 hmem
    have := hinj hij
    have := List.mem_range.1 hi
    omega

/-- C17 on a device whose erase of the page at `0x2800` fails: the erase of sector 1
(2 KB pages) stops after the pages `0x2000` and `0x2800`. -/
theorem FlashErase_stops_at_first_failure_witness :
    eraseAnswer 32 rejectPage2800 0x2000 0x2000 (FlashInit erasedState) 0 = true ∧
    eraseAnswer 32 rejectPage2800 0x2000 0x2000 (FlashInit erasedState) 1 = false ∧
    (FlashErase 32 rejectPage2800 0x2000 0x2000 (FlashInit erasedState)).1 = false ∧
    erasedPages 32 rejectPage2800 0x2000 0x2000 (FlashInit erasedState) =
      (List.range (1 + 1)).map (fun j => eraseStart 32 0x2000
        + j * FlashCalcPageSize (FlashInit erasedState).flash) :=
  ⟨by decide, by decide,
   (FlashErase_stops_at_first_failure 32 rejectPage2800 0x2000 0x2000 (FlashInit erasedState)
      1 (by decide) (by decide) (by decide) (by decide)
      (fun j hj => by
        have : j = 0 := by omega
        subst this
        decide)
      (by decide)).1,
   (FlashErase_stops_at_first_failure 32 rejectPage2800 0x2000 0x2000 (FlashInit erasedState)
      1 (by decide) (by decide) (by decide) (by decide)
      (fun j hj => by
        have : j = 0 := by omega
        subst this
        decide)
      (by decide)).2.1⟩

/-! ## Block initialisation, invariant, look-ups, page size -/

/-- C26, as amended: if `block->base_addr == address`, `FlashInitBlock(block, address)`
leaves the whole state unchanged (the buffer is not reloaded from flash, so bytes already
accumulated are kept), and it returns `BLT_TRUE` exactly when the address is a multiple of
512: the alignment check comes first. -/
theorem FlashInitBlock_same_block (block : BlockRef) (address : Nat) (s : FlashState)
    (h : (s.block block).base_addr = address) :
    (FlashInitBlock block address s).2 = s ∧
    ((FlashInitBlock block address s).1 = true ↔ address % 512 = 0) ∧
    (address % 512 = 0 → FlashInitBlock block address s = (true, s)) := by
  unfold FlashInitBlock
  by_cases ha : address % 512 = 0
  · rw [if_neg (by omega), if_pos h]
    exact ⟨rfl, ⟨fun _ => ha, fun _ => rfl⟩, fun _ => rfl⟩
  · rw [if_pos ha]
    refine ⟨rfl, ⟨fun hc => ?_, fun hc => absurd hc ha⟩, fun hc => absurd hc ha⟩
    cases hc

/-- C26, as amended, for the block at `0x4000` with accumulated bytes. -/
theorem FlashInitBlock_same_block_witness :
    FlashInitBlock BlockRef.blockInfo 0x4000 bothPending = (true, bothPending) :=
  (FlashInitBlock_same_block BlockRef.blockInfo 0x4000 bothPending rfl).2.2 (by decide)

/-- C26, as stated, fails: right after `FlashInit` the base address of `blockInfo` is
`FLASH_INVALID_ADDRESS`, and `FlashInitBlock(&blockInfo, FLASH_INVALID_ADDRESS)` returns
`BLT_FALSE` although `block->base_addr == address`, because `0xFFFFFFFF` is not a multiple
of 512. -/
theorem FlashInitBlock_same_block_counterexample :
    ((FlashInit erasedState).block BlockRef.blockInfo).base_addr = FLASH_INVALID_ADDRESS ∧
    (FlashInitBlock BlockRef.blockInfo FLASH_INVALID_ADDRESS (FlashInit erasedState)).1
      = false := by
  exact ⟨rfl, by decide⟩

/-- C27: for every block, state and address: if the address is not a multiple of 512,
`FlashInitBlock` returns `BLT_FALSE` and changes nothing; if it is a multiple of 512 and
differs from the current base address of the block, `FlashInitBlock` returns `BLT_TRUE`,
the base address becomes the address, byte `i < 512` of the buffer becomes the memory byte
at `address + i`, and the other accumulator, the memory and the log are unchanged. -/
theorem FlashInitBlock_alignment (block : BlockRef) (address : Nat) (s : FlashState) :
    (address % 512 ≠ 0 → FlashInitBlock block address s = (false, s)) ∧
    (address % 512 = 0 → (s.block block).base_addr ≠ address →
      (FlashInitBlock block address s).1 = true ∧
      ((FlashInitBlock block address s).2.block block).base_addr = address ∧
      (∀ i, i < 512 →
        ((FlashInitBlock block address s).2.block block).data i = rdByte s.flash (address + i)) ∧
      (∀ other, other ≠ block →
        (FlashInitBlock block address s).2.block other = s.block other) ∧
      (FlashInitBlock block address s).2.flash = s.flash ∧
      (FlashInitBlock block address s).2.log = s.log) := by
  refine ⟨fun h => ?_, fun h hne => ?_⟩
  · unfold FlashInitBlock
    rw [if_pos h]
  · unfold FlashInitBlock
    rw [if_neg (by omega), if_neg hne]
    cases block
    · refine ⟨rfl, rfl, fun i hi => ?_, fun other ho => ?_, rfl, rfl⟩
      · show CpuMemCopy _ _ _ _ i = _
        unfold CpuMemCopy
        exact if_pos hi
      · cases other
        · exact absurd rfl ho
        · rfl
    · refine ⟨rfl, rfl, fun i hi => ?_, fun other ho => ?_, rfl, rfl⟩
      · show CpuMemCopy _ _ _ _ i = _
        unfold CpuMemCopy
        exact if_pos hi
      · cases other
        · rfl
        · exact absurd rfl ho

/-- C27 at a misaligned and at an aligned address. -/
theorem FlashInitBlock_alignment_witness :
    FlashInitBlock BlockRef.blockInfo 0x4001 bothPending = (false, bothPending) ∧
    (FlashInitBlock BlockRef.blockInfo 0x4200 bothPending).1 = true :=
  ⟨(FlashInitBlock_alignment BlockRef.blockInfo 0x4001 bothPending).1 (by decide),
   ((FlashInitBlock_alignment BlockRef.blockInfo 0x4200 bothPending).2 (by decide)
      (by decide)).1⟩

/-- C28: start from any power-on state, call `FlashInit` and then any finite sequence of
`FlashWrite`, `FlashWriteChecksum`, `FlashErase`, `FlashDone` (and further `FlashInit`)
calls with arbitrary arguments on an arbitrary device, whatever the calls return. In the
state reached, the base address of the boot block accumulator is `FLASH_INVALID_ADDRESS`
or `flashLayout[0].sector_start`; the base address of the general accumulator is not
`flashLayout[0].sector_start` (it is `FLASH_INVALID_ADDRESS` or a multiple of 512); and
the two base addresses are equal only when both are `FLASH_INVALID_ADDRESS`. -/
theorem accumulators_exclusive (kb : Nat) (dev : Device) (ram1 ram2 : tFlashBlockInfo)
    (mem : Mem) (log : List Event) (ops : List Op) :
    ((runOps kb dev ops (FlashInit ⟨ram1, ram2, mem, log⟩)).bootBlockInfo.base_addr
        = FLASH_INVALID_ADDRESS ∨
      (runOps kb dev ops (FlashInit ⟨ram1, ram2, mem, log⟩)).bootBlockInfo.base_addr
        = flashLayout0.sector_start) ∧
    (runOps kb dev ops (FlashInit ⟨ram1, ram2, mem, log⟩)).blockInfo.base_addr
      ≠ flashLayout0.sector_start ∧
    ((runOps kb dev ops (FlashInit ⟨ram1, ram2, mem, log⟩)).blockInfo.base_addr
        = FLASH_INVALID_ADDRESS ∨
      (runOps kb dev ops (FlashInit ⟨ram1, ram2, mem, log⟩)).blockInfo.base_addr % 512 = 0) ∧
    ((runOps kb dev ops (FlashInit ⟨ram1, ram2, mem, log⟩)).bootBlockInfo.base_addr
        = (runOps kb dev ops (FlashInit ⟨ram1, ram2, mem, log⟩)).blockInfo.base_addr →
      (runOps kb dev ops (FlashInit ⟨ram1, ram2, mem, log⟩)).blockInfo.base_addr
        = FLASH_INVALID_ADDRESS) := by
  obtain ⟨⟨hb, hg⟩, _⟩ := runOps_Inv kb dev ops (FlashInit ⟨ram1, ram2, mem, log⟩)
    (FlashInit_Inv _)
  generalize runOps kb dev ops (FlashInit ⟨ram1, ram2, mem, log⟩) = t at *
  rw [sector_start0] at *
  unfold FLASH_INVALID_ADDRESS at *
  refine ⟨hb, ?_, ?_, ?_⟩
  · rcases hg with h | h
    · rw [h]; decide
    · exact h.2
  · rcases hg with h | h
    · exact Or.inl h
    · exact Or.inr h.1
  · intro he
    rcases hg with h | h
    · exact h
    · rcases hb with h2 | h2
      · rw [← he, h2]
      · exact absurd (he ▸ h2) h.2

theorem sectorBaseOf_absent (n : Nat) : ∀ (L : List tFlashSector),
    (∀ sec ∈ L, sec.sector_num ≠ n) →
    sectorBaseOf n L = FLASH_INVALID_ADDRESS ∧ sectorSizeOf n L = 0
  | [], _ => ⟨rfl, rfl⟩
  | sec :: rest, h => by
    have h1 : ¬ (sec.sector_num = n) := h sec (List.mem_cons_self _ _)
    obtain ⟨i1, i2⟩ := sectorBaseOf_absent n rest
      (fun x hx => h x (List.mem_cons_of_mem _ hx))
    rw [sectorBaseOf, sectorSizeOf, if_neg h1, if_neg h1]
    exact ⟨i1, i2⟩

theorem FlashGetSectorBaseAddr_fst (kb n : Nat) (s : FlashState) :
    (FlashGetSectorBaseAddr kb n s).1 = sectorBaseOf n (flashLayout kb) := by
  obtain ⟨k, hk⟩ := FlashGetSectorBaseAddr_loop_eq n (flashLayout kb) s
  unfold FlashGetSectorBaseAddr
  rw [hk]

theorem FlashGetSectorSize_fst (kb n : Nat) (s : FlashState) :
    (FlashGetSectorSize kb n s).1 = sectorSizeOf n (flashLayout kb) := by
  obtain ⟨k, hk⟩ := FlashGetSectorSize_loop_eq n (flashLayout kb) s
  unfold FlashGetSectorSize
  rw [hk]

/-- C29: for every table variant and every address `A` inside the table, with
`n = FlashGetSector(A)`:
`FlashGetSectorBaseAddr(n) ≤ A < FlashGetSectorBaseAddr(n) + FlashGetSectorSize(n)`;
and for every sector number `n` that appears in no table entry (among them 0 and `0xFF`)
`FlashGetSectorBaseAddr(n)` returns `FLASH_INVALID_ADDRESS` and `FlashGetSectorSize(n)`
returns 0. The states in which the three functions are called do not matter. -/
theorem sector_lookup_round_trip (kb : Nat) (s1 s2 s3 : FlashState) :
    (∀ A, inLayout kb A →
      (FlashGetSectorBaseAddr kb (FlashGetSector kb A s1).1 s2).1 ≤ A ∧
      A < (FlashGetSectorBaseAddr kb (FlashGetSector kb A s1).1 s2).1
        + (FlashGetSectorSize kb (FlashGetSector kb A s1).1 s3).1) ∧
    (∀ n, (∀ sec ∈ flashLayout kb, sec.sector_num ≠ n) →
      (FlashGetSectorBaseAddr kb n s2).1 = FLASH_INVALID_ADDRESS ∧
      (FlashGetSectorSize kb n s3).1 = 0) ∧
    (FlashGetSectorBaseAddr kb 0 s2).1 = FLASH_INVALID_ADDRESS ∧
    (FlashGetSectorSize kb 0 s3).1 = 0 ∧
    (FlashGetSectorBaseAddr kb FLASH_INVALID_SECTOR s2).1 = FLASH_INVALID_ADDRESS ∧
    (FlashGetSectorSize kb FLASH_INVALID_SECTOR s3).1 = 0 := by
  have habs : ∀ n, (∀ sec ∈ flashLayout kb, sec.sector_num ≠ n) →
      (FlashGetSectorBaseAddr kb n s2).1 = FLASH_INVALID_ADDRESS ∧
      (FlashGetSectorSize kb n s3).1 = 0 := by
    intro n hn
    rw [FlashGetSectorBaseAddr_fst, FlashGetSectorSize_fst]
    exact sectorBaseOf_absent n _ hn
  have h0 : ∀ sec ∈ flashLayout kb, sec.sector_num ≠ 0 := by
    intro sec hs
    have := (sector_num_range kb sec hs).1
    have h1 : flashLayout0.sector_num = 1 := rfl
    omega
  have hff : ∀ sec ∈ flashLayout kb, sec.sector_num ≠ FLASH_INVALID_SECTOR := by
    intro sec hs
    have := (sector_num_range kb sec hs).2
    have := lastNum_le kb
    unfold FLASH_INVALID_SECTOR
    omega
  refine ⟨fun A hA => ?_, habs, (habs 0 h0).1, (habs 0 h0).2, (habs _ hff).1, (habs _ hff).2⟩
  rw [FlashGetSector_fst, FlashGetSectorBaseAddr_fst, FlashGetSectorSize_fst]
  obtain ⟨_, _, b3, b4⟩ := sectorOf_bounds kb A hA
  exact ⟨b3, b4⟩

/-- C29 at an address of sector 2 of the 32 KB table. -/
theorem sector_lookup_round_trip_witness :
    (FlashGetSectorBaseAddr 32 (FlashGetSector 32 0x4ABC erasedState).1 erasedState).1
      ≤ 0x4ABC ∧
    0x4ABC < (FlashGetSectorBaseAddr 32 (FlashGetSector 32 0x4ABC erasedState).1 erasedState).1
      + (FlashGetSectorSize 32 (FlashGetSector 32 0x4ABC erasedState).1 erasedState).1 :=
  (sector_lookup_round_trip 32 erasedState erasedState erasedState).1 0x4ABC (by decide)

/-- C30: `FlashCalcPageSize` is a function of the family byte at `0x0FE081FE` alone: 512
when the byte is 71 or 73, 4096 when it is 72, and 2048 for every other value. The result
is one of 512, 2048, 4096, never 0, so the division by the page size in
`FlashEraseSectors` is a division by a positive number. -/
theorem FlashCalcPageSize_total (m : Mem) :
    (rdByte m 0x0FE081FE = 71 ∨ rdByte m 0x0FE081FE = 73 → FlashCalcPageSize m = 512) ∧
    (rdByte m 0x0FE081FE = 72 → FlashCalcPageSize m = 4096) ∧
    (rdByte m 0x0FE081FE ≠ 71 → rdByte m 0x0FE081FE ≠ 73 → rdByte m 0x0FE081FE ≠ 72 →
      FlashCalcPageSize m = 2048) ∧
    (FlashCalcPageSize m = 512 ∨ FlashCalcPageSize m = 2048 ∨ FlashCalcPageSize m = 4096) ∧
    FlashCalcPageSize m ≠ 0 ∧
    (∀ m2 : Mem, rdByte m2 0x0FE081FE = rdByte m 0x0FE081FE →
      FlashCalcPageSize m2 = FlashCalcPageSize m) := by
  have hc := FlashCalcPageSize_cases m
  refine ⟨fun h => ?_, fun h => ?_, fun h1 h2 h3 => ?_, hc, by omega, fun m2 h => ?_⟩
  · unfold FlashCalcPageSize
    dsimp only
    rw [if_pos h]
  · unfold FlashCalcPageSize
    dsimp only
    rw [if_neg (by omega), if_pos h]
  · unfold FlashCalcPageSize
    dsimp only
    rw [if_neg (by omega), if_neg h3]
  · unfold FlashCalcPageSize
    dsimp only
    rw [h]

/-- C30 for the family bytes of Gecko (71), Giant (72) and an erased cell (255). -/
theorem FlashCalcPageSize_total_witness :
    FlashCalcPageSize geckoMem = 512 ∧ FlashCalcPageSize (fun _ => 72) = 4096 ∧
    FlashCalcPageSize (fun _ => 0xFF) = 2048 :=
  ⟨(FlashCalcPageSize_total geckoMem).1 (Or.inl (by decide)),
   (FlashCalcPageSize_total (fun _ => 72)).2.1 (by decide),
   (FlashCalcPageSize_total (fun _ => 0xFF)).2.2.1 (by decide) (by decide) (by decide)⟩

/-! ## `FlashWriteBlock` word by word -/

theorem program_loop_step (dev : Device) (b : tFlashBlockInfo) (n wc : Nat) (s : FlashState) :
    FlashWriteBlock.loop dev b (n + 1) wc s =
      if wordPasses dev b wc s = true
      then FlashWriteBlock.loop dev b n (wc + 1) (programRound dev b wc s)
      else (false, programRound dev b wc s) := by
  rw [FlashWriteBlock.loop]
  unfold wordPasses
  dsimp only
  by_cases h1 : (dev.writeWord (s.emit Event.cop).log (s.emit Event.cop).flash
      ((b.base_addr + wc * 4) % 4294967296) (rdWord b.data (wc * 4))).1 = false
  · rw [if_pos h1, h1, Bool.false_and, if_neg (by decide)]
    rfl
  · have h1' : (dev.writeWord (s.emit Event.cop).log (s.emit Event.cop).flash
        ((b.base_addr + wc * 4) % 4294967296) (rdWord b.data (wc * 4))).1 = true := by
      revert h1
      cases (dev.writeWord (s.emit Event.cop).log (s.emit Event.cop).flash
        ((b.base_addr + wc * 4) % 4294967296) (rdWord b.data (wc * 4))).1 <;> simp
    rw [if_neg h1, h1', Bool.true_and]
    by_cases h2 : rdWord (programRound dev b wc s).flash ((b.base_addr + wc * 4) % 4294967296)
        = rdWord b.data (wc * 4)
    · rw [if_pos (decide_eq_true h2)]
      exact if_neg (not_not.2 h2)
    · rw [if_neg (show ¬ (decide (rdWord (programRound dev b wc s).flash
        ((b.base_addr + wc * 4) % 4294967296) = rdWord b.data (wc * 4)) = true) by
          rw [decide_eq_true_eq]; exact h2)]
      exact if_pos h2

theorem programRound_log (dev : Device) (b : tFlashBlockInfo) (wc : Nat) (s : FlashState) :
    (programRound dev b wc s).log =
      [Event.program ((b.base_addr + wc * 4) % 4294967296) (rdWord b.data (wc * 4)),
        Event.cop] ++ s.log := rfl

/-- The loop of `FlashWriteBlock` when every word passes. -/
theorem program_loop_all_ok (dev : Device) (b : tFlashBlockInfo) :
    ∀ (n wc : Nat) (s : FlashState),
    (∀ j, j < n → wordPasses dev b (wc + j) (FlashWriteBlock.loop dev b j wc s).2 = true) →
    (FlashWriteBlock.loop dev b n wc s).1 = true ∧
    ∃ new, (FlashWriteBlock.loop dev b n wc s).2.log = new ++ s.log ∧
      (programCalls new).reverse = blockWordsFrom b n wc ∧ eraseCalls new = []
  | 0, wc, s, _ => ⟨rfl, [], rfl, rfl, rfl⟩
  | n + 1, wc, s, hok => by
    have h0 : wordPasses dev b wc s = true := hok 0 (by omega)
    have hstep : ∀ m, FlashWriteBlock.loop dev b (m + 1) wc s
        = FlashWriteBlock.loop dev b m (wc + 1) (programRound dev b wc s) := by
      intro m
      rw [program_loop_step, if_pos h0]
    obtain ⟨i1, new, i2, i3, i4⟩ := program_loop_all_ok dev b n (wc + 1)
      (programRound dev b wc s) (fun j hj => by
        have := hok (j + 1) (by omega)
        rw [hstep j, show wc + (j + 1) = wc + 1 + j by omega] at this
        exact this)
    rw [hstep n]
    refine ⟨i1, new ++ [Event.program ((b.base_addr + wc * 4) % 4294967296)
      (rdWord b.data (wc * 4)), Event.cop], ?_, ?_, ?_⟩
    · rw [i2, programRound_log, List.append_assoc]
    · rw [programCalls_append, List.reverse_append, i3]
      rfl
    · rw [eraseCalls_append, i4]
      rfl

/-- The loop of `FlashWriteBlock` when word `wc + k` is the first one that does not
pass: the loop ends in the state right after the call for that word. -/
theorem program_loop_first_failure (dev : Device) (b : tFlashBlockInfo) :
    ∀ (n wc : Nat) (s : FlashState) (k : Nat), k < n →
    (∀ j, j < k → wordPasses dev b (wc + j) (FlashWriteBlock.loop dev b j wc s).2 = true) →
    wordPasses dev b (wc + k) (FlashWriteBlock.loop dev b k wc s).2 = false →
    FlashWriteBlock.loop dev b n wc s
      = (false, (FlashWriteBlock.loop dev b (k + 1) wc s).2) ∧
    ∃ new, (FlashWriteBlock.loop dev b n wc s).2.log = new ++ s.log ∧
      (programCalls new).reverse = blockWordsFrom b (k + 1) wc ∧ eraseCalls new = []
  | 0, _, _, _, hk, _, _ => by omega
  | n + 1, wc, s, 0, _, _, hfail => by
    have h0 : wordPasses dev b wc s = false := hfail
    have hstep : ∀ m, FlashWriteBlock.loop dev b (m + 1) wc s
        = (false, programRound dev b wc s) := by
      intro m
      rw [program_loop_step, if_neg (by rw [h0]; decide)]
    rw [hstep n, hstep 0]
    exact ⟨rfl, [Event.program ((b.base_addr + wc * 4) % 4294967296)
      (rdWord b.data (wc * 4)), Event.cop], programRound_log dev b wc s, rfl, rfl⟩
  | n + 1, wc, s, k + 1, hk, hok, hfail => by
    have h0 : wordPasses dev b wc s = true := hok 0 (by omega)
    have hstep : ∀ m, FlashWriteBlock.loop dev b (m + 1) wc s
        = FlashWriteBlock.loop dev b m (wc + 1) (programRound dev b wc s) := by
      intro m
      rw [program_loop_step, if_pos h0]
    obtain ⟨i1, new, i2, i3, i4⟩ := program_loop_first_failure dev b n (wc + 1)
      (programRound dev b wc s) k (by omega)
      (fun j hj => by
        have := hok (j + 1) (by omega)
        rw [hstep j, show wc + (j + 1) = wc + 1 + j by omega] at this
        exact this)
      (by
        rw [hstep k, show wc + (k + 1) = wc + 1 + k by omega] at hfail
        exact hfail)
    rw [hstep n, hstep (k + 1)]
    refine ⟨i1, new ++ [Event.program ((b.base_addr + wc * 4) % 4294967296)
      (rdWord b.data (wc * 4)), Event.cop], ?_, ?_, ?_⟩
    · rw [i2, programRound_log, List.append_assoc]
    · rw [programCalls_append, List.reverse_append, i3]
      rfl
    · rw [eraseCalls_append, i4]
      rfl

theorem ProgramVerifies_passes {dev : Device} (h : dev.ProgramVerifies) (b : tFlashBlockInfo)
    (wc : Nat) (s : FlashState) : wordPasses dev b wc s = true := by
  obtain ⟨h1, h2⟩ := h (s.emit Event.cop).log (s.emit Event.cop).flash
    ((b.base_addr + wc * 4) % 4294967296) (rdWord b.data (wc * 4)) (rdWord_lt _ _)
  unfold wordPasses
  rw [h1, Bool.true_and, decide_eq_true_eq]
  exact h2

theorem ProgramSucceeds_verifies {dev : Device} (h : dev.ProgramSucceeds) :
    dev.ProgramVerifies := by
  intro log m a w hw
  rw [h log m a w]
  exact ⟨rfl, by rw [rdWord_storeWord]; exact Nat.mod_eq_of_lt hw⟩

theorem FlashWriteBlock_eq_loop (kb : Nat) (dev : Device) (block : BlockRef) (s : FlashState) :
    (∃ K, programEntry kb block s = s.cops K) ∧
    (inLayout kb (s.block block).base_addr →
      FlashWriteBlock kb dev block s
        = FlashWriteBlock.loop dev (s.block block) 128 0 (programEntry kb block s)) ∧
    (¬ inLayout kb (s.block block).base_addr →
      FlashWriteBlock kb dev block s = (false, programEntry kb block s)) := by
  obtain ⟨k, hk⟩ := FlashGetSector_eq kb (s.block block).base_addr s
  have he : programEntry kb block s = s.cops k := by
    unfold programEntry
    rw [hk]
  refine ⟨⟨k, he⟩, fun hin => ?_, fun hin => ?_⟩
  · rw [he]
    unfold FlashWriteBlock
    dsimp only
    rw [hk]
    dsimp only
    rw [if_neg ((sectorOf_ne_invalid_iff kb _).2 hin)]
  · rw [he]
    unfold FlashWriteBlock
    dsimp only
    rw [hk]
    dsimp only
    rw [if_pos ((sectorOf_eq_invalid_iff kb _).2 hin)]

theorem programmedWords_eq (kb : Nat) (dev : Device) (block : BlockRef) (s : FlashState)
    (new : List Event) (K : Nat)
    (h : (FlashWriteBlock kb dev block s).2.log = new ++ (s.cops K).log) :
    programmedWords kb dev block s = (programCalls new).reverse := by
  have h2 : (FlashWriteBlock kb dev block s).2.log
      = (new ++ List.replicate K Event.cop) ++ s.log := by
    rw [h, List.append_assoc]
    rfl
  unfold programmedWords
  rw [newEvents_eq h2, programCalls_append]
  have : programCalls (List.replicate K Event.cop) = [] := by
    have := programCalls_cops K []
    rw [List.append_nil] at this
    exact this
  rw [this, List.append_nil]

theorem block_words_map (kb : Nat) (b : tFlashBlockInfo) (n : Nat) (hn : n ≤ 128)
    (hin : inLayout kb b.base_addr) :
    blockWordsFrom b n 0
      = (List.range n).map (fun k => (b.base_addr + 4 * k, rdWord b.data (4 * k))) := by
  have ha := (inLayout_iff kb _).1 hin
  have hE := layoutEnd_cases kb
  rw [blockWordsFrom_eq_map]
  refine List.map_congr_left (fun k hk => ?_)
  have hk2 : k < n := List.mem_range.1 hk
  rw [Nat.zero_add, Nat.mod_eq_of_lt (by omega), Nat.mul_comm k 4]

/-- C24: for every block whose base address lies in the table, on a device on which every
program call reports success and every programmed word reads back, `FlashWriteBlock`
returns `BLT_TRUE` and makes exactly 128 program calls: in call order, call `k = 0 .. 127`
goes to address `base + 4k` with the little-endian word of `block->data[4k .. 4k+3]`.
Both accumulators (base address and buffer) are unchanged and no erase call is made. -/
theorem FlashWriteBlock_success (kb : Nat) (dev : Device) (block : BlockRef) (s : FlashState)
    (hin : inLayout kb (s.block block).base_addr) (hdev : dev.ProgramVerifies) :
    (FlashWriteBlock kb dev block s).1 = true ∧
    programmedWords kb dev block s =
      (List.range 128).map
        (fun k => ((s.block block).base_addr + 4 * k, rdWord (s.block block).data (4 * k))) ∧
    (FlashWriteBlock kb dev block s).2.blockInfo = s.blockInfo ∧
    (FlashWriteBlock kb dev block s).2.bootBlockInfo = s.bootBlockInfo ∧
    eraseCalls (newEvents s (FlashWriteBlock kb dev block s).2) = [] := by
  obtain ⟨⟨K, he⟩, e1, _⟩ := FlashWriteBlock_eq_loop kb dev block s
  obtain ⟨g1, g2, _⟩ := FlashWriteBlock_general kb dev block s
  obtain ⟨r1, new, r2, r3, r4⟩ := program_loop_all_ok dev (s.block block) 128 0
    (programEntry kb block s) (fun j _ => ProgramVerifies_passes hdev _ _ _)
  rw [← e1 hin] at r1 r2
  rw [he] at r2
  refine ⟨r1, ?_, g1, g2, ?_⟩
  · rw [programmedWords_eq kb dev block s new K r2, r3]
    exact block_words_map kb _ 128 (by omega) hin
  · have h2 : (FlashWriteBlock kb dev block s).2.log
        = (new ++ List.replicate K Event.cop) ++ s.log := by
      rw [r2, List.append_assoc]
      rfl
    rw [newEvents_eq h2, eraseCalls_append, r4]
    have := eraseCalls_cops K []
    rw [List.append_nil] at this
    exact this

/-- C24 for the pending general block at `0x4000` on the device that always succeeds. -/
theorem FlashWriteBlock_success_witness :
    inLayout 32 (bothPending.block BlockRef.blockInfo).base_addr ∧
    idealDevice.ProgramVerifies ∧
    (FlashWriteBlock 32 idealDevice BlockRef.blockInfo bothPending).1 = true :=
  ⟨by decide, ProgramSucceeds_verifies idealDevice_succeeds,
   (FlashWriteBlock_success 32 idealDevice BlockRef.blockInfo bothPending (by decide)
      (ProgramSucceeds_verifies idealDevice_succeeds)).1⟩

/-- C25: (1) if the base address of the block lies in no sector of the table,
`FlashWriteBlock` returns `BLT_FALSE` without a program call and without touching the
memory. (2) Otherwise, if word `k < 128` is the first word that does not pass (the device
reports an error for its program call, or the read-back differs), the answers being those
the device gives to the calls as the loop makes them, then `FlashWriteBlock` returns
`BLT_FALSE`; the program calls it made are exactly those for words `0 .. k`, in order,
none for a later word; it makes no erase call; and the state it returns is the state right
after the call for word `k`: nothing is undone. -/
theorem FlashWriteBlock_failure (kb : Nat) (dev : Device) (block : BlockRef) (s : FlashState) :
    (¬ inLayout kb (s.block block).base_addr →
      (FlashWriteBlock kb dev block s).1 = false ∧
      programmedWords kb dev block s = [] ∧
      (FlashWriteBlock kb dev block s).2.flash = s.flash) ∧
    (inLayout kb (s.block block).base_addr → ∀ k, k < 128 →
      (∀ j, j < k → programAnswer kb dev block s j = true) →
      programAnswer kb dev block s k = false →
      (FlashWriteBlock kb dev block s).1 = false ∧
      programmedWords kb dev block s =
        (List.range (k + 1)).map
          (fun j => ((s.block block).base_addr + 4 * j, rdWord (s.block block).data (4 * j))) ∧
      eraseCalls (newEvents s (FlashWriteBlock kb dev block s).2) = [] ∧
      (FlashWriteBlock kb dev block s).2 = programAfter kb dev block s (k + 1)) := by
  obtain ⟨⟨K, he⟩, e1, e2⟩ := FlashWriteBlock_eq_loop kb dev block s
  refine ⟨fun hin => ?_, fun hin k hk hok hfail => ?_⟩
  · have hl : (FlashWriteBlock kb dev block s).2.log = [] ++ (s.cops K).log := by
      rw [e2 hin, he]
      rfl
    refine ⟨by rw [e2 hin], ?_, by rw [e2 hin, he]; rfl⟩
    rw [programmedWords_eq kb dev block s [] K hl]
    rfl
  · obtain ⟨r0, new, r2, r3, r4⟩ := program_loop_first_failure dev (s.block block) 128 0
      (programEntry kb block s) k hk
      (fun j hj => by
        have := hok j hj
        unfold programAnswer programAfter at this
        rw [Nat.zero_add]
        exact this)
      (by
        unfold programAnswer programAfter at hfail
        rw [Nat.zero_add]
        exact hfail)
    rw [← e1 hin] at r0 r2
    rw [he] at r2
    refine ⟨by rw [r0], ?_, ?_, ?_⟩
    · rw [programmedWords_eq kb dev block s new K r2, r3]
      exact block_words_map kb _ (k + 1) (by omega) hin
    · have h2 : (FlashWriteBlock kb dev block s).2.log
          = (new ++ List.replicate K Event.cop) ++ s.log := by
        rw [r2, List.append_assoc]
        rfl
      rw [newEvents_eq h2, eraseCalls_append, r4]
      have := eraseCalls_cops K []
      rw [List.append_nil] at this
      exact this
    · rw [r0]
      rfl

/-- C25 on a device that reports success but leaves the word at `0x4008` unprogrammed:
words 0 and 1 of the block at `0x4000` pass, the read-back of word 2 fails, and
`FlashWriteBlock` returns `BLT_FALSE` after the three calls. -/
theorem FlashWriteBlock_failure_witness :
    inLayout 32 (bothPending.block BlockRef.blockInfo).base_addr ∧
    programAnswer 32 stuckAt4008 BlockRef.blockInfo bothPending 2 = false ∧
    (FlashWriteBlock 32 stuckAt4008 BlockRef.blockInfo bothPending).1 = false ∧
    programmedWords 32 stuckAt4008 BlockRef.blockInfo bothPending =
      (List.range (2 + 1)).map
        (fun j => ((bothPending.block BlockRef.blockInfo).base_addr + 4 * j,
          rdWord (bothPending.block BlockRef.blockInfo).data (4 * j))) :=
  ⟨by decide, by decide,
   ((FlashWriteBlock_failure 32 stuckAt4008 BlockRef.blockInfo bothPending).2 (by decide) 2
      (by omega)
      (fun j hj => by
        have : j = 0 ∨ j = 1 := by omega
        rcases this with h | h <;> subst h <;> decide)
      (by decide)).1,
   ((FlashWriteBlock_failure 32 stuckAt4008 BlockRef.blockInfo bothPending).2 (by decide) 2
      (by omega)
      (fun j hj => by
        have : j = 0 ∨ j = 1 := by omega
        rcases this with h | h <;> subst h <;> decide)
      (by decide)).2.1⟩

/-! ## Routing of writes -/

theorem FlashInitBlock_general_boot (a : Nat) (s : FlashState) :
    (FlashInitBlock BlockRef.blockInfo a s).2.bootBlockInfo = s.bootBlockInfo := by
  unfold FlashInitBlock
  split
  · rfl
  · split
    · rfl
    · rfl

theorem FlashSwitchBlock_general_boot (kb : Nat) (dev : Device) (T : Nat) (s : FlashState)
    (hT : T ≠ 8192) :
    (FlashSwitchBlock kb dev BlockRef.blockInfo T s).2.bootBlockInfo = s.bootBlockInfo ∧
    ((FlashSwitchBlock kb dev BlockRef.blockInfo T s).1 = none ∨
      (FlashSwitchBlock kb dev BlockRef.blockInfo T s).1 = some BlockRef.blockInfo) := by
  obtain ⟨_, w2, _⟩ := FlashWriteBlock_general kb dev BlockRef.blockInfo s
  have hi := FlashInitBlock_general_boot T (FlashWriteBlock kb dev BlockRef.blockInfo s).2
  unfold FlashSwitchBlock
  rw [if_neg (by decide), if_neg (show ¬ (T = flashLayout0.sector_start) from hT)]
  dsimp only
  split
  · exact ⟨w2, Or.inl rfl⟩
  · split
    · exact ⟨hi.trans w2, Or.inl rfl⟩
    · exact ⟨hi.trans w2, Or.inr rfl⟩

theorem depositByte_general_boot (off byte : Nat) (s : FlashState) :
    (depositByte BlockRef.blockInfo off byte s).bootBlockInfo = s.bootBlockInfo := rfl

theorem FlashAddToBlock_loop_general_boot (kb : Nat) (dev : Device) (cb : Nat) (data : Mem)
    (hT : (cb + 512) % 4294967296 ≠ 8192) :
    ∀ (n dst src : Nat) (s : FlashState),
    (FlashAddToBlock.loop kb dev cb data n BlockRef.blockInfo dst src s).2.bootBlockInfo
      = s.bootBlockInfo
  | 0, _, _, _ => rfl
  | n + 1, dst, src, s => by
    rw [FlashAddToBlock.loop]
    dsimp only
    split
    · obtain ⟨f1, f2⟩ := FlashSwitchBlock_general_boot kb dev ((cb + 512) % 4294967296)
        (s.emit Event.cop) hT
      generalize FlashSwitchBlock kb dev BlockRef.blockInfo ((cb + 512) % 4294967296)
        (s.emit Event.cop) = r at *
      split
      · exact f1
      · rename_i blk hblk
        have hb : blk = BlockRef.blockInfo := by
          rcases f2 with h | h
          · exact Option.noConfusion (h.symm.trans hblk)
          · exact (Option.some.inj (h.symm.trans hblk)).symm
        rw [hb, FlashAddToBlock_loop_general_boot kb dev cb data hT n 1 (src + 1)]
        exact f1
    · rw [FlashAddToBlock_loop_general_boot kb dev cb data hT n (dst + 1) (src + 1)]
      rfl

theorem FlashAddToBlock_general_boot (kb : Nat) (dev : Device) (address : Nat) (data : Mem)
    (len : Nat) (s : FlashState) (hcb : address / 512 * 512 ≠ 8192)
    (hT : (address / 512 * 512 + 512) % 4294967296 ≠ 8192) :
    (FlashAddToBlock kb dev BlockRef.blockInfo address data len s).2.bootBlockInfo
      = s.bootBlockInfo := by
  unfold FlashAddToBlock
  dsimp only
  have h0 : (if (s.block BlockRef.blockInfo).base_addr = FLASH_INVALID_ADDRESS then
      FlashInitBlock BlockRef.blockInfo (address / 512 * 512) s else (true, s)).2.bootBlockInfo
      = s.bootBlockInfo := by
    split
    · exact FlashInitBlock_general_boot _ _
    · rfl
  generalize (if (s.block BlockRef.blockInfo).base_addr = FLASH_INVALID_ADDRESS then
      FlashInitBlock BlockRef.blockInfo (address / 512 * 512) s else (true, s)) = r0 at *
  split
  · exact h0
  · have h1 : (if (r0.2.block BlockRef.blockInfo).base_addr ≠ address / 512 * 512 then
        FlashSwitchBlock kb dev BlockRef.blockInfo (address / 512 * 512) r0.2
        else (some BlockRef.blockInfo, r0.2)).2.bootBlockInfo = s.bootBlockInfo ∧
        ((if (r0.2.block BlockRef.blockInfo).base_addr ≠ address / 512 * 512 then
          FlashSwitchBlock kb dev BlockRef.blockInfo (address / 512 * 512) r0.2
          else (some BlockRef.blockInfo, r0.2)).1 = none ∨
        (if (r0.2.block BlockRef.blockInfo).base_addr ≠ address / 512 * 512 then
          FlashSwitchBlock kb dev BlockRef.blockInfo (address / 512 * 512) r0.2
          else (some BlockRef.blockInfo, r0.2)).1 = some BlockRef.blockInfo) := by
      split
      · obtain ⟨f1, f2⟩ := FlashSwitchBlock_general_boot kb dev (address / 512 * 512) r0.2 hcb
        exact ⟨f1.trans h0, f2⟩
      · exact ⟨h0, Or.inr rfl⟩
    generalize (if (r0.2.block BlockRef.blockInfo).base_addr ≠ address / 512 * 512 then
        FlashSwitchBlock kb dev BlockRef.blockInfo (address / 512 * 512) r0.2
        else (some BlockRef.blockInfo, r0.2)) = r1 at *
    obtain ⟨h1a, h1b⟩ := h1
    split
    · exact h1a
    · rename_i blk hblk
      have hb : blk = BlockRef.blockInfo := by
        rcases h1b with h | h
        · exact Option.noConfusion (h.symm.trans hblk)
        · exact (Option.some.inj (h.symm.trans hblk)).symm
      rw [hb, FlashAddToBlock_loop_general_boot kb dev _ data hT]
      exact h1a

theorem FlashWrite_general_boot (kb : Nat) (dev : Device) (addr len : Nat) (data : Mem)
    (s : FlashState) (hcb : addr / 512 * 512 ≠ 8192) :
    (FlashWrite kb dev addr len data s).2.bootBlockInfo = s.bootBlockInfo := by
  by_cases hin : inLayout kb addr ∧ inLayout kb ((addr + len + 4294967295) % 4294967296)
  · obtain ⟨k1, e1⟩ := FlashGetSector_eq kb addr s
    obtain ⟨k2, e2⟩ := FlashGetSector_eq kb ((addr + len + 4294967295) % 4294967296)
      (s.cops k1)
    have ha := (inLayout_iff kb addr).1 hin.1
    have hE := layoutEnd_cases kb
    unfold FlashWrite
    rw [e1]
    dsimp only
    rw [if_neg ((sectorOf_ne_invalid_iff kb addr).2 hin.1), e2]
    dsimp only
    rw [if_neg ((sectorOf_ne_invalid_iff kb _).2 hin.2),
      if_neg (show ¬ (addr / 512 * 512 = flashLayout0.sector_start) from hcb),
      FlashAddToBlock_general_boot kb dev addr data _ _ hcb (by omega)]
    rfl
  · obtain ⟨k, hk⟩ := FlashWrite_reject kb dev addr len data s (by
      by_cases h1 : inLayout kb addr
      · exact Or.inr (fun h2 => hin ⟨h1, h2⟩)
      · exact Or.inl h1)
    rw [hk]
    rfl

/-- C21: (1) in a state whose boot block accumulator is unset or holds the first block of
`flashLayout[0]` (every state reached from `FlashInit` is such a state), a write of
`len ≥ 1` bytes with `addr / 512 * 512 = flashLayout[0].sector_start` and
`addr + len ≤ sector_start + 512` returns `BLT_TRUE`, leaves the general accumulator and
the memory unchanged and makes no program call: only the boot block accumulator changes,
and it then holds the first block. (2) In every state and on every device, a write with
`addr / 512 * 512 ≠ flashLayout[0].sector_start` leaves the boot block accumulator (base
address and buffer) unchanged, whatever it returns. -/
theorem FlashWrite_routing (kb : Nat) (dev : Device) (addr len : Nat) (data : Mem)
    (s : FlashState) :
    (addr / 512 * 512 = flashLayout0.sector_start →
      addr + len ≤ flashLayout0.sector_start + 512 → 1 ≤ len →
      (s.bootBlockInfo.base_addr = FLASH_INVALID_ADDRESS ∨
        s.bootBlockInfo.base_addr = flashLayout0.sector_start) →
      (FlashWrite kb dev addr len data s).1 = true ∧
      (FlashWrite kb dev addr len data s).2.blockInfo = s.blockInfo ∧
      (FlashWrite kb dev addr len data s).2.flash = s.flash ∧
      programCalls (FlashWrite kb dev addr len data s).2.log = programCalls s.log ∧
      (FlashWrite kb dev addr len data s).2.bootBlockInfo.base_addr
        = flashLayout0.sector_start) ∧
    (addr / 512 * 512 ≠ flashLayout0.sector_start →
      (FlashWrite kb dev addr len data s).2.bootBlockInfo = s.bootBlockInfo) := by
  refine ⟨fun hcb hend hlen hb => ?_, fun hcb => FlashWrite_general_boot kb dev addr len data s hcb⟩
  rw [sector_start0] at hcb hend
  obtain ⟨k, e⟩ := FlashWrite_boot_within kb dev addr len data s (by omega) (by omega) hlen hb
  obtain ⟨_, c2, c3, c4, c5, _⟩ := bootReady_frame (s.cops k) hb
  obtain ⟨g1, g2, g3, _, g5⟩ := depositRun_frame BlockRef.bootBlockInfo data len
    (addr - 8192) 0 (bootReady (s.cops k))
  rw [e]
  generalize depositRun BlockRef.bootBlockInfo data len (addr - 8192) 0
    (bootReady (s.cops k)) = s1 at *
  refine ⟨rfl, ?_, ?_, ?_, g3.trans c2⟩
  · have h1 : s1.blockInfo = (bootReady (s.cops k)).blockInfo :=
      g5 BlockRef.blockInfo (by decide)
    rw [h1, c3]
    rfl
  · show s1.flash = _
    rw [g1, c4]
    rfl
  · have hl : s1.log = _ := g2
    show programCalls s1.log = _
    rw [hl, programCalls_depositEvents, c5]
    exact programCalls_cops k s.log

/-- C21 for a write into the first block and a write into another block. -/
theorem FlashWrite_routing_witness :
    (FlashWrite 32 idealDevice 0x2010 4 (fun _ => 0xCD) generalPending).2.blockInfo
      = generalPending.blockInfo ∧
    (FlashWrite 32 idealDevice 0x4200 4 (fun _ => 0xCD) bothPending).2.bootBlockInfo
      = bothPending.bootBlockInfo :=
  ⟨((FlashWrite_routing 32 idealDevice 0x2010 4 (fun _ => 0xCD) generalPending).1
      (by decide) (by decide) (by omega) (Or.inl (by decide))).2.1,
   (FlashWrite_routing 32 idealDevice 0x4200 4 (fun _ => 0xCD) bothPending).2 (by decide)⟩

theorem FlashWrite_boot_entry (kb : Nat) (dev : Device) (addr len : Nat) (data : Mem)
    (s : FlashState) (h1 : 8192 ≤ addr) (h2 : addr < 8704)
    (hin2 : inLayout kb ((addr + len + 4294967295) % 4294967296))
    (hb : s.bootBlockInfo.base_addr = FLASH_INVALID_ADDRESS ∨
      s.bootBlockInfo.base_addr = flashLayout0.sector_start) :
    ∃ k, FlashWrite kb dev addr len data s =
      FlashAddToBlock.loop kb dev 8192 data (if len % 65536 = 0 then 65536 else len % 65536)
        BlockRef.bootBlockInfo (addr - 8192) 0 (bootReady (s.cops k)) := by
  obtain ⟨k1, e1⟩ := FlashGetSector_eq kb addr s
  obtain ⟨k2, e2⟩ := FlashGetSector_eq kb ((addr + len + 4294967295) % 4294967296) (s.cops k1)
  have hE := layoutEnd_cases kb
  have hin1 : inLayout kb addr := (inLayout_iff kb addr).2 (by omega)
  have hcb : addr / 512 * 512 = 8192 := by omega
  refine ⟨k2 + k1, ?_⟩
  unfold FlashWrite
  rw [e1]
  dsimp only
  rw [if_neg ((sectorOf_ne_invalid_iff kb addr).2 hin1), e2]
  dsimp only
  rw [if_neg ((sectorOf_ne_invalid_iff kb _).2 hin2), cops_cops, hcb,
    if_pos (show 8192 = flashLayout0.sector_start from rfl)]
  obtain ⟨f1, f2, f3, f4, f5, f6⟩ := bootReady_frame (s.cops (k2 + k1)) hb
  unfold FlashAddToBlock
  dsimp only
  rw [hcb]
  have hr0 : (if ((s.cops (k2 + k1)).block BlockRef.bootBlockInfo).base_addr
        = FLASH_INVALID_ADDRESS then
        FlashInitBlock BlockRef.bootBlockInfo 8192 (s.cops (k2 + k1))
      else (true, s.cops (k2 + k1))) = (true, bootReady (s.cops (k2 + k1))) := by
    split
    · exact f1
    · rename_i hne
      rcases hb with hb | hb
      · exact absurd hb hne
      · have : bootReady (s.cops (k2 + k1)) = s.cops (k2 + k1) := by
          unfold bootReady FlashInitBlock
          rw [if_neg (by decide), if_pos (show ((s.cops (k2 + k1)).block
            BlockRef.bootBlockInfo).base_addr = flashLayout0.sector_start from hb)]
        rw [this]
  rw [hr0]
  dsimp only
  rw [if_neg (by decide)]
  have hbase : ((bootReady (s.cops (k2 + k1))).block BlockRef.bootBlockInfo).base_addr = 8192 :=
    f2
  rw [if_neg (by rw [hbase]; simp)]
  dsimp only
  rw [hbase]
  have hd : (addr + 4294967296 - 8192) % 4294967296 = addr - 8192 := by omega
  rw [hd]

theorem depositEvents_append (boot : Bool) (data : Mem) :
    ∀ (n dst src : Nat) (l : List Event),
    depositEvents boot data n dst src l = depositEvents boot data n dst src [] ++ l
  | 0, _, _, _ => rfl
  | n + 1, dst, src, l => by
    rw [depositEvents, depositEvents_append boot data n (dst + 1) (src + 1)
      (Event.deposit boot dst (data src % 256) :: Event.cop :: l), depositEvents,
      depositEvents_append boot data n (dst + 1) (src + 1)
      [Event.deposit boot dst (data src % 256), Event.cop], List.append_assoc]
    rfl

/-- C22, as amended: in every state that satisfies the accumulator invariant (as every
state reached from `FlashInit` does), whether or not the general accumulator holds a
pending block, an in-range `FlashWrite` whose address lies in the first 512-byte block of
`flashLayout[0]` does not flush the general accumulator before it starts to fill the boot
block buffer: after the watchdog services of the look-ups, the first thing the call does
is to store `data[0]` in the boot block buffer. If the write stays inside the first block
it makes no program call at all, and the general accumulator is left as it is, with its
block still pending. -/
theorem FlashWrite_into_boot_block (kb : Nat) (dev : Device) (addr len : Nat) (data : Mem)
    (s : FlashState) (hI : Inv s)
    (h1 : flashLayout0.sector_start ≤ addr) (h2 : addr < flashLayout0.sector_start + 512)
    (hin2 : inLayout kb ((addr + len + 4294967295) % 4294967296)) :
    (∃ k evs, (FlashWrite kb dev addr len data s).2.log =
      evs ++ Event.deposit true (addr - flashLayout0.sector_start) (data 0 % 256)
        :: (List.replicate k Event.cop ++ s.log)) ∧
    (1 ≤ len → addr + len ≤ flashLayout0.sector_start + 512 →
      (FlashWrite kb dev addr len data s).1 = true ∧
      programCalls (newEvents s (FlashWrite kb dev addr len data s).2) = [] ∧
      (FlashWrite kb dev addr len data s).2.blockInfo = s.blockInfo) := by
  rw [sector_start0] at h1 h2 ⊢
  refine ⟨?_, fun hlen hend => ?_⟩
  · obtain ⟨k, e⟩ := FlashWrite_boot_entry kb dev addr len data s h1 h2 hin2 hI.1
    obtain ⟨m, hm⟩ : ∃ m, (if len % 65536 = 0 then 65536 else len % 65536) = m + 1 := by
      refine ⟨(if len % 65536 = 0 then 65536 else len % 65536) - 1, ?_⟩
      split <;> omega
    rw [hm] at e
    obtain ⟨_, _, _, _, c5, _⟩ := bootReady_frame (s.cops k) hI.1
    have hI2 : Inv (bootReady (s.cops k)) := bootReady_Inv _ hI
    generalize bootReady (s.cops k) = t at *
    rw [FlashAddToBlock.loop] at e
    dsimp only at e
    rw [if_neg (by omega)] at e
    obtain ⟨_, evs, l1, _⟩ := FlashAddToBlock_loop_Inv kb dev 8192 data (by decide) m
      BlockRef.bootBlockInfo (addr - 8192 + 1) (0 + 1)
      (depositByte BlockRef.bootBlockInfo (addr - 8192) (data 0) (t.emit Event.cop))
      (depositByte_Inv _ _ _ _ hI2)
    refine ⟨k + 1, evs, ?_⟩
    rw [e, l1, depositByte_log]
    show evs ++ Event.deposit true (addr - 8192) (data 0 % 256) :: Event.cop :: t.log = _
    rw [c5]
    rfl
  · obtain ⟨k, e⟩ := FlashWrite_boot_within kb dev addr len data s h1 (by omega) hlen hI.1
    obtain ⟨_, c2, c3, c4, c5, _⟩ := bootReady_frame (s.cops k) hI.1
    obtain ⟨g1, g2, g3, _, g5⟩ := depositRun_frame BlockRef.bootBlockInfo data len
      (addr - 8192) 0 (bootReady (s.cops k))
    rw [e]
    generalize depositRun BlockRef.bootBlockInfo data len (addr - 8192) 0
      (bootReady (s.cops k)) = s1 at *
    refine ⟨rfl, ?_, ?_⟩
    · have hl : s1.log = depositEvents true data len (addr - 8192) 0 []
          ++ (List.replicate k Event.cop ++ s.log) := by
        have hl0 : s1.log = _ := g2
        rw [hl0, c5]
        show depositEvents true data len (addr - 8192) 0 (List.replicate k Event.cop ++ s.log)
          = _
        exact depositEvents_append true data len (addr - 8192) 0 _
      have hl2 : s1.log = (depositEvents true data len (addr - 8192) 0 []
          ++ List.replicate k Event.cop) ++ s.log := by
        rw [hl, List.append_assoc]
      show programCalls (newEvents s s1) = []
      rw [newEvents_eq hl2, programCalls_append, programCalls_depositEvents]
      have := programCalls_cops k []
      rw [List.append_nil] at this
      rw [this]
      rfl
    · have h1 : s1.blockInfo = (bootReady (s.cops k)).blockInfo :=
        g5 BlockRef.blockInfo (by decide)
      rw [h1, c3]
      rfl

/-- C22, as amended, for a write of four bytes at `0x2000` while the general accumulator
holds the pending block at `0x4000`. -/
theorem FlashWrite_into_boot_block_witness :
    Inv generalPending ∧
    (FlashWrite 32 idealDevice 0x2000 4 (fun _ => 0xCD) generalPending).2.blockInfo
      = generalPending.blockInfo :=
  ⟨(FlashWrite_Inv 32 idealDevice 0x4000 4 (fun _ => 0xAB) (FlashInit erasedState)
      (FlashInit_Inv erasedState)).1,
   ((FlashWrite_into_boot_block 32 idealDevice 0x2000 4 (fun _ => 0xCD) generalPending
      (FlashWrite_Inv 32 idealDevice 0x4000 4 (fun _ => 0xAB) (FlashInit erasedState)
        (FlashInit_Inv erasedState)).1
      (by decide) (by decide) (by decide)).2 (by omega) (by decide)).2.2⟩

/-- C22, as stated, fails: after `FlashInit` and a write to `0x4000` the general
accumulator holds the pending block at `0x4000`; the following `FlashWrite(0x2000, 4)`
returns `BLT_TRUE`, stores its bytes in the boot block buffer, and makes no program call:
no word of the pending general block is passed to the device and the block stays
pending. -/
theorem FlashWrite_boot_switch_counterexample :
    generalPending.blockInfo.base_addr = 0x4000 ∧
    (FlashWrite 32 idealDevice 0x2000 4 (fun _ => 0xCD) generalPending).1 = true ∧
    programCalls (FlashWrite 32 idealDevice 0x2000 4 (fun _ => 0xCD) generalPending).2.log
      = [] ∧
    Event.deposit true 0 0xCD
      ∈ (FlashWrite 32 idealDevice 0x2000 4 (fun _ => 0xCD) generalPending).2.log ∧
    (FlashWrite 32 idealDevice 0x2000 4 (fun _ => 0xCD) generalPending).2.blockInfo.base_addr
      = 0x4000 ∧
    ¬ generalFlushedDuring 32 idealDevice 0x2000 4 (fun _ => 0xCD) generalPending := by
  refine ⟨by decide, by decide, by decide, by decide, by decide, ?_⟩
  intro h
  have h0 := h 0 (by omega)
  have hp : programCalls (newEvents generalPending
      (FlashWrite 32 idealDevice 0x2000 4 (fun _ => 0xCD) generalPending).2) = [] := by
    decide
  rw [hp] at h0
  cases h0

/-- If the loop of `FlashWriteBlock` returns `BLT_TRUE`, it made the program call of
every round. -/
theorem program_loop_true (dev : Device) (b : tFlashBlockInfo) :
    ∀ (n wc : Nat) (s : FlashState), (FlashWriteBlock.loop dev b n wc s).1 = true →
    ∃ new, (FlashWriteBlock.loop dev b n wc s).2.log = new ++ s.log ∧
      (programCalls new).reverse = blockWordsFrom b n wc ∧ eraseCalls new = []
  | 0, _, _, _ => ⟨[], rfl, rfl, rfl⟩
  | n + 1, wc, s, h => by
    rw [program_loop_step] at h ⊢
    by_cases hp : wordPasses dev b wc s = true
    · rw [if_pos hp] at h ⊢
      obtain ⟨new, i2, i3, i4⟩ := program_loop_true dev b n (wc + 1) _ h
      refine ⟨new ++ [Event.program ((b.base_addr + wc * 4) % 4294967296)
        (rdWord b.data (wc * 4)), Event.cop], ?_, ?_, ?_⟩
      · rw [i2, programRound_log, List.append_assoc]
      · rw [programCalls_append, List.reverse_append, i3]
        rfl
      · rw [eraseCalls_append, i4]
        rfl
    · rw [if_neg hp] at h
      cases h

/-- C23: let the general accumulator hold a block with base `B` (not
`FLASH_INVALID_ADDRESS`), and let an in-range `FlashWrite` be routed to the general
accumulator with an aligned block base `B' = addr / 512 * 512` other than `B`. After the
watchdog services of the look-ups, `FlashWrite` calls `FlashWriteBlock` for the pending
block. If that returns `BLT_FALSE`, `FlashWrite` returns `BLT_FALSE` in the state
`FlashWriteBlock` left. If it returns `BLT_TRUE`, then `B` lies in the table, the 128 words
of the pending block were passed to the device (each read back), and only then the
accumulator is initialised for `B'`: its buffer is loaded from the memory as it is after
the programming, and the copy loop starts at offset `addr % 512`. -/
theorem FlashWrite_evicts_general (kb : Nat) (dev : Device) (addr len : Nat) (data : Mem)
    (s : FlashState) (hin1 : inLayout kb addr)
    (hin2 : inLayout kb ((addr + len + 4294967295) % 4294967296))
    (hcb : addr / 512 * 512 ≠ flashLayout0.sector_start)
    (hB : s.blockInfo.base_addr ≠ FLASH_INVALID_ADDRESS)
    (hne : s.blockInfo.base_addr ≠ addr / 512 * 512) :
    ∃ k,
      ((FlashWriteBlock kb dev BlockRef.blockInfo (s.cops k)).1 = false →
        FlashWrite kb dev addr len data s
          = (false, (FlashWriteBlock kb dev BlockRef.blockInfo (s.cops k)).2)) ∧
      ((FlashWriteBlock kb dev BlockRef.blockInfo (s.cops k)).1 = true →
        inLayout kb s.blockInfo.base_addr ∧
        programmedWords kb dev BlockRef.blockInfo (s.cops k) =
          (List.range 128).map
            (fun j => (s.blockInfo.base_addr + 4 * j, rdWord s.blockInfo.data (4 * j))) ∧
        FlashWrite kb dev addr len data s =
          FlashAddToBlock.loop kb dev (addr / 512 * 512) data
            (if len % 65536 = 0 then 65536 else len % 65536) BlockRef.blockInfo (addr % 512) 0
            (FlashInitBlock BlockRef.blockInfo (addr / 512 * 512)
              (FlashWriteBlock kb dev BlockRef.blockInfo (s.cops k)).2).2 ∧
        (FlashInitBlock BlockRef.blockInfo (addr / 512 * 512)
          (FlashWriteBlock kb dev BlockRef.blockInfo (s.cops k)).2).2.blockInfo.base_addr
          = addr / 512 * 512 ∧
        ∀ i, i < 512 →
          (FlashInitBlock BlockRef.blockInfo (addr / 512 * 512)
            (FlashWriteBlock kb dev BlockRef.blockInfo (s.cops k)).2).2.blockInfo.data i
            = rdByte (FlashWriteBlock kb dev BlockRef.blockInfo (s.cops k)).2.flash
                (addr / 512 * 512 + i)) := by
  obtain ⟨k1, e1⟩ := FlashGetSector_eq kb addr s
  obtain ⟨k2, e2⟩ := FlashGetSector_eq kb ((addr + len + 4294967295) % 4294967296) (s.cops k1)
  have hE := layoutEnd_cases kb
  have ha := (inLayout_iff kb addr).1 hin1
  have hal : addr / 512 * 512 % 512 = 0 := by omega
  have hd : (addr + 4294967296 - addr / 512 * 512) % 4294967296 = addr % 512 := by omega
  refine ⟨k2 + k1, ?_⟩
  generalize hs' : s.cops (k2 + k1) = s'
  have hb' : s'.blockInfo = s.blockInfo := by rw [← hs']; rfl
  obtain ⟨w1, w2, _⟩ := FlashWriteBlock_general kb dev BlockRef.blockInfo s'
  obtain ⟨⟨K, he⟩, l1, l2⟩ := FlashWriteBlock_eq_loop kb dev BlockRef.blockInfo s'
  obtain ⟨q1, q2, q3, q4, q5, q6⟩ := FlashInitBlock_general_frame (addr / 512 * 512)
    (FlashWriteBlock kb dev BlockRef.blockInfo s').2 hal
  have hFW : FlashWrite kb dev addr len data s =
      (match (FlashSwitchBlock kb dev BlockRef.blockInfo (addr / 512 * 512) s').1 with
        | none => (false, (FlashSwitchBlock kb dev BlockRef.blockInfo (addr / 512 * 512) s').2)
        | some block =>
          FlashAddToBlock.loop kb dev (addr / 512 * 512) data
            (if len % 65536 = 0 then 65536 else len % 65536) block
            ((addr + 4294967296 - ((FlashSwitchBlock kb dev BlockRef.blockInfo
              (addr / 512 * 512) s').2.block block).base_addr) % 4294967296) 0
            (FlashSwitchBlock kb dev BlockRef.blockInfo (addr / 512 * 512) s').2) := by
    unfold FlashWrite
    rw [e1]
    dsimp only
    rw [if_neg ((sectorOf_ne_invalid_iff kb addr).2 hin1), e2]
    dsimp only
    rw [if_neg ((sectorOf_ne_invalid_iff kb _).2 hin2), cops_cops,
      if_neg (show ¬ (addr / 512 * 512 = flashLayout0.sector_start) from hcb), hs']
    unfold FlashAddToBlock
    dsimp only
    rw [if_neg (show ¬ (s'.block BlockRef.blockInfo).base_addr = FLASH_INVALID_ADDRESS by
      show ¬ s'.blockInfo.base_addr = _; rw [hb']; exact hB)]
    dsimp only
    rw [if_neg (show ¬ (true = false) by decide),
      if_pos (show (s'.block BlockRef.blockInfo).base_addr ≠ addr / 512 * 512 by
        show s'.blockInfo.base_addr ≠ _; rw [hb']; exact hne)]
  have hPW : (FlashWriteBlock kb dev BlockRef.blockInfo s').1 = true →
      inLayout kb s.blockInfo.base_addr ∧
      programmedWords kb dev BlockRef.blockInfo s' =
        (List.range 128).map
          (fun j => (s.blockInfo.base_addr + 4 * j, rdWord s.blockInfo.data (4 * j))) := by
    intro ht
    have hin : inLayout kb s.blockInfo.base_addr := by
      by_contra hc
      have := l2 (by show ¬ inLayout kb s'.blockInfo.base_addr; rw [hb']; exact hc)
      rw [this] at ht
      cases ht
    have hin' : inLayout kb (s'.block BlockRef.blockInfo).base_addr := by
      show inLayout kb s'.blockInfo.base_addr
      rw [hb']
      exact hin
    refine ⟨hin, ?_⟩
    have hl := l1 hin'
    have ht2 : (FlashWriteBlock.loop dev (s'.block BlockRef.blockInfo) 128 0
        (programEntry kb BlockRef.blockInfo s')).1 = true := by
      rw [← hl]
      exact ht
    obtain ⟨new, r2, r3, _⟩ := program_loop_true dev _ 128 0 _ ht2
    rw [← hl, he] at r2
    rw [programmedWords_eq kb dev BlockRef.blockInfo s' new K r2, r3,
      block_words_map kb _ 128 (by omega) hin']
    show _ = List.map (fun j => (s.blockInfo.base_addr + 4 * j,
      rdWord s.blockInfo.data (4 * j))) _
    rw [← hb']
    rfl
  have hSW : FlashSwitchBlock kb dev BlockRef.blockInfo (addr / 512 * 512) s' =
      (if (FlashWriteBlock kb dev BlockRef.blockInfo s').1 = false then
        (none, (FlashWriteBlock kb dev BlockRef.blockInfo s').2)
      else (some BlockRef.blockInfo,
        (FlashInitBlock BlockRef.blockInfo (addr / 512 * 512)
          (FlashWriteBlock kb dev BlockRef.blockInfo s').2).2)) := by
    unfold FlashSwitchBlock
    rw [if_neg (by decide), if_neg hcb]
    dsimp only
    split
    · rfl
    · rw [if_neg (by rw [q1]; decide)]
  generalize FlashWriteBlock kb dev BlockRef.blockInfo s' = W at *
  refine ⟨fun hf => ?_, fun ht => ?_⟩
  · rw [hFW, hSW, if_pos hf]
  · refine ⟨(hPW ht).1, (hPW ht).2, ?_, q2, fun i hi => ?_⟩
    · rw [hFW, hSW, if_neg (by rw [ht]; decide)]
      dsimp only
      show FlashAddToBlock.loop kb dev _ data _ BlockRef.blockInfo
        ((addr + 4294967296 - (FlashInitBlock BlockRef.blockInfo (addr / 512 * 512)
          W.2).2.blockInfo.base_addr) % 4294967296) 0 _ = _
      rw [q2, hd]
    · rw [q6, if_neg (by rw [w1, hb']; exact hne)]
      unfold CpuMemCopy
      exact if_pos hi

/-- C23 for a write to `0x4200` while the general accumulator holds the block at
`0x4000`. -/
theorem FlashWrite_evicts_general_witness :
    inLayout 32 0x4200 ∧ bothPending.blockInfo.base_addr ≠ 0x4200 / 512 * 512 ∧
    ∃ k, (FlashWriteBlock 32 idealDevice BlockRef.blockInfo (bothPending.cops k)).1 = true →
      programmedWords 32 idealDevice BlockRef.blockInfo (bothPending.cops k) =
        (List.range 128).map
          (fun j => (bothPending.blockInfo.base_addr + 4 * j,
            rdWord bothPending.blockInfo.data (4 * j))) :=
  ⟨by decide, by decide,
   (FlashWrite_evicts_general 32 idealDevice 0x4200 4 (fun _ => 0xCD) bothPending
      (by decide) (by decide) (by decide) (by decide) (by decide)).elim
     (fun k h => ⟨k, fun ht => (h.2 ht).2.1⟩)⟩

/-! ## Alignment of the accumulators and erased flash -/

/-- C32: block-base alignment invariant. Take the state reached from `FlashInit` (called in
any power-on state) by any sequence of `FlashWrite`, `FlashWriteChecksum`, `FlashErase` and
`FlashDone` calls (and further `FlashInit` calls), with arbitrary arguments, on an arbitrary
device and whatever the calls return. The base address of the general accumulator
`blockInfo` is `FLASH_INVALID_ADDRESS` or a multiple of `FLASH_WRITE_BLOCK_SIZE`, and so is
the base address of the boot block accumulator `bootBlockInfo`. -/
theorem block_base_aligned (kb : Nat) (dev : Device) (ram1 ram2 : tFlashBlockInfo)
    (mem : Mem) (log : List Event) (ops : List Op) :
    ((runOps kb dev ops (FlashInit ⟨ram1, ram2, mem, log⟩)).blockInfo.base_addr
        = FLASH_INVALID_ADDRESS ∨
      (runOps kb dev ops (FlashInit ⟨ram1, ram2, mem, log⟩)).blockInfo.base_addr
        % FLASH_WRITE_BLOCK_SIZE = 0) ∧
    ((runOps kb dev ops (FlashInit ⟨ram1, ram2, mem, log⟩)).bootBlockInfo.base_addr
        = FLASH_INVALID_ADDRESS ∨
      (runOps kb dev ops (FlashInit ⟨ram1, ram2, mem, log⟩)).bootBlockInfo.base_addr
        % FLASH_WRITE_BLOCK_SIZE = 0) := by
  obtain ⟨⟨hb, hg⟩, _⟩ := runOps_Inv kb dev ops (FlashInit ⟨ram1, ram2, mem, log⟩)
    (FlashInit_Inv _)
  generalize runOps kb dev ops (FlashInit ⟨ram1, ram2, mem, log⟩) = t at *
  constructor
  · rcases hg with h | h
    · exact Or.inl h
    · exact Or.inr h.1
  · rcases hb with h | h
    · exact Or.inl h
    · right
      rw [h]
      rfl

/-- C36: erased flash is never taken for a valid application. For every memory in which
the eight words read by `FlashVerifyChecksum` (at `flashLayout[0].sector_start + 0x00`,
`0x04`, ..., `0x18` and `+ 0xB8`) all read `0xFFFFFFFF`, `FlashVerifyChecksum` returns
`BLT_FALSE`: the eight words add up to `0xFFFFFFF8` modulo 2^32, which is not 0. -/
theorem FlashVerifyChecksum_erased (m : Mem)
    (h : ∀ a ∈ signatureWordAddrs, rdWord m a = 0xFFFFFFFF) :
    FlashVerifyChecksum m = false := by
  have h0 := h flashLayout0.sector_start (by simp [signatureWordAddrs])
  have h1 := h (flashLayout0.sector_start + 0x04) (by simp [signatureWordAddrs])
  have h2 := h (flashLayout0.sector_start + 0x08) (by simp [signatureWordAddrs])
  have h3 := h (flashLayout0.sector_start + 0x0C) (by simp [signatureWordAddrs])
  have h4 := h (flashLayout0.sector_start + 0x10) (by simp [signatureWordAddrs])
  have h5 := h (flashLayout0.sector_start + 0x14) (by simp [signatureWordAddrs])
  have h6 := h (flashLayout0.sector_start + 0x18) (by simp [signatureWordAddrs])
  have h7 := h (flashLayout0.sector_start + FLASH_VECTOR_TABLE_CS_OFFSET)
    (by simp [signatureWordAddrs])
  unfold FlashVerifyChecksum
  dsimp only
  rw [h0, h1, h2, h3, h4, h5, h6, h7]
  rfl

set_option maxRecDepth 100000 in
/-- Example for C36: a memory that holds zeros everywhere passes the verification (the
eight words add up to 0); after `FlashErase` of the first sector on the ideal device the
eight words read `0xFFFFFFFF` and the verification fails. -/
theorem FlashVerifyChecksum_erased_witness :
    FlashVerifyChecksum (fun _ => 0) = true ∧
    (FlashErase 32 idealDevice 0x2000 0x2000 ⟨⟨0, fun _ => 0⟩, ⟨0, fun _ => 0⟩, fun _ => 0, []⟩).1
      = true ∧
    (∀ a ∈ signatureWordAddrs,
      rdWord (FlashErase 32 idealDevice 0x2000 0x2000
        ⟨⟨0, fun _ => 0⟩, ⟨0, fun _ => 0⟩, fun _ => 0, []⟩).2.flash a = 0xFFFFFFFF) ∧
    FlashVerifyChecksum (FlashErase 32 idealDevice 0x2000 0x2000
        ⟨⟨0, fun _ => 0⟩, ⟨0, fun _ => 0⟩, fun _ => 0, []⟩).2.flash = false :=
  ⟨by decide, by decide, by decide,
    FlashVerifyChecksum_erased _ (by decide)⟩

/-! ## Buffered data that is dropped -/

set_option maxRecDepth 1000000 in
/-- C34 does not hold: buffered data is dropped without being programmed. Session on the
ideal device (every program call succeeds), 32 KB layout, erased flash: `FlashInit`;
`FlashWrite` of 10 bytes `0xAB` at `0x4000`; `FlashWrite` of 32 bytes `0xCD` at `0x21F0`;
`FlashDone`. All three calls return `BLT_TRUE`. After the first write the general
accumulator holds the block at `0x4000` with the 10 bytes in its buffer. During the second
write its base address changes from `0x4000` to `0x2200` and no word is programmed: the
buffer for `0x4000` is reloaded without having been written. After `FlashDone` the ten
bytes at `0x4000` still read `0xFF`, and no program call of the whole session went to the
block at `0x4000`, while the bytes of the second write are in flash. -/
theorem dropped_general_block :
    (FlashWrite 32 idealDevice 0x4000 10 (fun _ => 0xAB) (FlashInit erasedState)).1 = true ∧
    dropAfterFirst.blockInfo.base_addr = 0x4000 ∧
    (∀ i, i < 10 → rdByte dropAfterFirst.blockInfo.data i = 0xAB) ∧
    (FlashWrite 32 idealDevice 0x21F0 32 (fun _ => 0xCD) dropAfterFirst).1 = true ∧
    dropAfterSecond.blockInfo.base_addr = 0x2200 ∧
    programCalls (newEvents dropAfterFirst dropAfterSecond) = [] ∧
    (FlashDone 32 idealDevice dropAfterSecond).1 = true ∧
    (∀ i, i < 10 → rdByte dropAfterDone.flash (0x4000 + i) = 0xFF) ∧
    (∀ p ∈ programCalls dropAfterDone.log, ¬ (0x4000 ≤ p.1 ∧ p.1 < 0x4200)) ∧
    (∀ i, i < 32 → rdByte dropAfterDone.flash (0x21F0 + i) = 0xCD) := by
  refine ⟨by decide, by decide, by decide, by decide, by decide, by decide, ?_, ?_, ?_, ?_⟩
  · decide
  · decide
  · decide
  · decide

/-! ## Watchdog services and byte copies of a write -/

theorem copies_append : ∀ (a b : List Event), copies (a ++ b) = copies a + copies b
  | [], b => (Nat.zero_add _).symm
  | e :: a, b => by
    have ih := copies_append a b
    cases e with
    | deposit bt o v =>
      show copies (a ++ b) + 1 = copies a + 1 + copies b
      omega
    | cop => exact ih
    | mscInit => exact ih
    | mscDeinit => exact ih
    | program x y => exact ih
    | erase x => exact ih

theorem services_append : ∀ (a b : List Event), services (a ++ b) = services a + services b
  | [], b => (Nat.zero_add _).symm
  | e :: a, b => by
    have ih := services_append a b
    cases e with
    | cop =>
      show services (a ++ b) + 1 = services a + 1 + services b
      omega
    | deposit bt o v => exact ih
    | mscInit => exact ih
    | mscDeinit => exact ih
    | program x y => exact ih
    | erase x => exact ih

theorem copies_quiet : ∀ (l : List Event), (∀ e ∈ l, e.quiet) → copies l = 0
  | [], _ => rfl
  | e :: l, h => by
    have ih := copies_quiet l (fun x hx => h x (List.mem_cons_of_mem _ hx))
    rcases h e (List.mem_cons_self _ _) with h1 | ⟨a, w, h1⟩ <;> rw [h1] <;> exact ih

theorem copFirst_append : ∀ (a b : List Event), copFirst a = true → copFirst (a ++ b) = true
  | [], _, h => by cases h
  | e :: a, b, h => by
    cases e <;> first
      | rfl
      | (exact copFirst_append a b h)
      | (cases h)

theorem copFirst_quiet : ∀ (l t : List Event), (∀ e ∈ l, e.quiet) →
    copFirst (l ++ Event.cop :: t) = true
  | [], _, _ => rfl
  | e :: l, t, h => by
    have ih := copFirst_quiet l t (fun x hx => h x (List.mem_cons_of_mem _ hx))
    rcases h e (List.mem_cons_self _ _) with h1 | ⟨a, w, h1⟩
    · rw [h1]; rfl
    · rw [h1]; exact ih

theorem guarded_quiet : ∀ (l t : List Event), (∀ e ∈ l, e.quiet) →
    guarded (l ++ t) = guarded t
  | [], _, _ => rfl
  | e :: l, t, h => by
    have ih := guarded_quiet l t (fun x hx => h x (List.mem_cons_of_mem _ hx))
    rcases h e (List.mem_cons_self _ _) with h1 | ⟨a, w, h1⟩ <;> rw [h1] <;> exact ih

theorem guarded_append : ∀ (a b : List Event), guarded a = true → guarded b = true →
    guarded (a ++ b) = true
  | [], _, _, hb => hb
  | e :: a, b, ha, hb => by
    cases e with
    | deposit bt o v =>
      have h1 : (copFirst a && guarded a) = true := ha
      rw [Bool.and_eq_true] at h1
      show (copFirst (a ++ b) && guarded (a ++ b)) = true
      rw [copFirst_append a b h1.1, guarded_append a b h1.2 hb]
      rfl
    | cop => exact guarded_append a b ha hb
    | mscInit => exact guarded_append a b ha hb
    | mscDeinit => exact guarded_append a b ha hb
    | program x y => exact guarded_append a b ha hb
    | erase x => exact guarded_append a b ha hb

theorem guarded_suffix : ∀ (a b : List Event), guarded (a ++ b) = true → guarded b = true
  | [], _, h => h
  | e :: a, b, h => by
    cases e with
    | deposit bt o v =>
      have h1 : (copFirst (a ++ b) && guarded (a ++ b)) = true := h
      rw [Bool.and_eq_true] at h1
      exact guarded_suffix a b h1.2
    | cop => exact guarded_suffix a b h
    | mscInit => exact guarded_suffix a b h
    | mscDeinit => exact guarded_suffix a b h
    | program x y => exact guarded_suffix a b h
    | erase x => exact guarded_suffix a b h

theorem copFirst_mem : ∀ (mid post : List Event) (b : Bool) (o v : Nat),
    copFirst (mid ++ Event.deposit b o v :: post) = true → Event.cop ∈ mid
  | [], _, _, _, _, h => by cases h
  | e :: mid, post, b, o, v, h => by
    cases e with
    | deposit bt o1 v1 => cases h
    | cop => exact List.mem_cons_self _ _
    | mscInit => exact List.mem_cons_of_mem _ (copFirst_mem mid post b o v h)
    | mscDeinit => exact List.mem_cons_of_mem _ (copFirst_mem mid post b o v h)
    | program x y => exact List.mem_cons_of_mem _ (copFirst_mem mid post b o v h)
    | erase x => exact List.mem_cons_of_mem _ (copFirst_mem mid post b o v h)

theorem guarded_between (l : List Event) (h : guarded l = true) : servicedBetween l := by
  intro pre mid post b1 o1 v1 b2 o2 v2 hl
  rw [hl] at h
  have h1 := guarded_suffix pre _ h
  have h2 : (copFirst (mid ++ Event.deposit b2 o2 v2 :: post)
      && guarded (mid ++ Event.deposit b2 o2 v2 :: post)) = true := h1
  rw [Bool.and_eq_true] at h2
  exact copFirst_mem mid post b2 o2 v2 h2.1

theorem servicedBetween_reverse (l : List Event) (h : servicedBetween l) :
    servicedBetween l.reverse := by
  intro pre mid post b1 o1 v1 b2 o2 v2 hl
  have h1 : l = post.reverse ++ Event.deposit b2 o2 v2 ::
      (mid.reverse ++ Event.deposit b1 o1 v1 :: pre.reverse) := by
    have := congrArg List.reverse hl
    rw [List.reverse_reverse] at this
    rw [this]
    simp
  exact List.mem_reverse.1 (h _ _ _ _ _ _ _ _ _ h1)

theorem quiet_cops (k : Nat) : ∀ e ∈ List.replicate k Event.cop, e.quiet := by
  intro e he
  rw [List.eq_of_mem_replicate he]
  exact Or.inl rfl

theorem FlashWriteBlock_quiet (kb : Nat) (dev : Device) (block : BlockRef) (s : FlashState) :
    logExt Event.quiet s (FlashWriteBlock kb dev block s).2 := by
  refine logExt_mono ?_ (FlashWriteBlock_general kb dev block s).2.2
  rintro e (h | ⟨_, k, _, h⟩)
  · exact Or.inl h
  · exact Or.inr ⟨_, _, h⟩

theorem FlashSwitchBlock_quiet (kb : Nat) (dev : Device) (block : BlockRef) (T : Nat)
    (s : FlashState) : logExt Event.quiet s (FlashSwitchBlock kb dev block T s).2 := by
  unfold FlashSwitchBlock
  split
  · have hL := logExt_of_log_eq (logExt_refl Event.quiet s)
      (FlashInitBlock_log BlockRef.blockInfo T s).1
    dsimp only
    split <;> exact hL
  · split
    · have hL := logExt_of_log_eq (logExt_refl Event.quiet s)
        (FlashInitBlock_log BlockRef.bootBlockInfo flashLayout0.sector_start s).1
      dsimp only
      split <;> exact hL
    · have hL1 := FlashWriteBlock_quiet kb dev block s
      dsimp only
      split
      · exact hL1
      · have hL := logExt_of_log_eq hL1 (FlashInitBlock_log block T _).1
        split <;> exact hL

/-- The log of the copy loop: every round services the watchdog before it copies its
byte, and a loop that runs to its end has copied one byte per round. -/
theorem FlashAddToBlock_loop_watch (kb : Nat) (dev : Device) (cb : Nat) (data : Mem) :
    ∀ (n : Nat) (block : BlockRef) (dst src : Nat) (s : FlashState),
    ∃ evs, (FlashAddToBlock.loop kb dev cb data n block dst src s).2.log = evs ++ s.log ∧
      guarded evs = true ∧ copies evs ≤ services evs ∧
      ((FlashAddToBlock.loop kb dev cb data n block dst src s).1 = true → copies evs = n)
  | 0, _, _, _, s => ⟨[], rfl, rfl, Nat.le_refl _, fun _ => rfl⟩
  | n + 1, block, dst, src, s => by
    rw [FlashAddToBlock.loop]
    dsimp only
    split
    · obtain ⟨sw, hsw, hq⟩ := FlashSwitchBlock_quiet kb dev block ((cb + 512) % 4294967296)
        (s.emit Event.cop)
      generalize FlashSwitchBlock kb dev block ((cb + 512) % 4294967296)
        (s.emit Event.cop) = r at *
      have hlog : r.2.log = (sw ++ [Event.cop]) ++ s.log := by
        rw [hsw, List.append_assoc]
        rfl
      split
      · refine ⟨sw ++ [Event.cop], hlog, ?_, ?_, fun h => by cases h⟩
        · rw [guarded_quiet sw _ hq]
          rfl
        · rw [copies_append, copies_quiet sw hq]
          exact Nat.zero_le _
      · rename_i blk _
        obtain ⟨evs, i1, i2, i3, i4⟩ := FlashAddToBlock_loop_watch kb dev cb data n blk 1
          (src + 1) (depositByte blk 0 (data src) r.2)
        refine ⟨evs ++ (Event.deposit (decide (blk = BlockRef.bootBlockInfo)) 0
          (data src % 256) :: (sw ++ [Event.cop])), ?_, ?_, ?_, ?_⟩
        · rw [i1, depositByte_log, hlog]
          simp only [List.append_assoc, List.cons_append]
        · refine guarded_append _ _ i2 ?_
          show (copFirst (sw ++ [Event.cop]) && guarded (sw ++ [Event.cop])) = true
          rw [copFirst_quiet sw [] hq, guarded_quiet sw _ hq]
          rfl
        · rw [copies_append, services_append]
          have c1 : copies (Event.deposit (decide (blk = BlockRef.bootBlockInfo)) 0
              (data src % 256) :: (sw ++ [Event.cop])) = 1 := by
            show copies (sw ++ [Event.cop]) + 1 = 1
            rw [copies_append, copies_quiet sw hq]
            rfl
          have c2 : services (Event.deposit (decide (blk = BlockRef.bootBlockInfo)) 0
              (data src % 256) :: (sw ++ [Event.cop])) = services sw + 1 := by
            show services (sw ++ [Event.cop]) = services sw + 1
            rw [services_append]
            rfl
          omega
        · intro h
          have := i4 h
          rw [copies_append, this]
          show n + (copies (sw ++ [Event.cop]) + 1) = n + 1
          rw [copies_append, copies_quiet sw hq]
          rfl
    · obtain ⟨evs, i1, i2, i3, i4⟩ := FlashAddToBlock_loop_watch kb dev cb data n block
        (dst + 1) (src + 1) (depositByte block dst (data src) (s.emit Event.cop))
      refine ⟨evs ++ [Event.deposit (decide (block = BlockRef.bootBlockInfo)) dst
        (data src % 256), Event.cop], ?_, ?_, ?_, ?_⟩
      · rw [i1, depositByte_log, List.append_assoc]
        rfl
      · exact guarded_append _ _ i2 rfl
      · rw [copies_append, services_append]
        have c1 : copies [Event.deposit (decide (block = BlockRef.bootBlockInfo)) dst
            (data src % 256), Event.cop] = 1 := rfl
        have c2 : services [Event.deposit (decide (block = BlockRef.bootBlockInfo)) dst
            (data src % 256), Event.cop] = 1 := rfl
        omega
      · intro h
        rw [copies_append, i4 h]
        rfl

/-- The log of `FlashAddToBlock`: the same as for its copy loop. -/
theorem FlashAddToBlock_watch (kb : Nat) (dev : Device) (block : BlockRef) (address : Nat)
    (data : Mem) (len : Nat) (s : FlashState) :
    ∃ evs, (FlashAddToBlock kb dev block address data len s).2.log = evs ++ s.log ∧
      guarded evs = true ∧ copies evs ≤ services evs ∧
      ((FlashAddToBlock kb dev block address data len s).1 = true →
        copies evs = (if len = 0 then 65536 else len)) := by
  unfold FlashAddToBlock
  dsimp only
  have h0 : (if (s.block block).base_addr = FLASH_INVALID_ADDRESS then
        FlashInitBlock block (address / 512 * 512) s else (true, s)).2.log = s.log := by
    split
    · exact (FlashInitBlock_log block _ s).1
    · rfl
  generalize (if (s.block block).base_addr = FLASH_INVALID_ADDRESS then
        FlashInitBlock block (address / 512 * 512) s else (true, s)) = r0 at h0 ⊢
  split
  · exact ⟨[], h0, rfl, Nat.le_refl _, fun h => by cases h⟩
  · have h1 : logExt Event.quiet r0.2
          (if (r0.2.block block).base_addr ≠ address / 512 * 512 then
          FlashSwitchBlock kb dev block (address / 512 * 512) r0.2
            else (some block, r0.2)).2 := by
      split
      · exact FlashSwitchBlock_quiet kb dev block _ r0.2
      · exact logExt_refl _ _
    generalize (if (r0.2.block block).base_addr ≠ address / 512 * 512 then
          FlashSwitchBlock kb dev block (address / 512 * 512) r0.2
            else (some block, r0.2)) = r1 at h1 ⊢
    obtain ⟨sw, hsw, hq⟩ := h1
    rw [h0] at hsw
    split
    · refine ⟨sw, hsw, ?_, ?_, fun h => by cases h⟩
      · have := guarded_quiet sw [] hq
        rw [List.append_nil] at this
        rw [this]
        rfl
      · rw [copies_quiet sw hq]
        exact Nat.zero_le _
    · rename_i blk _
      obtain ⟨evs, i1, i2, i3, i4⟩ := FlashAddToBlock_loop_watch kb dev (address / 512 * 512)
        data (if len = 0 then 65536 else len) blk
        ((address + 4294967296 - (r1.2.block blk).base_addr) % 4294967296) 0 r1.2
      refine ⟨evs ++ sw, ?_, ?_, ?_, ?_⟩
      · rw [i1, hsw, List.append_assoc]
      · refine guarded_append _ _ i2 ?_
        have := guarded_quiet sw [] hq
        rw [List.append_nil] at this
        rw [this]
        rfl
      · rw [copies_append, services_append, copies_quiet sw hq]
        omega
      · intro h
        rw [copies_append, copies_quiet sw hq, i4 h]
        rfl

/-- C31: watchdog servicing per byte. `CopService` and the byte copies `*dst = *src` are
events of the log, so the calls of `CopService` are counted. For every call
`FlashAddToBlock(block, address, data, len)` (`len` is the 16-bit parameter) that returns
`BLT_TRUE`: the number `m` of bytes copied during the call is `len`, or 65536 for
`len = 0`; `CopService` was called at least `m` times during the call; and in the events of
the call, in the order in which they happened, a call of `CopService` lies between any two
byte copies. -/
theorem FlashAddToBlock_watchdog_per_byte (kb : Nat) (dev : Device) (block : BlockRef)
    (address : Nat) (data : Mem) (len : Nat) (s : FlashState)
    (h : (FlashAddToBlock kb dev block address data len s).1 = true) :
    copies (newEvents s (FlashAddToBlock kb dev block address data len s).2)
      = (if len = 0 then 65536 else len) ∧
    copies (newEvents s (FlashAddToBlock kb dev block address data len s).2)
      ≤ services (newEvents s (FlashAddToBlock kb dev block address data len s).2) ∧
    servicedBetween
      (newEvents s (FlashAddToBlock kb dev block address data len s).2).reverse := by
  obtain ⟨evs, h1, h2, h3, h4⟩ := FlashAddToBlock_watch kb dev block address data len s
  rw [newEvents_eq h1]
  exact ⟨h4 h, h3, servicedBetween_reverse _ (guarded_between _ h2)⟩

/-- C31 for four bytes added to the general accumulator at `0x4000` in the state after
`FlashInit`. -/
theorem FlashAddToBlock_watchdog_per_byte_witness :
    (FlashAddToBlock 32 idealDevice BlockRef.blockInfo 0x4000 (fun _ => 0xAB) 4
      (FlashInit erasedState)).1 = true ∧
    copies (newEvents (FlashInit erasedState)
      (FlashAddToBlock 32 idealDevice BlockRef.blockInfo 0x4000 (fun _ => 0xAB) 4
        (FlashInit erasedState)).2) = 4 ∧
    4 ≤ services (newEvents (FlashInit erasedState)
      (FlashAddToBlock 32 idealDevice BlockRef.blockInfo 0x4000 (fun _ => 0xAB) 4
        (FlashInit erasedState)).2) :=
  ⟨by decide,
   (FlashAddToBlock_watchdog_per_byte 32 idealDevice BlockRef.blockInfo 0x4000
      (fun _ => 0xAB) 4 (FlashInit erasedState) (by decide)).1,
   by decide⟩

/-- The number of bytes that a successful `FlashWrite` copies into the accumulators: the
length reduced to 16 bits, and 65536 when that is 0. -/
theorem FlashWrite_copies (kb : Nat) (dev : Device) (addr len : Nat) (data : Mem)
    (s : FlashState) (h : (FlashWrite kb dev addr len data s).1 = true) :
    copies (newEvents s (FlashWrite kb dev addr len data s).2)
      = (if len % 65536 = 0 then 65536 else len % 65536) := by
  by_cases hin : inLayout kb addr ∧ inLayout kb ((addr + len + 4294967295) % 4294967296)
  · obtain ⟨k1, e1⟩ := FlashGetSector_eq kb addr s
    obtain ⟨k2, e2⟩ := FlashGetSector_eq kb ((addr + len + 4294967295) % 4294967296)
      (s.cops k1)
    have hrep : ∀ (blk : BlockRef),
        (FlashAddToBlock kb dev blk addr data (len % 65536) (s.cops (k2 + k1))).1 = true →
        copies (newEvents s
          (FlashAddToBlock kb dev blk addr data (len % 65536) (s.cops (k2 + k1))).2)
          = (if len % 65536 = 0 then 65536 else len % 65536) := by
      intro blk hb
      obtain ⟨evs, h1, _, _, h4⟩ := FlashAddToBlock_watch kb dev blk addr data (len % 65536)
        (s.cops (k2 + k1))
      have h1' : (FlashAddToBlock kb dev blk addr data (len % 65536) (s.cops (k2 + k1))).2.log
          = (evs ++ List.replicate (k2 + k1) Event.cop) ++ s.log := by
        rw [h1, List.append_assoc]
        rfl
      rw [newEvents_eq h1', copies_append, copies_quiet _ (quiet_cops (k2 + k1)), h4 hb]
      rfl
    unfold FlashWrite at h ⊢
    rw [e1] at h ⊢
    dsimp only at h ⊢
    rw [if_neg ((sectorOf_ne_invalid_iff kb addr).2 hin.1), e2] at h ⊢
    dsimp only at h ⊢
    rw [if_neg ((sectorOf_ne_invalid_iff kb _).2 hin.2), cops_cops] at h ⊢
    split
    · rename_i hcb
      rw [if_pos hcb] at h
      exact hrep _ h
    · rename_i hcb
      rw [if_neg hcb] at h
      exact hrep _ h
  · obtain ⟨k, hk⟩ := FlashWrite_reject kb dev addr len data s (by
      by_cases h1 : inLayout kb addr
      · exact Or.inr (fun h2 => hin ⟨h1, h2⟩)
      · exact Or.inl h1)
    rw [hk] at h
    cases h

/-! ## The length of a write -/

theorem FlashSwitchBlock_boot_eq (kb : Nat) (dev : Device) (T : Nat) (s : FlashState)
    (hal : T % 512 = 0) :
    FlashSwitchBlock kb dev BlockRef.bootBlockInfo T s
      = (some BlockRef.blockInfo, (FlashInitBlock BlockRef.blockInfo T s).2) := by
  unfold FlashSwitchBlock
  rw [if_pos rfl]
  dsimp only
  rw [(FlashInitBlock_general_frame T s hal).1, if_neg (show ¬ (true = false) by decide)]

/-- The copy loop runs to its end, whatever the number of rounds, when the device programs
every word and the block after the one the write started in lies in the table: at every
overflow of the buffer that block is programmed and entered again. -/
theorem FlashAddToBlock_loop_true (kb : Nat) (dev : Device) (hdev : dev.ProgramSucceeds)
    (cb B : Nat) (data : Mem) (hB : (cb + 512) % 4294967296 = B) (hal : B % 512 = 0)
    (hin : inLayout kb B) (hne : B ≠ 8192) :
    ∀ (n : Nat) (block : BlockRef) (dst src : Nat) (s : FlashState),
    (block = BlockRef.bootBlockInfo ∨ s.blockInfo.base_addr = B) →
    (FlashAddToBlock.loop kb dev cb data n block dst src s).1 = true
  | 0, _, _, _, _, _ => rfl
  | n + 1, block, dst, src, s, hinv => by
    rw [FlashAddToBlock.loop]
    dsimp only
    rw [hB]
    split
    · cases block with
      | blockInfo =>
        have hb : s.blockInfo.base_addr = B := by
          rcases hinv with h | h
          · cases h
          · exact h
        obtain ⟨k, hk⟩ := FlashSwitchBlock_general_ok kb dev B (s.emit Event.cop) hne hal
          (by show inLayout kb s.blockInfo.base_addr; rw [hb]; exact hin)
          (ProgramSucceeds_at hdev _)
        rw [hk]
        dsimp only
        refine FlashAddToBlock_loop_true kb dev hdev cb B data hB hal hin hne n _ _ _ _
          (Or.inr ?_)
        exact (FlashInitBlock_general_frame B _ hal).2.1
      | bootBlockInfo =>
        rw [FlashSwitchBlock_boot_eq kb dev B _ hal]
        dsimp only
        refine FlashAddToBlock_loop_true kb dev hdev cb B data hB hal hin hne n _ _ _ _
          (Or.inr ?_)
        exact (FlashInitBlock_general_frame B _ hal).2.1
    · refine FlashAddToBlock_loop_true kb dev hdev cb B data hB hal hin hne n _ _ _ _ ?_
      rcases hinv with h | h
      · exact Or.inl h
      · right
        cases block <;> exact h

set_option maxRecDepth 100000 in
/-- C35 does not hold: the length is not honoured exactly. `FlashWrite` takes a 32-bit
`len`, checks the range with it, and passes it to the 16-bit parameter of
`FlashAddToBlock`, whose `do ... while (len > 0)` loop runs once before it tests. On the
ideal device, in the state after `FlashInit` over erased flash:
(1) with the 128 KB layout, `FlashWrite(0x4000, 0x10004, data)` is in range (its last byte
is at `0x14003`), returns `BLT_TRUE` and has copied 4 bytes, not 65540;
(2) with the 32 KB layout, `FlashWrite(0x2001, 0, data)` passes the range check (with
`0x2000` as last address), returns `BLT_TRUE` and has copied 65536 bytes, not none. -/
theorem FlashWrite_length_not_honoured :
    (inLayout 128 0x4000 ∧ inLayout 128 (0x4000 + 0x10004 - 1)) ∧
    (FlashWrite 128 idealDevice 0x4000 0x10004 (fun _ => 0xAB) (FlashInit erasedState)).1
      = true ∧
    copies (newEvents (FlashInit erasedState)
      (FlashWrite 128 idealDevice 0x4000 0x10004 (fun _ => 0xAB) (FlashInit erasedState)).2)
      = 4 ∧
    (FlashWrite 32 idealDevice 0x2001 0 (fun _ => 0xAB) (FlashInit erasedState)).1 = true ∧
    copies (newEvents (FlashInit erasedState)
      (FlashWrite 32 idealDevice 0x2001 0 (fun _ => 0xAB) (FlashInit erasedState)).2)
      = 65536 := by
  have h1 : (FlashWrite 128 idealDevice 0x4000 0x10004 (fun _ => 0xAB)
      (FlashInit erasedState)).1 = true := by decide
  have h2 : (FlashWrite 32 idealDevice 0x2001 0 (fun _ => 0xAB) (FlashInit erasedState)).1
      = true := by
    obtain ⟨k, hk⟩ := FlashWrite_boot_entry 32 idealDevice 0x2001 0 (fun _ => 0xAB)
      (FlashInit erasedState) (by omega) (by omega) (by decide) (Or.inl rfl)
    rw [hk]
    exact FlashAddToBlock_loop_true 32 idealDevice idealDevice_succeeds 8192 8704 _ rfl
      (by omega) (by decide) (by omega) _ _ _ _ _ (Or.inl rfl)
  refine ⟨⟨by decide, by decide⟩, h1, ?_, h2, ?_⟩
  · exact FlashWrite_copies 128 idealDevice 0x4000 0x10004 _ _ h1
  · exact FlashWrite_copies 32 idealDevice 0x2001 0 _ _ h2

/-! ## Placement of the bytes of a write -/

/-- A write routed to the general accumulator fails when the block pending there lies
outside the table: it cannot be programmed. -/
theorem FlashWrite_general_stuck (kb : Nat) (dev : Device) (addr len : Nat) (data : Mem)
    (s : FlashState) (hin1 : inLayout kb addr)
    (hin2 : inLayout kb ((addr + len + 4294967295) % 4294967296))
    (hcb : addr / 512 * 512 ≠ flashLayout0.sector_start)
    (hB : s.blockInfo.base_addr ≠ FLASH_INVALID_ADDRESS)
    (hne : s.blockInfo.base_addr ≠ addr / 512 * 512)
    (hout : ¬ inLayout kb s.blockInfo.base_addr) :
    (FlashWrite kb dev addr len data s).1 = false := by
  obtain ⟨k1, e1⟩ := FlashGetSector_eq kb addr s
  obtain ⟨k2, e2⟩ := FlashGetSector_eq kb ((addr + len + 4294967295) % 4294967296) (s.cops k1)
  generalize hs' : s.cops (k2 + k1) = s'
  have hb' : s'.blockInfo = s.blockInfo := by rw [← hs']; rfl
  have hW := (FlashWriteBlock_eq_loop kb dev BlockRef.blockInfo s').2.2
    (by show ¬ inLayout kb s'.blockInfo.base_addr; rw [hb']; exact hout)
  have hSW : FlashSwitchBlock kb dev BlockRef.blockInfo (addr / 512 * 512) s'
      = (none, programEntry kb BlockRef.blockInfo s') := by
    unfold FlashSwitchBlock
    rw [if_neg (by decide), if_neg hcb, hW]
    rfl
  unfold FlashWrite
  rw [e1]
  dsimp only
  rw [if_neg ((sectorOf_ne_invalid_iff kb addr).2 hin1), e2]
  dsimp only
  rw [if_neg ((sectorOf_ne_invalid_iff kb _).2 hin2), cops_cops,
    if_neg (show ¬ (addr / 512 * 512 = flashLayout0.sector_start) from hcb), hs']
  unfold FlashAddToBlock
  dsimp only
  rw [if_neg (show ¬ (s'.block BlockRef.blockInfo).base_addr = FLASH_INVALID_ADDRESS by
    show ¬ s'.blockInfo.base_addr = _; rw [hb']; exact hB)]
  dsimp only
  rw [if_neg (show ¬ (true = false) by decide),
    if_pos (show (s'.block BlockRef.blockInfo).base_addr ≠ addr / 512 * 512 by
      show s'.blockInfo.base_addr ≠ _; rw [hb']; exact hne), hSW]

/-- The buffer of the general accumulator after the rounds that follow an overflow: byte 0
was stored in the round of the overflow, the `m` bytes after it in the rounds that
follow. -/
theorem depositRun_after_overflow (data : Mem) (m n1 : Nat) (u : FlashState)
    (h0 : rdByte u.blockInfo.data 0 = rdByte data n1) (j : Nat) (hj : j ≤ m) :
    rdByte (depositRun BlockRef.blockInfo data m 1 (n1 + 1) u).blockInfo.data j
      = rdByte data (n1 + j) := by
  obtain ⟨_, _, _, g4, _⟩ := depositRun_frame BlockRef.blockInfo data m 1 (n1 + 1) u
  have g4' : (depositRun BlockRef.blockInfo data m 1 (n1 + 1) u).blockInfo.data
      = patch u.blockInfo.data 1 m data (n1 + 1) := g4
  rw [g4', rdByte_patch]
  by_cases h : j = 0
  · rw [if_neg (by omega), h, h0]
    rfl
  · rw [if_pos (by omega)]
    congr 1
    omega

/-- A successful write of at most two blocks that is routed to the general accumulator:
where its bytes are afterwards. -/
theorem FlashWrite_general_placed (kb : Nat) (dev : Device) (hdev : dev.ProgramSucceeds)
    (addr len : Nat) (data : Mem) (s : FlashState) (hin1 : inLayout kb addr)
    (hin2 : inLayout kb ((addr + len + 4294967295) % 4294967296))
    (hcb : addr / 512 * 512 ≠ 8192) (hlen : 1 ≤ len) (hspan : addr % 512 + len ≤ 1024)
    (hret : (FlashWrite kb dev addr len data s).1 = true) :
    (FlashWrite kb dev addr len data s).2.bootBlockInfo = s.bootBlockInfo ∧
    (addr % 512 + len ≤ 512 →
      (FlashWrite kb dev addr len data s).2.blockInfo.base_addr = addr / 512 * 512 ∧
      ∀ i, i < len →
        rdByte (FlashWrite kb dev addr len data s).2.blockInfo.data (addr % 512 + i)
          = rdByte data i) ∧
    (512 < addr % 512 + len →
      (FlashWrite kb dev addr len data s).2.blockInfo.base_addr = addr / 512 * 512 + 512 ∧
      (∀ i, i < len → addr % 512 + i < 512 →
        rdByte (FlashWrite kb dev addr len data s).2.flash (addr + i) = rdByte data i) ∧
      (∀ i, i < len → 512 ≤ addr % 512 + i →
        rdByte (FlashWrite kb dev addr len data s).2.blockInfo.data (addr % 512 + i - 512)
          = rdByte data i)) := by
  have hE := layoutEnd_cases kb
  have ha := (inLayout_iff kb addr).1 hin1
  have hpend : s.blockInfo.base_addr = FLASH_INVALID_ADDRESS ∨
      s.blockInfo.base_addr = addr / 512 * 512 ∨
      (inLayout kb s.blockInfo.base_addr ∧ dev.ProgramSucceedsAt s.blockInfo.base_addr) := by
    by_cases h1 : s.blockInfo.base_addr = FLASH_INVALID_ADDRESS
    · exact Or.inl h1
    · by_cases h2 : s.blockInfo.base_addr = addr / 512 * 512
      · exact Or.inr (Or.inl h2)
      · by_cases h3 : inLayout kb s.blockInfo.base_addr
        · exact Or.inr (Or.inr ⟨h3, ProgramSucceeds_at hdev _⟩)
        · have := FlashWrite_general_stuck kb dev addr len data s hin1 hin2
            (by rw [sector_start0]; exact hcb) h1 h2 h3
          rw [this] at hret
          cases hret
  obtain ⟨t, e, t1, t2, _, _, _⟩ := FlashWrite_general_entry kb dev addr len data s hin1 hin2
    hcb hlen (by omega) hpend
  rw [e]
  generalize hcbv : addr / 512 * 512 = cb at *
  generalize hoffv : addr % 512 = off at *
  by_cases hw : off + len ≤ 512
  · -- the write stays inside the block
    rw [FlashAddToBlock_loop_within kb dev cb data BlockRef.blockInfo len off 0 t hw]
    obtain ⟨_, _, g3, g4, g5⟩ := depositRun_frame BlockRef.blockInfo data len off 0 t
    have g4' : (depositRun BlockRef.blockInfo data len off 0 t).blockInfo.data
        = patch t.blockInfo.data off len data 0 := g4
    refine ⟨(g5 BlockRef.bootBlockInfo (by decide)).trans t2, fun _ => ⟨g3.trans t1, ?_⟩,
      fun hc => by omega⟩
    intro i hi
    show rdByte (depositRun BlockRef.blockInfo data len off 0 t).blockInfo.data (off + i) = _
    rw [g4', rdByte_patch, if_pos (by omega)]
    congr 1
    omega
  · -- the write runs over into the next block
    obtain ⟨m, hm⟩ : ∃ m, len = (512 - off) + (m + 1) := ⟨len - (512 - off) - 1, by omega⟩
    have hT : (cb + 512) % 4294967296 = cb + 512 := Nat.mod_eq_of_lt (by omega)
    obtain ⟨u1, a1, a2, a3, a4, a5⟩ := FlashAddToBlock_loop_run_general kb dev cb data
      (512 - off) (m + 1) off 0 t (by omega)
    have hd : off + (512 - off) = 512 := by omega
    rw [hd, Nat.zero_add] at a1
    obtain ⟨u2, b1, b2, b3, b4, b5⟩ := FlashAddToBlock_loop_overflow_general kb dev cb data m
      (512 - off) u1 (by rw [hT]; omega) (by rw [hT]; omega)
      (by rw [a2, t1]; exact (inLayout_iff kb _).2 (by omega)) (ProgramSucceeds_at hdev _)
    have c1 := FlashAddToBlock_loop_within kb dev cb data BlockRef.blockInfo m 1
      (512 - off + 1) u2 (by omega)
    rw [hm, a1, b1, c1]
    rw [hT] at b2
    obtain ⟨g1, _, g3, _, g5⟩ := depositRun_frame BlockRef.blockInfo data m 1
      (512 - off + 1) u2
    refine ⟨((g5 BlockRef.bootBlockInfo (by decide)).trans b3).trans (a3.trans t2),
      fun hc => by omega, fun _ => ⟨g3.trans b2, ?_, ?_⟩⟩
    · intro i hi hi2
      show rdByte (depositRun BlockRef.blockInfo data m 1 (512 - off + 1) u2).flash _ = _
      rw [g1, b4]
      have hs := storeWords_apply u1.blockInfo 128 0 u1.flash (addr + i)
        (by rw [a2, t1]; omega)
      rw [a2, t1] at hs
      have hs2 : storeWords u1.blockInfo 128 0 u1.flash (addr + i)
          = rdByte u1.blockInfo.data (addr + i - cb) := by
        rw [hs, if_pos (by omega)]
      have hs3 : rdByte (storeWords u1.blockInfo 128 0 u1.flash) (addr + i)
          = rdByte u1.blockInfo.data (addr + i - cb) := by
        unfold rdByte at hs2 ⊢
        rw [hs2]
        exact Nat.mod_mod _ _
      have hidx : 0 + (addr + i - cb - off) = i := by omega
      rw [hs3, a5, rdByte_patch, if_pos (by omega), hidx]
    · intro i hi hi2
      have hidx : 512 - off + (off + i - 512) = i := by omega
      have := depositRun_after_overflow data m (512 - off) u2 b5 (off + i - 512) (by omega)
      rw [this, hidx]

/-- A write of at most two blocks that starts in the first block of the first sector:
it succeeds without a program call, and this is where its bytes are afterwards. -/
theorem FlashWrite_boot_placed (kb : Nat) (dev : Device) (addr len : Nat) (data : Mem)
    (s : FlashState) (h1 : 8192 ≤ addr) (h2 : addr < 8704)
    (hin2 : inLayout kb ((addr + len + 4294967295) % 4294967296))
    (hb : s.bootBlockInfo.base_addr = FLASH_INVALID_ADDRESS ∨
      s.bootBlockInfo.base_addr = flashLayout0.sector_start)
    (hlen : 1 ≤ len) (hspan : addr % 512 + len ≤ 1024) :
    (FlashWrite kb dev addr len data s).1 = true ∧
    (FlashWrite kb dev addr len data s).2.bootBlockInfo.base_addr = 8192 ∧
    (∀ i, i < len → addr + i < 8704 →
      rdByte (FlashWrite kb dev addr len data s).2.bootBlockInfo.data (addr + i - 8192)
        = rdByte data i) ∧
    (8704 < addr + len →
      (FlashWrite kb dev addr len data s).2.blockInfo.base_addr = 8704 ∧
      ∀ i, i < len → 8704 ≤ addr + i →
        rdByte (FlashWrite kb dev addr len data s).2.blockInfo.data (addr + i - 8704)
          = rdByte data i) := by
  obtain ⟨k, hk⟩ := FlashWrite_boot_entry kb dev addr len data s h1 h2 hin2 hb
  have hn : (if len % 65536 = 0 then 65536 else len % 65536) = len := by
    have : len % 65536 = len := Nat.mod_eq_of_lt (by omega)
    rw [this, if_neg (by omega)]
  rw [hn] at hk
  rw [hk]
  obtain ⟨_, f2, _, _, _, _⟩ := bootReady_frame (s.cops k) hb
  generalize bootReady (s.cops k) = S at *
  by_cases hw : addr + len ≤ 8704
  · rw [FlashAddToBlock_loop_within kb dev 8192 data BlockRef.bootBlockInfo len (addr - 8192) 0
      S (by omega)]
    obtain ⟨_, _, g3, g4, _⟩ := depositRun_frame BlockRef.bootBlockInfo data len
      (addr - 8192) 0 S
    have g4' : (depositRun BlockRef.bootBlockInfo data len (addr - 8192) 0 S).bootBlockInfo.data
        = patch S.bootBlockInfo.data (addr - 8192) len data 0 := g4
    refine ⟨rfl, g3.trans f2, ?_, fun hc => by omega⟩
    intro i hi _
    have hidx : 0 + (addr + i - 8192 - (addr - 8192)) = i := by omega
    show rdByte (depositRun BlockRef.bootBlockInfo data len (addr - 8192) 0
      S).bootBlockInfo.data _ = _
    rw [g4', rdByte_patch, if_pos (by omega), hidx]
  · obtain ⟨m, hm⟩ : ∃ m, len = (8704 - addr) + (m + 1) := ⟨len - (8704 - addr) - 1, by omega⟩
    have hT : (8192 + 512) % 4294967296 = 8704 := by norm_num
    have a1 := FlashAddToBlock_loop_split kb dev 8192 data BlockRef.bootBlockInfo (m + 1)
      (8704 - addr) (addr - 8192) 0 S (by omega)
    have hd : addr - 8192 + (8704 - addr) = 512 := by omega
    rw [hd, Nat.zero_add] at a1
    obtain ⟨_, _, g3, g4, g5⟩ := depositRun_frame BlockRef.bootBlockInfo data (8704 - addr)
      (addr - 8192) 0 S
    have g3' : (depositRun BlockRef.bootBlockInfo data (8704 - addr) (addr - 8192) 0
        S).bootBlockInfo.base_addr = 8192 := g3.trans f2
    have g4' : (depositRun BlockRef.bootBlockInfo data (8704 - addr) (addr - 8192) 0
        S).bootBlockInfo.data = patch S.bootBlockInfo.data (addr - 8192) (8704 - addr) data 0 :=
      g4
    generalize depositRun BlockRef.bootBlockInfo data (8704 - addr) (addr - 8192) 0 S = S1 at *
    obtain ⟨_, q2, q3, _, _, _⟩ := FlashInitBlock_general_frame ((8192 + 512) % 4294967296)
      (S1.emit Event.cop) (by rw [hT])
    have b1 := FlashAddToBlock_loop_overflow kb dev 8192 data BlockRef.bootBlockInfo m
      (8704 - addr) S1 BlockRef.blockInfo _
      (FlashSwitchBlock_boot_eq kb dev ((8192 + 512) % 4294967296) (S1.emit Event.cop)
        (by rw [hT]))
    rw [hT] at q2
    generalize (FlashInitBlock BlockRef.blockInfo ((8192 + 512) % 4294967296)
      (S1.emit Event.cop)).2 = U0 at *
    have u5 : rdByte (depositByte BlockRef.blockInfo 0 (data (8704 - addr)) U0).blockInfo.data 0
        = rdByte data (8704 - addr) := by
      show ((if (0 : Nat) = 0 then data (8704 - addr) % 256 else U0.blockInfo.data 0)) % 256 = _
      rw [if_pos rfl]
      exact Nat.mod_mod _ _
    have u2 : (depositByte BlockRef.blockInfo 0 (data (8704 - addr)) U0).blockInfo.base_addr
        = 8704 := q2
    have u3 : (depositByte BlockRef.blockInfo 0 (data (8704 - addr)) U0).bootBlockInfo
        = S1.bootBlockInfo := q3
    generalize depositByte BlockRef.blockInfo 0 (data (8704 - addr)) U0 = U at *
    have c1 := FlashAddToBlock_loop_within kb dev 8192 data BlockRef.blockInfo m 1
      (8704 - addr + 1) U (by omega)
    rw [hm, a1, b1, c1]
    obtain ⟨_, _, r3, _, r5⟩ := depositRun_frame BlockRef.blockInfo data m 1 (8704 - addr + 1) U
    have hboot : (depositRun BlockRef.blockInfo data m 1 (8704 - addr + 1) U).bootBlockInfo
        = S1.bootBlockInfo := (r5 BlockRef.bootBlockInfo (by decide)).trans u3
    refine ⟨rfl, ?_, ?_, fun _ => ⟨r3.trans u2, ?_⟩⟩
    · show (depositRun BlockRef.blockInfo data m 1 (8704 - addr + 1) U).bootBlockInfo.base_addr
        = 8192
      rw [hboot]
      exact g3'
    · intro i hi hi2
      have hidx : 0 + (addr + i - 8192 - (addr - 8192)) = i := by omega
      show rdByte (depositRun BlockRef.blockInfo data m 1 (8704 - addr + 1) U).bootBlockInfo.data
        _ = _
      rw [hboot, g4', rdByte_patch, if_pos (by omega), hidx]
    · intro i hi hi2
      have hidx : 8704 - addr + (addr + i - 8704) = i := by omega
      have := depositRun_after_overflow data m (8704 - addr) U u5 (addr + i - 8704) (by omega)
      show rdByte (depositRun BlockRef.blockInfo data m 1 (8704 - addr + 1) U).blockInfo.data
        _ = _
      rw [this, hidx]

/-- Byte placement in a state that satisfies the accumulator invariant. -/
theorem FlashWrite_pending (kb : Nat) (dev : Device) (hdev : dev.ProgramSucceeds)
    (addr len : Nat) (data : Mem) (s : FlashState) (hI : Inv s)
    (hlen : 1 ≤ len) (hspan : addr % 512 + len ≤ 1024)
    (hret : (FlashWrite kb dev addr len data s).1 = true) :
    (inLayout kb addr ∧ inLayout kb (addr + len - 1)) ∧
    ∀ i, i < len → pendingByte (FlashWrite kb dev addr len data s).2 (addr + i) = rdByte data i := by
  have hin : inLayout kb addr ∧ inLayout kb ((addr + len + 4294967295) % 4294967296) := by
    by_contra hc
    obtain ⟨k, hk⟩ := FlashWrite_reject kb dev addr len data s (by
      by_cases h1 : inLayout kb addr
      · exact Or.inr (fun h2 => hc ⟨h1, h2⟩)
      · exact Or.inl h1)
    rw [hk] at hret
    cases hret
  have hE := layoutEnd_cases kb
  have ha := (inLayout_iff kb addr).1 hin.1
  have hl := (inLayout_iff kb _).1 hin.2
  have hlast : (addr + len + 4294967295) % 4294967296 = addr + len - 1 := by omega
  refine ⟨⟨hin.1, by rw [← hlast]; exact hin.2⟩, ?_⟩
  intro i hi
  have hbt := hI.1
  rw [sector_start0] at hbt
  unfold FLASH_INVALID_ADDRESS at hbt
  by_cases hcb : addr / 512 * 512 = 8192
  · obtain ⟨_, p2, p3, p4⟩ := FlashWrite_boot_placed kb dev addr len data s (by omega)
      (by omega) hin.2 hI.1 hlen hspan
    generalize FlashWrite kb dev addr len data s = R at *
    unfold pendingByte
    by_cases hx : addr + i < 8704
    · have hidx : (addr + i) % 512 = addr + i - 8192 := by omega
      rw [if_pos (by rw [p2]; omega), hidx]
      exact p3 i hi hx
    · have hidx : (addr + i) % 512 = addr + i - 8704 := by omega
      rw [if_neg (by rw [p2]; omega), if_pos (by rw [(p4 (by omega)).1]; omega), hidx]
      exact (p4 (by omega)).2 i hi (by omega)
  · obtain ⟨q1, q2, q3⟩ := FlashWrite_general_placed kb dev hdev addr len data s hin.1 hin.2
      hcb hlen hspan hret
    generalize FlashWrite kb dev addr len data s = R at *
    have hnb : ¬ (R.2.bootBlockInfo.base_addr = (addr + i) / 512 * 512) := by
      rw [q1]
      omega
    unfold pendingByte
    rw [if_neg hnb]
    by_cases hw : addr % 512 + len ≤ 512
    · have hidx : (addr + i) % 512 = addr % 512 + i := by omega
      rw [if_pos (by rw [(q2 hw).1]; omega), hidx]
      exact (q2 hw).2 i hi
    · obtain ⟨r1, r2, r3⟩ := q3 (by omega)
      by_cases hx : addr % 512 + i < 512
      · rw [if_neg (by rw [r1]; omega)]
        exact r2 i hi hx
      · have hidx : (addr + i) % 512 = addr % 512 + i - 512 := by omega
        rw [if_pos (by rw [r1]; omega), hidx]
        exact r3 i hi (by omega)

/-- C33: byte placement for writes that cross at most one block boundary. Take a state
reached from `FlashInit` by any sequence of calls of the exported functions, a device on
which every program operation succeeds, and a `FlashWrite(addr, len, data)` with
`1 ≤ len` and `addr % 512 + len ≤ 1024` that returns `BLT_TRUE`. Then the write was in
range (`addr` and `addr + len - 1` lie in the table), and afterwards, for every `i < len`,
the pending image at `addr + i` is `data[i]`: the byte of the buffer of the accumulator
that holds the block of `addr + i` if there is one, otherwise the byte in memory. -/
theorem FlashWrite_byte_placement (kb : Nat) (dev : Device) (hdev : dev.ProgramSucceeds)
    (ram1 ram2 : tFlashBlockInfo) (mem : Mem) (log : List Event) (ops : List Op)
    (addr len : Nat) (data : Mem) (hlen : 1 ≤ len) (hspan : addr % 512 + len ≤ 1024)
    (hret : (FlashWrite kb dev addr len data
      (runOps kb dev ops (FlashInit ⟨ram1, ram2, mem, log⟩))).1 = true) :
    (inLayout kb addr ∧ inLayout kb (addr + len - 1)) ∧
    ∀ i, i < len →
      pendingByte (FlashWrite kb dev addr len data
        (runOps kb dev ops (FlashInit ⟨ram1, ram2, mem, log⟩))).2 (addr + i) = rdByte data i :=
  FlashWrite_pending kb dev hdev addr len data _
    (runOps_Inv kb dev ops _ (FlashInit_Inv _)).1 hlen hspan hret

set_option maxRecDepth 100000 in
/-- C33 for 32 bytes written at `0x41F0`, across the boundary at `0x4200`, after an earlier
write to `0x2000`: byte 20 of the data is pending at `0x4204`. -/
theorem FlashWrite_byte_placement_witness :
    idealDevice.ProgramSucceeds ∧
    (FlashWrite 32 idealDevice 0x41F0 32 (fun j => j + 1)
      (runOps 32 idealDevice [Op.write 0x2000 4 (fun _ => 0xAB)]
        (FlashInit ⟨⟨0, fun _ => 0⟩, ⟨0, fun _ => 0⟩, fun _ => 0xFF, []⟩))).1 = true ∧
    pendingByte (FlashWrite 32 idealDevice 0x41F0 32 (fun j => j + 1)
      (runOps 32 idealDevice [Op.write 0x2000 4 (fun _ => 0xAB)]
        (FlashInit ⟨⟨0, fun _ => 0⟩, ⟨0, fun _ => 0⟩, fun _ => 0xFF, []⟩))).2 (0x41F0 + 20)
      = rdByte (fun j => j + 1) 20 :=
  ⟨idealDevice_succeeds, by decide,
   (FlashWrite_byte_placement 32 idealDevice idealDevice_succeeds ⟨0, fun _ => 0⟩
      ⟨0, fun _ => 0⟩ (fun _ => 0xFF) [] [Op.write 0x2000 4 (fun _ => 0xAB)] 0x41F0 32
      (fun j => j + 1) (by omega) (by omega) (by decide)).2 20 (by omega)⟩

end OpenBLT
